import Mathlib

/-! # Bytecode liveness analysis (`drt/dfg_bytecode_liveness.cpp`)

A shallow embedding of the bytecode liveness analysis of the DFG tier and
proofs of its contracts.

Conventions of the embedding.

* A bit vector (`TempBitVector`, `DBitVector`) is its declared length in bits
  together with its storage, a list of 64-bit words (`uint64_t`) held as
  natural numbers; bit `i` lives in word `i / 64` at position `i % 64`.
* A pointer to an object of an array is the index of the object in that array:
  a `BasicBlockUpvalueInfo*` is an index into `cfUvInfo.m_basicBlocks`, a
  `BytecodeLivenessBBInfo*` is an index into `bbLivenessInfo`.
* `size_t` and `uint32_t` counters are natural numbers: every narrowing in the
  source goes through `SafeIntegerCast`, which rejects a value that does not fit.
* The `while (true)` loop of the fixpoint computation takes a bound on the number
  of passes and returns `none` when the bound is exhausted.
-/

namespace dfg

/-! ## Bit vectors -/

/-- A bit vector: `m_length` bits stored in `GetAllocLength` words of 64 bits. -/
structure TempBitVector where
  m_length : Nat
  m_data : List Nat
deriving DecidableEq, Repr, Inhabited

/-- The result arrays hold bit vectors of the same interface, allocated elsewhere. -/
abbrev DBitVector := TempBitVector

namespace TempBitVector

/-- Number of 64-bit words that store `m_length` bits. -/
def GetAllocLength (bv : TempBitVector) : Nat := (bv.m_length + 63) / 64

/-- A fresh vector of `length` bits, all clear. -/
def Reset (length : Nat) : TempBitVector :=
  { m_length := length, m_data := List.replicate ((length + 63) / 64) 0 }

/-- Zero every storage word. -/
def Clear (bv : TempBitVector) : TempBitVector :=
  { bv with m_data := List.replicate bv.GetAllocLength 0 }

/-- Fill every storage word with ones. -/
def SetAllOne (bv : TempBitVector) : TempBitVector :=
  { bv with m_data := List.replicate bv.GetAllocLength (2 ^ 64 - 1) }

/-- Test bit `i`. -/
def IsSet (bv : TempBitVector) (i : Nat) : Bool :=
  (bv.m_data.getD (i / 64) 0).testBit (i % 64)

/-- Word `w` with bit `k` set: `w | (1 << k)`. -/
def wordSetBit (k : Nat) (w : Nat) : Nat := w ||| (1 <<< k)

/-- Word `w` with bit `k` cleared: `w & ~(1 << k)` on 64 bits. -/
def wordClearBit (k : Nat) (w : Nat) : Nat := w &&& ((2 ^ 64 - 1) ^^^ (1 <<< k))

/-- Set bit `i`. -/
def SetBit (bv : TempBitVector) (i : Nat) : TempBitVector :=
  { bv with m_data := bv.m_data.modify (wordSetBit (i % 64)) (i / 64) }

/-- Clear bit `i`. -/
def ClearBit (bv : TempBitVector) (i : Nat) : TempBitVector :=
  { bv with m_data := bv.m_data.modify (wordClearBit (i % 64)) (i / 64) }

/-- Overwrite the storage of `dst` with the storage of `src` (equal lengths). -/
def CopyFromEqualLengthBitVector (dst src : TempBitVector) : TempBitVector :=
  { dst with m_data := src.m_data }

/-- A loop `for (i = 0; i < n; i++) out[i] = f i` over storage words. -/
def wordLoop (n : Nat) (f : Nat → Nat) : List Nat := (List.range n).map f

end TempBitVector

open TempBitVector

/-- Result of `UpdateBitVectorAfterMonotonicPropagation` on the storage of two
vectors: the `changed` flag and the new storage of `bv`; word `i` of `bv`
becomes word `i` of `copyFrom` for every `i < bvAllocLength`. -/
def UpdateBitVectorAfterMonotonicPropagation (bv copyFrom : TempBitVector) :
    Bool × TempBitVector :=
  let bvAllocLength := bv.GetAllocLength
  let changed := (List.range bvAllocLength).foldl
    (fun c i => c || decide (bv.m_data.getD i 0 ≠ copyFrom.m_data.getD i 0)) false
  (changed, { bv with m_data := wordLoop bvAllocLength (fun i => copyFrom.m_data.getD i 0) })

/-- The assertion of step (1) of `UpdateBitVectorAfterMonotonicPropagation`:
`(bvData[i] & copyFromData[i]) == bvData[i]` for every storage word. -/
def UpdateAssertion (bv copyFrom : TempBitVector) : Prop :=
  ∀ i, i < bv.GetAllocLength →
    (bv.m_data.getD i 0) &&& (copyFrom.m_data.getD i 0) = bv.m_data.getD i 0

/-! ## Inputs of the analysis -/

/-- One item of the data-flow read/write description of a bytecode. -/
inductive BytecodeRWCDesc where
  | Local (ord : Nat)
  | Range (start : Nat) (len : Nat)
  | Other
deriving DecidableEq, Repr, Inhabited

namespace BytecodeRWCDesc

/-- Local ordinal of a `Local` item. -/
def GetLocalOrd : BytecodeRWCDesc → Nat
  | Local ord => ord
  | _ => 0

end BytecodeRWCDesc

/-- Upvalue descriptor of a function prototype. -/
structure UpvalueMetadata where
  m_isParentLocal : Bool
  m_slot : Nat
deriving DecidableEq, Repr, Inhabited

/-- The part of a function prototype read by the analysis: its upvalue table
(`m_numUpvalues` is the length of the list). -/
structure UnlinkedCodeBlock where
  m_upvalueInfo : List UpvalueMetadata
deriving DecidableEq, Repr, Inhabited

/-- The intrinsic declared by a bytecode, with the operands the analysis reads:
the prototype constant of `CreateClosure`, the first closed local of
`UpvalueClose`. A bytecode declares at most one intrinsic. -/
inductive BytecodeIntrinsicInfo where
  | NoIntrinsic
  | CreateClosure (proto : UnlinkedCodeBlock)
  | UpvalueClose (start : Nat)
  | OtherIntrinsic
deriving DecidableEq, Repr, Inhabited

/-- The bytecode decoder of a code block, as the queries the analysis makes of it. -/
structure BytecodeDecoder where
  GetNextBytecodePosition : Nat → Nat
  GetDataFlowWriteInfo : Nat → List BytecodeRWCDesc
  GetDataFlowReadInfo : Nat → List BytecodeRWCDesc
  GetBytecodeIntrinsicInfo : Nat → BytecodeIntrinsicInfo

/-- A basic block as supplied by the control-flow and upvalue analysis. -/
structure BasicBlockUpvalueInfo where
  m_bytecodeOffset : Nat
  m_bytecodeIndex : Nat
  m_numBytecodesInBB : Nat
  m_isLocalCapturedAtHead : TempBitVector
  m_isLocalCapturedInBB : TempBitVector
  m_successors : List Nat
deriving DecidableEq, Repr, Inhabited

/-- Result of the control-flow and upvalue analysis. -/
structure DfgControlFlowAndUpvalueAnalysisResult where
  m_basicBlocks : List BasicBlockUpvalueInfo
deriving DecidableEq, Repr, Inhabited

/-- The part of a code block read by the analysis; `m_numBytecodes` is the
bytecode count of its baseline code block. -/
structure CodeBlock where
  m_stackFrameNumSlots : Nat
  m_numBytecodes : Nat
  decoder : BytecodeDecoder

/-! ## Per-block liveness information -/

/-- Per-block state of the liveness analysis. -/
structure BytecodeLivenessBBInfo where
  m_numBytecodesInBB : Nat
  m_firstBytecodeIndex : Nat
  m_bytecodeOffset : List Nat
  m_info : List Nat
  m_infoIndex : List Nat
  m_atHead : TempBitVector
  m_atTail : TempBitVector
  m_andMask : TempBitVector
  m_orMask : TempBitVector
  m_successors : List Nat
  m_lastChangedEpoch : Nat
  m_lastCheckedEpoch : Nat
  m_hasPrecedessor : Bool
deriving DecidableEq, Repr, Inhabited

/-- Offsets of `n` consecutive bytecodes starting at `cur`, in program order. -/
def bytecodeOffsetsFrom (decoder : BytecodeDecoder) : Nat → Nat → List Nat
  | 0, _ => []
  | n + 1, cur => cur :: bytecodeOffsetsFrom decoder n (decoder.GetNextBytecodePosition cur)

/-- Append to `m_info` the slots named by the items of a read or write
description: a local contributes its ordinal, a range every slot of the range. -/
def pushRWCInfo (m_info : List Nat) (items : List BytecodeRWCDesc) : List Nat :=
  items.foldl (fun info item =>
    match item with
    | BytecodeRWCDesc.Local ord => info ++ [ord]
    | BytecodeRWCDesc.Range start len => info ++ (List.range len).map (fun i => start + i)
    | BytecodeRWCDesc.Other => info) m_info

/-- Special handling of `CreateClosure`: append every captured parent local
except the destination of the instruction. -/
def pushCreateClosureUses (m_info : List Nat) (decoder : BytecodeDecoder)
    (curBytecodeOffset : Nat) : List Nat :=
  match decoder.GetBytecodeIntrinsicInfo curBytecodeOffset with
  | BytecodeIntrinsicInfo.CreateClosure createClosureUcb =>
    let outputs := decoder.GetDataFlowWriteInfo curBytecodeOffset
    let item := outputs.getD 0 BytecodeRWCDesc.Other
    let destLocalOrd := item.GetLocalOrd
    createClosureUcb.m_upvalueInfo.foldl (fun info uvmt =>
      if uvmt.m_isParentLocal then
        if uvmt.m_slot = destLocalOrd then info else info ++ [uvmt.m_slot]
      else info) m_info
  | _ => m_info

/-- Special handling of `UpvalueClose`: append every local from the close
threshold up to `numLocals` that is captured at block head or within the block. -/
def pushUpvalueCloseUses (m_info : List Nat) (decoder : BytecodeDecoder)
    (bbInfo : BasicBlockUpvalueInfo) (numLocals : Nat) (curBytecodeOffset : Nat) : List Nat :=
  match decoder.GetBytecodeIntrinsicInfo curBytecodeOffset with
  | BytecodeIntrinsicInfo.UpvalueClose uvCloseStart =>
    (List.range' uvCloseStart (numLocals - uvCloseStart)).foldl (fun info localOrd =>
      if bbInfo.m_isLocalCapturedAtHead.IsSet localOrd || bbInfo.m_isLocalCapturedInBB.IsSet localOrd
      then info ++ [localOrd] else info) m_info
  | _ => m_info

/-- One iteration of the constructor loop that fills `m_info` and `m_infoIndex`
for the bytecode at `curBytecodeOffset`. -/
def genInfoStep (decoder : BytecodeDecoder) (bbInfo : BasicBlockUpvalueInfo) (numLocals : Nat)
    (st : List Nat × List Nat) (curBytecodeOffset : Nat) : List Nat × List Nat :=
  let info1 := pushRWCInfo st.1 (decoder.GetDataFlowWriteInfo curBytecodeOffset)
  let index1 := st.2 ++ [info1.length]
  let info2 := pushRWCInfo info1 (decoder.GetDataFlowReadInfo curBytecodeOffset)
  let info3 := pushCreateClosureUses info2 decoder curBytecodeOffset
  let info4 := pushUpvalueCloseUses info3 decoder bbInfo numLocals curBytecodeOffset
  (info4, index1 ++ [info4.length])

/-- The inner loops of the replay: `while (curIndex < endIndex)` apply `op` to
the slot `infoData[curIndex]` and advance; `n` is `endIndex - curIndex`. -/
def slotLoop (op : TempBitVector → Nat → TempBitVector) (infoData : List Nat) :
    Nat → Nat → TempBitVector → TempBitVector
  | 0, _, bv => bv
  | n + 1, curIndex, bv => slotLoop op infoData n (curIndex + 1) (op bv (infoData.getD curIndex 0))

/-- The outer loop of `ComputeHeadBasedOnTail`; the first argument bounds the
number of iterations (one per bytecode of the block). -/
def headLoop (m_info m_infoIndex : List Nat) (totalInfoTerms : Nat) :
    Nat → Nat → Nat → TempBitVector → TempBitVector
  | 0, _, _, tmpBv => tmpBv
  | n + 1, curIndex, curInfoEndIndex, tmpBv =>
    if curInfoEndIndex < totalInfoTerms then
      let endIndex := m_infoIndex.getD curInfoEndIndex 0
      let tmpBv := slotLoop ClearBit m_info (endIndex - curIndex) curIndex tmpBv
      let curIndex := curIndex + (endIndex - curIndex)
      let endIndex := m_infoIndex.getD (curInfoEndIndex + 1) 0
      let tmpBv := slotLoop SetBit m_info (endIndex - curIndex) curIndex tmpBv
      let curIndex := curIndex + (endIndex - curIndex)
      headLoop m_info m_infoIndex totalInfoTerms n curIndex (curInfoEndIndex + 2) tmpBv
    else tmpBv

namespace BytecodeLivenessBBInfo

/-- Replay of the defs and uses of the block, last bytecode first, on a copy of
`m_atTail`; the result is the new head, `m_atHead` is not changed. -/
def ComputeHeadBasedOnTail (bb : BytecodeLivenessBBInfo) (tmpBv : TempBitVector) : TempBitVector :=
  let tmpBv := tmpBv.CopyFromEqualLengthBitVector bb.m_atTail
  headLoop bb.m_info bb.m_infoIndex (2 * bb.m_numBytecodesInBB) bb.m_numBytecodesInBB 0 0 tmpBv

/-- Mask form of the head computation, one storage word at a time:
`(m_atTail & m_andMask) | m_orMask`. -/
def ComputeHeadBasedOnTailFast (bb : BytecodeLivenessBBInfo) (tmpBv : TempBitVector) : TempBitVector :=
  let allocLen := tmpBv.GetAllocLength
  { tmpBv with m_data := wordLoop allocLen (fun i =>
      ((bb.m_atTail.m_data.getD i 0) &&& (bb.m_andMask.m_data.getD i 0)) ||| (bb.m_orMask.m_data.getD i 0)) }

/-- The constructor: offsets in reverse order, def and use lists, and the two
masks, obtained by replaying the block from the all-ones and the all-zeros tail. -/
def new (decoder : BytecodeDecoder) (bbInfo : BasicBlockUpvalueInfo) (numLocals : Nat) :
    BytecodeLivenessBBInfo :=
  let m_bytecodeOffset :=
    (bytecodeOffsetsFrom decoder bbInfo.m_numBytecodesInBB bbInfo.m_bytecodeOffset).reverse
  let gen := m_bytecodeOffset.foldl (genInfoStep decoder bbInfo numLocals) ([], [])
  let this : BytecodeLivenessBBInfo :=
    { m_numBytecodesInBB := bbInfo.m_numBytecodesInBB
      m_firstBytecodeIndex := bbInfo.m_bytecodeIndex
      m_bytecodeOffset := m_bytecodeOffset
      m_info := gen.1
      m_infoIndex := gen.2
      m_atHead := TempBitVector.Reset numLocals
      m_atTail := TempBitVector.Reset numLocals
      m_andMask := default
      m_orMask := default
      m_successors := List.replicate bbInfo.m_successors.length 0
      m_lastChangedEpoch := 0
      m_lastCheckedEpoch := 0
      m_hasPrecedessor := false }
  let this := { this with m_atTail := this.m_atTail.SetAllOne }
  let this := { this with m_andMask := this.ComputeHeadBasedOnTail (TempBitVector.Reset numLocals) }
  let this := { this with m_atTail := this.m_atTail.Clear }
  { this with m_orMask := this.ComputeHeadBasedOnTail (TempBitVector.Reset numLocals) }

end BytecodeLivenessBBInfo

/-! ## Per-bytecode liveness -/

/-- The result of the analysis: for every bytecode index the live set before
and after the bytecode. -/
structure BytecodeLiveness where
  m_beforeUse : List DBitVector
  m_afterUse : List DBitVector
deriving DecidableEq, Repr, Inhabited

/-- The main loop of `ComputePerBytecodeLiveness`: iteration `index` handles
the bytecode `lastBytecodeIndex - index`; the first argument is the number of
iterations left. -/
def perBytecodeLoop (bb : BytecodeLivenessBBInfo) (lastBytecodeIndex : Nat) :
    Nat → Nat → Nat → BytecodeLiveness → BytecodeLiveness
  | 0, _, _, r => r
  | n + 1, index, curIndex, r =>
    let bytecodeIndex := lastBytecodeIndex - index
    let afterUse := r.m_afterUse.getD bytecodeIndex default
    let afterUse :=
      if index > 0 then
        afterUse.CopyFromEqualLengthBitVector (r.m_beforeUse.getD (bytecodeIndex + 1) default)
      else
        afterUse.CopyFromEqualLengthBitVector bb.m_atTail
    let endIndex := bb.m_infoIndex.getD (index * 2) 0
    let afterUse := slotLoop ClearBit bb.m_info (endIndex - curIndex) curIndex afterUse
    let curIndex := curIndex + (endIndex - curIndex)
    let beforeUse := r.m_beforeUse.getD bytecodeIndex default
    let beforeUse := beforeUse.CopyFromEqualLengthBitVector afterUse
    let endIndex := bb.m_infoIndex.getD (index * 2 + 1) 0
    let beforeUse := slotLoop SetBit bb.m_info (endIndex - curIndex) curIndex beforeUse
    let curIndex := curIndex + (endIndex - curIndex)
    perBytecodeLoop bb lastBytecodeIndex n (index + 1) curIndex
      { m_beforeUse := r.m_beforeUse.set bytecodeIndex beforeUse
        m_afterUse := r.m_afterUse.set bytecodeIndex afterUse }

namespace BytecodeLivenessBBInfo

/-- Materialise the before-use and after-use sets of every bytecode of the
block, walking the block backward from its tail. -/
def ComputePerBytecodeLiveness (bb : BytecodeLivenessBBInfo) (r : BytecodeLiveness) :
    BytecodeLiveness :=
  let numLocals := bb.m_atHead.m_length
  let lastBytecodeIndex := bb.m_firstBytecodeIndex + bb.m_numBytecodesInBB - 1
  let r := (List.range' bb.m_firstBytecodeIndex (lastBytecodeIndex + 1 - bb.m_firstBytecodeIndex)).foldl
    (fun (r : BytecodeLiveness) bytecodeIndex =>
      { m_beforeUse := r.m_beforeUse.set bytecodeIndex (TempBitVector.Reset numLocals)
        m_afterUse := r.m_afterUse.set bytecodeIndex (TempBitVector.Reset numLocals) }) r
  perBytecodeLoop bb lastBytecodeIndex bb.m_numBytecodesInBB 0 0 r

end BytecodeLivenessBBInfo

/-! ## The fixpoint computation -/

/-- The basic blocks (as pointers) sorted by descending first bytecode index. -/
def sortBasicBlocks (cfUvInfo : DfgControlFlowAndUpvalueAnalysisResult) : List Nat :=
  (List.range cfUvInfo.m_basicBlocks.length).insertionSort
    (fun lhs rhs => (cfUvInfo.m_basicBlocks.getD lhs default).m_bytecodeIndex >
      (cfUvInfo.m_basicBlocks.getD rhs default).m_bytecodeIndex)

/-- Allocation of the per-block objects, one per entry of `bbInReverseOrder`. -/
def allocBBLivenessInfo (decoder : BytecodeDecoder) (cfUvInfo : DfgControlFlowAndUpvalueAnalysisResult)
    (numLocals : Nat) (bbInReverseOrder : List Nat) : List BytecodeLivenessBBInfo :=
  bbInReverseOrder.map (fun bb =>
    BytecodeLivenessBBInfo.new decoder (cfUvInfo.m_basicBlocks.getD bb default) numLocals)

/-- Lookup in `bbInfoMap`: the position in `bbLivenessInfo` of the object
allocated for the basic block `bb`. -/
def bbInfoMap (bbInReverseOrder : List Nat) (bb : Nat) : Nat := bbInReverseOrder.indexOf bb

/-- Set up the successor edges and the has-predecessor flags. -/
def setupSuccessorEdges (cfUvInfo : DfgControlFlowAndUpvalueAnalysisResult)
    (bbInReverseOrder : List Nat) (bbLivenessInfo : List BytecodeLivenessBBInfo) :
    List BytecodeLivenessBBInfo :=
  (List.range bbInReverseOrder.length).foldl (fun heap bbOrd =>
    let bbUvInfo := cfUvInfo.m_basicBlocks.getD (bbInReverseOrder.getD bbOrd 0) default
    (List.range bbUvInfo.m_successors.length).foldl (fun heap succOrd =>
      let succ := bbInfoMap bbInReverseOrder (bbUvInfo.m_successors.getD succOrd 0)
      let heap := heap.modify
        (fun bbInfo => { bbInfo with m_successors := bbInfo.m_successors.set succOrd succ }) bbOrd
      heap.modify (fun s => { s with m_hasPrecedessor := true }) succ) heap) bbLivenessInfo

/-- State of the fixpoint loop. -/
structure FixpointState where
  bbLivenessInfo : List BytecodeLivenessBBInfo
  tmpBv : TempBitVector
  currentEpoch : Nat
  needMoreIterations : Bool
deriving DecidableEq, Repr, Inhabited

/-- The test whether some successor head changed after the block last checked. -/
def shouldCheck (heap : List BytecodeLivenessBBInfo) (bb : BytecodeLivenessBBInfo) : Bool :=
  bb.m_successors.any (fun s =>
    decide ((heap.getD s default).m_lastChangedEpoch > bb.m_lastCheckedEpoch))

/-- The union of the heads of all successors, accumulated into the cleared `tmpBv`. -/
def unionOfSuccessorHeads (heap : List BytecodeLivenessBBInfo) (bb : BytecodeLivenessBBInfo)
    (tmpBv : TempBitVector) : TempBitVector :=
  let tmpBv := tmpBv.Clear
  let tmpBvAllocLength := tmpBv.GetAllocLength
  bb.m_successors.foldl (fun (tmpBv : TempBitVector) succ =>
    let srcData := (heap.getD succ default).m_atHead.m_data
    { tmpBv with m_data := wordLoop tmpBvAllocLength (fun i => tmpBv.m_data.getD i 0 ||| srcData.getD i 0) })
    tmpBv

/-- The body of the `for` loop of one pass, for the block at position `bbOrd`. -/
def visitBlock (isFirstIteration : Bool) (st : FixpointState) (bbOrd : Nat) : FixpointState :=
  let bb := st.bbLivenessInfo.getD bbOrd default
  if shouldCheck st.bbLivenessInfo bb || isFirstIteration then
    let currentEpoch := st.currentEpoch + 1
    let bb := { bb with m_lastCheckedEpoch := currentEpoch }
    let tmpBv := unionOfSuccessorHeads st.bbLivenessInfo bb st.tmpBv
    let tailUpdate := UpdateBitVectorAfterMonotonicPropagation bb.m_atTail tmpBv
    let tailChanged := tailUpdate.1
    let bb := { bb with m_atTail := tailUpdate.2 }
    if tailChanged || isFirstIteration then
      let tmpBv := bb.ComputeHeadBasedOnTailFast tmpBv
      let headUpdate := UpdateBitVectorAfterMonotonicPropagation bb.m_atHead tmpBv
      let headChanged := headUpdate.1
      let bb := { bb with m_atHead := headUpdate.2 }
      if headChanged then
        let currentEpoch := currentEpoch + 1
        let bb := { bb with m_lastChangedEpoch := currentEpoch }
        { bbLivenessInfo := st.bbLivenessInfo.set bbOrd bb
          tmpBv := tmpBv
          currentEpoch := currentEpoch
          needMoreIterations := if bb.m_hasPrecedessor then true else st.needMoreIterations }
      else
        { st with bbLivenessInfo := st.bbLivenessInfo.set bbOrd bb
                  tmpBv := tmpBv
                  currentEpoch := currentEpoch }
    else
      { st with bbLivenessInfo := st.bbLivenessInfo.set bbOrd bb
                tmpBv := tmpBv
                currentEpoch := currentEpoch }
  else st

/-- One pass of the fixpoint loop over all blocks, in array order. -/
def onePass (isFirstIteration : Bool) (st : FixpointState) : FixpointState :=
  (List.range st.bbLivenessInfo.length).foldl (visitBlock isFirstIteration)
    { st with needMoreIterations := false }

/-- The loop `while (true)`: passes are repeated until one of them ends with
`needMoreIterations` false; the first argument bounds the number of passes. -/
def fixpointLoop : Nat → Bool → FixpointState → Option FixpointState
  | 0, _, _ => none
  | fuel + 1, isFirstIteration, st =>
    let st := onePass isFirstIteration st
    if !st.needMoreIterations then some st else fixpointLoop fuel false st

/-- Everything `ComputeBytecodeLiveness` does up to the exit of the fixpoint
loop, for the block order `bbInReverseOrder`. -/
def propagateToFixpoint (fuel : Nat) (codeBlock : CodeBlock)
    (cfUvInfo : DfgControlFlowAndUpvalueAnalysisResult) (bbInReverseOrder : List Nat) :
    Option FixpointState :=
  let numLocals := codeBlock.m_stackFrameNumSlots
  let bbLivenessInfo := allocBBLivenessInfo codeBlock.decoder cfUvInfo numLocals bbInReverseOrder
  let bbLivenessInfo := setupSuccessorEdges cfUvInfo bbInReverseOrder bbLivenessInfo
  fixpointLoop fuel true
    { bbLivenessInfo := bbLivenessInfo
      tmpBv := TempBitVector.Reset numLocals
      currentEpoch := 1
      needMoreIterations := false }

/-- The part of `ComputeBytecodeLiveness` after the fixpoint loop: the
per-bytecode sets of every block, then an all-dead record for every bytecode
that lies in no block. -/
def materialize (numBytecodes numLocals : Nat) (bbLivenessInfo : List BytecodeLivenessBBInfo) :
    BytecodeLiveness :=
  let r : BytecodeLiveness :=
    { m_beforeUse := List.replicate numBytecodes default
      m_afterUse := List.replicate numBytecodes default }
  let r := bbLivenessInfo.foldl (fun r bb => bb.ComputePerBytecodeLiveness r) r
  (List.range numBytecodes).foldl (fun (r : BytecodeLiveness) bytecodeIndex =>
    if (r.m_beforeUse.getD bytecodeIndex default).m_length = 0 then
      { m_beforeUse := r.m_beforeUse.set bytecodeIndex (TempBitVector.Reset numLocals)
        m_afterUse := r.m_afterUse.set bytecodeIndex (TempBitVector.Reset numLocals) }
    else r) r

/-- The analysis for a given processing order of the blocks. -/
def ComputeBytecodeLivenessInOrder (fuel : Nat) (codeBlock : CodeBlock)
    (cfUvInfo : DfgControlFlowAndUpvalueAnalysisResult) (bbInReverseOrder : List Nat) :
    Option BytecodeLiveness :=
  match propagateToFixpoint fuel codeBlock cfUvInfo bbInReverseOrder with
  | none => none
  | some st =>
    some (materialize codeBlock.m_numBytecodes codeBlock.m_stackFrameNumSlots st.bbLivenessInfo)

/-- `BytecodeLiveness::ComputeBytecodeLiveness`: blocks are processed in
descending order of their first bytecode index. -/
def ComputeBytecodeLiveness (fuel : Nat) (codeBlock : CodeBlock)
    (cfUvInfo : DfgControlFlowAndUpvalueAnalysisResult) : Option BytecodeLiveness :=
  ComputeBytecodeLivenessInOrder fuel codeBlock cfUvInfo (sortBasicBlocks cfUvInfo)

/-! ## Definitions used to state and prove the contracts -/

/-- The head bit is an affine function of the tail bit: relation between the
replay from `t`, from all ones and from all zeros. -/
def AffineRel (t x a o : TempBitVector) : Prop :=
  x.m_data.length = a.m_data.length ∧ o.m_data.length = a.m_data.length ∧
    (∀ j, x.IsSet j = ((t.IsSet j && a.IsSet j) || o.IsSet j)) ∧
    (∀ j, o.IsSet j = true → a.IsSet j = true)

/-! ## Storage invariants -/

/-- A vector of `n` bits with its storage in canonical form: the declared
length is `n`, the storage has the allocation length, every word fits 64 bits. -/
def WFbv (n : Nat) (bv : TempBitVector) : Prop :=
  bv.m_length = n ∧ bv.m_data.length = (n + 63) / 64 ∧ ∀ k, bv.m_data.getD k 0 < 2 ^ 64

/-! ## The heap of block objects, read on bits -/

/-- Head bit `i` of the block at position `b`. -/
def hd (heap : List BytecodeLivenessBBInfo) (b i : Nat) : Bool :=
  (heap.getD b default).m_atHead.IsSet i

/-- Tail bit `i` of the block at position `b`. -/
def tl (heap : List BytecodeLivenessBBInfo) (b i : Nat) : Bool :=
  (heap.getD b default).m_atTail.IsSet i

/-- Successors of the block at position `b`. -/
def succs (heap : List BytecodeLivenessBBInfo) (b : Nat) : List Nat :=
  (heap.getD b default).m_successors

/-- The mask formula on one bit: `(t & andMask) | orMask`. -/
def xfer (heap : List BytecodeLivenessBBInfo) (b i : Nat) (t : Bool) : Bool :=
  (t && (heap.getD b default).m_andMask.IsSet i) || (heap.getD b default).m_orMask.IsSet i

/-- Bit `i` of the union of the heads of the successors of `b`. -/
def unionBit (heap : List BytecodeLivenessBBInfo) (b i : Nat) : Bool :=
  (succs heap b).any (fun s => hd heap s i)

/-- Every vector of every block is a canonical vector of `n` bits. -/
def WFHeap (n : Nat) (heap : List BytecodeLivenessBBInfo) : Prop :=
  ∀ b, b < heap.length →
    WFbv n (heap.getD b default).m_atHead ∧ WFbv n (heap.getD b default).m_atTail ∧
    WFbv n (heap.getD b default).m_andMask ∧ WFbv n (heap.getD b default).m_orMask

/-- One step of the accumulation loop of `unionOfSuccessorHeads`. -/
def unionStep (heap : List BytecodeLivenessBBInfo) (A : Nat) (tmpBv : TempBitVector)
    (succ : Nat) : TempBitVector :=
  { tmpBv with m_data := wordLoop A (fun i =>
      tmpBv.m_data.getD i 0 ||| (heap.getD succ default).m_atHead.m_data.getD i 0) }

/-- The accumulation loop of `unionOfSuccessorHeads`, on any accumulator. -/
def unionFold (heap : List BytecodeLivenessBBInfo) (A : Nat) (succList : List Nat)
    (acc : TempBitVector) : TempBitVector :=
  succList.foldl (unionStep heap A) acc

/-- The new tail computed by a visit of block `bbOrd`. -/
def newTailOf (st : FixpointState) (bbOrd : Nat) : TempBitVector :=
  unionOfSuccessorHeads st.bbLivenessInfo (st.bbLivenessInfo.getD bbOrd default) st.tmpBv

/-- The new head computed by a visit of block `bbOrd` that recomputes the head. -/
def newHeadOf (st : FixpointState) (bbOrd : Nat) : TempBitVector :=
  BytecodeLivenessBBInfo.ComputeHeadBasedOnTailFast
    { st.bbLivenessInfo.getD bbOrd default with m_atTail := newTailOf st bbOrd }
    (newTailOf st bbOrd)

/-- The state after a visit of block `b` that passes the epoch test, in terms of
the new tail and the new head. -/
def visitResult (f : Bool) (st : FixpointState) (b : Nat) : FixpointState :=
  let bb := st.bbLivenessInfo.getD b default
  let recompute := decide (bb.m_atTail ≠ newTailOf st b) || f
  let headChanged := recompute && decide (bb.m_atHead ≠ newHeadOf st b)
  { bbLivenessInfo := st.bbLivenessInfo.set b
      { bb with m_lastCheckedEpoch := st.currentEpoch + 1
                m_atTail := newTailOf st b
                m_atHead := if recompute then newHeadOf st b else bb.m_atHead
                m_lastChangedEpoch :=
                  if headChanged then st.currentEpoch + 2 else bb.m_lastChangedEpoch }
    tmpBv := if recompute then newHeadOf st b else newTailOf st b
    currentEpoch := if headChanged then st.currentEpoch + 2 else st.currentEpoch + 1
    needMoreIterations :=
      if headChanged && bb.m_hasPrecedessor then true else st.needMoreIterations }

/-! ## What a visit changes -/

/-- The part of a block object that the fixpoint loop never writes. -/
def BytecodeLivenessBBInfo.static (bb : BytecodeLivenessBBInfo) : BytecodeLivenessBBInfo :=
  { bb with m_atHead := default, m_atTail := default, m_lastChangedEpoch := 0,
            m_lastCheckedEpoch := 0 }

/-- Two heaps that differ only in heads, tails and epochs. -/
def SameStatic (h h' : List BytecodeLivenessBBInfo) : Prop :=
  h'.length = h.length ∧ ∀ b, (h'.getD b default).static = (h.getD b default).static

/-- The bits and epochs of the heap after a visit of `b` that passes the epoch test. -/
structure VisitFacts (n : Nat) (f : Bool) (st st' : FixpointState) (b : Nat) : Prop where
  static : SameStatic st.bbLivenessInfo st'.bbLivenessInfo
  other : ∀ b', b' ≠ b → st'.bbLivenessInfo.getD b' default = st.bbLivenessInfo.getD b' default
  wf : WFHeap n st'.bbLivenessInfo
  tmp : st'.tmpBv.m_length = n
  tail : ∀ i, tl st'.bbLivenessInfo b i = unionBit st.bbLivenessInfo b i
  head : ∀ i, hd st'.bbLivenessInfo b i = hd st.bbLivenessInfo b i ∨
    hd st'.bbLivenessInfo b i = xfer st.bbLivenessInfo b i (unionBit st.bbLivenessInfo b i)
  headNew : (f = true ∨ ∃ i, tl st.bbLivenessInfo b i ≠ unionBit st.bbLivenessInfo b i) →
    ∀ i, hd st'.bbLivenessInfo b i = xfer st.bbLivenessInfo b i (unionBit st.bbLivenessInfo b i)
  headOld : ¬ (f = true ∨ ∃ i, tl st.bbLivenessInfo b i ≠ unionBit st.bbLivenessInfo b i) →
    ∀ i, hd st'.bbLivenessInfo b i = hd st.bbLivenessInfo b i
  checked : (st'.bbLivenessInfo.getD b default).m_lastCheckedEpoch = st.currentEpoch + 1
  changed : (∃ i, hd st'.bbLivenessInfo b i ≠ hd st.bbLivenessInfo b i) →
    (st'.bbLivenessInfo.getD b default).m_lastChangedEpoch = st.currentEpoch + 2 ∧
    st'.currentEpoch = st.currentEpoch + 2 ∧
    st'.needMoreIterations =
      ((st.bbLivenessInfo.getD b default).m_hasPrecedessor || st.needMoreIterations)
  unchanged : (∀ i, hd st'.bbLivenessInfo b i = hd st.bbLivenessInfo b i) →
    (st'.bbLivenessInfo.getD b default).m_lastChangedEpoch =
      (st.bbLivenessInfo.getD b default).m_lastChangedEpoch ∧
    st'.currentEpoch = st.currentEpoch + 1 ∧
    st'.needMoreIterations = st.needMoreIterations

/-! ## Invariants of the fixpoint loop -/

/-- Epoch at which the head of block `b` last changed. -/
def lastChanged (heap : List BytecodeLivenessBBInfo) (b : Nat) : Nat :=
  (heap.getD b default).m_lastChangedEpoch

/-- Epoch at which block `b` last recomputed its tail. -/
def lastChecked (heap : List BytecodeLivenessBBInfo) (b : Nat) : Nat :=
  (heap.getD b default).m_lastCheckedEpoch

/-- The invariant of the fixpoint loop that holds before and after every visit. -/
structure Inv (n : Nat) (st : FixpointState) : Prop where
  wf : WFHeap n st.bbLivenessInfo
  tmp : st.tmpBv.m_length = n
  ep : ∀ b, lastChanged st.bbLivenessInfo b ≤ st.currentEpoch ∧
    lastChecked st.bbLivenessInfo b ≤ st.currentEpoch
  tailSub : ∀ b i, tl st.bbLivenessInfo b i = true → unionBit st.bbLivenessInfo b i = true
  headSub : ∀ b i, hd st.bbLivenessInfo b i = true →
    xfer st.bbLivenessInfo b i (tl st.bbLivenessInfo b i) = true
  upToDate : ∀ b, (∀ s ∈ succs st.bbLivenessInfo b,
      lastChanged st.bbLivenessInfo s ≤ lastChecked st.bbLivenessInfo b) →
    ∀ i, unionBit st.bbLivenessInfo b i = true → tl st.bbLivenessInfo b i = true

/-- A pre-solution of the dataflow equations of the heap `h0`: `T` contains the
union of the successors' `H`, and `H` contains the mask formula applied to `T`. -/
def PreSolution (h0 : List BytecodeLivenessBBInfo) (H T : Nat → Nat → Bool) : Prop :=
  (∀ b i, (succs h0 b).any (fun s => H s i) = true → T b i = true) ∧
  (∀ b i, xfer h0 b i (T b i) = true → H b i = true)

/-- Every successor has its has-predecessor flag set. -/
def HasPredOK (h0 : List BytecodeLivenessBBInfo) : Prop :=
  ∀ j s, s ∈ succs h0 j → s < h0.length → (h0.getD s default).m_hasPrecedessor = true

/-- The invariant of one pass: `st0` is the state at the start of the pass, `k`
the number of blocks visited so far, `h0` the heap at the start of the loop. -/
structure PassInv (n : Nat) (h0 : List BytecodeLivenessBBInfo) (f : Bool) (st0 : FixpointState)
    (k : Nat) (st : FixpointState) : Prop where
  inv : Inv n st
  static : SameStatic h0 st.bbLivenessInfo
  below : ∀ H T, PreSolution h0 H T →
    ∀ b i, (hd st.bbLivenessInfo b i = true → H b i = true) ∧
      (tl st.bbLivenessInfo b i = true → T b i = true)
  headSup : ∀ b, (f = false ∨ b < k) →
    ∀ i, xfer st.bbLivenessInfo b i (tl st.bbLivenessInfo b i) = true →
      hd st.bbLivenessInfo b i = true
  checked : st.needMoreIterations = false → ∀ j, j < k →
    ∀ s ∈ succs st.bbLivenessInfo j,
      lastChanged st.bbLivenessInfo s ≤ lastChecked st.bbLivenessInfo j
  monoH : ∀ b i, hd st0.bbLivenessInfo b i = true → hd st.bbLivenessInfo b i = true
  monoT : ∀ b i, tl st0.bbLivenessInfo b i = true → tl st.bbLivenessInfo b i = true
  grow : st.needMoreIterations = true →
    ∃ b i, b < st.bbLivenessInfo.length ∧ hd st0.bbLivenessInfo b i = false ∧
      hd st.bbLivenessInfo b i = true

/-- The invariant at the start of a pass. -/
structure LoopInv (n : Nat) (h0 : List BytecodeLivenessBBInfo) (f : Bool) (st : FixpointState) :
    Prop where
  inv : Inv n st
  static : SameStatic h0 st.bbLivenessInfo
  below : ∀ H T, PreSolution h0 H T →
    ∀ b i, (hd st.bbLivenessInfo b i = true → H b i = true) ∧
      (tl st.bbLivenessInfo b i = true → T b i = true)
  headSup : f = false → ∀ b i, xfer st.bbLivenessInfo b i (tl st.bbLivenessInfo b i) = true →
    hd st.bbLivenessInfo b i = true

/-- The state in which the loop exits: the dataflow equations hold on every
bit, every block is up to date, and the state is below every pre-solution. -/
structure Final (n : Nat) (h0 : List BytecodeLivenessBBInfo) (st : FixpointState) : Prop where
  inv : Inv n st
  static : SameStatic h0 st.bbLivenessInfo
  below : ∀ H T, PreSolution h0 H T →
    ∀ b i, (hd st.bbLivenessInfo b i = true → H b i = true) ∧
      (tl st.bbLivenessInfo b i = true → T b i = true)
  tailEq : ∀ b i, tl st.bbLivenessInfo b i = unionBit st.bbLivenessInfo b i
  headEq : ∀ b i, hd st.bbLivenessInfo b i = xfer st.bbLivenessInfo b i (tl st.bbLivenessInfo b i)
  quiet : ∀ j, ∀ s ∈ succs st.bbLivenessInfo j,
    lastChanged st.bbLivenessInfo s ≤ lastChecked st.bbLivenessInfo j
  done : st.needMoreIterations = false

/-! ### Termination measure -/

/-- Number of head bits set, counted over every storage bit of every block. -/
def headBits (N : Nat) (heap : List BytecodeLivenessBBInfo) : Nat :=
  ((List.range heap.length).product (List.range N)).countP (fun p => hd heap p.1 p.2)

/-! ## Stability of the exit state -/

/-- A state in which the dataflow equations hold on every bit. -/
structure Stable (n : Nat) (st : FixpointState) : Prop where
  inv : Inv n st
  tailEq : ∀ b i, tl st.bbLivenessInfo b i = unionBit st.bbLivenessInfo b i
  headEq : ∀ b i, hd st.bbLivenessInfo b i = xfer st.bbLivenessInfo b i (tl st.bbLivenessInfo b i)

/-! ## The heap at the start of the fixpoint loop -/

/-- The body of the inner loop that sets up one successor edge. -/
def edgeStep (bbInReverseOrder : List Nat) (succList : List Nat) (bbOrd : Nat)
    (heap : List BytecodeLivenessBBInfo) (succOrd : Nat) : List BytecodeLivenessBBInfo :=
  (heap.modify (fun bbInfo => { bbInfo with
      m_successors := bbInfo.m_successors.set succOrd
        (bbInfoMap bbInReverseOrder (succList.getD succOrd 0)) }) bbOrd).modify
    (fun s => { s with m_hasPrecedessor := true })
    (bbInfoMap bbInReverseOrder (succList.getD succOrd 0))

/-- Successors of the basic block at position `bbOrd` of the processing order. -/
def succsOfOrd (cfUvInfo : DfgControlFlowAndUpvalueAnalysisResult) (bbInReverseOrder : List Nat)
    (bbOrd : Nat) : List Nat :=
  (cfUvInfo.m_basicBlocks.getD (bbInReverseOrder.getD bbOrd 0) default).m_successors

/-- The fields of a block object that the edge setup does not write. -/
def BytecodeLivenessBBInfo.noEdges (bb : BytecodeLivenessBBInfo) : BytecodeLivenessBBInfo :=
  { bb with m_successors := [], m_hasPrecedessor := false }

/-- Invariant of the edge setup: `D b k` says that edge `k` of block `b` is done. -/
structure EdgeInv (order : List Nat) (target : Nat → Nat → Nat)
    (infos : List BytecodeLivenessBBInfo) (D : Nat → Nat → Prop)
    (heap : List BytecodeLivenessBBInfo) : Prop where
  len : heap.length = infos.length
  frame : ∀ b, (heap.getD b default).noEdges = (infos.getD b default).noEdges
  slen : ∀ b, (heap.getD b default).m_successors.length =
    (infos.getD b default).m_successors.length
  done : ∀ b k, D b k → (heap.getD b default).m_successors.getD k 0 = target b k ∧
    (target b k < heap.length → (heap.getD (target b k) default).m_hasPrecedessor = true)

/-- The heap on which the fixpoint loop starts. -/
def initialHeap (codeBlock : CodeBlock) (cfUvInfo : DfgControlFlowAndUpvalueAnalysisResult)
    (bbInReverseOrder : List Nat) : List BytecodeLivenessBBInfo :=
  setupSuccessorEdges cfUvInfo bbInReverseOrder
    (allocBBLivenessInfo codeBlock.decoder cfUvInfo codeBlock.m_stackFrameNumSlots bbInReverseOrder)

/-- The state in which the fixpoint loop starts. -/
def initialState (codeBlock : CodeBlock) (cfUvInfo : DfgControlFlowAndUpvalueAnalysisResult)
    (bbInReverseOrder : List Nat) : FixpointState :=
  { bbLivenessInfo := initialHeap codeBlock cfUvInfo bbInReverseOrder
    tmpBv := TempBitVector.Reset codeBlock.m_stackFrameNumSlots
    currentEpoch := 1
    needMoreIterations := false }

/-- The basic block that the block object at position `b` was built for. -/
def blockOfOrd (cfUvInfo : DfgControlFlowAndUpvalueAnalysisResult) (bbInReverseOrder : List Nat)
    (b : Nat) : BasicBlockUpvalueInfo :=
  cfUvInfo.m_basicBlocks.getD (bbInReverseOrder.getD b 0) default

/-- What the loop needs to know about the heap it starts on. -/
structure InitFacts (codeBlock : CodeBlock) (cf : DfgControlFlowAndUpvalueAnalysisResult)
    (order : List Nat) (h0 : List BytecodeLivenessBBInfo) : Prop where
  len : h0.length = order.length
  frame : ∀ b, b < order.length → (h0.getD b default).noEdges =
    (BytecodeLivenessBBInfo.new codeBlock.decoder (blockOfOrd cf order b)
      codeBlock.m_stackFrameNumSlots).noEdges
  succ : ∀ b, b < order.length →
    succs h0 b = (blockOfOrd cf order b).m_successors.map (bbInfoMap order)
  pred : HasPredOK h0

/-- Number of passes that always suffices: one more than the number of storage
bits of all heads. -/
def passBound (numBBs numLocals : Nat) : Nat := numBBs * (64 * ((numLocals + 63) / 64)) + 1

/-! ## States reached by the loop -/

/-- The states the fixpoint loop can be in, seen from the state `s0` it starts
in: a pass starts by clearing `needMoreIterations`, then visits blocks. -/
inductive Reachable (s0 : FixpointState) : FixpointState → Prop
  | start : Reachable s0 s0
  | newPass (st : FixpointState) : Reachable s0 st →
      Reachable s0 { st with needMoreIterations := false }
  | visit (isFirstIteration : Bool) (bbOrd : Nat) (st : FixpointState) : Reachable s0 st →
      bbOrd < st.bbLivenessInfo.length → Reachable s0 (visitBlock isFirstIteration st bbOrd)

/-! ## The def and use lists of a block -/

/-- The def list the constructor generates for the bytecode at `off`. -/
def defsOf (decoder : BytecodeDecoder) (off : Nat) : List Nat :=
  pushRWCInfo [] (decoder.GetDataFlowWriteInfo off)

/-- The use list the constructor generates for the bytecode at `off` of the
basic block `bbInfo`: its read operands, then the captured locals of a closure
creation, then the closed captured locals of an upvalue close. -/
def usesOf (decoder : BytecodeDecoder) (bbInfo : BasicBlockUpvalueInfo) (numLocals : Nat)
    (off : Nat) : List Nat :=
  pushUpvalueCloseUses
    (pushCreateClosureUses (pushRWCInfo [] (decoder.GetDataFlowReadInfo off)) decoder off)
    decoder bbInfo numLocals off

/-- The def and use lists of the bytecodes of a block, last bytecode first. -/
def instrsRev (decoder : BytecodeDecoder) (bbInfo : BasicBlockUpvalueInfo) (numLocals : Nat) :
    List (List Nat × List Nat) :=
  (bytecodeOffsetsFrom decoder bbInfo.m_numBytecodesInBB bbInfo.m_bytecodeOffset).reverse.map
    (fun off => (defsOf decoder off, usesOf decoder bbInfo numLocals off))

/-- The flat list of slots of a list of def and use lists. -/
def flatInfo : List (List Nat × List Nat) → List Nat
  | [] => []
  | (d, u) :: rest => d ++ u ++ flatInfo rest

/-- The end positions of the def and use lists in the flat list, which starts at `c`. -/
def idxList : Nat → List (List Nat × List Nat) → List Nat
  | _, [] => []
  | c, (d, u) :: rest =>
    (c + d.length) :: (c + d.length + u.length) :: idxList (c + d.length + u.length) rest

/-- One bytecode of the replay: clear its defs, then set its uses. -/
def replayStep (bv : TempBitVector) (du : List Nat × List Nat) : TempBitVector :=
  du.2.foldl SetBit (du.1.foldl ClearBit bv)

/-! ## `ComputePerBytecodeLiveness` -/

/-- What the main loop of `ComputePerBytecodeLiveness` leaves in `r'` when it
starts on `r` at iteration `index` with the def and use lists `instrs` left to
process: the written entries in terms of each other, every other entry as it
was. -/
structure PerBytecodePost (n : Nat) (tail : TempBitVector) (last index : Nat)
    (instrs : List (List Nat × List Nat)) (r r' : BytecodeLiveness) : Prop where
  lenB : r'.m_beforeUse.length = r.m_beforeUse.length
  lenA : r'.m_afterUse.length = r.m_afterUse.length
  frame : ∀ idx, (∀ j, j < instrs.length → idx ≠ last - (index + j)) →
    r'.m_beforeUse.getD idx default = r.m_beforeUse.getD idx default ∧
    r'.m_afterUse.getD idx default = r.m_afterUse.getD idx default
  written : ∀ j d u, instrs[j]? = some (d, u) →
    r'.m_afterUse.getD (last - (index + j)) default =
      d.foldl ClearBit
        { m_length := n
          m_data := if index + j = 0 then tail.m_data
            else (r'.m_beforeUse.getD (last - (index + j) + 1) default).m_data } ∧
    r'.m_beforeUse.getD (last - (index + j)) default =
      u.foldl SetBit (r'.m_afterUse.getD (last - (index + j)) default)

/-- The first loop of `ComputePerBytecodeLiveness`: fresh vectors for the
bytecodes `first, ..., first + cnt - 1`. -/
def resetRange (n first cnt : Nat) (r : BytecodeLiveness) : BytecodeLiveness :=
  (List.range' first cnt).foldl
    (fun (r : BytecodeLiveness) bytecodeIndex =>
      { m_beforeUse := r.m_beforeUse.set bytecodeIndex (TempBitVector.Reset n)
        m_afterUse := r.m_afterUse.set bytecodeIndex (TempBitVector.Reset n) }) r

/-- What `ComputePerBytecodeLiveness` of a block with the def and use lists
`instrs` (last bytecode first) leaves in `r'` when it starts on `r`. -/
structure BlockPost (n : Nat) (tail : TempBitVector) (first : Nat)
    (instrs : List (List Nat × List Nat)) (r r' : BytecodeLiveness) : Prop where
  lenB : r'.m_beforeUse.length = r.m_beforeUse.length
  lenA : r'.m_afterUse.length = r.m_afterUse.length
  frame : ∀ idx, ¬ (first ≤ idx ∧ idx < first + instrs.length) →
    r'.m_beforeUse.getD idx default = r.m_beforeUse.getD idx default ∧
    r'.m_afterUse.getD idx default = r.m_afterUse.getD idx default
  written : ∀ j d u, instrs[j]? = some (d, u) →
    r'.m_afterUse.getD (first + instrs.length - 1 - j) default =
      d.foldl ClearBit
        { m_length := n
          m_data := if j = 0 then tail.m_data
            else (r'.m_beforeUse.getD (first + instrs.length - 1 - j + 1) default).m_data } ∧
    r'.m_beforeUse.getD (first + instrs.length - 1 - j) default =
      u.foldl SetBit (r'.m_afterUse.getD (first + instrs.length - 1 - j) default)

/-! ## All blocks, then the bytecodes in no block -/

/-- A block object whose def and use lists are `instrs`, with at least one
bytecode, all of them below the bytecode count `L`, and vectors of `n` bits. -/
def BlockOK (L n : Nat) (bb : BytecodeLivenessBBInfo) (instrs : List (List Nat × List Nat)) :
    Prop :=
  bb.m_info = flatInfo instrs ∧ bb.m_infoIndex = idxList 0 instrs ∧
  bb.m_numBytecodesInBB = instrs.length ∧ 0 < instrs.length ∧
  bb.m_firstBytecodeIndex + instrs.length ≤ L ∧ bb.m_atHead.m_length = n

/-- The bytecode `idx` lies in the block. -/
def InBlock (bb : BytecodeLivenessBBInfo) (idx : Nat) : Prop :=
  bb.m_firstBytecodeIndex ≤ idx ∧ idx < bb.m_firstBytecodeIndex + bb.m_numBytecodesInBB

/-- The two blocks share no bytecode. -/
def DisjointBlocks (bb bb' : BytecodeLivenessBBInfo) : Prop :=
  bb.m_firstBytecodeIndex + bb.m_numBytecodesInBB ≤ bb'.m_firstBytecodeIndex ∨
  bb'.m_firstBytecodeIndex + bb'.m_numBytecodesInBB ≤ bb.m_firstBytecodeIndex

/-- The relation between the entries that `ComputePerBytecodeLiveness` writes for
a block: the after-use set is the next before-use set (the tail, for the last
bytecode) with the defs cleared, the before-use set is the after-use set with
the uses set. -/
def Written (n : Nat) (bb : BytecodeLivenessBBInfo) (instrs : List (List Nat × List Nat))
    (r : BytecodeLiveness) : Prop :=
  ∀ j d u, instrs[j]? = some (d, u) →
    r.m_afterUse.getD (bb.m_firstBytecodeIndex + instrs.length - 1 - j) default =
      d.foldl ClearBit
        { m_length := n
          m_data := if j = 0 then bb.m_atTail.m_data
            else (r.m_beforeUse.getD
              (bb.m_firstBytecodeIndex + instrs.length - 1 - j + 1) default).m_data } ∧
    r.m_beforeUse.getD (bb.m_firstBytecodeIndex + instrs.length - 1 - j) default =
      u.foldl SetBit (r.m_afterUse.getD (bb.m_firstBytecodeIndex + instrs.length - 1 - j) default)

/-- The effect of `ComputePerBytecodeLiveness` over a list of blocks. -/
structure FoldPost (n : Nat) (l : List BytecodeLivenessBBInfo)
    (il : List (List (List Nat × List Nat))) (r r' : BytecodeLiveness) : Prop where
  lenB : r'.m_beforeUse.length = r.m_beforeUse.length
  lenA : r'.m_afterUse.length = r.m_afterUse.length
  frame : ∀ idx, (∀ bb ∈ l, ¬ InBlock bb idx) →
    r'.m_beforeUse.getD idx default = r.m_beforeUse.getD idx default ∧
    r'.m_afterUse.getD idx default = r.m_afterUse.getD idx default
  sized : ∀ idx, (∃ bb ∈ l, InBlock bb idx) →
    (r'.m_beforeUse.getD idx default).m_length = n ∧
    (r'.m_afterUse.getD idx default).m_length = n

/-- The last loop of `ComputeBytecodeLiveness`: an all-dead record for every
bytecode whose record is still unallocated. -/
def fillUnreachable (numLocals : Nat) (cnt : Nat) (r : BytecodeLiveness) : BytecodeLiveness :=
  (List.range cnt).foldl (fun (r : BytecodeLiveness) bytecodeIndex =>
    if (r.m_beforeUse.getD bytecodeIndex default).m_length = 0 then
      { m_beforeUse := r.m_beforeUse.set bytecodeIndex (TempBitVector.Reset numLocals)
        m_afterUse := r.m_afterUse.set bytecodeIndex (TempBitVector.Reset numLocals) }
    else r) r

/-- Every basic block has at least one bytecode and lies within the function. -/
def LayoutOK (codeBlock : CodeBlock) (cfUvInfo : DfgControlFlowAndUpvalueAnalysisResult) : Prop :=
  ∀ bb ∈ cfUvInfo.m_basicBlocks, 0 < bb.m_numBytecodesInBB ∧
    bb.m_bytecodeIndex + bb.m_numBytecodesInBB ≤ codeBlock.m_numBytecodes

/-- No two basic blocks share a bytecode. -/
def BlocksDisjoint (cfUvInfo : DfgControlFlowAndUpvalueAnalysisResult) : Prop :=
  cfUvInfo.m_basicBlocks.Pairwise (fun a b =>
    a.m_bytecodeIndex + a.m_numBytecodesInBB ≤ b.m_bytecodeIndex ∨
    b.m_bytecodeIndex + b.m_numBytecodesInBB ≤ a.m_bytecodeIndex)

/-- Offset of the bytecode at position `k` of the basic block. -/
def instrOffset (decoder : BytecodeDecoder) (bbInfo : BasicBlockUpvalueInfo) (k : Nat) : Nat :=
  (bytecodeOffsetsFrom decoder bbInfo.m_numBytecodesInBB bbInfo.m_bytecodeOffset).getD k 0

/-- The decoded def and use lists of the blocks of the heap, in heap order. -/
def heapInstrs (codeBlock : CodeBlock) (cf : DfgControlFlowAndUpvalueAnalysisResult)
    (order : List Nat) : List (List (List Nat × List Nat)) :=
  (List.range order.length).map (fun b =>
    instrsRev codeBlock.decoder (blockOfOrd cf order b) codeBlock.m_stackFrameNumSlots)

/-- Index in the function of the bytecode at position `nd.2` of basic block `nd.1`. -/
def nodeIndex (cfUvInfo : DfgControlFlowAndUpvalueAnalysisResult) (nd : Nat × Nat) : Nat :=
  (cfUvInfo.m_basicBlocks.getD nd.1 default).m_bytecodeIndex + nd.2

/-- Def list of the bytecode at position `nd.2` of basic block `nd.1`. -/
def nodeDefs (codeBlock : CodeBlock) (cfUvInfo : DfgControlFlowAndUpvalueAnalysisResult)
    (nd : Nat × Nat) : List Nat :=
  defsOf codeBlock.decoder
    (instrOffset codeBlock.decoder (cfUvInfo.m_basicBlocks.getD nd.1 default) nd.2)

/-- Use list of the bytecode at position `nd.2` of basic block `nd.1`. -/
def nodeUses (codeBlock : CodeBlock) (cfUvInfo : DfgControlFlowAndUpvalueAnalysisResult)
    (nd : Nat × Nat) : List Nat :=
  usesOf codeBlock.decoder (cfUvInfo.m_basicBlocks.getD nd.1 default)
    codeBlock.m_stackFrameNumSlots
    (instrOffset codeBlock.decoder (cfUvInfo.m_basicBlocks.getD nd.1 default) nd.2)

/-- The pair names a bytecode of a basic block. -/
def ValidNode (cfUvInfo : DfgControlFlowAndUpvalueAnalysisResult) (nd : Nat × Nat) : Prop :=
  nd.1 < cfUvInfo.m_basicBlocks.length ∧
  nd.2 < (cfUvInfo.m_basicBlocks.getD nd.1 default).m_numBytecodesInBB

/-- Control-flow edge: the next bytecode inside a block, or the last bytecode of
a block to the first bytecode of a successor block. -/
def FlowEdge (cfUvInfo : DfgControlFlowAndUpvalueAnalysisResult) (a b : Nat × Nat) : Prop :=
  (b.1 = a.1 ∧ b.2 = a.2 + 1 ∧
    a.2 + 1 < (cfUvInfo.m_basicBlocks.getD a.1 default).m_numBytecodesInBB) ∨
  (a.2 + 1 = (cfUvInfo.m_basicBlocks.getD a.1 default).m_numBytecodesInBB ∧
    b.1 ∈ (cfUvInfo.m_basicBlocks.getD a.1 default).m_successors ∧ b.2 = 0)

/-- A control-flow path whose last bytecode has `s` in its use list and none of
whose earlier bytecodes has `s` in its def list. -/
def UsePath (codeBlock : CodeBlock) (cfUvInfo : DfgControlFlowAndUpvalueAnalysisResult)
    (s : Nat) : List (Nat × Nat) → Prop
  | [] => False
  | [nd] => s ∈ nodeUses codeBlock cfUvInfo nd
  | nd :: nd' :: rest =>
    s ∉ nodeDefs codeBlock cfUvInfo nd ∧ FlowEdge cfUvInfo nd nd' ∧
      UsePath codeBlock cfUvInfo s (nd' :: rest)

/-- Offset of the bytecode at position `nd.2` of basic block `nd.1`. -/
def nodeOffset (codeBlock : CodeBlock) (cfUvInfo : DfgControlFlowAndUpvalueAnalysisResult)
    (nd : Nat × Nat) : Nat :=
  instrOffset codeBlock.decoder (cfUvInfo.m_basicBlocks.getD nd.1 default) nd.2

/-- No epoch is held by two fields: a last-checked epoch that was assigned
differs from every last-changed epoch and from the last-checked epoch of every
other block, and a last-changed epoch that was assigned differs from the
last-changed epoch of every other block. A field that was never assigned
holds 0. -/
def EpochsDistinct (heap : List BytecodeLivenessBBInfo) : Prop :=
  ∀ b b',
    ((heap.getD b default).m_lastCheckedEpoch ≠ 0 →
      (heap.getD b default).m_lastCheckedEpoch ≠ (heap.getD b' default).m_lastChangedEpoch) ∧
    (b ≠ b' → (heap.getD b default).m_lastCheckedEpoch ≠ 0 →
      (heap.getD b default).m_lastCheckedEpoch ≠ (heap.getD b' default).m_lastCheckedEpoch) ∧
    (b ≠ b' → (heap.getD b default).m_lastChangedEpoch ≠ 0 →
      (heap.getD b default).m_lastChangedEpoch ≠ (heap.getD b' default).m_lastChangedEpoch)

/-! ## The masks of the constructor -/

/-- The def and use lists of the bytecodes of a block, in program order. -/
def blockInstrs (decoder : BytecodeDecoder) (bbInfo : BasicBlockUpvalueInfo) (numLocals : Nat) :
    List (List Nat × List Nat) :=
  (bytecodeOffsetsFrom decoder bbInfo.m_numBytecodesInBB bbInfo.m_bytecodeOffset).map
    (fun off => (defsOf decoder off, usesOf decoder bbInfo numLocals off))

/-- The first of the def and use lists, in the order given, that mentions the
slot `i` in the def list or in the use list. -/
def firstMention (instrs : List (List Nat × List Nat)) (i : Nat) : Option (List Nat × List Nat) :=
  instrs.find? (fun du => decide (i ∈ du.1) || decide (i ∈ du.2))

/-! ## A small function used to instantiate the theorems

Six bytecodes at offsets 0, 10, ..., 50 and eight locals. Block 0 (bytecodes
0 and 1) writes local 0 and branches on it; block 1 (bytecodes 2 and 3) is a
loop that creates a closure into local 2 capturing the parent locals 2, 1
and 3 and then writes local 1; block 2 (bytecode 4) reads local 2 and closes
the upvalues from local 4 on; bytecode 5 is unreachable. -/

/-- Prototype of the closure created at offset 20. -/
def exampleProto : UnlinkedCodeBlock :=
  { m_upvalueInfo := [⟨true, 2⟩, ⟨true, 1⟩, ⟨false, 5⟩, ⟨true, 3⟩] }

/-- Decoder of the example function. -/
def exampleDecoder : BytecodeDecoder :=
  { GetNextBytecodePosition := fun off => off + 10
    GetDataFlowWriteInfo := fun off =>
      if off = 0 then [BytecodeRWCDesc.Local 0]
      else if off = 20 then [BytecodeRWCDesc.Local 2]
      else if off = 30 then [BytecodeRWCDesc.Local 1]
      else []
    GetDataFlowReadInfo := fun off =>
      if off = 10 then [BytecodeRWCDesc.Local 0]
      else if off = 40 then [BytecodeRWCDesc.Local 2]
      else []
    GetBytecodeIntrinsicInfo := fun off =>
      if off = 20 then BytecodeIntrinsicInfo.CreateClosure exampleProto
      else if off = 40 then BytecodeIntrinsicInfo.UpvalueClose 4
      else BytecodeIntrinsicInfo.NoIntrinsic }

/-- The bit vector of eight bits with exactly the bits of `slots` set. -/
def exampleBits (slots : List Nat) : TempBitVector :=
  slots.foldl SetBit (TempBitVector.Reset 8)

/-- Entry block of the example function. -/
def exampleBlock0 : BasicBlockUpvalueInfo :=
  { m_bytecodeOffset := 0, m_bytecodeIndex := 0, m_numBytecodesInBB := 2
    m_isLocalCapturedAtHead := exampleBits [], m_isLocalCapturedInBB := exampleBits []
    m_successors := [1, 2] }

/-- Loop block of the example function. -/
def exampleBlock1 : BasicBlockUpvalueInfo :=
  { m_bytecodeOffset := 20, m_bytecodeIndex := 2, m_numBytecodesInBB := 2
    m_isLocalCapturedAtHead := exampleBits [], m_isLocalCapturedInBB := exampleBits [1, 3]
    m_successors := [1, 2] }

/-- Exit block of the example function. -/
def exampleBlock2 : BasicBlockUpvalueInfo :=
  { m_bytecodeOffset := 40, m_bytecodeIndex := 4, m_numBytecodesInBB := 1
    m_isLocalCapturedAtHead := exampleBits [3, 5], m_isLocalCapturedInBB := exampleBits [7]
    m_successors := [] }

/-- Control-flow graph of the example function. -/
def exampleCfg : DfgControlFlowAndUpvalueAnalysisResult :=
  { m_basicBlocks := [exampleBlock0, exampleBlock1, exampleBlock2] }

/-- Code block of the example function. -/
def exampleCodeBlock : CodeBlock :=
  { m_stackFrameNumSlots := 8, m_numBytecodes := 6, decoder := exampleDecoder }

/-- The property stated for the after-use sets, for the bytecodes that have a
next bytecode in their block: every slot in the before-use set of the next
bytecode is in the after-use set. -/
def AfterUseCoversNext (cfUvInfo : DfgControlFlowAndUpvalueAnalysisResult)
    (r : BytecodeLiveness) : Prop :=
  ∀ nd : Nat × Nat, ValidNode cfUvInfo nd →
    nd.2 + 1 < (cfUvInfo.m_basicBlocks.getD nd.1 default).m_numBytecodesInBB →
    ∀ s, (r.m_beforeUse.getD (nodeIndex cfUvInfo nd + 1) default).IsSet s = true →
      (r.m_afterUse.getD (nodeIndex cfUvInfo nd) default).IsSet s = true

/-- The visit of the block at `bbOrd` that leads from `st` to `st'` has
re-evaluated the block: the epoch counter went up, the block was stamped with
the first new epoch, and its tail is the union of the heads that its
successors had in `st`. -/
def Reevaluated (st st' : FixpointState) (bbOrd : Nat) : Prop :=
  st.currentEpoch < st'.currentEpoch ∧
  (st'.bbLivenessInfo.getD bbOrd default).m_lastCheckedEpoch = st.currentEpoch + 1 ∧
  ∀ i, (st'.bbLivenessInfo.getD bbOrd default).m_atTail.IsSet i =
    (st.bbLivenessInfo.getD bbOrd default).m_successors.any
      (fun s => (st.bbLivenessInfo.getD s default).m_atHead.IsSet i)

/-- The loop of `UpdateBitVectorAfterMonotonicPropagation` on a word-addressed
memory, after `k` iterations: `bvData` and `copyFromData` are the addresses of
the two storages, the result is the `changed` flag and the memory. Iteration `i`
compares `bvData[i]` with `copyFromData[i]` and then stores `copyFromData[i]` to
`bvData[i]`. -/
def updateLoop (bvData copyFromData : Nat) : Nat → (Nat → Nat) → Bool × (Nat → Nat)
  | 0, mem => (false, mem)
  | k + 1, mem =>
    let r := updateLoop bvData copyFromData k mem
    (r.1 || decide (r.2 (bvData + k) ≠ r.2 (copyFromData + k)),
     Function.update r.2 (bvData + k) (r.2 (copyFromData + k)))

/-- The storage words of `bv` lie in the memory from address `p`. -/
def StoredAt (mem : Nat → Nat) (p : Nat) (bv : TempBitVector) : Prop :=
  ∀ i, i < bv.GetAllocLength → mem (p + i) = bv.m_data.getD i 0

/-- The example memory: one word at address 0 holding 0 and one word at
address 8 holding 1. -/
def exampleUpdateMemory : Nat → Nat := fun a => if a = 8 then 1 else 0

end dfg

namespace ToyLang

/-! ## The bytecode interpreter (`toylang/bytecode.h`)

Conventions of the embedding.

* The stack is a map from word addresses to 64-bit words (`Nat`); a `TValue*` or
  frame pointer is a word address, so pointer arithmetic on `TValue*` is
  addition of word counts. A `StackFrameHeader` is 32 bytes, four words:
  `m_caller`, `m_retAddr`, `m_func`, and one word that packs
  `m_callerBytecodeOffset` (low 32 bits) and `m_numVariadicArguments` (high 32
  bits).
* The bytecode stream is a map from byte addresses to the packed instruction
  stored there; instruction sizes are the sizes of the packed classes.
* A handler returns the state it leaves and the tail call it makes: a
  `Dispatch` or a call through a function pointer. `none` stands for a failed
  `ReleaseAssert` or `SafeIntegerCast`, which abort the process, and for a
  failed `assert`.
* `x_isDebugBuild` tells whether the build has assertions (`NDEBUG` is not
  defined): then `assert` is checked and the code under `DEBUG_ONLY` runs. Where
  an `assert` on the arguments or on the state fails the embedding gives `none`
  in either build: with assertions the process aborts there, without them the
  handler goes on outside its contract, which the embedding does not follow.
  `assert(false && "unimplemented")`, alone in an else branch, is followed in
  both builds: with assertions it aborts, without them the branch is empty and
  the handler returns without a tail call (`Next.returns`).
* The heap is a map from word addresses to words, apart from the stack. The
  operations of the table object (`TableObject`, not among the sources) are
  parameters that read and write the heap. The type of a heap object does not
  change; the constant table and the global object of the runtime context,
  which no handler writes, are read from the environment.
-/

/-- The operations of `TValue` (declared in `vm.h`) that the handlers use, on
64-bit words; doubles are their IEEE-754 bit patterns. `Nil` is
`TValue::CreateMIV(MiscImmediateValue::CreateNil(), TValue::x_mivTag)`. -/
structure TValueOps where
  Nil : Nat
  IsPointer : Nat → Bool
  AsPointer : Nat → Nat
  IsDouble : Nat → Bool
  AsDouble : Nat → Nat
  CreateDouble : Nat → Nat
  fadd : Nat → Nat → Nat
  fsub : Nat → Nat → Nat
  flt : Nat → Nat → Bool
  IsInt32 : Nat → Bool
  AsInt32 : Nat → Int

/-- Operand of a bytecode: a local (non-negative) or a constant (negative). -/
structure BytecodeSlot where
  m_value : Int
deriving DecidableEq, Repr, Inhabited

namespace BytecodeSlot

/-- The value of a default-constructed slot. -/
def x_invalidValue : Int := 0x7fffffff

/-- The default constructor `BytecodeSlot()`. -/
def new : BytecodeSlot := { m_value := x_invalidValue }

/-- The slot of local `ord`; the type of `ord` stands for `assert(ord >= 0)`. -/
def Local (ord : Nat) : BytecodeSlot := { m_value := ord }

/-- The slot of constant `ord`; asserts that `ord` is negative. -/
def Constant (ord : Int) : Option BytecodeSlot :=
  if ord < 0 then some { m_value := ord } else none

/-- Whether the slot is the invalid slot. -/
def IsInvalid (slot : BytecodeSlot) : Bool := decide (slot.m_value = x_invalidValue)

/-- Whether the slot names a local; asserts that the slot is valid. -/
def IsLocal (slot : BytecodeSlot) : Option Bool :=
  if slot.IsInvalid then none else some (decide (0 ≤ slot.m_value))

/-- Whether the slot names a constant; asserts that the slot is valid. -/
def IsConstant (slot : BytecodeSlot) : Option Bool :=
  if slot.IsInvalid then none else some (decide (slot.m_value < 0))

/-- Ordinal of a constant slot; asserts that the slot is a constant. -/
def ConstantOrd (slot : BytecodeSlot) : Option Int :=
  match slot.IsConstant with
  | some true => some slot.m_value
  | _ => none

/-- Ordinal of a local slot; asserts that the slot is a local. -/
def LocalOrd (slot : BytecodeSlot) : Option Nat :=
  match slot.IsLocal with
  | some true => some slot.m_value.toNat
  | _ => none

end BytecodeSlot

/-- The runtime context, as far as the handlers of calls and returns use it. -/
structure CoroutineRuntimeContext where
  m_numVariadicRets : Nat
  m_variadicRetSlotBegin : Nat
deriving DecidableEq, Repr, Inhabited

/-- An `ExecutableCode`; for a bytecode function it is a `CodeBlock`, whose
`m_stackFrameNumSlots` is included. Pointers are addresses. -/
structure ExecutableCode where
  m_hasVariadicArguments : Bool
  m_numFixedArguments : Nat
  m_bytecode : Nat
  m_bestEntryPoint : Nat
  m_stackFrameNumSlots : Nat
deriving DecidableEq, Repr, Inhabited

namespace ExecutableCode

/-- The bytecode pointer, read as `intptr_t`, is positive. -/
def IsBytecodeFunction (ec : ExecutableCode) : Bool :=
  decide (0 < ec.m_bytecode) && decide (ec.m_bytecode < 2 ^ 63)

end ExecutableCode

/-- The instructions, with the fields of their packed classes. -/
inductive Bytecode where
  | BcTableGetById (m_base m_dst : BytecodeSlot) (m_index : Nat)
  | BcTablePutById (m_base m_src : BytecodeSlot) (m_index : Nat)
  | BcTableGetByVal (m_base m_index m_dst : BytecodeSlot)
  | BcTablePutByVal (m_base m_index m_src : BytecodeSlot)
  | BcGlobalGet (m_dst : BytecodeSlot) (m_index : Nat)
  | BcGlobalPut (m_src : BytecodeSlot) (m_index : Nat)
  | BcReturn (m_isVariadicRet : Bool) (m_numReturnValues : Nat) (m_slotBegin : BytecodeSlot)
  | BcCall (m_keepVariadicRet m_passVariadicRetAsParam : Bool)
      (m_numFixedParams m_numFixedRets : Nat) (m_funcSlot : BytecodeSlot)
  | BcAddVV (m_lhs m_rhs m_result : BytecodeSlot)
  | BcSubVV (m_lhs m_rhs m_result : BytecodeSlot)
  | BcIsLTVV (m_lhs m_rhs : BytecodeSlot) (m_offset : Int)
  | BcConstant (m_dst : BytecodeSlot) (m_value : Nat)
deriving DecidableEq, Repr

/-- The operations of `TableObject` that the handlers call, on the heap; a
table and a key are words, an `ICInfo` is a number, and the operations that
put a value return the heap they leave. -/
structure TableOps where
  PrepareGetById : (Nat → Nat) → Nat → Nat → Nat
  GetById : (Nat → Nat) → Nat → Nat → Nat → Nat
  PreparePutById : (Nat → Nat) → Nat → Nat → Nat
  PutById : (Nat → Nat) → Nat → Nat → Nat → Nat → (Nat → Nat)
  PrepareGetByIntegerIndex : (Nat → Nat) → Nat → Nat
  GetByIntegerIndex : (Nat → Nat) → Nat → Int → Nat → Nat
  GetByDoubleVal : (Nat → Nat) → Nat → Nat → Nat → Nat
  PutByValIntegerIndex : (Nat → Nat) → Nat → Int → Nat → (Nat → Nat)
  PutByValDoubleIndex : (Nat → Nat) → Nat → Nat → Nat → (Nat → Nat)

/-- What the handlers read besides the stack and the heap: the `TValue`
operations, the bytecode stream, the executable of each function object
(`TCGet(func->m_executable).As()`), which heap objects have
`m_type == Type::FUNCTION`, the address of `BcCall::OnReturn`, which heap
objects have `m_type == Type::TABLE`, the operations of the table object, the
constant table `rc->m_constants` and the global object `rc->m_globalObject`,
and whether the build has assertions. -/
structure Env where
  ops : TValueOps
  code : Nat → Option Bytecode
  executableOf : Nat → ExecutableCode
  isFunctionObject : Nat → Bool
  x_OnReturn : Nat
  isTableObject : Nat → Bool
  table : TableOps
  m_constants : Nat → Nat
  m_globalObject : Nat
  x_isDebugBuild : Bool

/-- The mutable state: the stack, the runtime context and the heap. -/
structure State where
  stack : Nat → Nat
  rc : CoroutineRuntimeContext
  heap : Nat → Nat

/-- The way a handler ends: the tail call `Dispatch(rc, stackframe, instr)`, a
tail call `fn(rc, a1, a2, a3)` through a function pointer, or a return
without a tail call. -/
inductive Next where
  | dispatch (stackframe : Nat) (instr : Nat)
  | call (fn : Nat) (a1 a2 a3 : Nat)
  | returns
deriving DecidableEq, Repr

/-- The end of a handler at `assert(false && "unimplemented")`, in the state
`st`: with assertions the process aborts, without them the handler returns. -/
def unimplemented (env : Env) (st : State) : Option (State × Next) :=
  if env.x_isDebugBuild then none else some (st, Next.returns)

/-- Store one word. -/
def store (stack : Nat → Nat) (addr value : Nat) : Nat → Nat :=
  fun a => if a = addr then value else stack a

/-- `SafeMemcpy` and `memmove` of `n` words: every destination word receives
the content the source word had before the copy. (`SafeMemcpy` is declared in
`common_utils.h`; for overlapping regions `memcpy` is undefined.) -/
def SafeMemcpy (stack : Nat → Nat) (dst src n : Nat) : Nat → Nat :=
  fun a => if dst ≤ a ∧ a < dst + n then stack (src + (a - dst)) else stack a

/-- `x_sizeOfStackFrameHeaderInTermsOfTValue`: 32 bytes over 8 bytes. -/
def x_sizeOfStackFrameHeaderInTermsOfTValue : Nat := 4

/-- `x_minNilFillReturnValues`. -/
def x_minNilFillReturnValues : Nat := 3

namespace StackFrameHeader

/-- `GetStackFrameHeader(sfp)`: the header ends where the locals begin. -/
def GetStackFrameHeader (sfp : Nat) : Nat := sfp - x_sizeOfStackFrameHeaderInTermsOfTValue

/-- Read `hdr->m_caller`. -/
def m_caller (stack : Nat → Nat) (hdr : Nat) : Nat := stack hdr

/-- Read `hdr->m_retAddr`. -/
def m_retAddr (stack : Nat → Nat) (hdr : Nat) : Nat := stack (hdr + 1)

/-- Read `hdr->m_func`. -/
def m_func (stack : Nat → Nat) (hdr : Nat) : Nat := stack (hdr + 2)

/-- Read `hdr->m_callerBytecodeOffset`. -/
def m_callerBytecodeOffset (stack : Nat → Nat) (hdr : Nat) : Nat := stack (hdr + 3) % 2 ^ 32

/-- Read `hdr->m_numVariadicArguments`. -/
def m_numVariadicArguments (stack : Nat → Nat) (hdr : Nat) : Nat :=
  stack (hdr + 3) / 2 ^ 32 % 2 ^ 32

/-- Write `hdr->m_callerBytecodeOffset`. -/
def set_m_callerBytecodeOffset (stack : Nat → Nat) (hdr value : Nat) : Nat → Nat :=
  store stack (hdr + 3) (stack (hdr + 3) / 2 ^ 32 * 2 ^ 32 + value % 2 ^ 32)

/-- Write `hdr->m_numVariadicArguments`. -/
def set_m_numVariadicArguments (stack : Nat → Nat) (hdr value : Nat) : Nat → Nat :=
  store stack (hdr + 3) (value % 2 ^ 32 * 2 ^ 32 + stack (hdr + 3) % 2 ^ 32)

/-- `GetLocalAddr(sfp, slot)`; asserts that the slot is a local. -/
def GetLocalAddr (sfp : Nat) (slot : BytecodeSlot) : Option Nat :=
  match slot.LocalOrd with
  | some ord => some (sfp + ord)
  | none => none

/-- `GetLocal(sfp, slot)`. -/
def GetLocal (stack : Nat → Nat) (sfp : Nat) (slot : BytecodeSlot) : Option Nat :=
  match GetLocalAddr sfp slot with
  | some addr => some (stack addr)
  | none => none

end StackFrameHeader

/-! ## Sizes of the packed instruction classes -/

/-- `sizeof(BcReturn)`: opcode, flag, `uint16_t`, slot. -/
def sizeofBcReturn : Nat := 8

/-- `sizeof(BcCall)`: opcode, two flags, two `uint32_t`, slot. -/
def sizeofBcCall : Nat := 15

/-- `sizeof(BcAddVV)`: opcode and three slots. -/
def sizeofBcAddVV : Nat := 13

/-- `sizeof(BcSubVV)`: opcode and three slots. -/
def sizeofBcSubVV : Nat := 13

/-- `sizeof(BcIsLTVV)`: opcode, two slots, `int32_t`. -/
def sizeofBcIsLTVV : Nat := 13

/-- `sizeof(BcConstant)`: opcode, slot, `TValue`. -/
def sizeofBcConstant : Nat := 13

/-- `sizeof(BcTableGetById)`: opcode, two slots, `uint32_t`. -/
def sizeofBcTableGetById : Nat := 13

/-- `sizeof(BcTablePutById)`: opcode, two slots, `uint32_t`. -/
def sizeofBcTablePutById : Nat := 13

/-- `sizeof(BcTableGetByVal)`: opcode and three slots. -/
def sizeofBcTableGetByVal : Nat := 13

/-- `sizeof(BcTablePutByVal)`: opcode and three slots. -/
def sizeofBcTablePutByVal : Nat := 13

/-- `sizeof(BcGlobalGet)`: opcode, slot, `uint32_t`. -/
def sizeofBcGlobalGet : Nat := 9

/-- `sizeof(BcGlobalPut)`: opcode, slot, `uint32_t`. -/
def sizeofBcGlobalPut : Nat := 9

/-! ## The handlers -/

namespace BcTableGetById

/-- `BcTableGetById::Execute`. -/
def Execute (env : Env) (st : State) (sfp bcu : Nat) : Option (State × Next) :=
  match env.code bcu with
  | some (Bytecode.BcTableGetById m_base m_dst m_index) =>
    match StackFrameHeader.GetLocalAddr sfp m_base with
    | none => none
    | some baseAddr =>
      let tvbase := st.stack baseAddr
      if ¬ env.ops.IsPointer (env.m_constants m_index) then none else
      let index := env.ops.AsPointer (env.m_constants m_index)
      if ¬ env.ops.IsPointer tvbase then none
      else
        let base := env.ops.AsPointer tvbase
        if ¬ env.isTableObject base then none else
        let icInfo := env.table.PrepareGetById st.heap base index
        let result := env.table.GetById st.heap base index icInfo
        match StackFrameHeader.GetLocalAddr sfp m_dst with
        | none => none
        | some dst =>
          some ({ st with stack := store st.stack dst result },
            Next.dispatch sfp (bcu + sizeofBcTableGetById))
  | _ => none

end BcTableGetById

namespace BcTablePutById

/-- `BcTablePutById::Execute`. -/
def Execute (env : Env) (st : State) (sfp bcu : Nat) : Option (State × Next) :=
  match env.code bcu with
  | some (Bytecode.BcTablePutById m_base m_src m_index) =>
    match StackFrameHeader.GetLocalAddr sfp m_base with
    | none => none
    | some baseAddr =>
      let tvbase := st.stack baseAddr
      if ¬ env.ops.IsPointer (env.m_constants m_index) then none else
      let index := env.ops.AsPointer (env.m_constants m_index)
      if ¬ env.ops.IsPointer tvbase then none
      else
        let base := env.ops.AsPointer tvbase
        if ¬ env.isTableObject base then none else
        let icInfo := env.table.PreparePutById st.heap base index
        match StackFrameHeader.GetLocalAddr sfp m_src with
        | none => none
        | some src =>
          let newValue := st.stack src
          some ({ st with heap := env.table.PutById st.heap base index newValue icInfo },
            Next.dispatch sfp (bcu + sizeofBcTablePutById))
  | _ => none

end BcTablePutById

namespace BcTableGetByVal

/-- `BcTableGetByVal::Execute`. -/
def Execute (env : Env) (st : State) (sfp bcu : Nat) : Option (State × Next) :=
  match env.code bcu with
  | some (Bytecode.BcTableGetByVal m_base m_index m_dst) =>
    match StackFrameHeader.GetLocalAddr sfp m_base with
    | none => none
    | some baseAddr =>
      let tvbase := st.stack baseAddr
      if ¬ env.ops.IsPointer tvbase then none
      else
        let base := env.ops.AsPointer tvbase
        if ¬ env.isTableObject base then none else
        match StackFrameHeader.GetLocalAddr sfp m_index with
        | none => none
        | some indexAddr =>
          let index := st.stack indexAddr
          let result : Option Nat :=
            if env.ops.IsInt32 index then
              let icInfo := env.table.PrepareGetByIntegerIndex st.heap base
              some (env.table.GetByIntegerIndex st.heap base (env.ops.AsInt32 index) icInfo)
            else if env.ops.IsDouble index then
              let icInfo := env.table.PrepareGetByIntegerIndex st.heap base
              some (env.table.GetByDoubleVal st.heap base (env.ops.AsDouble index) icInfo)
            else if env.ops.IsPointer index then
              let icInfo := env.table.PrepareGetById st.heap base (env.ops.AsPointer index)
              some (env.table.GetById st.heap base (env.ops.AsPointer index) icInfo)
            else none
          match result with
          | none => none
          | some result =>
            match StackFrameHeader.GetLocalAddr sfp m_dst with
            | none => none
            | some dst =>
              some ({ st with stack := store st.stack dst result },
                Next.dispatch sfp (bcu + sizeofBcTableGetByVal))
  | _ => none

end BcTableGetByVal

namespace BcTablePutByVal

/-- `BcTablePutByVal::Execute`. -/
def Execute (env : Env) (st : State) (sfp bcu : Nat) : Option (State × Next) :=
  match env.code bcu with
  | some (Bytecode.BcTablePutByVal m_base m_index m_src) =>
    match StackFrameHeader.GetLocalAddr sfp m_base with
    | none => none
    | some baseAddr =>
      let tvbase := st.stack baseAddr
      if ¬ env.ops.IsPointer tvbase then none
      else
        let base := env.ops.AsPointer tvbase
        if ¬ env.isTableObject base then none else
        match StackFrameHeader.GetLocalAddr sfp m_index, StackFrameHeader.GetLocalAddr sfp m_src with
        | some indexAddr, some src =>
          let index := st.stack indexAddr
          let newValue := st.stack src
          let heap : Option (Nat → Nat) :=
            if env.ops.IsInt32 index then
              some (env.table.PutByValIntegerIndex st.heap base (env.ops.AsInt32 index) newValue)
            else if env.ops.IsDouble index then
              some (env.table.PutByValDoubleIndex st.heap base (env.ops.AsDouble index) newValue)
            else if env.ops.IsPointer index then
              let icInfo := env.table.PreparePutById st.heap base (env.ops.AsPointer index)
              some (env.table.PutById st.heap base (env.ops.AsPointer index) newValue icInfo)
            else none
          match heap with
          | none => none
          | some heap =>
            some ({ st with heap := heap }, Next.dispatch sfp (bcu + sizeofBcTablePutByVal))
        | _, _ => none
  | _ => none

end BcTablePutByVal

namespace BcGlobalGet

/-- `BcGlobalGet::Execute`. -/
def Execute (env : Env) (st : State) (sfp bcu : Nat) : Option (State × Next) :=
  match env.code bcu with
  | some (Bytecode.BcGlobalGet m_dst m_index) =>
    if ¬ env.ops.IsPointer (env.m_constants m_index) then none else
    let index := env.ops.AsPointer (env.m_constants m_index)
    let base := env.m_globalObject
    let icInfo := env.table.PrepareGetById st.heap base index
    let result := env.table.GetById st.heap base index icInfo
    match StackFrameHeader.GetLocalAddr sfp m_dst with
    | none => none
    | some dst =>
      some ({ st with stack := store st.stack dst result },
        Next.dispatch sfp (bcu + sizeofBcGlobalGet))
  | _ => none

end BcGlobalGet

namespace BcGlobalPut

/-- `BcGlobalPut::Execute`. -/
def Execute (env : Env) (st : State) (sfp bcu : Nat) : Option (State × Next) :=
  match env.code bcu with
  | some (Bytecode.BcGlobalPut m_src m_index) =>
    if ¬ env.ops.IsPointer (env.m_constants m_index) then none else
    let index := env.ops.AsPointer (env.m_constants m_index)
    match StackFrameHeader.GetLocalAddr sfp m_src with
    | none => none
    | some src =>
      let newValue := st.stack src
      let base := env.m_globalObject
      let icInfo := env.table.PreparePutById st.heap base index
      some ({ st with heap := env.table.PutById st.heap base index newValue icInfo },
        Next.dispatch sfp (bcu + sizeofBcGlobalPut))
  | _ => none

end BcGlobalPut

/-- The loop `while (idx < x_minNilFillReturnValues) { pbegin[idx] = nil; idx++; }`;
the first argument bounds the number of iterations. -/
def nilFillLoop (nil pbegin : Nat) : Nat → Nat → (Nat → Nat) → (Nat → Nat)
  | 0, _, stack => stack
  | fuel + 1, idx, stack =>
    if idx < x_minNilFillReturnValues then
      nilFillLoop nil pbegin fuel (idx + 1) (store stack (pbegin + idx) nil)
    else stack

/-- The loop `while (p < end) { *p = nil; p++; }`; the first argument bounds the
number of iterations. -/
def nilPadLoop (nil : Nat) : Nat → Nat → Nat → (Nat → Nat) → (Nat → Nat)
  | 0, _, _, stack => stack
  | fuel + 1, p, e, stack =>
    if p < e then nilPadLoop nil fuel (p + 1) e (store stack p nil) else stack

/-- The loop `while (numRetValues < bc->m_numFixedRets) { dst[numRetValues] = nil;
numRetValues++; }`; the first argument bounds the number of iterations. -/
def retNilLoop (nil dst numFixedRets : Nat) : Nat → Nat → (Nat → Nat) → (Nat → Nat)
  | 0, _, stack => stack
  | fuel + 1, numRetValues, stack =>
    if numRetValues < numFixedRets then
      retNilLoop nil dst numFixedRets fuel (numRetValues + 1) (store stack (dst + numRetValues) nil)
    else stack

/-- `DEBUG_ONLY(rc->m_numVariadicRets = static_cast<uint32_t>(-1);)`: the
assignment is made in a build with assertions only. -/
def invalidateVariadicRets (env : Env) (rc : CoroutineRuntimeContext) :
    CoroutineRuntimeContext :=
  if env.x_isDebugBuild then { rc with m_numVariadicRets := 2 ^ 32 - 1 } else rc

namespace BcReturn

/-- `BcReturn::Execute`. -/
def Execute (env : Env) (st : State) (sfp bcu : Nat) : Option (State × Next) :=
  match env.code bcu with
  | some (Bytecode.BcReturn m_isVariadicRet m_numReturnValues m_slotBegin) =>
    match StackFrameHeader.GetLocalAddr sfp m_slotBegin with
    | none => none
    | some pbegin =>
      let numRetValues := m_numReturnValues
      let copied : Option ((Nat → Nat) × Nat) :=
        if m_isVariadicRet then
          if st.rc.m_numVariadicRets = 2 ^ 32 - 1 then none
          else
            let pdst := pbegin + m_numReturnValues
            let psrc := sfp + st.rc.m_variadicRetSlotBegin
            some (SafeMemcpy st.stack pdst psrc st.rc.m_numVariadicRets,
              (numRetValues + st.rc.m_numVariadicRets) % 2 ^ 32)
        else some (st.stack, numRetValues)
      match copied with
      | none => none
      | some (stack, numRetValues) =>
        let rc := invalidateVariadicRets env st.rc
        let stack := nilFillLoop env.ops.Nil pbegin x_minNilFillReturnValues numRetValues stack
        let hdr := StackFrameHeader.GetStackFrameHeader sfp
        let retAddr := StackFrameHeader.m_retAddr stack hdr
        let callerSf := StackFrameHeader.m_caller stack hdr
        some ({ stack := stack, rc := rc, heap := st.heap },
          Next.call retAddr callerSf pbegin numRetValues)
  | _ => none

end BcReturn

namespace BcCall

/-- The branch of `BcCall::Execute` for a callee that takes variadic arguments:
the frame base moves up by the number of excess arguments, the variadic results
(if passed) and the fixed arguments are copied to the frame base, the excess
arguments are copied to the end of the caller frame, and the count is stored in
the header. The result is the stack and the frame base. -/
def setUpVarArgs (stack : Nat → Nat) (sfEnd begin varRetbegin numVariadicRets : Nat)
    (m_passVariadicRetAsParam : Bool) (numFixedArgsToPass totalArgs numCalleeExpectingArgs : Nat) :
    (Nat → Nat) × Nat :=
  let baseForNextFrame := sfEnd + x_sizeOfStackFrameHeaderInTermsOfTValue
  let actualNumVarArgs :=
    if totalArgs > numCalleeExpectingArgs then totalArgs - numCalleeExpectingArgs else 0
  let baseForNextFrame :=
    if totalArgs > numCalleeExpectingArgs then baseForNextFrame + actualNumVarArgs
    else baseForNextFrame
  let stack :=
    if m_passVariadicRetAsParam then
      SafeMemcpy stack (baseForNextFrame + numFixedArgsToPass) varRetbegin numVariadicRets
    else stack
  let stack := SafeMemcpy stack baseForNextFrame begin numFixedArgsToPass
  let stack :=
    if totalArgs > numCalleeExpectingArgs then
      SafeMemcpy stack sfEnd (baseForNextFrame + numCalleeExpectingArgs)
        (totalArgs - numCalleeExpectingArgs)
    else stack
  let sfh := baseForNextFrame - x_sizeOfStackFrameHeaderInTermsOfTValue
  (StackFrameHeader.set_m_numVariadicArguments stack sfh actualNumVarArgs, baseForNextFrame)

/-- The branch of `BcCall::Execute` for a callee without variadic arguments: the
variadic results (if passed) and the fixed arguments are copied to the frame
base, up to the number of arguments the callee accepts. -/
def copyFixedArgs (stack : Nat → Nat) (baseForNextFrame begin varRetbegin numVariadicRets : Nat)
    (m_passVariadicRetAsParam : Bool) (numFixedArgsToPass numCalleeExpectingArgs : Nat) :
    (Nat → Nat) × Nat :=
  let stack :=
    if m_passVariadicRetAsParam then
      if numCalleeExpectingArgs > numFixedArgsToPass then
        SafeMemcpy stack (baseForNextFrame + numFixedArgsToPass) varRetbegin
          (min numVariadicRets (numCalleeExpectingArgs - numFixedArgsToPass))
      else stack
    else stack
  (SafeMemcpy stack baseForNextFrame begin (min numFixedArgsToPass numCalleeExpectingArgs),
    baseForNextFrame)

/-- `BcCall::Execute`. -/
def Execute (env : Env) (st : State) (sfp bcu : Nat) : Option (State × Next) :=
  match env.code bcu with
  | some (Bytecode.BcCall _ m_passVariadicRetAsParam m_numFixedParams _ m_funcSlot) =>
    let hdr := StackFrameHeader.GetStackFrameHeader sfp
    let callerEc := env.executableOf (StackFrameHeader.m_func st.stack hdr)
    if ¬ callerEc.IsBytecodeFunction then none else
    let callerBytecodeStart := callerEc.m_bytecode
    if bcu < callerBytecodeStart ∨ 2 ^ 32 ≤ bcu - callerBytecodeStart then none else
    let stack := StackFrameHeader.set_m_callerBytecodeOffset st.stack hdr (bcu - callerBytecodeStart)
    match StackFrameHeader.GetLocalAddr sfp m_funcSlot with
    | none => none
    | some funcAddr =>
      let func := stack funcAddr
      let begin := funcAddr + 1
      if env.ops.IsPointer func then
        if env.isFunctionObject (env.ops.AsPointer func) then
          let target := env.ops.AsPointer func
          let sfEnd := sfp + callerEc.m_stackFrameNumSlots
          let baseForNextFrame := sfEnd + x_sizeOfStackFrameHeaderInTermsOfTValue
          let numFixedArgsToPass := m_numFixedParams
          let totalArgs :=
            if m_passVariadicRetAsParam then (numFixedArgsToPass + st.rc.m_numVariadicRets) % 2 ^ 32
            else numFixedArgsToPass
          let calleeEc := env.executableOf target
          let numCalleeExpectingArgs := calleeEc.m_numFixedArguments
          let calleeTakesVarArgs := calleeEc.m_hasVariadicArguments
          let varRetbegin := sfp + st.rc.m_variadicRetSlotBegin
          let placed : (Nat → Nat) × Nat :=
            if calleeTakesVarArgs then
              setUpVarArgs stack sfEnd begin varRetbegin st.rc.m_numVariadicRets
                m_passVariadicRetAsParam numFixedArgsToPass totalArgs numCalleeExpectingArgs
            else
              copyFixedArgs stack baseForNextFrame begin varRetbegin st.rc.m_numVariadicRets
                m_passVariadicRetAsParam numFixedArgsToPass numCalleeExpectingArgs
          let stack := placed.1
          let baseForNextFrame := placed.2
          let stack :=
            if totalArgs < numCalleeExpectingArgs then
              nilPadLoop env.ops.Nil (numCalleeExpectingArgs - totalArgs)
                (baseForNextFrame + totalArgs) (baseForNextFrame + numCalleeExpectingArgs) stack
            else stack
          let sfh := baseForNextFrame - x_sizeOfStackFrameHeaderInTermsOfTValue
          let stack := store stack sfh sfp
          let stack := store stack (sfh + 1) env.x_OnReturn
          let stack := store stack (sfh + 2) target
          some ({ st with stack := stack },
            Next.call calleeEc.m_bestEntryPoint baseForNextFrame calleeEc.m_bytecode 0)
        else unimplemented env { st with stack := stack }
      else unimplemented env { st with stack := stack }
  | _ => none

/-- `BcCall::OnReturn`. -/
def OnReturn (env : Env) (st : State) (stackframe retValues numRetValues : Nat) :
    Option (State × Next) :=
  let hdr := StackFrameHeader.GetStackFrameHeader stackframe
  let callerEc := env.executableOf (StackFrameHeader.m_func st.stack hdr)
  if ¬ callerEc.IsBytecodeFunction then none else
  let callerBytecodeStart := callerEc.m_bytecode
  let bcu := callerBytecodeStart + StackFrameHeader.m_callerBytecodeOffset st.stack hdr
  match env.code bcu with
  | some (Bytecode.BcCall m_keepVariadicRet _ _ m_numFixedRets m_funcSlot) =>
    if m_keepVariadicRet then
      if 2 ^ 32 ≤ numRetValues then none else
      if retValues < stackframe ∨ 2 ^ 32 ≤ retValues - stackframe then none else
      some ({ st with rc := { m_numVariadicRets := numRetValues
                              m_variadicRetSlotBegin := retValues - stackframe } },
        Next.dispatch stackframe (bcu + sizeofBcCall))
    else
      match StackFrameHeader.GetLocalAddr stackframe m_funcSlot with
      | none => none
      | some dst =>
        let stack :=
          if m_numFixedRets ≤ x_minNilFillReturnValues then
            SafeMemcpy st.stack dst retValues m_numFixedRets
          else if numRetValues < m_numFixedRets then
            retNilLoop env.ops.Nil dst m_numFixedRets (m_numFixedRets - numRetValues) numRetValues
              (SafeMemcpy st.stack dst retValues numRetValues)
          else SafeMemcpy st.stack dst retValues m_numFixedRets
        some ({ st with stack := stack }, Next.dispatch stackframe (bcu + sizeofBcCall))
  | _ => none

end BcCall

namespace BcAddVV

/-- `BcAddVV::Execute`. -/
def Execute (env : Env) (st : State) (stackframe bcu : Nat) : Option (State × Next) :=
  match env.code bcu with
  | some (Bytecode.BcAddVV m_lhs m_rhs m_result) =>
    match StackFrameHeader.GetLocal st.stack stackframe m_lhs,
      StackFrameHeader.GetLocal st.stack stackframe m_rhs with
    | some lhs, some rhs =>
      if env.ops.IsDouble lhs && env.ops.IsDouble rhs then
        match StackFrameHeader.GetLocalAddr stackframe m_result with
        | none => none
        | some addr =>
          let result := env.ops.CreateDouble (env.ops.fadd (env.ops.AsDouble lhs) (env.ops.AsDouble rhs))
          some ({ st with stack := store st.stack addr result },
            Next.dispatch stackframe (bcu + sizeofBcAddVV))
      else unimplemented env st
    | _, _ => none
  | _ => none

end BcAddVV

namespace BcSubVV

/-- `BcSubVV::Execute`. -/
def Execute (env : Env) (st : State) (stackframe bcu : Nat) : Option (State × Next) :=
  match env.code bcu with
  | some (Bytecode.BcSubVV m_lhs m_rhs m_result) =>
    match StackFrameHeader.GetLocal st.stack stackframe m_lhs,
      StackFrameHeader.GetLocal st.stack stackframe m_rhs with
    | some lhs, some rhs =>
      if env.ops.IsDouble lhs && env.ops.IsDouble rhs then
        match StackFrameHeader.GetLocalAddr stackframe m_result with
        | none => none
        | some addr =>
          let result := env.ops.CreateDouble (env.ops.fsub (env.ops.AsDouble lhs) (env.ops.AsDouble rhs))
          some ({ st with stack := store st.stack addr result },
            Next.dispatch stackframe (bcu + sizeofBcSubVV))
      else unimplemented env st
    | _, _ => none
  | _ => none

end BcSubVV

namespace BcIsLTVV

/-- `BcIsLTVV::Execute`. -/
def Execute (env : Env) (st : State) (stackframe bcu : Nat) : Option (State × Next) :=
  match env.code bcu with
  | some (Bytecode.BcIsLTVV m_lhs m_rhs m_offset) =>
    match StackFrameHeader.GetLocal st.stack stackframe m_lhs,
      StackFrameHeader.GetLocal st.stack stackframe m_rhs with
    | some lhs, some rhs =>
      if env.ops.IsDouble lhs && env.ops.IsDouble rhs then
        if env.ops.flt (env.ops.AsDouble lhs) (env.ops.AsDouble rhs) then
          some (st, Next.dispatch stackframe (((bcu : Int) + m_offset).toNat))
        else some (st, Next.dispatch stackframe (bcu + sizeofBcIsLTVV))
      else unimplemented env st
    | _, _ => none
  | _ => none

end BcIsLTVV

namespace BcConstant

/-- `BcConstant::Execute`. -/
def Execute (env : Env) (st : State) (stackframe bcu : Nat) : Option (State × Next) :=
  match env.code bcu with
  | some (Bytecode.BcConstant m_dst m_value) =>
    match StackFrameHeader.GetLocalAddr stackframe m_dst with
    | none => none
    | some addr =>
      some ({ st with stack := store st.stack addr m_value },
        Next.dispatch stackframe (bcu + sizeofBcConstant))
  | _ => none

end BcConstant

/-! ## Dispatch -/

/-- The `Dispatch` macro: read the opcode at `instr` and tail-call its entry in
`x_interpreter_dispatches`, the `Execute` of the class of the opcode (the table
is declared `extern`). -/
def Dispatch (env : Env) (st : State) (stackframe instr : Nat) : Option (State × Next) :=
  match env.code instr with
  | some (Bytecode.BcTableGetById _ _ _) => BcTableGetById.Execute env st stackframe instr
  | some (Bytecode.BcTablePutById _ _ _) => BcTablePutById.Execute env st stackframe instr
  | some (Bytecode.BcTableGetByVal _ _ _) => BcTableGetByVal.Execute env st stackframe instr
  | some (Bytecode.BcTablePutByVal _ _ _) => BcTablePutByVal.Execute env st stackframe instr
  | some (Bytecode.BcGlobalGet _ _) => BcGlobalGet.Execute env st stackframe instr
  | some (Bytecode.BcGlobalPut _ _) => BcGlobalPut.Execute env st stackframe instr
  | some (Bytecode.BcReturn _ _ _) => BcReturn.Execute env st stackframe instr
  | some (Bytecode.BcCall _ _ _ _ _) => BcCall.Execute env st stackframe instr
  | some (Bytecode.BcAddVV _ _ _) => BcAddVV.Execute env st stackframe instr
  | some (Bytecode.BcSubVV _ _ _) => BcSubVV.Execute env st stackframe instr
  | some (Bytecode.BcIsLTVV _ _ _) => BcIsLTVV.Execute env st stackframe instr
  | some (Bytecode.BcConstant _ _) => BcConstant.Execute env st stackframe instr
  | none => none

/-- The chain of tail calls that starts with `Dispatch(rc, stackframe, instr)`
and runs handler after handler until one of them ends in a call through a
function pointer or returns; the result is the state at that point and the
way the handler ended. The first
argument bounds the number of handlers run. -/
def dispatchChain (env : Env) : Nat → State → Nat → Nat → Option (State × Next)
  | 0, _, _, _ => none
  | fuel + 1, st, stackframe, instr =>
    match Dispatch env st stackframe instr with
    | some (st', Next.dispatch stackframe' instr') => dispatchChain env fuel st' stackframe' instr'
    | r => r

/-- `EnterInterpreter(rc, sfp, bcu, unused)`: `Dispatch(rc, sfp, bcu)`, followed
through the handlers it tail-calls. -/
def EnterInterpreter (fuel : Nat) (env : Env) (st : State) (sfp bcu : Nat) :
    Option (State × Next) :=
  dispatchChain env fuel st sfp bcu

/-! ## Definitions used to state and prove the contracts -/

/-! ## A small machine used to instantiate the theorems

Doubles are boxed by adding `2 ^ 49` to their bit pattern, pointers are the
words below `2 ^ 48` that are multiples of 8, nil is the word 2. -/

/-- The bit pattern of the double 5.0. -/
def double5 : Nat := 0x4014000000000000

/-- The bit pattern of the double 3.0. -/
def double3 : Nat := 0x4008000000000000

/-- The bit pattern of the double 8.0. -/
def double8 : Nat := 0x4020000000000000

/-- Sum of two positive normal doubles given by their bit patterns, rounded to
nearest even; other operands give 0. -/
def exampleFadd (a b : Nat) : Nat :=
  let ea := a / 2 ^ 52
  let eb := b / 2 ^ 52
  if 0 < ea ∧ ea < 2047 ∧ 0 < eb ∧ eb < 2047 then
    let e := min ea eb
    let m := (a % 2 ^ 52 + 2 ^ 52) * 2 ^ (ea - e) + (b % 2 ^ 52 + 2 ^ 52) * 2 ^ (eb - e)
    let d := (ea - e) + (eb - e)
    let shift := if m < 2 ^ (53 + d) then d else d + 1
    let q := m / 2 ^ shift
    let r := m % 2 ^ shift
    let q := if 2 * r > 2 ^ shift ∨ (2 * r = 2 ^ shift ∧ q % 2 = 1) then q + 1 else q
    let shift := if q = 2 ^ 53 then shift + 1 else shift
    let q := if q = 2 ^ 53 then 2 ^ 52 else q
    if e + shift < 2047 then (e + shift) * 2 ^ 52 + (q - 2 ^ 52) else 2047 * 2 ^ 52
  else 0

/-- The `TValue` operations of the example machine. -/
def exampleOps : TValueOps :=
  { Nil := 2
    IsPointer := fun w => decide (0 < w) && decide (w < 2 ^ 48) && decide (w % 8 = 0)
    AsPointer := fun w => w
    IsDouble := fun w => decide (2 ^ 49 ≤ w)
    AsDouble := fun w => w - 2 ^ 49
    CreateDouble := fun d => d + 2 ^ 49
    fadd := exampleFadd
    fsub := fun _ _ => 0
    flt := fun a b => decide (a < b)
    IsInt32 := fun w => decide (2 ^ 48 ≤ w) && decide (w < 2 ^ 48 + 2 ^ 32)
    AsInt32 := fun w => ((w - 2 ^ 48 : Nat) : Int) }

/-- The table operations of the example machine: a table at `t` keeps the
value of the key `k` in the heap word `t + k`. -/
def exampleTableOps : TableOps :=
  { PrepareGetById := fun _ _ _ => 0
    GetById := fun heap t k _ => heap (t + k)
    PreparePutById := fun _ _ _ => 0
    PutById := fun heap t k v _ => store heap (t + k) v
    PrepareGetByIntegerIndex := fun _ _ => 0
    GetByIntegerIndex := fun heap t i _ => heap (t + i.toNat)
    GetByDoubleVal := fun heap t d _ => heap (t + d)
    PutByValIntegerIndex := fun heap t i v => store heap (t + i.toNat) v
    PutByValDoubleIndex := fun heap t d v => store heap (t + d) v }

/-- The example program `BcConstant 0 5.0; BcConstant 1 3.0; BcAddVV 0 1 2;
BcReturn 2 1` at address 1000, a caller with `BcCall`s at addresses 2000, 2015
and 2030, a `BcReturn` at address 3000, and the four table instructions at
addresses 4000, 4013, 4026 and 4039. -/
def exampleCode (bcu : Nat) : Option Bytecode :=
  if bcu = 1000 then some (Bytecode.BcConstant (BytecodeSlot.Local 0) (exampleOps.CreateDouble double5))
  else if bcu = 1013 then
    some (Bytecode.BcConstant (BytecodeSlot.Local 1) (exampleOps.CreateDouble double3))
  else if bcu = 1026 then
    some (Bytecode.BcAddVV (BytecodeSlot.Local 0) (BytecodeSlot.Local 1) (BytecodeSlot.Local 2))
  else if bcu = 1039 then some (Bytecode.BcReturn false 1 (BytecodeSlot.Local 2))
  else if bcu = 2000 then some (Bytecode.BcCall false false 2 2 (BytecodeSlot.Local 1))
  else if bcu = 2015 then some (Bytecode.BcCall false false 2 5 (BytecodeSlot.Local 1))
  else if bcu = 2030 then some (Bytecode.BcCall false true 1 1 (BytecodeSlot.Local 1))
  else if bcu = 3000 then some (Bytecode.BcReturn false 1 (BytecodeSlot.Local 0))
  else if bcu = 4000 then
    some (Bytecode.BcTableGetById (BytecodeSlot.Local 0) (BytecodeSlot.Local 1) 0)
  else if bcu = 4013 then
    some (Bytecode.BcTablePutById (BytecodeSlot.Local 0) (BytecodeSlot.Local 1) 0)
  else if bcu = 4026 then
    some (Bytecode.BcTableGetByVal (BytecodeSlot.Local 0) (BytecodeSlot.Local 1)
      (BytecodeSlot.Local 2))
  else if bcu = 4039 then
    some (Bytecode.BcTablePutByVal (BytecodeSlot.Local 0) (BytecodeSlot.Local 1)
      (BytecodeSlot.Local 2))
  else none

/-- The executables of the example machine: the function object at 64 is the
caller (bytecode at 1990, 6 slots), the one at 128 expects 4 fixed arguments,
the one at 192 expects 1 fixed argument and takes variadic arguments. -/
def exampleExecutableOf (func : Nat) : ExecutableCode :=
  if func = 64 then
    { m_hasVariadicArguments := false, m_numFixedArguments := 0, m_bytecode := 1990
      m_bestEntryPoint := 7, m_stackFrameNumSlots := 6 }
  else if func = 128 then
    { m_hasVariadicArguments := false, m_numFixedArguments := 4, m_bytecode := 3000
      m_bestEntryPoint := 7, m_stackFrameNumSlots := 5 }
  else
    { m_hasVariadicArguments := true, m_numFixedArguments := 1, m_bytecode := 3000
      m_bestEntryPoint := 7, m_stackFrameNumSlots := 5 }

/-- The example machine. -/
def exampleEnv : Env :=
  { ops := exampleOps
    code := exampleCode
    executableOf := exampleExecutableOf
    isFunctionObject := fun p => decide (p = 64 ∨ p = 128 ∨ p = 192)
    x_OnReturn := 9
    isTableObject := fun p => decide (p = 256)
    table := exampleTableOps
    m_constants := fun i => 8 * (i + 1)
    m_globalObject := 256
    x_isDebugBuild := true }

/-- The example machine in a build without assertions. -/
def exampleReleaseEnv : Env := { exampleEnv with x_isDebugBuild := false }

/-- The heap of the example machine: the word at address `a` is `a`. -/
def exampleHeap : Nat → Nat := fun a => a

/-- A stack whose word at address `a` is `100 + a`, with the given overrides. -/
def exampleStack (overrides : List (Nat × Nat)) : Nat → Nat :=
  fun a => match overrides.lookup a with
    | some v => v
    | none => 100 + a

/-- Argument `i` of a call: fixed parameter `i` (the caller slot
`funcSlot + 1 + i`) for `i < F`, then the variadic results, when they are passed. -/
def callArgument (st : State) (sfp k F i : Nat) : Nat :=
  if i < F then st.stack (sfp + k + 1 + i)
  else st.stack (sfp + st.rc.m_variadicRetSlotBegin + (i - F))

/-- The example program extended by a variadic `BcReturn 0 1` at address 5000
and a `BcSubVV 0 1 2` at address 5008. -/
def exampleFrameCode (bcu : Nat) : Option Bytecode :=
  if bcu = 5000 then some (Bytecode.BcReturn true 1 (BytecodeSlot.Local 0))
  else if bcu = 5008 then
    some (Bytecode.BcSubVV (BytecodeSlot.Local 0) (BytecodeSlot.Local 1) (BytecodeSlot.Local 2))
  else exampleCode bcu

/-- The example machine with the extended program. -/
def exampleFrameEnv : Env := { exampleEnv with code := exampleFrameCode }

end ToyLang

namespace dast

/-! ## The interpreter call inline cache (`deegen/deegen_call_inline_cache.cpp`)

Conventions of the embedding.

* The emitter works on LLVM IR. An LLVM value is named by a number; a call site
  is the part of the function that the emitter inspects: the defining
  instruction of each value, the unique predecessor of the block of the call and
  its terminator. `ReleaseAssert` aborts the generator: the emitter functions
  return `Except`, with the text of the failed assertion.
* What the emitter adds to the function is returned as lists of instructions
  (value name and instruction) in the order of creation, and for the hoisted
  form as the blocks of the rewritten control flow.
* The emitted instructions are given their meaning on a machine with a register
  per value, the two 8-byte inline cache fields of the bytecode metadata, and
  the list of common snippets called so far. The common snippets themselves
  are parameters.
-/

/-- The Deegen common snippets that the emitted code calls. -/
inductive CommonSnippet where
  | GetCalleeEntryPoint
  | BoxFunctionObjectToTValue
  | GetCbHeapPtrFromTValueFuncObj
  | GetFuncObjAsU64FromTValue
deriving DecidableEq, Repr

/-- An LLVM value of the rewritten function: one that the function had before
the emitter ran, or one that the emitter created. -/
inductive Value where
  | existing (n : Nat)
  | created (n : Nat)
deriving DecidableEq, Repr

/-- A block of the rewritten function: one that the function had before, or
one of the three blocks of the hoisted form. -/
inductive Block where
  | existing (n : Nat)
  | updateIc
  | icHitBB
  | icMissBB
deriving DecidableEq, Repr

/-- An `llvm::Function`, as the emitter queries it. -/
structure Callee where
  IsTValueDecodeAPIFunction : Bool
  IsTValueTypeCheckAPIFunction : Bool
  IsTValueTypeCheckStrengthReductionFunction : Bool
  GetCheckedMaskOfTValueTypecheckFunction : Nat
deriving DecidableEq, Repr

/-- The instructions that the emitter inspects or creates, over the names `V`
of their operands. The loads and stores are those of the cached `TValue` and
of the cached code pointer, whose addresses come from `EmitGetAddress` on the
bytecode metadata pointer. -/
inductive Instruction (V : Type) where
  | PtrToIntInst (pointerOperand : V)
  | CallInst (calledFunction : Option Callee) (args : List V)
  | CallDeegenCommonSnippet (name : CommonSnippet) (arg : V)
  | ExtractValueInst (agg : V) (idx : Nat)
  | LoadCachedTValue
  | LoadCachedCodePointer
  | StoreCachedTValue (value : V)
  | StoreCachedCodePointer (value : V)
  | ICmpEQ (lhs rhs : V)
  | Expect (value : V) (expected : Bool)
  | OtherInst
deriving DecidableEq, Repr

/-- A `BranchInst` of the function before the rewrite; it is conditional when
it has a condition. -/
structure BranchInst where
  getParent : Nat
  getCondition : Option Nat
  successors : List Nat
deriving DecidableEq, Repr

/-- `isConditional`. -/
def BranchInst.isConditional (b : BranchInst) : Bool := b.getCondition.isSome

/-- `getSuccessor(i)`. -/
def BranchInst.getSuccessor (b : BranchInst) (i : Nat) : Option Nat := b.successors.get? i

/-- The terminator of a block. -/
inductive Terminator where
  | BranchInst (b : BranchInst)
  | OtherTerminator
deriving DecidableEq, Repr

/-- The part of the function around a call that the emitter inspects: whether
the bytecode has an interpreter call IC, the defining instruction of each
value, whether a value has type `uint64_t`, the block of each instruction, the
block `bb` of `insertBefore`, its single predecessor if it has one, and the
terminator of each block. -/
structure CallSite where
  HasInterpreterCallIC : Bool
  definition : Nat → Instruction Nat
  isU64 : Nat → Bool
  getParent : Nat → Nat
  bb : Nat
  getSinglePredecessor : Option Nat
  getTerminator : Nat → Terminator

/-- `x_typeSpeculationMaskFor<tFunction>` is a parameter of the emitter. -/
structure TypeMasks where
  tFunction : Nat
deriving DecidableEq, Repr

/-- `ReleaseAssert(cond)`: the generator aborts when `cond` is false. -/
def ReleaseAssert (cond : Bool) (text : String) : Except String Unit :=
  if cond then Except.ok () else Except.error text

/-- `EmitGenericGetCallTargetLogic`: the instructions it inserts, then
`calleeCbHeapPtr` and `codePointer`. The values it creates are named from
`next` on. -/
def EmitGenericGetCallTargetLogic (next : Nat) (functionObject : Value) :
    List (Value × Instruction Value) × Value × Value :=
  let codeBlockAndEntryPoint := Value.created next
  let calleeCbHeapPtr := Value.created (next + 1)
  let codePointer := Value.created (next + 2)
  ([(codeBlockAndEntryPoint,
      Instruction.CallDeegenCommonSnippet CommonSnippet.GetCalleeEntryPoint functionObject),
    (calleeCbHeapPtr, Instruction.ExtractValueInst codeBlockAndEntryPoint 0),
    (codePointer, Instruction.ExtractValueInst codeBlockAndEntryPoint 1)],
   calleeCbHeapPtr, codePointer)

/-- `EmitInterpreterCallIcCacheMissPopulateIcSlowPath`: the generic logic, then
the function object is boxed and stored as the cached `TValue`, and the code
pointer is stored as the cached code pointer. -/
def EmitInterpreterCallIcCacheMissPopulateIcSlowPath (next : Nat) (functionObject : Value) :
    List (Value × Instruction Value) × Value × Value :=
  let generic := EmitGenericGetCallTargetLogic next functionObject
  let calleeCbHeapPtr := generic.2.1
  let codePointer := generic.2.2
  let tv := Value.created (next + 3)
  (generic.1 ++
    [(tv, Instruction.CallDeegenCommonSnippet CommonSnippet.BoxFunctionObjectToTValue
        functionObject),
     (Value.created (next + 4), Instruction.StoreCachedTValue tv),
     (Value.created (next + 5), Instruction.StoreCachedCodePointer codePointer)],
   calleeCbHeapPtr, codePointer)

/-- `CheckCanHoistInterpreterCallIcCheck`: `none` is the result `false`; the
result `true` comes with `tv` and `condBrInst`. -/
def CheckCanHoistInterpreterCallIcCheck (masks : TypeMasks) (site : CallSite)
    (functionObject : Nat) : Except String (Option (Nat × BranchInst)) :=
  (ReleaseAssert (site.isU64 functionObject)
      "llvm_value_has_type<uint64_t>(functionObject)").bind fun _ =>
  match site.definition functionObject with
  | Instruction.PtrToIntInst ptrOperand =>
    match site.definition ptrOperand with
    | Instruction.CallInst (some callee) args =>
      if !callee.IsTValueDecodeAPIFunction then Except.ok none else
      (ReleaseAssert (decide (args.length = 1)) "ci->arg_size() == 1").bind fun _ =>
      let tv := args.getD 0 0
      (ReleaseAssert (site.isU64 tv) "llvm_value_has_type<uint64_t>(tv)").bind fun _ =>
      match site.getSinglePredecessor with
      | none => Except.ok none
      | some pred =>
        match site.getTerminator pred with
        | Terminator.BranchInst condBrInst =>
          match condBrInst.getCondition with
          | none => Except.ok none
          | some cond =>
            match site.definition cond with
            | Instruction.CallInst (some callee) _ =>
              if !callee.IsTValueTypeCheckAPIFunction &&
                  !callee.IsTValueTypeCheckStrengthReductionFunction then Except.ok none else
              let checkedMask := callee.GetCheckedMaskOfTValueTypecheckFunction
              if checkedMask &&& masks.tFunction ≠ masks.tFunction then
                Except.error "unexpected"
              else Except.ok (some (tv, condBrInst))
            | _ => Except.ok none
        | Terminator.OtherTerminator => Except.ok none
    | _ => Except.ok none
  | _ => Except.ok none

/-- The hoisted form: the instructions inserted at the end of `pred` and the
condition `icHit` of its new branch (to `icHitBB` when true, to `icMissBB`
when false); the instructions of `icHitBB`, which branches to `bb`; the
condition and the successors of the original terminator, now in `icMissBB`,
with `bb` replaced by `updateIc`; the instructions of `updateIc`, which
branches to `bb`; and the incoming values (from `icHitBB`, from `updateIc`)
of the two PHI nodes of `bb`. -/
structure HoistedForm where
  pred : List (Value × Instruction Value)
  icHit : Value
  icHitBB : List (Value × Instruction Value)
  icMissCondition : Value
  icMissSuccessors : List Block
  updateIc : List (Value × Instruction Value)
  joinCalleeCbHeapPtr : Value × Value
  joinCodePtr : Value × Value
deriving DecidableEq, Repr

/-- `EmitInterpreterCallIcWithHoistedCheck`. The sinking of the type check at
the end of the function is embedded on the values, as `sinkTypeCheck`; its
rewriting of the uses and its asserts on the dominator tree need the whole
function and are not part of the embedding. -/
def EmitInterpreterCallIcWithHoistedCheck (masks : TypeMasks) (site : CallSite)
    (tv : Nat) (term : BranchInst) : Except String HoistedForm :=
  let bb := site.bb
  let pred := term.getParent
  (ReleaseAssert (decide (site.getTerminator pred = Terminator.BranchInst term))
      "pred->getTerminator() == term").bind fun _ =>
  let cachedIcTv := Value.created 0
  let icmp := Value.created 1
  let icHit := Value.created 2
  let predInsts : List (Value × Instruction Value) :=
    [(cachedIcTv, Instruction.LoadCachedTValue),
     (icmp, Instruction.ICmpEQ cachedIcTv (Value.existing tv)),
     (icHit, Instruction.Expect icmp true)]
  let icHitCodePtr := Value.created 3
  let icHitCalleeCbHeapPtr := Value.created 4
  let icHitBB : List (Value × Instruction Value) :=
    [(icHitCodePtr, Instruction.LoadCachedCodePointer),
     (icHitCalleeCbHeapPtr, Instruction.CallDeegenCommonSnippet
        CommonSnippet.GetCbHeapPtrFromTValueFuncObj (Value.existing tv))]
  (ReleaseAssert term.isConditional "term->isConditional()").bind fun _ =>
  (if term.getSuccessor 0 = some bb then
      (ReleaseAssert (decide (term.getSuccessor 1 ≠ some bb))
          "term->getSuccessor(1) != bb").bind fun _ =>
      Except.ok ((term.successors.map Block.existing).set 0 Block.updateIc)
    else
      (ReleaseAssert (decide (term.getSuccessor 1 = some bb))
          "term->getSuccessor(1) == bb").bind fun _ =>
      Except.ok ((term.successors.map Block.existing).set 1 Block.updateIc)).bind
  fun successors =>
  let fo64 := Value.created 5
  let slow := EmitInterpreterCallIcCacheMissPopulateIcSlowPath 6 fo64
  let updateIc : List (Value × Instruction Value) :=
    (fo64, Instruction.CallDeegenCommonSnippet CommonSnippet.GetFuncObjAsU64FromTValue
      (Value.existing tv)) :: slow.1
  let icMissCalleeCbHeapPtr := slow.2.1
  let icMissCodePtr := slow.2.2
  match term.getCondition with
  | none => Except.error "typechk != nullptr"
  | some typechk =>
    match site.definition typechk with
    | Instruction.CallInst calledFunction args =>
      (ReleaseAssert (decide (site.getParent typechk = pred))
          "typechk->getParent() == pred").bind fun _ =>
      match calledFunction with
      | none => Except.error "callee != nullptr"
      | some callee =>
        (ReleaseAssert (callee.IsTValueTypeCheckAPIFunction ||
            callee.IsTValueTypeCheckStrengthReductionFunction)
          "IsTValueTypeCheckAPIFunction(callee) || IsTValueTypeCheckStrengthReductionFunction(callee)").bind
        fun _ =>
        (ReleaseAssert (decide (args = [tv]))
          "typechk->arg_size() == 1 && typechk->getArgOperand(0) == tv").bind fun _ =>
        (ReleaseAssert (decide (callee.GetCheckedMaskOfTValueTypecheckFunction &&&
            masks.tFunction = masks.tFunction))
          "(checkedMask & x_typeSpeculationMaskFor<tFunction>) == x_typeSpeculationMaskFor<tFunction>").bind
        fun _ =>
        Except.ok (HoistedForm.mk predInsts icHit icHitBB (Value.existing typechk) successors
          updateIc (icHitCalleeCbHeapPtr, icMissCalleeCbHeapPtr) (icHitCodePtr, icMissCodePtr))
    | _ => Except.error "typechk != nullptr"

/-- The PHI node `tcJoin` that the sinking of the type check creates in `bb`:
its incoming value from `icHitBB` is the constant `tcIcHit`, its incoming value
from `updateIc` is `tcIcMiss`, the clone of the type check at the start of
`icMissBB`, which computes what the type check computed. -/
structure SunkTypeCheck where
  tcIcHit : Bool
  tcIcMiss : Value
deriving DecidableEq, Repr

/-- The sinking of the type check at the end of
`EmitInterpreterCallIcWithHoistedCheck`, on the values: it is done when the type
check, the condition of the original branch, is not used in `pred`. -/
def sinkTypeCheck (isUsedInPredBlock : Bool) (form : HoistedForm) : Option SunkTypeCheck :=
  if !isUsedInPredBlock then some (SunkTypeCheck.mk true form.icMissCondition) else none

/-- The logic that `EmitForInterpreter` adds to the function: instructions
inserted before the call with the two values handed to the call, or the
hoisted form, whose PHI nodes are handed to the call. -/
inductive CallIcLogic where
  | straightLine (insts : List (Value × Instruction Value)) (calleeCbHeapPtr codePointer : Value)
  | hoisted (form : HoistedForm)
deriving DecidableEq, Repr

/-- The result of `EmitForInterpreter`: the flag of the bytecode definition
that it sets, and the logic. -/
structure EmitResult where
  m_isInterpreterCallIcEverUsed : Bool
  logic : CallIcLogic
deriving DecidableEq, Repr

/-- `DeegenCallIcLogicCreator::EmitForInterpreter`; `used` is the flag
`m_isInterpreterCallIcEverUsed` before the call. -/
def EmitForInterpreter (masks : TypeMasks) (site : CallSite) (used : Bool)
    (functionObject : Nat) : Except String EmitResult :=
  if !site.HasInterpreterCallIC then
    let generic := EmitGenericGetCallTargetLogic 0 (Value.existing functionObject)
    Except.ok (EmitResult.mk used (CallIcLogic.straightLine generic.1 generic.2.1 generic.2.2))
  else
    (CheckCanHoistInterpreterCallIcCheck masks site functionObject).bind fun canHoist =>
    match canHoist with
    | some (tv, brInst) =>
      (EmitInterpreterCallIcWithHoistedCheck masks site tv brInst).bind fun form =>
      Except.ok (EmitResult.mk true (CallIcLogic.hoisted form))
    | none =>
      let slow := EmitInterpreterCallIcCacheMissPopulateIcSlowPath 0 (Value.existing functionObject)
      Except.ok (EmitResult.mk true (CallIcLogic.straightLine slow.1 slow.2.1 slow.2.2))

/-! ### The meaning of the emitted logic -/

/-- The common snippets that the emitted logic calls are parameters: functions
on 64-bit words, `GetCalleeEntryPoint` returning the pair of the callee code
block and the entry point. -/
structure CommonSnippets where
  GetCalleeEntryPoint : Nat → Nat × Nat
  BoxFunctionObjectToTValue : Nat → Nat
  GetCbHeapPtrFromTValueFuncObj : Nat → Nat
  GetFuncObjAsU64FromTValue : Nat → Nat

/-- The call of a common snippet by its name. -/
def CommonSnippets.call (S : CommonSnippets) : CommonSnippet → Nat → Nat × Nat
  | CommonSnippet.GetCalleeEntryPoint, x => S.GetCalleeEntryPoint x
  | CommonSnippet.BoxFunctionObjectToTValue, x => (S.BoxFunctionObjectToTValue x, 0)
  | CommonSnippet.GetCbHeapPtrFromTValueFuncObj, x => (S.GetCbHeapPtrFromTValueFuncObj x, 0)
  | CommonSnippet.GetFuncObjAsU64FromTValue, x => (S.GetFuncObjAsU64FromTValue x, 0)

/-- The two fields of the interpreter call IC in the bytecode metadata. -/
structure CallIcSlot where
  cachedTValue : Nat
  cachedCodePointer : Nat
deriving DecidableEq, Repr

/-- The state on which the emitted logic runs: the content of each value (a
pair, for the aggregate that `GetCalleeEntryPoint` returns; a scalar is the
first component), the IC fields, and the common snippets called so far. -/
structure Machine where
  regs : Value → Nat × Nat
  ic : CallIcSlot
  called : List CommonSnippet

/-- The machine after the value `dst` is defined as `x`. -/
def Machine.define (m : Machine) (dst : Value) (x : Nat × Nat) : Machine :=
  Machine.mk (fun v => if v = dst then x else m.regs v) m.ic m.called

/-- The execution of one emitted instruction. -/
def execInst (S : CommonSnippets) (m : Machine) (i : Value × Instruction Value) : Machine :=
  match i.2 with
  | Instruction.CallDeegenCommonSnippet name arg =>
    Machine.mk (fun v => if v = i.1 then S.call name (m.regs arg).1 else m.regs v) m.ic
      (m.called ++ [name])
  | Instruction.ExtractValueInst agg idx =>
    m.define i.1 (if idx = 0 then (m.regs agg).1 else (m.regs agg).2, 0)
  | Instruction.LoadCachedTValue => m.define i.1 (m.ic.cachedTValue, 0)
  | Instruction.LoadCachedCodePointer => m.define i.1 (m.ic.cachedCodePointer, 0)
  | Instruction.StoreCachedTValue value =>
    Machine.mk m.regs (CallIcSlot.mk (m.regs value).1 m.ic.cachedCodePointer) m.called
  | Instruction.StoreCachedCodePointer value =>
    Machine.mk m.regs (CallIcSlot.mk m.ic.cachedTValue (m.regs value).1) m.called
  | Instruction.ICmpEQ lhs rhs =>
    m.define i.1 (if (m.regs lhs).1 = (m.regs rhs).1 then 1 else 0, 0)
  | Instruction.Expect value _ => m.define i.1 (m.regs value)
  | Instruction.PtrToIntInst pointerOperand => m.define i.1 (m.regs pointerOperand)
  | Instruction.CallInst _ _ => m
  | Instruction.OtherInst => m

/-- The execution of a list of emitted instructions. -/
def exec (S : CommonSnippets) (insts : List (Value × Instruction Value)) (m : Machine) :
    Machine :=
  insts.foldl (execInst S) m

/-- The successor that a branch of the function before the rewrite takes. -/
def BranchInst.taken (b : BranchInst) (regs : Value → Nat × Nat) : Option Nat :=
  match b.getCondition with
  | some cond => if (regs (Value.existing cond)).1 ≠ 0 then b.getSuccessor 0 else b.getSuccessor 1
  | none => b.getSuccessor 0

/-- The way through the emitted logic: straight-line logic, the IC hit block,
the IC miss block followed by `updateIc`, or the IC miss block followed by the
other successor of the original branch, which does not reach the call. -/
inductive Path where
  | straightLine
  | icHit
  | icMiss
  | notTaken
deriving DecidableEq, Repr

/-- The outcome of a run of the emitted logic: the way taken, the callee code
block and the code pointer handed to the call if it is reached, and the machine. -/
structure Outcome where
  path : Path
  target : Option (Nat × Nat)
  machine : Machine

/-- The run of straight-line logic. -/
def runStraightLine (S : CommonSnippets) (insts : List (Value × Instruction Value))
    (calleeCbHeapPtr codePointer : Value) (m : Machine) : Outcome :=
  let m1 := exec S insts m
  Outcome.mk Path.straightLine (some ((m1.regs calleeCbHeapPtr).1, (m1.regs codePointer).1)) m1

/-- The run of the hoisted form from the end of `pred` to the PHI nodes of `bb`. -/
def runHoisted (S : CommonSnippets) (form : HoistedForm) (m : Machine) : Outcome :=
  let m1 := exec S form.pred m
  if (m1.regs form.icHit).1 ≠ 0 then
    let m2 := exec S form.icHitBB m1
    Outcome.mk Path.icHit
      (some ((m2.regs form.joinCalleeCbHeapPtr.1).1, (m2.regs form.joinCodePtr.1).1)) m2
  else
    let successor :=
      if (m1.regs form.icMissCondition).1 ≠ 0 then form.icMissSuccessors.get? 0
      else form.icMissSuccessors.get? 1
    if successor = some Block.updateIc then
      let m2 := exec S form.updateIc m1
      Outcome.mk Path.icMiss
        (some ((m2.regs form.joinCalleeCbHeapPtr.2).1, (m2.regs form.joinCodePtr.2).1)) m2
    else Outcome.mk Path.notTaken none m1

/-- The run of the logic that `EmitForInterpreter` emitted. -/
def run (S : CommonSnippets) (logic : CallIcLogic) (m : Machine) : Outcome :=
  match logic with
  | CallIcLogic.straightLine insts calleeCbHeapPtr codePointer =>
    runStraightLine S insts calleeCbHeapPtr codePointer m
  | CallIcLogic.hoisted form => runHoisted S form m

/-- The value of `tcJoin` in `bb` after a run of the hoisted form that took the
way `path`. -/
def SunkTypeCheck.tcJoin (s : SunkTypeCheck) (path : Path) (regs : Value → Nat × Nat) : Bool :=
  match path with
  | Path.icHit => s.tcIcHit
  | _ => decide ((regs s.tcIcMiss).1 ≠ 0)

/-- The properties of the common snippets on the function values: boxing the
function object of a function value gives the value back, and the code block
read from a function value is the one that target resolution gives for its
function object. -/
structure SnippetLaws (S : CommonSnippets) (isFunction : Nat → Bool) : Prop where
  box_unbox : ∀ v, isFunction v = true →
    S.BoxFunctionObjectToTValue (S.GetFuncObjAsU64FromTValue v) = v
  codeBlock : ∀ v, isFunction v = true →
    S.GetCbHeapPtrFromTValueFuncObj v = (S.GetCalleeEntryPoint (S.GetFuncObjAsU64FromTValue v)).1

/-- The cache states reachable from `empty` by runs of the hoisted form on
function values in `tv`. -/
inductive Reachable (S : CommonSnippets) (isFunction : Nat → Bool) (form : HoistedForm)
    (tv : Nat) (empty : CallIcSlot) : CallIcSlot → Prop where
  | empty : Reachable S isFunction form tv empty empty
  | call (m : Machine) : Reachable S isFunction form tv empty m.ic →
      isFunction (m.regs (Value.existing tv)).1 = true →
      Reachable S isFunction form tv empty (runHoisted S form m).machine.ic

/-! ### An example call site -/

/-- The function mask of the example. -/
def exampleMasks : TypeMasks := TypeMasks.mk 4

/-- A `TValue` decode API function. -/
def exampleDecode : Callee := Callee.mk true false false 0

/-- A type check API function with the checked mask `mask`. -/
def exampleTypeCheck (mask : Nat) : Callee := Callee.mk false true false mask

/-- The call site `pred: %1 = typecheck(%0); br %1, bb, other` followed by
`bb: %2 = decode(%0); %3 = ptrtoint %2; MakeCall(%3)`, with the blocks
`pred = 10`, `bb = 11`, `other = 12` and a type check of mask `mask`. -/
def exampleSite (mask : Nat) : CallSite :=
  CallSite.mk true
    (fun v =>
      if v = 1 then Instruction.CallInst (some (exampleTypeCheck mask)) [0]
      else if v = 2 then Instruction.CallInst (some exampleDecode) [0]
      else if v = 3 then Instruction.PtrToIntInst 2
      else Instruction.OtherInst)
    (fun v => decide (v = 0) || decide (v = 3))
    (fun v => if v = 1 then 10 else 11)
    11
    (some 10)
    (fun b => if b = 10 then Terminator.BranchInst (BranchInst.mk 10 (some 1) [11, 12])
      else Terminator.OtherTerminator)

/-- The example call site without a single predecessor of `bb`. -/
def exampleSiteNoPred : CallSite :=
  CallSite.mk true (exampleSite 4).definition (exampleSite 4).isU64 (exampleSite 4).getParent
    11 none (exampleSite 4).getTerminator

/-- The function values of the example are the words from `2 ^ 48` on. -/
def exampleIsFunction (v : Nat) : Bool := decide (2 ^ 48 ≤ v)

/-- The common snippets of the example: a function value is its function
object plus `2 ^ 48`; the code block of a function object is the word after
it and its entry point the double of it. -/
def exampleSnippets : CommonSnippets :=
  CommonSnippets.mk (fun fo => (fo + 1, 2 * fo)) (fun fo => fo + 2 ^ 48)
    (fun v => v - 2 ^ 48 + 1) (fun v => v - 2 ^ 48)

/-- A machine of the example: the value `%0` holds `v`, the type check `%1`
holds `chk`, the function object `%3` holds `v - 2 ^ 48`; the IC holds `ic`. -/
def exampleMachine (v chk : Nat) (ic : CallIcSlot) : Machine :=
  Machine.mk
    (fun x =>
      if x = Value.existing 0 then (v, 0)
      else if x = Value.existing 1 then (chk, 0)
      else if x = Value.existing 3 then (v - 2 ^ 48, 0)
      else (0, 0))
    ic []

/-- The hoisted form of the example call site. -/
def exampleForm : HoistedForm :=
  HoistedForm.mk
    [(Value.created 0, Instruction.LoadCachedTValue),
     (Value.created 1, Instruction.ICmpEQ (Value.created 0) (Value.existing 0)),
     (Value.created 2, Instruction.Expect (Value.created 1) true)]
    (Value.created 2)
    [(Value.created 3, Instruction.LoadCachedCodePointer),
     (Value.created 4, Instruction.CallDeegenCommonSnippet
        CommonSnippet.GetCbHeapPtrFromTValueFuncObj (Value.existing 0))]
    (Value.existing 1)
    [Block.updateIc, Block.existing 12]
    ((Value.created 5, Instruction.CallDeegenCommonSnippet
        CommonSnippet.GetFuncObjAsU64FromTValue (Value.existing 0)) ::
      (EmitInterpreterCallIcCacheMissPopulateIcSlowPath 6 (Value.created 5)).1)
    (Value.created 4, Value.created 7)
    (Value.created 3, Value.created 8)

/-! ### Baseline JIT: the assembly that computes a label offset

`std::string` is `String`; `find` returns the first position of the pattern, with
`none` for `std::string::npos`. -/

/-- First position at which `pat` occurs in `s`, positions counted from `pos`. -/
def findFrom (pat : List Char) : List Char → Nat → Option Nat
  | [], pos => if pat = [] then some pos else none
  | c :: cs, pos => if pat.isPrefixOf (c :: cs) then some pos else findFrom pat cs (pos + 1)

/-- The call `s.find(pat)`. -/
def find (s pat : String) : Option Nat := findFrom pat.data s.data 0

/-- The local `varName` of `EmitComputeLabelOffsetAsm`: the symbol that holds
the offset. -/
def EmitComputeLabelOffsetAsm.varName (fnName labelName : String) : String :=
  "offset_of_label_XYZyZYX_" ++ labelName ++ "_XYZyZYX_in_function_" ++ fnName

/-- `EmitComputeLabelOffsetAsm`: after the checks on the two names, the assembly
text that defines the symbol `varName` as an 8-byte object holding
`.labelName-fnName`. -/
def EmitComputeLabelOffsetAsm (fnName labelName : String) : Except String String :=
  (ReleaseAssert (decide (labelName.length > 0) && decide (labelName.data.head? ≠ some '.'))
    "labelName.length() > 0 && labelName[0] != '.'").bind fun _ =>
  (ReleaseAssert (decide (fnName.length > 0)) "fnName.length() > 0").bind fun _ =>
  (ReleaseAssert (decide (find labelName "XYZyZYX" = none))
    "labelName.find(XYZyZYX) == std::string::npos").bind fun _ =>
  (ReleaseAssert (decide (find labelName " " = none))
    "labelName.find( ) == std::string::npos").bind fun _ =>
  (ReleaseAssert (decide (find fnName " " = none))
    "fnName.find( ) == std::string::npos").bind fun _ =>
  let varName := EmitComputeLabelOffsetAsm.varName fnName labelName
  let res := ""
  let res := res ++ ("\n\n\t.type\t" ++ varName ++ ",@object\n")
  let res := res ++ ("\t.section\t.rodata." ++ varName ++ ",\x22a\x22,@progbits\n")
  let res := res ++ ("\t.globl\t" ++ varName ++ "\n")
  let res := res ++ "\t.p2align\t3\n"
  let res := res ++ (varName ++ ":\n")
  let res := res ++ ("\t.quad\t." ++ labelName ++ "-" ++ fnName ++ "\n")
  let res := res ++ (".size\t" ++ varName ++ ", 8\n\n")
  Except.ok res

/-! ## Definitions used to state and prove the contracts -/

/-! ### The shape of the hoisted form -/

/-- The hoisted form that `EmitInterpreterCallIcWithHoistedCheck` returns for
the value `tv`, the type check `typechk` and the successors `succs` of the
rewritten branch. -/
def hoistedFormOf (tv typechk : Nat) (succs : List Block) : HoistedForm :=
  HoistedForm.mk
    [(Value.created 0, Instruction.LoadCachedTValue),
     (Value.created 1, Instruction.ICmpEQ (Value.created 0) (Value.existing tv)),
     (Value.created 2, Instruction.Expect (Value.created 1) true)]
    (Value.created 2)
    [(Value.created 3, Instruction.LoadCachedCodePointer),
     (Value.created 4, Instruction.CallDeegenCommonSnippet
        CommonSnippet.GetCbHeapPtrFromTValueFuncObj (Value.existing tv))]
    (Value.existing typechk) succs
    ((Value.created 5, Instruction.CallDeegenCommonSnippet
        CommonSnippet.GetFuncObjAsU64FromTValue (Value.existing tv)) ::
      (EmitInterpreterCallIcCacheMissPopulateIcSlowPath 6 (Value.created 5)).1)
    (Value.created 4, Value.created 7) (Value.created 3, Value.created 8)

/-- The checks of `EmitComputeLabelOffsetAsm` on a pair of names. -/
def LabelOffsetAccepted (fnName labelName : String) : Prop :=
  labelName.length > 0 ∧ labelName.data.head? ≠ some '.' ∧ fnName.length > 0 ∧
  ¬ "XYZyZYX".data <:+: labelName.data ∧ ¬ " ".data <:+: labelName.data ∧
  ¬ " ".data <:+: fnName.data

/-- The example call site with the type check applied to the value `%5`
instead of `%0`: `pred: %1 = typecheck(%5); br %1, bb, other` followed by
`bb: %2 = decode(%0); %3 = ptrtoint %2; MakeCall(%3)`. -/
def exampleSiteOtherValue : CallSite :=
  CallSite.mk true
    (fun v =>
      if v = 1 then Instruction.CallInst (some (exampleTypeCheck 4)) [5]
      else (exampleSite 4).definition v)
    (exampleSite 4).isU64 (exampleSite 4).getParent 11 (some 10) (exampleSite 4).getTerminator

/-- The cache states reachable from `empty` by runs of the hoisted form on any
value in `tv`, in which the branch `term` of the function before the rewrite
leads to the block `bb` of the call only with a function value in `tv`: the
block converts `tv` to the function object that the call takes. -/
inductive ReachableChecked (S : CommonSnippets) (isFunction : Nat → Bool) (form : HoistedForm)
    (tv : Nat) (term : BranchInst) (bb : Nat) (empty : CallIcSlot) : CallIcSlot → Prop where
  | empty : ReachableChecked S isFunction form tv term bb empty empty
  | call (m : Machine) : ReachableChecked S isFunction form tv term bb empty m.ic →
      (term.taken m.regs = some bb → isFunction (m.regs (Value.existing tv)).1 = true) →
      ReachableChecked S isFunction form tv term bb empty (runHoisted S form m).machine.ic

/-- The tagged values of the example are the words other than 0. -/
def exampleTagged (v : Nat) : Bool := decide (v ≠ 0)

/-- An instruction that reads the inline cache or compares two values. -/
def isCacheRead : Instruction Value → Bool
  | Instruction.LoadCachedTValue => true
  | Instruction.LoadCachedCodePointer => true
  | Instruction.ICmpEQ _ _ => true
  | _ => false

/-- An instruction that writes a field of the inline cache. -/
def isCacheWrite : Instruction Value → Bool
  | Instruction.StoreCachedTValue _ => true
  | Instruction.StoreCachedCodePointer _ => true
  | _ => false

/-- The example call site on a bytecode without an interpreter call IC. -/
def exampleSiteNoIc : CallSite :=
  CallSite.mk false (exampleSite 4).definition (exampleSite 4).isU64 (exampleSite 4).getParent
    11 (some 10) (exampleSite 4).getTerminator

end dast

namespace snippets

/-! ## Common snippets of the call path (`annotated/deegen_common_snippets`)

Embedding of `get_baseline_jit_slowpath_data_after_slow_call.cpp`. Addresses
and machine integers are natural numbers; a conversion to `uint32_t` is
`% 2 ^ 32`, arithmetic on `uint32_t` and `uint64_t` wraps modulo `2 ^ 32` and
`2 ^ 64`. The frame header type is declared outside of this file, so what the
snippet reads from it is a parameter.
-/

/-- What the snippet reads from the runtime: for a callee stack base, the stored
32-bit field `m_callerBytecodePtr.m_value` of the frame header
`StackFrameHeader::Get(calleeStackBase)`. -/
structure Runtime where
  callerBytecodePtrValue : Nat → Nat

/-- Subtraction of two `uint32_t` values. -/
def sub32 (a b : Nat) : Nat := (a % 2 ^ 32 + 2 ^ 32 - b % 2 ^ 32) % 2 ^ 32

/-- Addition of two `uint64_t` values. -/
def add64 (a b : Nat) : Nat := (a % 2 ^ 64 + b % 2 ^ 64) % 2 ^ 64

/-- The snippet `GetBaselineJitSlowpathDataAfterSlowCall`: the stored 32-bit
value minus the low 32 bits of the address of the baseline code block, zero
extended and added to that address. -/
def DeegenSnippet_GetBaselineJitSlowpathDataAfterSlowCall (rt : Runtime)
    (calleeStackBase bcb : Nat) : Nat :=
  let value := rt.callerBytecodePtrValue calleeStackBase % 2 ^ 32
  let bcbU64 := bcb % 2 ^ 64
  let offset := sub32 value (bcbU64 % 2 ^ 32)
  add64 offset bcbU64

/-- An example runtime: every frame header stores the 32-bit value 3. -/
def exampleRuntime : Runtime := { callerBytecodePtrValue := fun _ => 3 }

end snippets

/-! # Theorems on the bytecode liveness analysis -/

namespace dfg
open TempBitVector

/-! ## Bit-level view of the bit vector operations -/

theorem length_wordLoop (n : Nat) (f : Nat → Nat) : (wordLoop n f).length = n := by
  simp [wordLoop]

theorem getD_wordLoop (n : Nat) (f : Nat → Nat) (k : Nat) :
    (wordLoop n f).getD k 0 = if k < n then f k else 0 := by
  unfold wordLoop
  rw [List.getD_eq_getElem?_getD, List.getElem?_map]
  by_cases h : k < n
  · rw [List.getElem?_range h]; simp [h]
  · rw [List.getElem?_eq_none (by simpa using h)]; simp [h]

theorem testBit_wordSetBit (k w j : Nat) :
    (wordSetBit k w).testBit j = (w.testBit j || decide (k = j)) := by
  unfold wordSetBit
  rw [Nat.testBit_or, Nat.one_shiftLeft, Nat.testBit_two_pow]

theorem testBit_wordClearBit (k w j : Nat) (hj : j < 64) :
    (wordClearBit k w).testBit j = (w.testBit j && !decide (k = j)) := by
  unfold wordClearBit
  rw [Nat.testBit_and, Nat.testBit_xor, Nat.one_shiftLeft, Nat.testBit_two_pow,
    Nat.testBit_two_pow_sub_one]
  simp [hj]

theorem IsSet_Reset (n i : Nat) : (TempBitVector.Reset n).IsSet i = false := by
  unfold IsSet TempBitVector.Reset
  rw [List.getD_eq_getElem?_getD, List.getElem?_replicate]
  split <;> simp

theorem IsSet_Clear (bv : TempBitVector) (i : Nat) : bv.Clear.IsSet i = false := by
  unfold IsSet Clear
  rw [List.getD_eq_getElem?_getD, List.getElem?_replicate]
  split <;> simp

theorem IsSet_SetAllOne (bv : TempBitVector) (i : Nat) :
    bv.SetAllOne.IsSet i = decide (i / 64 < bv.GetAllocLength) := by
  unfold IsSet SetAllOne
  rw [List.getD_eq_getElem?_getD, List.getElem?_replicate]
  have h64 : i % 64 < 64 := Nat.mod_lt _ (by decide)
  have hone : (2 ^ 64 - 1 : Nat).testBit (i % 64) = true := by
    rw [Nat.testBit_two_pow_sub_one]; simp [h64]
  split
  · rename_i h
    simp only [Option.getD_some, hone, h, decide_True]
  · rename_i h
    simp [h]

theorem IsSet_CopyFromEqualLengthBitVector (dst src : TempBitVector) (i : Nat) :
    (dst.CopyFromEqualLengthBitVector src).IsSet i = src.IsSet i := rfl

theorem IsSet_eq_false_of_length_le (bv : TempBitVector) (i : Nat)
    (h : bv.m_data.length ≤ i / 64) : bv.IsSet i = false := by
  unfold IsSet
  rw [List.getD_eq_getElem?_getD, List.getElem?_eq_none h]
  simp

theorem div_mod_64_eq {s j : Nat} (h1 : s / 64 = j / 64) (h2 : s % 64 = j % 64) : s = j := by
  omega

theorem IsSet_SetBit (bv : TempBitVector) (s j : Nat) :
    (bv.SetBit s).IsSet j =
      (bv.IsSet j || (decide (s = j) && decide (s / 64 < bv.m_data.length))) := by
  unfold IsSet SetBit
  simp only [List.getD_eq_getElem?_getD, List.getElem?_modify]
  by_cases hw : s / 64 = j / 64
  · by_cases hlen : j / 64 < bv.m_data.length
    · rw [List.getElem?_eq_getElem hlen]
      simp only [hw, if_true, Option.map_eq_map, Option.map_some', Option.getD_some,
        testBit_wordSetBit, hlen, decide_True, Bool.and_true]
      by_cases hb : s % 64 = j % 64
      · have : s = j := div_mod_64_eq hw hb
        simp [hb, this]
      · have : s ≠ j := fun h => hb (by rw [h])
        simp [hb, this]
    · rw [List.getElem?_eq_none (by omega)]
      simp [hw, hlen]
  · have : s ≠ j := fun h => hw (by rw [h])
    cases hg : bv.m_data[j / 64]? <;> simp [hw, this]

theorem IsSet_ClearBit (bv : TempBitVector) (s j : Nat) :
    (bv.ClearBit s).IsSet j = (bv.IsSet j && !decide (s = j)) := by
  unfold IsSet ClearBit
  simp only [List.getD_eq_getElem?_getD, List.getElem?_modify]
  have h64 : j % 64 < 64 := Nat.mod_lt _ (by decide)
  by_cases hw : s / 64 = j / 64
  · by_cases hlen : j / 64 < bv.m_data.length
    · rw [List.getElem?_eq_getElem hlen]
      simp only [hw, if_true, Option.map_eq_map, Option.map_some', Option.getD_some,
        testBit_wordClearBit _ _ _ h64]
      by_cases hb : s % 64 = j % 64
      · have : s = j := div_mod_64_eq hw hb
        simp [hb, this]
      · have : s ≠ j := fun h => hb (by rw [h])
        simp [hb, this]
    · rw [List.getElem?_eq_none (by omega)]
      simp
  · have : s ≠ j := fun h => hw (by rw [h])
    cases hg : bv.m_data[j / 64]? <;> simp [hw, this]

/-! ## Replay of a block: parametricity in the bit vector -/

theorem slotLoop_rel3 (R : TempBitVector → TempBitVector → TempBitVector → Prop)
    (op : TempBitVector → Nat → TempBitVector)
    (hop : ∀ x a o s, R x a o → R (op x s) (op a s) (op o s)) (info : List Nat) :
    ∀ (n cur : Nat) (x a o : TempBitVector), R x a o →
      R (slotLoop op info n cur x) (slotLoop op info n cur a) (slotLoop op info n cur o) := by
  intro n
  induction n with
  | zero => intro cur x a o h; simpa [slotLoop] using h
  | succ n ih =>
    intro cur x a o h
    simp only [slotLoop]
    exact ih _ _ _ _ (hop _ _ _ _ h)

theorem headLoop_rel3 (R : TempBitVector → TempBitVector → TempBitVector → Prop)
    (hC : ∀ x a o s, R x a o → R (x.ClearBit s) (a.ClearBit s) (o.ClearBit s))
    (hS : ∀ x a o s, R x a o → R (x.SetBit s) (a.SetBit s) (o.SetBit s))
    (info index : List Nat) (total : Nat) :
    ∀ (n cur curEnd : Nat) (x a o : TempBitVector), R x a o →
      R (headLoop info index total n cur curEnd x) (headLoop info index total n cur curEnd a)
        (headLoop info index total n cur curEnd o) := by
  intro n
  induction n with
  | zero => intro cur curEnd x a o h; simpa [headLoop] using h
  | succ n ih =>
    intro cur curEnd x a o h
    simp only [headLoop]
    split
    · apply ih
      apply slotLoop_rel3 R SetBit hS
      apply slotLoop_rel3 R ClearBit hC
      exact h
    · exact h

theorem headLoop_pred (P : TempBitVector → Prop)
    (hC : ∀ x s, P x → P (x.ClearBit s)) (hS : ∀ x s, P x → P (x.SetBit s))
    (info index : List Nat) (total n cur curEnd : Nat) (x : TempBitVector) (h : P x) :
    P (headLoop info index total n cur curEnd x) :=
  headLoop_rel3 (fun x _ _ => P x) (fun x _ _ s hx => hC x s hx) (fun x _ _ s hx => hS x s hx)
    info index total n cur curEnd x x x h

theorem length_SetBit (x : TempBitVector) (s : Nat) : (x.SetBit s).m_data.length = x.m_data.length := by
  simp [SetBit, List.length_modify]

theorem length_ClearBit (x : TempBitVector) (s : Nat) :
    (x.ClearBit s).m_data.length = x.m_data.length := by
  simp [ClearBit, List.length_modify]

theorem AffineRel_ClearBit (t x a o : TempBitVector) (s : Nat) (h : AffineRel t x a o) :
    AffineRel t (x.ClearBit s) (a.ClearBit s) (o.ClearBit s) := by
  obtain ⟨h1, h2, h3, h4⟩ := h
  refine ⟨by simp [length_ClearBit, h1], by simp [length_ClearBit, h2], ?_, ?_⟩
  · intro j
    simp only [IsSet_ClearBit, h3 j]
    cases t.IsSet j <;> cases a.IsSet j <;> cases o.IsSet j <;> cases decide (s = j) <;> rfl
  · intro j
    simp only [IsSet_ClearBit]
    have := h4 j
    revert this
    cases a.IsSet j <;> cases o.IsSet j <;> cases decide (s = j) <;> simp

theorem AffineRel_SetBit (t x a o : TempBitVector) (s : Nat) (h : AffineRel t x a o) :
    AffineRel t (x.SetBit s) (a.SetBit s) (o.SetBit s) := by
  obtain ⟨h1, h2, h3, h4⟩ := h
  refine ⟨by simp [length_SetBit, h1], by simp [length_SetBit, h2], ?_, ?_⟩
  · intro j
    simp only [IsSet_SetBit, h3 j, h1, h2]
    cases t.IsSet j <;> cases a.IsSet j <;> cases o.IsSet j <;> cases decide (s = j) <;>
      cases decide (s / 64 < a.m_data.length) <;> rfl
  · intro j
    simp only [IsSet_SetBit, h2]
    have := h4 j
    revert this
    cases a.IsSet j <;> cases o.IsSet j <;> cases decide (s = j) <;>
      cases decide (s / 64 < a.m_data.length) <;> simp

theorem AffineRel_init (n : Nat) (t tmpBv : TempBitVector)
    (htd : t.m_data.length = (n + 63) / 64) :
    AffineRel t (tmpBv.CopyFromEqualLengthBitVector t)
      ((TempBitVector.Reset n).CopyFromEqualLengthBitVector (TempBitVector.Reset n).SetAllOne)
      ((TempBitVector.Reset n).CopyFromEqualLengthBitVector (TempBitVector.Reset n).SetAllOne.Clear) := by
  refine ⟨?_, ?_, ?_, ?_⟩
  · simp [CopyFromEqualLengthBitVector, SetAllOne, GetAllocLength, TempBitVector.Reset, htd]
  · simp [CopyFromEqualLengthBitVector, SetAllOne, GetAllocLength, TempBitVector.Reset, Clear]
  · intro j
    simp only [IsSet_CopyFromEqualLengthBitVector, IsSet_Clear, IsSet_SetAllOne, Bool.or_false]
    by_cases hj : j / 64 < (n + 63) / 64
    · simp [GetAllocLength, TempBitVector.Reset, hj]
    · rw [IsSet_eq_false_of_length_le t j (by omega)]
      simp
  · intro j
    simp [IsSet_CopyFromEqualLengthBitVector, IsSet_Clear]

theorem BytecodeLivenessBBInfo.new_m_andMask (decoder : BytecodeDecoder) (bbInfo : BasicBlockUpvalueInfo) (numLocals : Nat) :
    (BytecodeLivenessBBInfo.new decoder bbInfo numLocals).m_andMask =
      headLoop (BytecodeLivenessBBInfo.new decoder bbInfo numLocals).m_info (BytecodeLivenessBBInfo.new decoder bbInfo numLocals).m_infoIndex
        (2 * bbInfo.m_numBytecodesInBB) bbInfo.m_numBytecodesInBB 0 0
        ((TempBitVector.Reset numLocals).CopyFromEqualLengthBitVector
          (TempBitVector.Reset numLocals).SetAllOne) := rfl

theorem BytecodeLivenessBBInfo.new_m_orMask (decoder : BytecodeDecoder) (bbInfo : BasicBlockUpvalueInfo) (numLocals : Nat) :
    (BytecodeLivenessBBInfo.new decoder bbInfo numLocals).m_orMask =
      headLoop (BytecodeLivenessBBInfo.new decoder bbInfo numLocals).m_info (BytecodeLivenessBBInfo.new decoder bbInfo numLocals).m_infoIndex
        (2 * bbInfo.m_numBytecodesInBB) bbInfo.m_numBytecodesInBB 0 0
        ((TempBitVector.Reset numLocals).CopyFromEqualLengthBitVector
          (TempBitVector.Reset numLocals).SetAllOne.Clear) := rfl

theorem BytecodeLivenessBBInfo.new_m_numBytecodesInBB (decoder : BytecodeDecoder) (bbInfo : BasicBlockUpvalueInfo)
    (numLocals : Nat) :
    (BytecodeLivenessBBInfo.new decoder bbInfo numLocals).m_numBytecodesInBB = bbInfo.m_numBytecodesInBB := rfl

/-- The replay of any block from any tail relates to the two masks of the constructor. -/
theorem BytecodeLivenessBBInfo.new_AffineRel (decoder : BytecodeDecoder) (bbInfo : BasicBlockUpvalueInfo) (numLocals : Nat)
    (bb : BytecodeLivenessBBInfo) (tmpBv : TempBitVector)
    (hinfo : bb.m_info = (BytecodeLivenessBBInfo.new decoder bbInfo numLocals).m_info)
    (hindex : bb.m_infoIndex = (BytecodeLivenessBBInfo.new decoder bbInfo numLocals).m_infoIndex)
    (hnum : bb.m_numBytecodesInBB = bbInfo.m_numBytecodesInBB)
    (htd : bb.m_atTail.m_data.length = (numLocals + 63) / 64) :
    AffineRel bb.m_atTail (bb.ComputeHeadBasedOnTail tmpBv)
      (BytecodeLivenessBBInfo.new decoder bbInfo numLocals).m_andMask (BytecodeLivenessBBInfo.new decoder bbInfo numLocals).m_orMask := by
  rw [BytecodeLivenessBBInfo.new_m_andMask, BytecodeLivenessBBInfo.new_m_orMask]
  unfold BytecodeLivenessBBInfo.ComputeHeadBasedOnTail
  simp only [hinfo, hindex, hnum]
  exact headLoop_rel3 (AffineRel bb.m_atTail) (fun x a o s => AffineRel_ClearBit _ x a o s)
    (fun x a o s => AffineRel_SetBit _ x a o s) _ _ _ _ _ _ _ _ _
    (AffineRel_init numLocals bb.m_atTail tmpBv htd)

theorem BytecodeLivenessBBInfo.IsSet_ComputeHeadBasedOnTailFast (bb : BytecodeLivenessBBInfo) (tmpBv : TempBitVector)
    (i : Nat) :
    (bb.ComputeHeadBasedOnTailFast tmpBv).IsSet i =
      (decide (i / 64 < tmpBv.GetAllocLength) &&
        ((bb.m_atTail.IsSet i && bb.m_andMask.IsSet i) || bb.m_orMask.IsSet i)) := by
  unfold BytecodeLivenessBBInfo.ComputeHeadBasedOnTailFast IsSet
  simp only [getD_wordLoop]
  by_cases h : i / 64 < tmpBv.GetAllocLength
  · simp [h, Nat.testBit_or, Nat.testBit_and]
  · simp [h]

theorem WFbv_Reset (n : Nat) : WFbv n (TempBitVector.Reset n) := by
  refine ⟨rfl, by simp [TempBitVector.Reset], ?_⟩
  intro k
  simp only [TempBitVector.Reset, List.getD_eq_getElem?_getD, List.getElem?_replicate]
  split <;> simp

theorem WFbv_Clear (n : Nat) (bv : TempBitVector) (h : bv.m_length = n) : WFbv n bv.Clear := by
  refine ⟨h, by simp [Clear, GetAllocLength, h], ?_⟩
  intro k
  simp only [Clear, List.getD_eq_getElem?_getD, List.getElem?_replicate]
  split <;> simp

theorem WFbv_SetAllOne (n : Nat) (bv : TempBitVector) (h : bv.m_length = n) :
    WFbv n bv.SetAllOne := by
  refine ⟨h, by simp [SetAllOne, GetAllocLength, h], ?_⟩
  intro k
  simp only [SetAllOne, List.getD_eq_getElem?_getD, List.getElem?_replicate]
  split <;> simp

theorem getD_modify {α : Type} (f : α → α) (l : List α) (n k : Nat) (d : α) :
    (l.modify f n).getD k d = if n = k ∧ k < l.length then f (l.getD k d) else l.getD k d := by
  simp only [List.getD_eq_getElem?_getD, List.getElem?_modify]
  by_cases hk : k < l.length
  · rw [List.getElem?_eq_getElem hk]
    by_cases hn : n = k <;> simp [hn, hk]
  · rw [List.getElem?_eq_none (by omega)]
    simp [hk]

theorem wordSetBit_lt (k w : Nat) (hk : k < 64) (hw : w < 2 ^ 64) : wordSetBit k w < 2 ^ 64 := by
  unfold wordSetBit
  apply Nat.or_lt_two_pow hw
  rw [Nat.one_shiftLeft]
  exact Nat.pow_lt_pow_right (by decide) hk

theorem wordClearBit_lt (k w : Nat) (hw : w < 2 ^ 64) : wordClearBit k w < 2 ^ 64 := by
  unfold wordClearBit
  exact lt_of_le_of_lt Nat.and_le_left hw

theorem WFbv_SetBit (n : Nat) (bv : TempBitVector) (s : Nat) (h : WFbv n bv) :
    WFbv n (bv.SetBit s) := by
  obtain ⟨h1, h2, h3⟩ := h
  refine ⟨h1, by simp [length_SetBit, h2], ?_⟩
  intro k
  simp only [SetBit, getD_modify]
  split
  · exact wordSetBit_lt _ _ (Nat.mod_lt _ (by decide)) (h3 k)
  · exact h3 k

theorem WFbv_ClearBit (n : Nat) (bv : TempBitVector) (s : Nat) (h : WFbv n bv) :
    WFbv n (bv.ClearBit s) := by
  obtain ⟨h1, h2, h3⟩ := h
  refine ⟨h1, by simp [length_ClearBit, h2], ?_⟩
  intro k
  simp only [ClearBit, getD_modify]
  split
  · exact wordClearBit_lt _ _ (h3 k)
  · exact h3 k

theorem WFbv_CopyFromEqualLengthBitVector (n : Nat) (dst src : TempBitVector)
    (hd : dst.m_length = n) (hs : WFbv n src) : WFbv n (dst.CopyFromEqualLengthBitVector src) :=
  ⟨hd, hs.2.1, hs.2.2⟩

/-- Two canonical vectors of the same length with the same bits are equal. -/
theorem WFbv_ext (n : Nat) (a b : TempBitVector) (ha : WFbv n a) (hb : WFbv n b)
    (h : ∀ i, a.IsSet i = b.IsSet i) : a = b := by
  obtain ⟨a1, a2, a3⟩ := ha
  obtain ⟨b1, b2, b3⟩ := hb
  cases a with
  | mk al ad =>
  cases b with
  | mk bl bd =>
  simp only at a1 a2 a3 b1 b2 b3
  subst a1 b1
  congr 1
  apply List.ext_getElem?
  intro k
  by_cases hk : k < ad.length
  · have hk2 : k < bd.length := by omega
    rw [List.getElem?_eq_getElem hk, List.getElem?_eq_getElem hk2]
    congr 1
    have e1 : ad.getD k 0 = ad[k] := by
      rw [List.getD_eq_getElem?_getD, List.getElem?_eq_getElem hk]; rfl
    have e2 : bd.getD k 0 = bd[k] := by
      rw [List.getD_eq_getElem?_getD, List.getElem?_eq_getElem hk2]; rfl
    rw [← e1, ← e2]
    apply Nat.eq_of_testBit_eq
    intro p
    by_cases hp : p < 64
    · have := h (64 * k + p)
      unfold IsSet at this
      have d1 : (64 * k + p) / 64 = k := by omega
      have d2 : (64 * k + p) % 64 = p := by omega
      simpa [d1, d2] using this
    · have hle : 2 ^ 64 ≤ 2 ^ p := Nat.pow_le_pow_right (by decide) (by omega)
      rw [Nat.testBit_lt_two_pow (lt_of_lt_of_le (a3 k) hle),
        Nat.testBit_lt_two_pow (lt_of_lt_of_le (b3 k) hle)]
  · rw [List.getElem?_eq_none (by omega), List.getElem?_eq_none (by omega)]

theorem WFbv_IsSet_lt (n : Nat) (bv : TempBitVector) (h : WFbv n bv) (i : Nat)
    (hi : bv.IsSet i = true) : i / 64 < (n + 63) / 64 := by
  by_contra hc
  rw [IsSet_eq_false_of_length_le bv i (by rw [h.2.1]; omega)] at hi
  exact Bool.false_ne_true hi

/-! ## `UpdateBitVectorAfterMonotonicPropagation` -/

theorem foldl_or_eq_any {α : Type} (p : α → Bool) (l : List α) (c : Bool) :
    l.foldl (fun c i => c || p i) c = (c || l.any p) := by
  induction l generalizing c with
  | nil => simp
  | cons x xs ih => simp [List.foldl_cons, ih, Bool.or_assoc]

theorem wordLoop_getD_self (l : List Nat) : wordLoop l.length (fun i => l.getD i 0) = l := by
  apply List.ext_getElem?
  intro k
  unfold wordLoop
  rw [List.getElem?_map]
  by_cases hk : k < l.length
  · rw [List.getElem?_range hk, List.getElem?_eq_getElem hk]
    simp [List.getD_eq_getElem?_getD, List.getElem?_eq_getElem hk]
  · rw [List.getElem?_eq_none (by simpa using hk), List.getElem?_eq_none (by omega)]
    rfl

theorem Update_snd (n : Nat) (bv copyFrom : TempBitVector) (hb : WFbv n bv)
    (hc : WFbv n copyFrom) : (UpdateBitVectorAfterMonotonicPropagation bv copyFrom).2 = copyFrom := by
  unfold UpdateBitVectorAfterMonotonicPropagation
  obtain ⟨b1, b2, _⟩ := hb
  obtain ⟨c1, c2, _⟩ := hc
  cases bv with
  | mk bl bd =>
  cases copyFrom with
  | mk cl cd =>
  simp only at b1 b2 c1 c2
  subst b1
  simp only [GetAllocLength, TempBitVector.mk.injEq]
  refine ⟨c1.symm, ?_⟩
  rw [← c2]
  exact wordLoop_getD_self cd

theorem Update_fst (n : Nat) (bv copyFrom : TempBitVector) (hb : WFbv n bv)
    (hc : WFbv n copyFrom) :
    (UpdateBitVectorAfterMonotonicPropagation bv copyFrom).1 = decide (bv ≠ copyFrom) := by
  unfold UpdateBitVectorAfterMonotonicPropagation
  simp only [foldl_or_eq_any, Bool.false_or]
  obtain ⟨b1, b2, _⟩ := hb
  obtain ⟨c1, c2, _⟩ := hc
  by_cases heq : bv = copyFrom
  · subst heq
    simp
  · simp only [heq, ne_eq, not_false_eq_true, decide_True]
    rw [List.any_eq_true]
    by_contra hcon
    apply heq
    cases bv with
    | mk bl bd =>
    cases copyFrom with
    | mk cl cd =>
    simp only at b1 b2 c1 c2
    subst b1 c1
    congr 1
    apply List.ext_getElem?
    intro k
    by_cases hk : k < bd.length
    · have hk2 : k < cd.length := by omega
      have hne : ¬ (bd.getD k 0 ≠ cd.getD k 0) := by
        intro hne
        apply hcon
        refine ⟨k, ?_, by simpa using hne⟩
        simp only [GetAllocLength, List.mem_range]
        omega
      simp only [ne_eq, not_not, List.getD_eq_getElem?_getD, List.getElem?_eq_getElem hk,
        List.getElem?_eq_getElem hk2, Option.getD_some] at hne
      rw [List.getElem?_eq_getElem hk, List.getElem?_eq_getElem hk2, hne]
    · rw [List.getElem?_eq_none (by omega), List.getElem?_eq_none (by omega)]

/-- The superset assertion, read on bits. -/
theorem UpdateAssertion_of_subset (bv copyFrom : TempBitVector)
    (hw : ∀ k, bv.m_data.getD k 0 < 2 ^ 64)
    (h : ∀ i, bv.IsSet i = true → copyFrom.IsSet i = true) : UpdateAssertion bv copyFrom := by
  intro k _
  apply Nat.eq_of_testBit_eq
  intro p
  rw [Nat.testBit_and]
  by_cases hp : p < 64
  · have := h (64 * k + p)
    unfold IsSet at this
    have d1 : (64 * k + p) / 64 = k := by omega
    have d2 : (64 * k + p) % 64 = p := by omega
    rw [d1, d2] at this
    cases hb : (bv.m_data.getD k 0).testBit p
    · rfl
    · rw [this hb]; rfl
  · have hle : 2 ^ 64 ≤ 2 ^ p := Nat.pow_le_pow_right (by decide) (by omega)
    rw [Nat.testBit_lt_two_pow (lt_of_lt_of_le (hw k) hle)]
    rfl

theorem getD_default_of_le (heap : List BytecodeLivenessBBInfo) (b : Nat) (h : heap.length ≤ b) :
    heap.getD b default = default := by
  rw [List.getD_eq_getElem?_getD, List.getElem?_eq_none h]; rfl

theorem IsSet_default (i : Nat) : (default : TempBitVector).IsSet i = false := by
  unfold IsSet
  show (([] : List Nat).getD (i / 64) 0).testBit (i % 64) = false
  simp

theorem getD_default_data (k : Nat) : (default : TempBitVector).m_data.getD k 0 = 0 := by
  show ([] : List Nat).getD k 0 = 0
  simp

theorem hd_lt (n : Nat) (heap : List BytecodeLivenessBBInfo) (hwf : WFHeap n heap) (b i : Nat)
    (h : hd heap b i = true) : i / 64 < (n + 63) / 64 := by
  by_cases hb : b < heap.length
  · exact WFbv_IsSet_lt n _ (hwf b hb).1 i h
  · unfold hd at h
    rw [getD_default_of_le heap b (by omega)] at h
    have e : (default : BytecodeLivenessBBInfo).m_atHead = default := rfl
    rw [e, IsSet_default] at h
    exact absurd h (by decide)

theorem head_word_lt (n : Nat) (heap : List BytecodeLivenessBBInfo) (hwf : WFHeap n heap)
    (b k : Nat) : (heap.getD b default).m_atHead.m_data.getD k 0 < 2 ^ 64 := by
  by_cases hb : b < heap.length
  · exact (hwf b hb).1.2.2 k
  · rw [getD_default_of_le heap b (by omega)]
    have e : (default : BytecodeLivenessBBInfo).m_atHead = default := rfl
    rw [e, getD_default_data]
    exact Nat.pos_pow_of_pos 64 (by decide)

theorem unionOfSuccessorHeads_eq (heap : List BytecodeLivenessBBInfo) (bb : BytecodeLivenessBBInfo)
    (tmpBv : TempBitVector) :
    unionOfSuccessorHeads heap bb tmpBv =
      unionFold heap tmpBv.GetAllocLength bb.m_successors tmpBv.Clear := rfl

theorem unionFold_spec (n : Nat) (heap : List BytecodeLivenessBBInfo) (hwf : WFHeap n heap)
    (succList : List Nat) :
    ∀ acc : TempBitVector, WFbv n acc →
      WFbv n (unionFold heap ((n + 63) / 64) succList acc) ∧
      ∀ i, (unionFold heap ((n + 63) / 64) succList acc).IsSet i =
        (acc.IsSet i || succList.any (fun s => hd heap s i)) := by
  induction succList with
  | nil => intro acc hacc; exact ⟨hacc, fun i => by simp [unionFold]⟩
  | cons s rest ih =>
    intro acc hacc
    have hstep : WFbv n (unionStep heap ((n + 63) / 64) acc s) := by
      refine ⟨hacc.1, length_wordLoop _ _, ?_⟩
      intro k
      simp only [unionStep, getD_wordLoop]
      split
      · exact Nat.or_lt_two_pow (hacc.2.2 k) (head_word_lt n heap hwf s k)
      · exact Nat.pos_pow_of_pos 64 (by decide)
    obtain ⟨h1, h2⟩ := ih _ hstep
    refine ⟨h1, ?_⟩
    intro i
    have := h2 i
    simp only [unionFold, List.foldl_cons] at this ⊢
    rw [this]
    simp only [List.any_cons]
    have hbit : (unionStep heap ((n + 63) / 64) acc s).IsSet i = (acc.IsSet i || hd heap s i) := by
      by_cases hi : i / 64 < (n + 63) / 64
      · unfold IsSet hd unionStep
        simp only [getD_wordLoop, hi, if_true, Nat.testBit_or]
        rfl
      · have e1 : acc.IsSet i = false := IsSet_eq_false_of_length_le acc i (by rw [hacc.2.1]; omega)
        have e2 : hd heap s i = false := by
          by_contra hc
          exact hi (hd_lt n heap hwf s i (by simpa using hc))
        rw [e1, e2, IsSet_eq_false_of_length_le _ i (by rw [hstep.2.1]; omega)]
        rfl
    rw [hbit, Bool.or_assoc]

theorem newTailOf_spec (n : Nat) (st : FixpointState) (hwf : WFHeap n st.bbLivenessInfo)
    (htmp : st.tmpBv.m_length = n) (b : Nat) :
    WFbv n (newTailOf st b) ∧ ∀ i, (newTailOf st b).IsSet i = unionBit st.bbLivenessInfo b i := by
  unfold newTailOf
  rw [unionOfSuccessorHeads_eq]
  have hA : st.tmpBv.GetAllocLength = (n + 63) / 64 := by simp [GetAllocLength, htmp]
  rw [hA]
  obtain ⟨h1, h2⟩ := unionFold_spec n st.bbLivenessInfo hwf
    (st.bbLivenessInfo.getD b default).m_successors st.tmpBv.Clear (WFbv_Clear n _ htmp)
  refine ⟨h1, ?_⟩
  intro i
  rw [h2 i, IsSet_Clear]
  rfl

theorem newHeadOf_spec (n : Nat) (st : FixpointState) (hwf : WFHeap n st.bbLivenessInfo)
    (htmp : st.tmpBv.m_length = n) (b : Nat) (hb : b < st.bbLivenessInfo.length) :
    WFbv n (newHeadOf st b) ∧
    ∀ i, (newHeadOf st b).IsSet i = xfer st.bbLivenessInfo b i (unionBit st.bbLivenessInfo b i) := by
  obtain ⟨t1, t2⟩ := newTailOf_spec n st hwf htmp b
  obtain ⟨_, _, wa, wo⟩ := hwf b hb
  constructor
  · refine ⟨t1.1, ?_, ?_⟩
    · simp [newHeadOf, BytecodeLivenessBBInfo.ComputeHeadBasedOnTailFast, length_wordLoop,
        GetAllocLength, t1.1]
    · intro k
      simp only [newHeadOf, BytecodeLivenessBBInfo.ComputeHeadBasedOnTailFast, getD_wordLoop]
      split
      · exact Nat.or_lt_two_pow (lt_of_le_of_lt Nat.and_le_left (t1.2.2 k)) (wo.2.2 k)
      · exact Nat.pos_pow_of_pos 64 (by decide)
  · intro i
    unfold newHeadOf
    rw [BytecodeLivenessBBInfo.IsSet_ComputeHeadBasedOnTailFast]
    simp only [t2 i]
    unfold xfer
    by_cases hi : i / 64 < (newTailOf st b).GetAllocLength
    · simp [hi]
    · have hi2 : ¬ i / 64 < (n + 63) / 64 := by simpa [GetAllocLength, t1.1] using hi
      have e2 : (st.bbLivenessInfo.getD b default).m_orMask.IsSet i = false :=
        IsSet_eq_false_of_length_le _ i (by rw [wo.2.1]; omega)
      have e3 : unionBit st.bbLivenessInfo b i = false := by
        rw [← t2 i]
        exact IsSet_eq_false_of_length_le _ i (by rw [t1.2.1]; omega)
      rw [e2, e3]
      simp [hi]

theorem Update_eq (n : Nat) (bv copyFrom : TempBitVector) (hb : WFbv n bv)
    (hc : WFbv n copyFrom) :
    UpdateBitVectorAfterMonotonicPropagation bv copyFrom = (decide (bv ≠ copyFrom), copyFrom) :=
  Prod.ext (Update_fst n bv copyFrom hb hc) (Update_snd n bv copyFrom hb hc)

theorem visitBlock_eq (n : Nat) (f : Bool) (st : FixpointState) (b : Nat)
    (hwf : WFHeap n st.bbLivenessInfo) (htmp : st.tmpBv.m_length = n)
    (hb : b < st.bbLivenessInfo.length) :
    visitBlock f st b =
      if shouldCheck st.bbLivenessInfo (st.bbLivenessInfo.getD b default) || f
      then visitResult f st b else st := by
  obtain ⟨wh, wt, _, _⟩ := hwf b hb
  obtain ⟨nt, _⟩ := newTailOf_spec n st hwf htmp b
  obtain ⟨nh, _⟩ := newHeadOf_spec n st hwf htmp b hb
  have eT : UpdateBitVectorAfterMonotonicPropagation (st.bbLivenessInfo.getD b default).m_atTail
      (newTailOf st b) = (decide ((st.bbLivenessInfo.getD b default).m_atTail ≠ newTailOf st b),
        newTailOf st b) := Update_eq n _ _ wt nt
  have eH : UpdateBitVectorAfterMonotonicPropagation (st.bbLivenessInfo.getD b default).m_atHead
      (newHeadOf st b) = (decide ((st.bbLivenessInfo.getD b default).m_atHead ≠ newHeadOf st b),
        newHeadOf st b) := Update_eq n _ _ wh nh
  have eU : unionOfSuccessorHeads st.bbLivenessInfo
        { st.bbLivenessInfo.getD b default with m_lastCheckedEpoch := st.currentEpoch + 1 }
        st.tmpBv = newTailOf st b := rfl
  have eF : BytecodeLivenessBBInfo.ComputeHeadBasedOnTailFast
      { st.bbLivenessInfo.getD b default with
        m_lastCheckedEpoch := st.currentEpoch + 1, m_atTail := newTailOf st b }
      (newTailOf st b) = newHeadOf st b := rfl
  by_cases hc : (shouldCheck st.bbLivenessInfo (st.bbLivenessInfo.getD b default) || f) = true
  · rw [if_pos hc]
    simp only [visitBlock, visitResult, hc, if_true, eU, eT, eF, eH]
    cases decide ((st.bbLivenessInfo.getD b default).m_atTail ≠ newTailOf st b) <;>
    cases f <;>
    cases decide ((st.bbLivenessInfo.getD b default).m_atHead ≠ newHeadOf st b) <;>
    rfl
  · rw [if_neg hc]
    unfold visitBlock
    simp only [hc, if_false]
    rfl

theorem SameStatic.refl (h : List BytecodeLivenessBBInfo) : SameStatic h h := ⟨rfl, fun _ => rfl⟩

theorem SameStatic.trans {h1 h2 h3 : List BytecodeLivenessBBInfo} (a : SameStatic h1 h2)
    (b : SameStatic h2 h3) : SameStatic h1 h3 :=
  ⟨b.1.trans a.1, fun x => (b.2 x).trans (a.2 x)⟩

theorem SameStatic.succs {h h' : List BytecodeLivenessBBInfo} (a : SameStatic h h') (b : Nat) :
    succs h' b = succs h b := by
  have e := congrArg BytecodeLivenessBBInfo.m_successors (a.2 b)
  simpa only [BytecodeLivenessBBInfo.static] using e

theorem SameStatic.xfer {h h' : List BytecodeLivenessBBInfo} (a : SameStatic h h') (b i : Nat)
    (t : Bool) : xfer h' b i t = xfer h b i t := by
  have e1 := congrArg BytecodeLivenessBBInfo.m_andMask (a.2 b)
  have e2 := congrArg BytecodeLivenessBBInfo.m_orMask (a.2 b)
  simp only [BytecodeLivenessBBInfo.static] at e1 e2
  unfold dfg.xfer
  rw [e1, e2]

theorem SameStatic.hasPred {h h' : List BytecodeLivenessBBInfo} (a : SameStatic h h') (b : Nat) :
    (h'.getD b default).m_hasPrecedessor = (h.getD b default).m_hasPrecedessor := by
  have e := congrArg BytecodeLivenessBBInfo.m_hasPrecedessor (a.2 b)
  simpa only [BytecodeLivenessBBInfo.static] using e

theorem getD_set_bb (l : List BytecodeLivenessBBInfo) (b b' : Nat) (x : BytecodeLivenessBBInfo) :
    (l.set b x).getD b' default = if b = b' ∧ b < l.length then x else l.getD b' default := by
  simp only [List.getD_eq_getElem?_getD, List.getElem?_set]
  by_cases h1 : b = b'
  · by_cases h2 : b < l.length
    · subst h1
      simp [h2]
    · subst h1
      simp [h2, List.getElem?_eq_none (not_lt.mp h2)]
  · simp [h1]

theorem ne_iff_exists_bit (n : Nat) (a b : TempBitVector) (ha : WFbv n a) (hb : WFbv n b) :
    a ≠ b ↔ ∃ i, a.IsSet i ≠ b.IsSet i := by
  constructor
  · intro h
    by_contra hc
    apply h
    apply WFbv_ext n a b ha hb
    intro i
    by_contra hi
    exact hc ⟨i, hi⟩
  · rintro ⟨i, hi⟩ heq
    exact hi (by rw [heq])

theorem visitResult_facts (n : Nat) (f : Bool) (st : FixpointState) (b : Nat)
    (hwf : WFHeap n st.bbLivenessInfo) (htmp : st.tmpBv.m_length = n)
    (hb : b < st.bbLivenessInfo.length) : VisitFacts n f st (visitResult f st b) b := by
  obtain ⟨wh, wt, wa, wo⟩ := hwf b hb
  obtain ⟨nt, ntb⟩ := newTailOf_spec n st hwf htmp b
  obtain ⟨nh, nhb⟩ := newHeadOf_spec n st hwf htmp b hb
  have hget : ∀ b', (visitResult f st b).bbLivenessInfo.getD b' default =
      if b = b' then
        { st.bbLivenessInfo.getD b default with
          m_lastCheckedEpoch := st.currentEpoch + 1
          m_atTail := newTailOf st b
          m_atHead := if (decide ((st.bbLivenessInfo.getD b default).m_atTail ≠ newTailOf st b) || f)
            then newHeadOf st b else (st.bbLivenessInfo.getD b default).m_atHead
          m_lastChangedEpoch :=
            if ((decide ((st.bbLivenessInfo.getD b default).m_atTail ≠ newTailOf st b) || f) &&
              decide ((st.bbLivenessInfo.getD b default).m_atHead ≠ newHeadOf st b))
            then st.currentEpoch + 2 else (st.bbLivenessInfo.getD b default).m_lastChangedEpoch }
      else st.bbLivenessInfo.getD b' default := by
    intro b'
    simp only [visitResult]
    rw [getD_set_bb]
    by_cases h : b = b'
    · simp only [h, true_and]
      subst h
      simp only [hb, if_true]
    · simp only [h, false_and, if_false]
  have hself := hget b
  simp only [if_true] at hself
  have hrec : (decide ((st.bbLivenessInfo.getD b default).m_atTail ≠ newTailOf st b) || f) = true ↔
      (f = true ∨ ∃ i, tl st.bbLivenessInfo b i ≠ unionBit st.bbLivenessInfo b i) := by
    rw [Bool.or_eq_true, decide_eq_true_iff, ne_iff_exists_bit n _ _ wt nt]
    simp only [tl, ntb]
    tauto
  have hhead : ∀ i, hd (visitResult f st b).bbLivenessInfo b i =
      if (decide ((st.bbLivenessInfo.getD b default).m_atTail ≠ newTailOf st b) || f)
      then xfer st.bbLivenessInfo b i (unionBit st.bbLivenessInfo b i)
      else hd st.bbLivenessInfo b i := by
    intro i
    unfold hd
    rw [hself]
    simp only
    split
    · exact nhb i
    · rfl
  refine
    { static := ?_, other := ?_, wf := ?_, tmp := ?_, tail := ?_, head := ?_, headNew := ?_,
      headOld := ?_, checked := ?_, changed := ?_, unchanged := ?_ }
  · refine ⟨by simp [visitResult], ?_⟩
    intro b'
    rw [hget b']
    split
    · rename_i h
      subst h
      rfl
    · rfl
  · intro b' hne
    rw [hget b', if_neg (Ne.symm hne)]
  · intro b' hb'
    rw [hget b']
    split
    · refine ⟨?_, nt, wa, wo⟩
      simp only
      split
      · exact nh
      · exact wh
    · exact hwf b' (by simpa [visitResult] using hb')
  · simp only [visitResult]
    split
    · exact nh.1
    · exact nt.1
  · intro i
    unfold tl
    rw [hself]
    exact ntb i
  · intro i
    rw [hhead i]
    split
    · right; rfl
    · left; rfl
  · intro h i
    rw [hhead i, if_pos (hrec.mpr h)]
  · intro h i
    rw [hhead i, if_neg (fun hc => h (hrec.mp hc))]
  · rw [hself]
  · rintro ⟨i, hi⟩
    have hr : (decide ((st.bbLivenessInfo.getD b default).m_atTail ≠ newTailOf st b) || f) = true := by
      by_contra hc
      rw [hhead i, if_neg hc] at hi
      exact hi rfl
    have hne : (st.bbLivenessInfo.getD b default).m_atHead ≠ newHeadOf st b := by
      intro heq
      apply hi
      rw [hhead i, if_pos hr, ← nhb i]
      unfold hd
      rw [← heq]
    rw [hself]
    simp only [visitResult, hr, hne, ne_eq, not_false_eq_true, decide_True, Bool.and_self, if_true,
      Bool.true_and, true_and]
    cases (st.bbLivenessInfo.getD b default).m_hasPrecedessor <;> simp
  · intro h
    have hc : ((decide ((st.bbLivenessInfo.getD b default).m_atTail ≠ newTailOf st b) || f) &&
              decide ((st.bbLivenessInfo.getD b default).m_atHead ≠ newHeadOf st b)) = false := by
      by_contra hc
      simp only [Bool.not_eq_false, Bool.and_eq_true, decide_eq_true_iff] at hc
      obtain ⟨hr, hne⟩ := hc
      rw [ne_iff_exists_bit n _ _ wh nh] at hne
      obtain ⟨i, hi⟩ := hne
      apply hi
      have := h i
      rw [hhead i, if_pos hr, ← nhb i] at this
      exact this.symm
    rw [hself]
    simp only [visitResult, hc, if_false, Bool.false_and, true_and]
    simp

theorem xfer_mono (h : List BytecodeLivenessBBInfo) (b i : Nat) (t t' : Bool)
    (hx : xfer h b i t = true) (ht : t = true → t' = true) : xfer h b i t' = true := by
  unfold xfer at *
  revert hx ht
  cases t <;> cases t' <;> cases (h.getD b default).m_andMask.IsSet i <;>
    cases (h.getD b default).m_orMask.IsSet i <;> simp

theorem unionBit_mono {h h' : List BytecodeLivenessBBInfo} (hs : SameStatic h h')
    (hm : ∀ b i, hd h b i = true → hd h' b i = true) (b i : Nat)
    (hu : unionBit h b i = true) : unionBit h' b i = true := by
  unfold unionBit at *
  rw [hs.succs]
  rw [List.any_eq_true] at *
  obtain ⟨s, hs1, hs2⟩ := hu
  exact ⟨s, hs1, hm _ _ hs2⟩

theorem unionBit_congr {h h' : List BytecodeLivenessBBInfo} (hs : SameStatic h h') (b i : Nat)
    (heq : ∀ s ∈ succs h b, hd h' s i = hd h s i) : unionBit h' b i = unionBit h b i := by
  unfold unionBit
  rw [hs.succs]
  apply Bool.eq_iff_iff.mpr
  simp only [List.any_eq_true]
  constructor
  · rintro ⟨s, hs1, hs2⟩
    exact ⟨s, hs1, by rw [← heq s hs1]; exact hs2⟩
  · rintro ⟨s, hs1, hs2⟩
    exact ⟨s, hs1, by rw [heq s hs1]; exact hs2⟩

/-- Heads and tails only grow in a visit. -/
theorem VisitFacts.mono {n : Nat} {f : Bool} {st st' : FixpointState} {b : Nat}
    (F : VisitFacts n f st st' b) (hinv : Inv n st) :
    (∀ b' i, hd st.bbLivenessInfo b' i = true → hd st'.bbLivenessInfo b' i = true) ∧
    (∀ b' i, tl st.bbLivenessInfo b' i = true → tl st'.bbLivenessInfo b' i = true) := by
  constructor
  · intro b' i h
    by_cases hb : b' = b
    · subst hb
      rcases F.head i with e | e
      · rw [e]; exact h
      · rw [e]
        exact xfer_mono _ _ _ _ _ (hinv.headSub _ _ h) (hinv.tailSub _ _)
    · unfold hd
      rw [F.other b' hb]
      exact h
  · intro b' i h
    by_cases hb : b' = b
    · subst hb
      rw [F.tail i]
      exact hinv.tailSub _ _ h
    · unfold tl
      rw [F.other b' hb]
      exact h

theorem VisitFacts.epoch_cases {n : Nat} {f : Bool} {st st' : FixpointState} {b : Nat}
    (F : VisitFacts n f st st' b) :
    ((∃ i, hd st'.bbLivenessInfo b i ≠ hd st.bbLivenessInfo b i) ∧
      lastChanged st'.bbLivenessInfo b = st.currentEpoch + 2 ∧
      st'.currentEpoch = st.currentEpoch + 2 ∧
      st'.needMoreIterations =
        ((st.bbLivenessInfo.getD b default).m_hasPrecedessor || st.needMoreIterations)) ∨
    ((∀ i, hd st'.bbLivenessInfo b i = hd st.bbLivenessInfo b i) ∧
      lastChanged st'.bbLivenessInfo b = lastChanged st.bbLivenessInfo b ∧
      st'.currentEpoch = st.currentEpoch + 1 ∧
      st'.needMoreIterations = st.needMoreIterations) := by
  by_cases hch : ∃ i, hd st'.bbLivenessInfo b i ≠ hd st.bbLivenessInfo b i
  · left
    exact ⟨hch, F.changed hch⟩
  · right
    have : ∀ i, hd st'.bbLivenessInfo b i = hd st.bbLivenessInfo b i := by
      intro i
      by_contra hc
      exact hch ⟨i, hc⟩
    exact ⟨this, F.unchanged this⟩

/-- A block whose last-changed epoch is at most the epoch of the visit has kept its head. -/
theorem VisitFacts.head_eq_of_le {n : Nat} {f : Bool} {st st' : FixpointState} {b : Nat}
    (F : VisitFacts n f st st' b) (s : Nat)
    (h : lastChanged st'.bbLivenessInfo s ≤ st.currentEpoch + 1) (i : Nat) :
    hd st'.bbLivenessInfo s i = hd st.bbLivenessInfo s i := by
  by_cases hs : s = b
  · subst hs
    rcases F.epoch_cases with ⟨_, e, _⟩ | ⟨e, _⟩
    · omega
    · exact e i
  · unfold hd
    rw [F.other s hs]

theorem VisitFacts.lastChanged_ge {n : Nat} {f : Bool} {st st' : FixpointState} {b : Nat}
    (F : VisitFacts n f st st' b) (hinv : Inv n st) (s : Nat) :
    lastChanged st.bbLivenessInfo s ≤ lastChanged st'.bbLivenessInfo s := by
  by_cases hs : s = b
  · subst hs
    rcases F.epoch_cases with ⟨_, e, _⟩ | ⟨_, e, _⟩
    · have := (hinv.ep s).1
      omega
    · omega
  · unfold lastChanged
    rw [F.other s hs]

theorem Inv_of_VisitFacts {n : Nat} {f : Bool} {st st' : FixpointState} {b : Nat}
    (hinv : Inv n st) (F : VisitFacts n f st st' b) : Inv n st' := by
  obtain ⟨mh, mt⟩ := F.mono hinv
  have hcur : st.currentEpoch + 1 ≤ st'.currentEpoch := by
    rcases F.epoch_cases with ⟨_, _, e, _⟩ | ⟨_, _, e, _⟩ <;> omega
  refine { wf := F.wf, tmp := F.tmp, ep := ?_, tailSub := ?_, headSub := ?_, upToDate := ?_ }
  · intro b'
    by_cases hb : b' = b
    · subst hb
      constructor
      · rcases F.epoch_cases with ⟨_, e, e2, _⟩ | ⟨_, e, e2, _⟩
        · omega
        · have := (hinv.ep b').1
          omega
      · unfold lastChecked
        rw [F.checked]
        exact hcur
    · unfold lastChanged lastChecked
      rw [F.other b' hb]
      have := hinv.ep b'
      unfold lastChanged lastChecked at this
      omega
  · intro b' i h
    by_cases hb : b' = b
    · subst hb
      rw [F.tail i] at h
      exact unionBit_mono F.static mh _ _ h
    · have : tl st.bbLivenessInfo b' i = true := by
        unfold tl at h ⊢
        rw [F.other b' hb] at h
        exact h
      exact unionBit_mono F.static mh _ _ (hinv.tailSub _ _ this)
  · intro b' i h
    rw [F.static.xfer]
    by_cases hb : b' = b
    · subst hb
      rcases F.head i with e | e
      · rw [e] at h
        exact xfer_mono _ _ _ _ _ (hinv.headSub _ _ h) (mt _ _)
      · rw [e] at h
        rw [F.tail i]
        exact h
    · have h' : hd st.bbLivenessInfo b' i = true := by
        unfold hd at h ⊢
        rw [F.other b' hb] at h
        exact h
      exact xfer_mono _ _ _ _ _ (hinv.headSub _ _ h') (mt _ _)
  · intro b' hall i hu
    rw [F.static.succs] at hall
    by_cases hb : b' = b
    · subst hb
      rw [F.tail i]
      rw [unionBit_congr F.static b' i] at hu
      · exact hu
      · intro s hs
        apply F.head_eq_of_le
        have := hall s hs
        unfold lastChecked at this
        rw [F.checked] at this
        exact this
    · have hck : lastChecked st'.bbLivenessInfo b' = lastChecked st.bbLivenessInfo b' := by
        unfold lastChecked
        rw [F.other b' hb]
      rw [hck] at hall
      have hold : ∀ s ∈ succs st.bbLivenessInfo b',
          lastChanged st.bbLivenessInfo s ≤ lastChecked st.bbLivenessInfo b' := by
        intro s hs
        exact le_trans (F.lastChanged_ge hinv s) (hall s hs)
      rw [unionBit_congr F.static b' i] at hu
      · have := hinv.upToDate b' hold i hu
        exact mt _ _ this
      · intro s hs
        apply F.head_eq_of_le
        have h1 := hall s hs
        have h2 := (hinv.ep b').2
        omega

/-! ## One visit, one pass -/

theorem shouldCheck_eq_false_iff (heap : List BytecodeLivenessBBInfo) (b : Nat) :
    shouldCheck heap (heap.getD b default) = false ↔
      ∀ s ∈ succs heap b, lastChanged heap s ≤ lastChecked heap b := by
  unfold shouldCheck succs lastChanged lastChecked
  rw [List.any_eq_false]
  simp only [decide_eq_true_iff, not_lt, gt_iff_lt]

/-- A visit either skips the block (epoch test fails, not the first pass) or
has the effect described by `VisitFacts`. -/
theorem visitBlock_cases (n : Nat) (f : Bool) (st : FixpointState) (b : Nat) (hinv : Inv n st)
    (hb : b < st.bbLivenessInfo.length) :
    (visitBlock f st b = st ∧ f = false ∧
      ∀ s ∈ succs st.bbLivenessInfo b,
        lastChanged st.bbLivenessInfo s ≤ lastChecked st.bbLivenessInfo b) ∨
    VisitFacts n f st (visitBlock f st b) b := by
  rw [visitBlock_eq n f st b hinv.wf hinv.tmp hb]
  by_cases hc : (shouldCheck st.bbLivenessInfo (st.bbLivenessInfo.getD b default) || f) = true
  · right
    rw [if_pos hc]
    exact visitResult_facts n f st b hinv.wf hinv.tmp hb
  · left
    rw [if_neg hc]
    simp only [Bool.or_eq_true, not_or, Bool.not_eq_true] at hc
    exact ⟨rfl, hc.2, (shouldCheck_eq_false_iff _ _).mp hc.1⟩

theorem PassInv.visit_step {n : Nat} {h0 : List BytecodeLivenessBBInfo} {f : Bool}
    {st0 st : FixpointState} {k : Nat} (hpred : HasPredOK h0)
    (P : PassInv n h0 f st0 k st) (hk : k < st.bbLivenessInfo.length) :
    PassInv n h0 f st0 (k + 1) (visitBlock f st k) := by
  rcases visitBlock_cases n f st k P.inv hk with ⟨e, hf, hall⟩ | F
  · rw [e]
    refine { inv := P.inv, static := P.static, below := P.below, headSup := ?_, checked := ?_,
             monoH := P.monoH, monoT := P.monoT, grow := P.grow }
    · intro b _ i
      exact P.headSup b (Or.inl hf) i
    · intro hn j hj s hs
      by_cases hjk : j = k
      · subst hjk
        exact hall s hs
      · exact P.checked hn j (by omega) s hs
  · have hinv' := Inv_of_VisitFacts P.inv F
    obtain ⟨mh, mt⟩ := F.mono P.inv
    have hstat : SameStatic h0 (visitBlock f st k).bbLivenessInfo := P.static.trans F.static
    have hlen : (visitBlock f st k).bbLivenessInfo.length = st.bbLivenessInfo.length := F.static.1
    refine { inv := hinv', static := hstat, below := ?_, headSup := ?_, checked := ?_,
             monoH := fun b i h => mh _ _ (P.monoH b i h),
             monoT := fun b i h => mt _ _ (P.monoT b i h), grow := ?_ }
    · intro H T hsol b i
      have hold := P.below H T hsol
      have htail : tl (visitBlock f st k).bbLivenessInfo k i = true → T k i = true := by
        intro h
        rw [F.tail i] at h
        apply hsol.1
        unfold unionBit at h
        rw [P.static.succs] at h
        rw [List.any_eq_true] at h ⊢
        obtain ⟨s, hs1, hs2⟩ := h
        exact ⟨s, hs1, (hold s i).1 hs2⟩
      by_cases hb : b = k
      · subst hb
        refine ⟨?_, htail⟩
        intro h
        rcases F.head i with e | e
        · rw [e] at h
          exact (hold b i).1 h
        · rw [e] at h
          apply hsol.2
          rw [← P.static.xfer]
          apply xfer_mono _ _ _ _ _ h
          intro hu
          apply htail
          rw [F.tail i]
          exact hu
      · unfold hd tl
        rw [F.other b hb]
        exact hold b i
    · intro b hcond i hx
      rw [F.static.xfer] at hx
      by_cases hb : b = k
      · subst hb
        by_cases hnew : f = true ∨ ∃ i, tl st.bbLivenessInfo b i ≠ unionBit st.bbLivenessInfo b i
        · rw [F.headNew hnew i]
          rw [F.tail i] at hx
          exact hx
        · rw [F.headOld hnew i]
          simp only [not_or, not_exists, ne_eq, not_not] at hnew
          rw [F.tail i, ← hnew.2 i] at hx
          apply P.headSup b (Or.inl _) i hx
          cases f
          · rfl
          · exact absurd rfl hnew.1
      · have e1 : tl (visitBlock f st k).bbLivenessInfo b i = tl st.bbLivenessInfo b i := by
          unfold tl; rw [F.other b hb]
        have e2 : hd (visitBlock f st k).bbLivenessInfo b i = hd st.bbLivenessInfo b i := by
          unfold hd; rw [F.other b hb]
        rw [e1] at hx
        rw [e2]
        apply P.headSup b _ i hx
        rcases hcond with h | h
        · exact Or.inl h
        · exact Or.inr (by omega)
    · intro hn j hj s hs
      rw [F.static.succs] at hs
      have hkeep : ∀ s', s' ∈ succs st.bbLivenessInfo j → s' = k →
          lastChanged (visitBlock f st k).bbLivenessInfo s' = lastChanged st.bbLivenessInfo s' ∧
          st.needMoreIterations = false := by
        intro s' hs' hsk
        subst hsk
        have hp : (st.bbLivenessInfo.getD s' default).m_hasPrecedessor = true := by
          rw [P.static.hasPred]
          apply hpred j s'
          · rw [← P.static.succs]; exact hs'
          · rw [← P.static.1]; exact hk
        rcases F.epoch_cases with ⟨_, _, _, e⟩ | ⟨_, e1, _, e2⟩
        · rw [hp, hn] at e
          simp at e
        · exact ⟨e1, by rw [← e2]; exact hn⟩
      have hnold : st.needMoreIterations = false := by
        rcases F.epoch_cases with ⟨_, _, _, e⟩ | ⟨_, _, _, e⟩
        · rw [hn] at e
          cases hh : st.needMoreIterations
          · rfl
          · rw [hh] at e; simp at e
        · rw [← e]; exact hn
      by_cases hjk : j = k
      · subst hjk
        unfold lastChecked
        rw [F.checked]
        by_cases hsk : s = j
        · rw [(hkeep s hs hsk).1]
          have := (P.inv.ep s).1
          omega
        · unfold lastChanged
          rw [F.other s hsk]
          have := (P.inv.ep s).1
          unfold lastChanged at this
          omega
      · have hck : lastChecked (visitBlock f st k).bbLivenessInfo j = lastChecked st.bbLivenessInfo j := by
          unfold lastChecked
          rw [F.other j hjk]
        rw [hck]
        have hold := P.checked hnold j (by omega) s hs
        by_cases hsk : s = k
        · rw [(hkeep s hs hsk).1]
          exact hold
        · unfold lastChanged at hold ⊢
          rw [F.other s hsk]
          exact hold
    · intro hn
      rw [hlen]
      rcases F.epoch_cases with ⟨⟨i, hi⟩, _, _, e⟩ | ⟨_, _, _, e⟩
      · refine ⟨k, i, hk, ?_, ?_⟩
        · cases h0' : hd st0.bbLivenessInfo k i
          · rfl
          · exfalso
            have h1 := P.monoH k i h0'
            have h2 := mh k i h1
            rw [h1, h2] at hi
            exact hi rfl
        · cases h1 : hd (visitBlock f st k).bbLivenessInfo k i
          · exfalso
            cases h2 : hd st.bbLivenessInfo k i
            · rw [h1, h2] at hi
              exact hi rfl
            · rw [mh k i h2] at h1
              exact Bool.noConfusion h1
          · rfl
      · rw [e] at hn
        obtain ⟨b, i, hb, h1, h2⟩ := P.grow hn
        exact ⟨b, i, hb, h1, mh b i h2⟩

/-! ## The loop -/

theorem hd_of_le (heap : List BytecodeLivenessBBInfo) (b i : Nat) (h : heap.length ≤ b) :
    hd heap b i = false := by
  unfold hd
  rw [getD_default_of_le heap b h]
  exact IsSet_default i

theorem tl_of_le (heap : List BytecodeLivenessBBInfo) (b i : Nat) (h : heap.length ≤ b) :
    tl heap b i = false := by
  unfold tl
  rw [getD_default_of_le heap b h]
  exact IsSet_default i

theorem succs_of_le (heap : List BytecodeLivenessBBInfo) (b : Nat) (h : heap.length ≤ b) :
    succs heap b = [] := by
  unfold succs
  rw [getD_default_of_le heap b h]
  rfl

theorem xfer_of_le (heap : List BytecodeLivenessBBInfo) (b i : Nat) (t : Bool)
    (h : heap.length ≤ b) : xfer heap b i t = false := by
  unfold xfer
  rw [getD_default_of_le heap b h]
  have e1 : (default : BytecodeLivenessBBInfo).m_andMask = default := rfl
  have e2 : (default : BytecodeLivenessBBInfo).m_orMask = default := rfl
  rw [e1, e2, IsSet_default]
  simp

theorem PassInv.start {n : Nat} {h0 : List BytecodeLivenessBBInfo} {f : Bool} {st : FixpointState}
    (L : LoopInv n h0 f st) :
    PassInv n h0 f { st with needMoreIterations := false } 0
      { st with needMoreIterations := false } :=
  { inv := ⟨L.inv.wf, L.inv.tmp, L.inv.ep, L.inv.tailSub, L.inv.headSub, L.inv.upToDate⟩
    static := L.static
    below := L.below
    headSup := fun b hc i hx => by
      rcases hc with hf | hb
      · exact L.headSup hf b i hx
      · exact absurd hb (Nat.not_lt_zero b)
    checked := fun _ j hj => absurd hj (Nat.not_lt_zero j)
    monoH := fun _ _ h => h
    monoT := fun _ _ h => h
    grow := fun h => Bool.noConfusion h }

theorem PassInv.fold {n : Nat} {h0 : List BytecodeLivenessBBInfo} {f : Bool}
    {st0 : FixpointState} (hpred : HasPredOK h0) (P0 : PassInv n h0 f st0 0 st0) :
    ∀ k, k ≤ h0.length → PassInv n h0 f st0 k ((List.range k).foldl (visitBlock f) st0) := by
  intro k
  induction k with
  | zero => intro _; simpa using P0
  | succ k ih =>
    intro hk
    rw [List.range_succ, List.foldl_append]
    have P := ih (by omega)
    simp only [List.foldl_cons, List.foldl_nil]
    apply P.visit_step hpred
    rw [P.static.1]
    omega

/-- The state at the end of a pass. -/
theorem onePass_PassInv {n : Nat} {h0 : List BytecodeLivenessBBInfo} {f : Bool}
    {st : FixpointState} (hpred : HasPredOK h0) (L : LoopInv n h0 f st) :
    PassInv n h0 f { st with needMoreIterations := false } h0.length (onePass f st) := by
  unfold onePass
  have e : st.bbLivenessInfo.length = h0.length := L.static.1
  have := PassInv.fold hpred (PassInv.start L) h0.length (le_refl _)
  simpa only [e] using this

theorem PassInv.toLoopInv {n : Nat} {h0 : List BytecodeLivenessBBInfo} {f : Bool}
    {st0 st : FixpointState} (P : PassInv n h0 f st0 h0.length st) : LoopInv n h0 false st :=
  { inv := P.inv
    static := P.static
    below := P.below
    headSup := fun _ b i hx => by
      by_cases hb : b < h0.length
      · exact P.headSup b (Or.inr hb) i hx
      · rw [xfer_of_le _ _ _ _ (by rw [P.static.1]; omega)] at hx
        exact Bool.noConfusion hx }

theorem PassInv.toFinal {n : Nat} {h0 : List BytecodeLivenessBBInfo} {f : Bool}
    {st0 st : FixpointState} (P : PassInv n h0 f st0 h0.length st)
    (hdone : st.needMoreIterations = false) : Final n h0 st := by
  have hlen : st.bbLivenessInfo.length = h0.length := P.static.1
  have hq : ∀ j, ∀ s ∈ succs st.bbLivenessInfo j,
      lastChanged st.bbLivenessInfo s ≤ lastChecked st.bbLivenessInfo j := by
    intro j s hs
    by_cases hj : j < h0.length
    · exact P.checked hdone j hj s hs
    · rw [succs_of_le _ _ (by omega)] at hs
      exact absurd hs (List.not_mem_nil s)
  refine { inv := P.inv, static := P.static, below := P.below, tailEq := ?_, headEq := ?_,
           quiet := hq, done := hdone }
  · intro b i
    apply Bool.eq_iff_iff.mpr
    exact ⟨P.inv.tailSub b i, P.inv.upToDate b (hq b) i⟩
  · intro b i
    apply Bool.eq_iff_iff.mpr
    refine ⟨P.inv.headSub b i, ?_⟩
    exact (P.toLoopInv).headSup rfl b i

theorem countP_lt_of_witness {α : Type} (p q : α → Bool) (l : List α)
    (hpq : ∀ x ∈ l, p x = true → q x = true)
    (hw : ∃ x ∈ l, p x = false ∧ q x = true) : l.countP p < l.countP q := by
  induction l with
  | nil =>
    obtain ⟨x, hx, _⟩ := hw
    exact absurd hx (List.not_mem_nil x)
  | cons a rest ih =>
    have hmono : rest.countP p ≤ rest.countP q :=
      List.countP_mono_left (fun x hx => hpq x (List.mem_cons_of_mem a hx))
    obtain ⟨x, hx, hpx, hqx⟩ := hw
    rcases List.mem_cons.mp hx with e | hin
    · subst e
      rw [List.countP_cons_of_neg p _ (by simp [hpx]),
        List.countP_cons_of_pos q _ hqx]
      omega
    · have hlt := ih (fun y hy => hpq y (List.mem_cons_of_mem a hy)) ⟨x, hin, hpx, hqx⟩
      have hpa := hpq a (List.mem_cons_self a rest)
      cases hp : p a
      · rw [List.countP_cons_of_neg p _ (by simp [hp])]
        cases hq : q a
        · rw [List.countP_cons_of_neg q _ (by simp [hq])]
          exact hlt
        · rw [List.countP_cons_of_pos q _ hq]
          omega
      · rw [List.countP_cons_of_pos p _ hp, List.countP_cons_of_pos q _ (hpa hp)]
        omega

theorem headBits_le (N : Nat) (heap : List BytecodeLivenessBBInfo) :
    headBits N heap ≤ heap.length * N := by
  unfold headBits
  refine le_trans (List.countP_le_length _) ?_
  have e := List.length_product (List.range heap.length) (List.range N)
  simp only [List.length_range] at e
  exact le_of_eq e

theorem headBits_lt {n : Nat} {h0 : List BytecodeLivenessBBInfo} {f : Bool}
    {st0 st : FixpointState} (P : PassInv n h0 f st0 h0.length st)
    (hlen0 : st0.bbLivenessInfo.length = h0.length)
    (hmore : st.needMoreIterations = true) :
    headBits (64 * ((n + 63) / 64)) st0.bbLivenessInfo <
      headBits (64 * ((n + 63) / 64)) st.bbLivenessInfo := by
  unfold headBits
  rw [hlen0, P.static.1]
  apply countP_lt_of_witness
  · intro x _ hx
    exact P.monoH _ _ hx
  · obtain ⟨b, i, hb, h1, h2⟩ := P.grow hmore
    refine ⟨(b, i), ?_, h1, h2⟩
    rw [List.pair_mem_product]
    simp only [List.mem_range]
    have := hd_lt n _ P.inv.wf b i h2
    rw [P.static.1] at hb
    exact ⟨hb, by omega⟩

/-- The loop exits within the bound on the number of passes, in a `Final` state. -/
theorem fixpointLoop_terminates {n : Nat} {h0 : List BytecodeLivenessBBInfo}
    (hpred : HasPredOK h0) :
    ∀ (fuel : Nat) (f : Bool) (st : FixpointState), LoopInv n h0 f st →
      h0.length * (64 * ((n + 63) / 64)) - headBits (64 * ((n + 63) / 64)) st.bbLivenessInfo < fuel →
      ∃ st', fixpointLoop fuel f st = some st' ∧ Final n h0 st' := by
  intro fuel
  induction fuel with
  | zero => intro f st _ h; exact absurd h (Nat.not_lt_zero _)
  | succ fuel ih =>
    intro f st L hfuel
    have P := onePass_PassInv hpred L
    unfold fixpointLoop
    simp only
    by_cases hdone : (onePass f st).needMoreIterations = false
    · refine ⟨onePass f st, ?_, P.toFinal hdone⟩
      simp [hdone]
    · have hmore : (onePass f st).needMoreIterations = true := by
        simpa using hdone
      simp only [hmore, Bool.not_true, Bool.false_eq_true, if_false]
      apply ih false (onePass f st) P.toLoopInv
      have hlt := headBits_lt P L.static.1 hmore
      have hle := headBits_le (64 * ((n + 63) / 64)) (onePass f st).bbLivenessInfo
      rw [P.static.1] at hle
      simp only at hlt
      omega

theorem fixpointLoop_fuel_irrelevant :
    ∀ (fuel1 fuel2 : Nat) (f : Bool) (st a b : FixpointState),
      fixpointLoop fuel1 f st = some a → fixpointLoop fuel2 f st = some b → a = b := by
  intro fuel1
  induction fuel1 with
  | zero => intro fuel2 f st a b h; simp [fixpointLoop] at h
  | succ fuel1 ih =>
    intro fuel2 f st a b h1 h2
    cases fuel2 with
    | zero => simp [fixpointLoop] at h2
    | succ fuel2 =>
      unfold fixpointLoop at h1 h2
      simp only at h1 h2
      by_cases hdone : (onePass f st).needMoreIterations = false
      · simp only [hdone, Bool.not_false, if_true, Option.some.injEq] at h1 h2
        rw [← h1, ← h2]
      · have hmore : (onePass f st).needMoreIterations = true := by simpa using hdone
        simp only [hmore, Bool.not_true, Bool.false_eq_true, if_false] at h1 h2
        exact ih fuel2 false _ a b h1 h2

theorem visitBlock_stable (n : Nat) (f : Bool) (st : FixpointState) (b : Nat) (S : Stable n st)
    (hb : b < st.bbLivenessInfo.length) :
    Stable n (visitBlock f st b) ∧
    SameStatic st.bbLivenessInfo (visitBlock f st b).bbLivenessInfo ∧
    (∀ b' i, hd (visitBlock f st b).bbLivenessInfo b' i = hd st.bbLivenessInfo b' i) ∧
    (∀ b' i, tl (visitBlock f st b).bbLivenessInfo b' i = tl st.bbLivenessInfo b' i) := by
  rcases visitBlock_cases n f st b S.inv hb with ⟨e, _, _⟩ | F
  · rw [e]
    exact ⟨S, SameStatic.refl _, fun _ _ => rfl, fun _ _ => rfl⟩
  · have hT : ∀ b' i, tl (visitBlock f st b).bbLivenessInfo b' i = tl st.bbLivenessInfo b' i := by
      intro b' i
      by_cases hb' : b' = b
      · subst hb'
        rw [F.tail i, S.tailEq]
      · unfold tl
        rw [F.other b' hb']
    have hH : ∀ b' i, hd (visitBlock f st b).bbLivenessInfo b' i = hd st.bbLivenessInfo b' i := by
      intro b' i
      by_cases hb' : b' = b
      · subst hb'
        rcases F.head i with e | e
        · exact e
        · rw [e, ← S.tailEq, ← S.headEq]
      · unfold hd
        rw [F.other b' hb']
    refine ⟨⟨Inv_of_VisitFacts S.inv F, ?_, ?_⟩, F.static, hH, hT⟩
    · intro b' i
      rw [hT, S.tailEq, unionBit_congr F.static b' i (fun s _ => hH s i)]
    · intro b' i
      rw [hH, hT, F.static.xfer, ← S.headEq]

theorem fold_stable (n : Nat) (f : Bool) (st : FixpointState) (S : Stable n st) :
    ∀ k, k ≤ st.bbLivenessInfo.length →
      Stable n ((List.range k).foldl (visitBlock f) st) ∧
      SameStatic st.bbLivenessInfo ((List.range k).foldl (visitBlock f) st).bbLivenessInfo ∧
      (∀ b' i, hd ((List.range k).foldl (visitBlock f) st).bbLivenessInfo b' i =
        hd st.bbLivenessInfo b' i) ∧
      (∀ b' i, tl ((List.range k).foldl (visitBlock f) st).bbLivenessInfo b' i =
        tl st.bbLivenessInfo b' i) := by
  intro k
  induction k with
  | zero => intro _; exact ⟨S, SameStatic.refl _, fun _ _ => rfl, fun _ _ => rfl⟩
  | succ k ih =>
    intro hk
    obtain ⟨S1, s1, h1, t1⟩ := ih (by omega)
    rw [List.range_succ, List.foldl_append]
    simp only [List.foldl_cons, List.foldl_nil]
    obtain ⟨S2, s2, h2, t2⟩ := visitBlock_stable n f _ k S1 (by rw [s1.1]; omega)
    exact ⟨S2, s1.trans s2, fun b' i => (h2 b' i).trans (h1 b' i),
      fun b' i => (t2 b' i).trans (t1 b' i)⟩

/-- One more pass over all blocks, with or without the epoch test, leaves every
head and every tail as it is. -/
theorem onePass_heads_tails (n : Nat) (h0 : List BytecodeLivenessBBInfo) (st : FixpointState)
    (F : Final n h0 st) (f : Bool) (b : Nat) :
    ((onePass f st).bbLivenessInfo.getD b default).m_atHead =
      (st.bbLivenessInfo.getD b default).m_atHead ∧
    ((onePass f st).bbLivenessInfo.getD b default).m_atTail =
      (st.bbLivenessInfo.getD b default).m_atTail := by
  have S : Stable n { st with needMoreIterations := false } :=
    ⟨⟨F.inv.wf, F.inv.tmp, F.inv.ep, F.inv.tailSub, F.inv.headSub, F.inv.upToDate⟩,
      F.tailEq, F.headEq⟩
  obtain ⟨S1, s1, h1, t1⟩ := fold_stable n f _ S st.bbLivenessInfo.length (le_refl _)
  unfold onePass
  by_cases hb : b < st.bbLivenessInfo.length
  · have w1 := S1.inv.wf b (by rw [s1.1]; exact hb)
    have w0 := F.inv.wf b hb
    exact ⟨WFbv_ext n _ _ w1.1 w0.1 (fun i => h1 b i),
      WFbv_ext n _ _ w1.2.1 w0.2.1 (fun i => t1 b i)⟩
  · rw [getD_default_of_le _ b (by rw [s1.1]; exact not_lt.mp hb),
      getD_default_of_le _ b (not_lt.mp hb)]
    exact ⟨rfl, rfl⟩

theorem visitBlock_quiet (n : Nat) (h0 : List BytecodeLivenessBBInfo) (st : FixpointState)
    (F : Final n h0 st) (b : Nat) (hb : b < st.bbLivenessInfo.length) :
    visitBlock false st b = st := by
  rw [visitBlock_eq n false st b F.inv.wf F.inv.tmp hb]
  have : shouldCheck st.bbLivenessInfo (st.bbLivenessInfo.getD b default) = false :=
    (shouldCheck_eq_false_iff _ _).mpr (F.quiet b)
  rw [this]
  rfl

/-- One more pass of the loop changes nothing at all. -/
theorem onePass_fixed (n : Nat) (h0 : List BytecodeLivenessBBInfo) (st : FixpointState)
    (F : Final n h0 st) : onePass false st = st := by
  unfold onePass
  have e : ({ st with needMoreIterations := false } : FixpointState) = st := by
    have := F.done
    cases st
    simp only at this
    subst this
    rfl
  rw [e]
  have : ∀ k, k ≤ st.bbLivenessInfo.length → (List.range k).foldl (visitBlock false) st = st := by
    intro k
    induction k with
    | zero => intro _; rfl
    | succ k ih =>
      intro hk
      rw [List.range_succ, List.foldl_append, ih (by omega)]
      simp only [List.foldl_cons, List.foldl_nil]
      exact visitBlock_quiet n h0 st F k (by omega)
  exact this _ (le_refl _)

theorem setupSuccessorEdges_eq (cfUvInfo : DfgControlFlowAndUpvalueAnalysisResult)
    (bbInReverseOrder : List Nat) (infos : List BytecodeLivenessBBInfo) :
    setupSuccessorEdges cfUvInfo bbInReverseOrder infos =
      (List.range bbInReverseOrder.length).foldl (fun heap bbOrd =>
        (List.range (succsOfOrd cfUvInfo bbInReverseOrder bbOrd).length).foldl
          (edgeStep bbInReverseOrder (succsOfOrd cfUvInfo bbInReverseOrder bbOrd) bbOrd) heap)
        infos := rfl

theorem edgeStep_getD (order succList : List Nat) (b0 : Nat) (heap : List BytecodeLivenessBBInfo)
    (k0 b : Nat) :
    (edgeStep order succList b0 heap k0).getD b default =
      { heap.getD b default with
        m_successors :=
          if b0 = b ∧ b < heap.length then
            (heap.getD b default).m_successors.set k0 (bbInfoMap order (succList.getD k0 0))
          else (heap.getD b default).m_successors
        m_hasPrecedessor :=
          if bbInfoMap order (succList.getD k0 0) = b ∧ b < heap.length then true
          else (heap.getD b default).m_hasPrecedessor } := by
  unfold edgeStep
  rw [getD_modify, getD_modify, List.length_modify]
  by_cases h1 : b0 = b ∧ b < heap.length
  · by_cases h2 : bbInfoMap order (succList.getD k0 0) = b ∧ b < heap.length
    · simp only [if_pos h1, if_pos h2]
    · simp only [if_pos h1, if_neg h2]
  · by_cases h2 : bbInfoMap order (succList.getD k0 0) = b ∧ b < heap.length
    · simp only [if_neg h1, if_pos h2]
    · simp only [if_neg h1, if_neg h2]

theorem getD_set_nat (l : List Nat) (i j v : Nat) :
    (l.set i v).getD j 0 = if i = j ∧ j < l.length then v else l.getD j 0 := by
  simp only [List.getD_eq_getElem?_getD, List.getElem?_set]
  by_cases h1 : i = j
  · subst h1
    by_cases h2 : i < l.length
    · simp [h2]
    · simp [h2, List.getElem?_eq_none (not_lt.mp h2)]
  · simp [h1]

theorem EdgeInv.edge_step {order : List Nat} {cf : DfgControlFlowAndUpvalueAnalysisResult}
    {infos : List BytecodeLivenessBBInfo} {D : Nat → Nat → Prop}
    {heap : List BytecodeLivenessBBInfo}
    (J : EdgeInv order (fun b k => bbInfoMap order ((succsOfOrd cf order b).getD k 0)) infos D heap)
    (b0 k0 : Nat) (hb0 : b0 < heap.length)
    (hk0 : k0 < (infos.getD b0 default).m_successors.length) :
    EdgeInv order (fun b k => bbInfoMap order ((succsOfOrd cf order b).getD k 0)) infos
      (fun b k => D b k ∨ (b = b0 ∧ k = k0))
      (edgeStep order (succsOfOrd cf order b0) b0 heap k0) := by
  have hlen : (edgeStep order (succsOfOrd cf order b0) b0 heap k0).length = heap.length := by
    simp [edgeStep, List.length_modify]
  refine { len := hlen.trans J.len, frame := ?_, slen := ?_, done := ?_ }
  · intro b
    rw [edgeStep_getD, ← J.frame b]
    rfl
  · intro b
    rw [edgeStep_getD, ← J.slen b]
    show (if b0 = b ∧ b < heap.length then _ else _ : List Nat).length = _
    split
    · rw [List.length_set]
    · rfl
  · intro b k hD
    constructor
    · rw [edgeStep_getD]
      simp only
      split
      · rename_i hc
        rw [getD_set_nat]
        split
        · rename_i hc2
          rw [← hc.1, ← hc2.1]
        · rename_i hc2
          rcases hD with hD | ⟨_, e2⟩
          · exact (J.done b k hD).1
          · exfalso
            apply hc2
            refine ⟨e2.symm, ?_⟩
            rw [J.slen b, ← hc.1, e2]
            exact hk0
      · rename_i hc
        rcases hD with hD | ⟨e1, _⟩
        · exact (J.done b k hD).1
        · exfalso
          apply hc
          exact ⟨e1.symm, by rw [e1]; exact hb0⟩
    · intro ht
      rw [hlen] at ht
      rw [edgeStep_getD]
      simp only
      split
      · rfl
      · rename_i hc
        rcases hD with hD | ⟨e1, e2⟩
        · exact (J.done b k hD).2 ht
        · exfalso
          apply hc
          subst e1 e2
          exact ⟨rfl, ht⟩

theorem EdgeInv.weaken {order : List Nat} {target : Nat → Nat → Nat}
    {infos : List BytecodeLivenessBBInfo} {D D' : Nat → Nat → Prop}
    {heap : List BytecodeLivenessBBInfo} (J : EdgeInv order target infos D heap)
    (h : ∀ b k, D' b k → D b k) : EdgeInv order target infos D' heap :=
  { len := J.len, frame := J.frame, slen := J.slen, done := fun b k hd => J.done b k (h b k hd) }

theorem EdgeInv.inner {order : List Nat} {cf : DfgControlFlowAndUpvalueAnalysisResult}
    {infos : List BytecodeLivenessBBInfo} {D : Nat → Nat → Prop}
    {heap : List BytecodeLivenessBBInfo}
    (J : EdgeInv order (fun b k => bbInfoMap order ((succsOfOrd cf order b).getD k 0)) infos D heap)
    (b0 : Nat) (hb0 : b0 < heap.length) :
    ∀ m, m ≤ (infos.getD b0 default).m_successors.length →
      EdgeInv order (fun b k => bbInfoMap order ((succsOfOrd cf order b).getD k 0)) infos
        (fun b k => D b k ∨ (b = b0 ∧ k < m))
        ((List.range m).foldl (edgeStep order (succsOfOrd cf order b0) b0) heap) := by
  intro m
  induction m with
  | zero =>
    intro _
    exact J.weaken (fun b k h => by
      rcases h with h | ⟨_, h⟩
      · exact h
      · exact absurd h (Nat.not_lt_zero k))
  | succ m ih =>
    intro hm
    have J1 := ih (by omega)
    rw [List.range_succ, List.foldl_append]
    simp only [List.foldl_cons, List.foldl_nil]
    have J2 := J1.edge_step b0 m (by rw [J1.len, ← J.len]; exact hb0) (by omega)
    exact J2.weaken (fun b k h => by
      rcases h with h | ⟨h1, h2⟩
      · exact Or.inl (Or.inl h)
      · by_cases hk : k = m
        · exact Or.inr ⟨h1, hk⟩
        · exact Or.inl (Or.inr ⟨h1, by omega⟩))

theorem EdgeInv.outer {order : List Nat} {cf : DfgControlFlowAndUpvalueAnalysisResult}
    {infos : List BytecodeLivenessBBInfo}
    (hlen : infos.length = order.length)
    (hsl : ∀ b, b < order.length →
      (infos.getD b default).m_successors.length = (succsOfOrd cf order b).length) :
    ∀ n, n ≤ order.length →
      EdgeInv order (fun b k => bbInfoMap order ((succsOfOrd cf order b).getD k 0)) infos
        (fun b k => b < n ∧ k < (succsOfOrd cf order b).length)
        ((List.range n).foldl (fun heap bbOrd =>
          (List.range (succsOfOrd cf order bbOrd).length).foldl
            (edgeStep order (succsOfOrd cf order bbOrd) bbOrd) heap) infos) := by
  intro n
  induction n with
  | zero =>
    intro _
    exact { len := rfl, frame := fun _ => rfl, slen := fun _ => rfl,
            done := fun b k h => absurd h.1 (Nat.not_lt_zero b) }
  | succ n ih =>
    intro hn
    have J1 := ih (by omega)
    rw [List.range_succ, List.foldl_append]
    simp only [List.foldl_cons, List.foldl_nil]
    have J2 := J1.inner n (by rw [J1.len, hlen]; omega) (succsOfOrd cf order n).length
      (by rw [hsl n (by omega)])
    exact J2.weaken (fun b k h => by
      by_cases hb : b = n
      · subst hb
        exact Or.inr ⟨rfl, h.2⟩
      · exact Or.inl ⟨by omega, h.2⟩)

theorem propagateToFixpoint_eq (fuel : Nat) (codeBlock : CodeBlock)
    (cfUvInfo : DfgControlFlowAndUpvalueAnalysisResult) (bbInReverseOrder : List Nat) :
    propagateToFixpoint fuel codeBlock cfUvInfo bbInReverseOrder =
      fixpointLoop fuel true (initialState codeBlock cfUvInfo bbInReverseOrder) := rfl

theorem alloc_getD (decoder : BytecodeDecoder) (cf : DfgControlFlowAndUpvalueAnalysisResult)
    (n : Nat) (order : List Nat) (b : Nat) :
    (allocBBLivenessInfo decoder cf n order).getD b default =
      if b < order.length then BytecodeLivenessBBInfo.new decoder (blockOfOrd cf order b) n
      else default := by
  unfold allocBBLivenessInfo blockOfOrd
  simp only [List.getD_eq_getElem?_getD, List.getElem?_map]
  by_cases hb : b < order.length
  · simp [hb, List.getElem?_eq_getElem hb]
  · simp [hb, List.getElem?_eq_none (not_lt.mp hb)]

theorem WFbv_new_andMask (decoder : BytecodeDecoder) (bbInfo : BasicBlockUpvalueInfo) (n : Nat) :
    WFbv n (BytecodeLivenessBBInfo.new decoder bbInfo n).m_andMask := by
  rw [BytecodeLivenessBBInfo.new_m_andMask]
  apply headLoop_pred (WFbv n) (fun x s h => WFbv_ClearBit n x s h)
    (fun x s h => WFbv_SetBit n x s h)
  exact WFbv_CopyFromEqualLengthBitVector n _ _ rfl (WFbv_SetAllOne n _ rfl)

theorem WFbv_new_orMask (decoder : BytecodeDecoder) (bbInfo : BasicBlockUpvalueInfo) (n : Nat) :
    WFbv n (BytecodeLivenessBBInfo.new decoder bbInfo n).m_orMask := by
  rw [BytecodeLivenessBBInfo.new_m_orMask]
  apply headLoop_pred (WFbv n) (fun x s h => WFbv_ClearBit n x s h)
    (fun x s h => WFbv_SetBit n x s h)
  exact WFbv_CopyFromEqualLengthBitVector n _ _ rfl (WFbv_Clear n _ rfl)

theorem new_m_atHead (decoder : BytecodeDecoder) (bbInfo : BasicBlockUpvalueInfo) (n : Nat) :
    (BytecodeLivenessBBInfo.new decoder bbInfo n).m_atHead = TempBitVector.Reset n := rfl

theorem new_m_atTail (decoder : BytecodeDecoder) (bbInfo : BasicBlockUpvalueInfo) (n : Nat) :
    (BytecodeLivenessBBInfo.new decoder bbInfo n).m_atTail = TempBitVector.Reset n := rfl

theorem new_m_successors (decoder : BytecodeDecoder) (bbInfo : BasicBlockUpvalueInfo) (n : Nat) :
    (BytecodeLivenessBBInfo.new decoder bbInfo n).m_successors =
      List.replicate bbInfo.m_successors.length 0 := rfl

theorem new_epochs (decoder : BytecodeDecoder) (bbInfo : BasicBlockUpvalueInfo) (n : Nat) :
    (BytecodeLivenessBBInfo.new decoder bbInfo n).m_lastChangedEpoch = 0 ∧
    (BytecodeLivenessBBInfo.new decoder bbInfo n).m_lastCheckedEpoch = 0 := ⟨rfl, rfl⟩

theorem getD_eq_getElem_nat (l : List Nat) (k : Nat) (h : k < l.length) : l.getD k 0 = l[k] := by
  rw [List.getD_eq_getElem?_getD, List.getElem?_eq_getElem h]
  rfl

theorem initialHeap_facts (codeBlock : CodeBlock) (cf : DfgControlFlowAndUpvalueAnalysisResult)
    (order : List Nat) : InitFacts codeBlock cf order (initialHeap codeBlock cf order) := by
  have hlenI : (allocBBLivenessInfo codeBlock.decoder cf codeBlock.m_stackFrameNumSlots order).length
      = order.length := by simp [allocBBLivenessInfo]
  have hsl : ∀ b, b < order.length →
      ((allocBBLivenessInfo codeBlock.decoder cf codeBlock.m_stackFrameNumSlots order).getD b
        default).m_successors.length = (succsOfOrd cf order b).length := by
    intro b hb
    rw [alloc_getD, if_pos hb, new_m_successors]
    simp [succsOfOrd, blockOfOrd]
  have J := @EdgeInv.outer order cf _ hlenI hsl order.length (le_refl _)
  rw [← setupSuccessorEdges_eq] at J
  have hlen : (initialHeap codeBlock cf order).length = order.length := J.len.trans hlenI
  have hsucc : ∀ b, b < order.length →
      succs (initialHeap codeBlock cf order) b =
        (blockOfOrd cf order b).m_successors.map (bbInfoMap order) := by
    intro b hb
    unfold succs
    apply List.ext_getElem
    · have := J.slen b
      unfold initialHeap
      rw [this, hsl b hb]
      simp [succsOfOrd, blockOfOrd]
    · intro k h1 h2
      have hk : k < (succsOfOrd cf order b).length := by
        simpa [succsOfOrd, blockOfOrd] using h2
      have := (J.done b k ⟨hb, hk⟩).1
      have e1 := getD_eq_getElem_nat _ k h1
      have e2 := getD_eq_getElem_nat _ k hk
      rw [← e1, List.getElem_map]
      unfold initialHeap
      rw [this, e2]
      rfl
  refine { len := hlen, frame := ?_, succ := hsucc, pred := ?_ }
  · intro b hb
    have := J.frame b
    rw [alloc_getD, if_pos hb] at this
    exact this
  · intro j s hs hslt
    by_cases hj : j < order.length
    · rw [hsucc j hj] at hs
      rw [List.mem_map] at hs
      obtain ⟨p, hp1, hp2⟩ := hs
      obtain ⟨k, hk, hkp⟩ := List.getElem_of_mem hp1
      have hk' : k < (succsOfOrd cf order j).length := hk
      have hd := (J.done j k ⟨hj, hk'⟩).2
      simp only at hd
      have hget : (succsOfOrd cf order j).getD k 0 = p := by
        rw [getD_eq_getElem_nat _ k hk']
        exact hkp
      rw [hget, hp2] at hd
      exact hd hslt
    · rw [succs_of_le _ _ (by rw [hlen]; omega)] at hs
      exact absurd hs (List.not_mem_nil s)

theorem InitFacts.block {codeBlock : CodeBlock} {cf : DfgControlFlowAndUpvalueAnalysisResult}
    {order : List Nat} {h0 : List BytecodeLivenessBBInfo} (I : InitFacts codeBlock cf order h0)
    (b : Nat) (hb : b < order.length) :
    (h0.getD b default).m_atHead = TempBitVector.Reset codeBlock.m_stackFrameNumSlots ∧
    (h0.getD b default).m_atTail = TempBitVector.Reset codeBlock.m_stackFrameNumSlots ∧
    (h0.getD b default).m_andMask =
      (BytecodeLivenessBBInfo.new codeBlock.decoder (blockOfOrd cf order b)
        codeBlock.m_stackFrameNumSlots).m_andMask ∧
    (h0.getD b default).m_orMask =
      (BytecodeLivenessBBInfo.new codeBlock.decoder (blockOfOrd cf order b)
        codeBlock.m_stackFrameNumSlots).m_orMask ∧
    (h0.getD b default).m_lastChangedEpoch = 0 ∧
    (h0.getD b default).m_lastCheckedEpoch = 0 := by
  have e := I.frame b hb
  exact ⟨congrArg BytecodeLivenessBBInfo.m_atHead e, congrArg BytecodeLivenessBBInfo.m_atTail e,
    by have e3 := congrArg BytecodeLivenessBBInfo.m_andMask e; exact e3,
    by have e4 := congrArg BytecodeLivenessBBInfo.m_orMask e; exact e4,
    congrArg BytecodeLivenessBBInfo.m_lastChangedEpoch e,
    congrArg BytecodeLivenessBBInfo.m_lastCheckedEpoch e⟩

theorem InitFacts.hd_false {codeBlock : CodeBlock} {cf : DfgControlFlowAndUpvalueAnalysisResult}
    {order : List Nat} {h0 : List BytecodeLivenessBBInfo} (I : InitFacts codeBlock cf order h0)
    (b i : Nat) : hd h0 b i = false := by
  by_cases hb : b < order.length
  · unfold hd
    rw [(I.block b hb).1, IsSet_Reset]
  · exact hd_of_le _ _ _ (by rw [I.len]; omega)

theorem InitFacts.tl_false {codeBlock : CodeBlock} {cf : DfgControlFlowAndUpvalueAnalysisResult}
    {order : List Nat} {h0 : List BytecodeLivenessBBInfo} (I : InitFacts codeBlock cf order h0)
    (b i : Nat) : tl h0 b i = false := by
  by_cases hb : b < order.length
  · unfold tl
    rw [(I.block b hb).2.1, IsSet_Reset]
  · exact tl_of_le _ _ _ (by rw [I.len]; omega)

theorem InitFacts.epochs_zero {codeBlock : CodeBlock} {cf : DfgControlFlowAndUpvalueAnalysisResult}
    {order : List Nat} {h0 : List BytecodeLivenessBBInfo} (I : InitFacts codeBlock cf order h0)
    (b : Nat) : lastChanged h0 b = 0 ∧ lastChecked h0 b = 0 := by
  by_cases hb : b < order.length
  · exact ⟨(I.block b hb).2.2.2.2.1, (I.block b hb).2.2.2.2.2⟩
  · unfold lastChanged lastChecked
    rw [getD_default_of_le _ _ (by rw [I.len]; omega)]
    exact ⟨rfl, rfl⟩

theorem InitFacts.loopInv {codeBlock : CodeBlock} {cf : DfgControlFlowAndUpvalueAnalysisResult}
    {order : List Nat} (I : InitFacts codeBlock cf order (initialHeap codeBlock cf order)) :
    LoopInv codeBlock.m_stackFrameNumSlots (initialHeap codeBlock cf order) true
      (initialState codeBlock cf order) := by
  have hu : ∀ b i, unionBit (initialHeap codeBlock cf order) b i = false := by
    intro b i
    unfold unionBit
    rw [List.any_eq_false]
    intro s _
    rw [I.hd_false s i]
    simp
  refine { inv := ?_, static := SameStatic.refl _, below := ?_, headSup := ?_ }
  · refine { wf := ?_, tmp := rfl, ep := ?_, tailSub := ?_, headSub := ?_, upToDate := ?_ }
    · intro b hb
      have hb' : b < order.length := by
        rw [← I.len]; exact hb
      obtain ⟨e1, e2, e3, e4, _⟩ := I.block b hb'
      have w1 : WFbv codeBlock.m_stackFrameNumSlots
          ((initialHeap codeBlock cf order).getD b default).m_atHead := by
        rw [e1]; exact WFbv_Reset _
      have w2 : WFbv codeBlock.m_stackFrameNumSlots
          ((initialHeap codeBlock cf order).getD b default).m_atTail := by
        rw [e2]; exact WFbv_Reset _
      have w3 : WFbv codeBlock.m_stackFrameNumSlots
          ((initialHeap codeBlock cf order).getD b default).m_andMask := by
        rw [e3]; exact WFbv_new_andMask _ _ _
      have w4 : WFbv codeBlock.m_stackFrameNumSlots
          ((initialHeap codeBlock cf order).getD b default).m_orMask := by
        rw [e4]; exact WFbv_new_orMask _ _ _
      exact ⟨w1, w2, w3, w4⟩
    · intro b
      show lastChanged (initialHeap codeBlock cf order) b ≤ 1 ∧
        lastChecked (initialHeap codeBlock cf order) b ≤ 1
      rw [(I.epochs_zero b).1, (I.epochs_zero b).2]
      exact ⟨Nat.zero_le _, Nat.zero_le _⟩
    · intro b i h
      have := I.tl_false b i
      rw [show tl (initialState codeBlock cf order).bbLivenessInfo b i =
        tl (initialHeap codeBlock cf order) b i from rfl] at h
      rw [this] at h
      exact Bool.noConfusion h
    · intro b i h
      have := I.hd_false b i
      rw [show hd (initialState codeBlock cf order).bbLivenessInfo b i =
        hd (initialHeap codeBlock cf order) b i from rfl] at h
      rw [this] at h
      exact Bool.noConfusion h
    · intro b _ i h
      have := hu b i
      rw [show unionBit (initialState codeBlock cf order).bbLivenessInfo b i =
        unionBit (initialHeap codeBlock cf order) b i from rfl] at h
      rw [this] at h
      exact Bool.noConfusion h
  · intro H T _ b i
    constructor
    · intro h
      have := I.hd_false b i
      rw [show hd (initialState codeBlock cf order).bbLivenessInfo b i =
        hd (initialHeap codeBlock cf order) b i from rfl] at h
      rw [this] at h
      exact Bool.noConfusion h
    · intro h
      have := I.tl_false b i
      rw [show tl (initialState codeBlock cf order).bbLivenessInfo b i =
        tl (initialHeap codeBlock cf order) b i from rfl] at h
      rw [this] at h
      exact Bool.noConfusion h
  · intro h
    exact Bool.noConfusion h

/-- The fixpoint loop exits, in a state that satisfies the dataflow equations. -/
theorem propagateToFixpoint_final (fuel : Nat) (codeBlock : CodeBlock)
    (cf : DfgControlFlowAndUpvalueAnalysisResult) (order : List Nat)
    (hfuel : passBound order.length codeBlock.m_stackFrameNumSlots ≤ fuel) :
    ∃ st, propagateToFixpoint fuel codeBlock cf order = some st ∧
      Final codeBlock.m_stackFrameNumSlots (initialHeap codeBlock cf order) st := by
  have I := initialHeap_facts codeBlock cf order
  rw [propagateToFixpoint_eq]
  apply fixpointLoop_terminates I.pred fuel true _ I.loopInv
  unfold passBound at hfuel
  rw [I.len]
  omega

/-! ## The exit state in terms of the source operations -/

theorem SameStatic.static_fields {h h' : List BytecodeLivenessBBInfo} (a : SameStatic h h') (b : Nat) :
    (h'.getD b default).m_info = (h.getD b default).m_info ∧
    (h'.getD b default).m_infoIndex = (h.getD b default).m_infoIndex ∧
    (h'.getD b default).m_numBytecodesInBB = (h.getD b default).m_numBytecodesInBB ∧
    (h'.getD b default).m_firstBytecodeIndex = (h.getD b default).m_firstBytecodeIndex ∧
    (h'.getD b default).m_andMask = (h.getD b default).m_andMask ∧
    (h'.getD b default).m_orMask = (h.getD b default).m_orMask := by
  have e := a.2 b
  exact ⟨by have x := congrArg BytecodeLivenessBBInfo.m_info e; exact x,
    by have x := congrArg BytecodeLivenessBBInfo.m_infoIndex e; exact x,
    by have x := congrArg BytecodeLivenessBBInfo.m_numBytecodesInBB e; exact x,
    by have x := congrArg BytecodeLivenessBBInfo.m_firstBytecodeIndex e; exact x,
    by have x := congrArg BytecodeLivenessBBInfo.m_andMask e; exact x,
    by have x := congrArg BytecodeLivenessBBInfo.m_orMask e; exact x⟩

theorem InitFacts.new_fields {codeBlock : CodeBlock}
    {cf : DfgControlFlowAndUpvalueAnalysisResult}
    {order : List Nat} {h0 : List BytecodeLivenessBBInfo} (I : InitFacts codeBlock cf order h0)
    (b : Nat) (hb : b < order.length) :
    (h0.getD b default).m_info =
      (BytecodeLivenessBBInfo.new codeBlock.decoder (blockOfOrd cf order b)
        codeBlock.m_stackFrameNumSlots).m_info ∧
    (h0.getD b default).m_infoIndex =
      (BytecodeLivenessBBInfo.new codeBlock.decoder (blockOfOrd cf order b)
        codeBlock.m_stackFrameNumSlots).m_infoIndex ∧
    (h0.getD b default).m_numBytecodesInBB = (blockOfOrd cf order b).m_numBytecodesInBB ∧
    (h0.getD b default).m_firstBytecodeIndex = (blockOfOrd cf order b).m_bytecodeIndex := by
  have e := I.frame b hb
  exact ⟨by have x := congrArg BytecodeLivenessBBInfo.m_info e; exact x,
    by have x := congrArg BytecodeLivenessBBInfo.m_infoIndex e; exact x,
    by have x := congrArg BytecodeLivenessBBInfo.m_numBytecodesInBB e; exact x,
    by have x := congrArg BytecodeLivenessBBInfo.m_firstBytecodeIndex e; exact x⟩

/-- The union of the successors' heads as `unionOfSuccessorHeads` computes it,
for any scratch vector of `n` bits. -/
theorem unionOfSuccessorHeads_spec (n : Nat) (heap : List BytecodeLivenessBBInfo)
    (hwf : WFHeap n heap) (tmpBv : TempBitVector) (htmp : tmpBv.m_length = n) (b : Nat) :
    WFbv n (unionOfSuccessorHeads heap (heap.getD b default) tmpBv) ∧
    ∀ i, (unionOfSuccessorHeads heap (heap.getD b default) tmpBv).IsSet i = unionBit heap b i :=
  newTailOf_spec n { bbLivenessInfo := heap, tmpBv := tmpBv, currentEpoch := 0,
                     needMoreIterations := false } hwf htmp b

theorem WFbv_ComputeHeadBasedOnTail (n : Nat) (bb : BytecodeLivenessBBInfo) (tmpBv : TempBitVector)
    (htmp : tmpBv.m_length = n) (htail : WFbv n bb.m_atTail) :
    WFbv n (bb.ComputeHeadBasedOnTail tmpBv) := by
  unfold BytecodeLivenessBBInfo.ComputeHeadBasedOnTail
  apply headLoop_pred (WFbv n) (fun x s h => WFbv_ClearBit n x s h)
    (fun x s h => WFbv_SetBit n x s h)
  exact WFbv_CopyFromEqualLengthBitVector n _ _ htmp htail

/-- In a state reached from the initial heap, the replay of a block from its
tail is the mask formula. -/
theorem replay_eq_xfer {codeBlock : CodeBlock} {cf : DfgControlFlowAndUpvalueAnalysisResult}
    {order : List Nat} (heap : List BytecodeLivenessBBInfo)
    (hs : SameStatic (initialHeap codeBlock cf order) heap)
    (hwf : WFHeap codeBlock.m_stackFrameNumSlots heap)
    (b : Nat) (hb : b < heap.length) (tmpBv : TempBitVector) (i : Nat) :
    ((heap.getD b default).ComputeHeadBasedOnTail tmpBv).IsSet i = xfer heap b i (tl heap b i) := by
  have I := initialHeap_facts codeBlock cf order
  have hb' : b < order.length := by rw [← I.len, ← hs.1]; exact hb
  obtain ⟨s1, s2, s3, _, s5, s6⟩ := hs.static_fields b
  obtain ⟨i1, i2, i3, _⟩ := I.new_fields b hb'
  obtain ⟨_, _, m1, m2, _⟩ := I.block b hb'
  have A := BytecodeLivenessBBInfo.new_AffineRel codeBlock.decoder (blockOfOrd cf order b)
    codeBlock.m_stackFrameNumSlots (heap.getD b default) tmpBv (s1.trans i1) (s2.trans i2)
    (s3.trans i3) (hwf b hb).2.1.2.1
  have := A.2.2.1 i
  rw [this]
  unfold xfer tl
  rw [s5, s6, m1, m2]

theorem Reachable.inv {codeBlock : CodeBlock} {cf : DfgControlFlowAndUpvalueAnalysisResult}
    {order : List Nat} {st : FixpointState}
    (h : Reachable (initialState codeBlock cf order) st) :
    Inv codeBlock.m_stackFrameNumSlots st ∧
      SameStatic (initialHeap codeBlock cf order) st.bbLivenessInfo := by
  induction h with
  | start =>
    have I := initialHeap_facts codeBlock cf order
    exact ⟨I.loopInv.inv, SameStatic.refl _⟩
  | newPass st _ ih =>
    exact ⟨⟨ih.1.wf, ih.1.tmp, ih.1.ep, ih.1.tailSub, ih.1.headSub, ih.1.upToDate⟩, ih.2⟩
  | visit f b st _ hb ih =>
    rcases visitBlock_cases _ f st b ih.1 hb with ⟨e, _, _⟩ | F
    · rw [e]; exact ih
    · exact ⟨Inv_of_VisitFacts ih.1 F, ih.2.trans F.static⟩

/-- Under the loop invariant both calls of
`UpdateBitVectorAfterMonotonicPropagation` in a visit get a superset, and the
visit clears no head or tail bit. -/
theorem visit_monotone (n : Nat) (st : FixpointState) (hinv : Inv n st) (f : Bool) (b : Nat)
    (hb : b < st.bbLivenessInfo.length) :
    UpdateAssertion (st.bbLivenessInfo.getD b default).m_atTail (newTailOf st b) ∧
    UpdateAssertion (st.bbLivenessInfo.getD b default).m_atHead (newHeadOf st b) ∧
    ∀ b' i,
      (hd st.bbLivenessInfo b' i = true → hd (visitBlock f st b).bbLivenessInfo b' i = true) ∧
      (tl st.bbLivenessInfo b' i = true → tl (visitBlock f st b).bbLivenessInfo b' i = true) := by
  obtain ⟨_, ntb⟩ := newTailOf_spec n st hinv.wf hinv.tmp b
  obtain ⟨_, nhb⟩ := newHeadOf_spec n st hinv.wf hinv.tmp b hb
  obtain ⟨wh, wt, _, _⟩ := hinv.wf b hb
  refine ⟨?_, ?_, ?_⟩
  · apply UpdateAssertion_of_subset _ _ wt.2.2
    intro i hi
    rw [ntb i]
    exact hinv.tailSub b i hi
  · apply UpdateAssertion_of_subset _ _ wh.2.2
    intro i hi
    rw [nhb i]
    exact xfer_mono _ _ _ _ _ (hinv.headSub b i hi) (hinv.tailSub b i)
  · intro b' i
    rcases visitBlock_cases n f st b hinv hb with ⟨e, _, _⟩ | F
    · rw [e]
      exact ⟨fun h => h, fun h => h⟩
    · obtain ⟨mh, mt⟩ := F.mono hinv
      exact ⟨mh b' i, mt b' i⟩

/-- The exit state, in terms of the operations of the source. -/
theorem Final.source_form {codeBlock : CodeBlock} {cf : DfgControlFlowAndUpvalueAnalysisResult}
    {order : List Nat} {st : FixpointState}
    (F : Final codeBlock.m_stackFrameNumSlots (initialHeap codeBlock cf order) st)
    (b : Nat) (hb : b < st.bbLivenessInfo.length) :
    (st.bbLivenessInfo.getD b default).m_atTail =
      unionOfSuccessorHeads st.bbLivenessInfo (st.bbLivenessInfo.getD b default) st.tmpBv ∧
    (st.bbLivenessInfo.getD b default).m_atHead =
      (st.bbLivenessInfo.getD b default).ComputeHeadBasedOnTail st.tmpBv := by
  obtain ⟨wh, wt, _, _⟩ := F.inv.wf b hb
  obtain ⟨wu, ub⟩ := unionOfSuccessorHeads_spec _ st.bbLivenessInfo F.inv.wf st.tmpBv F.inv.tmp b
  constructor
  · apply WFbv_ext _ _ _ wt wu
    intro i
    rw [ub i]
    exact F.tailEq b i
  · apply WFbv_ext _ _ _ wh (WFbv_ComputeHeadBasedOnTail _ _ _ F.inv.tmp wt)
    intro i
    rw [replay_eq_xfer st.bbLivenessInfo F.static F.inv.wf b hb]
    exact F.headEq b i

/-! ## Independence of the processing order -/

theorem getD_indexOf (l : List Nat) (a : Nat) (h : a ∈ l) : l.getD (l.indexOf a) 0 = a := by
  have hlt := List.indexOf_lt_length.mpr h
  rw [List.getD_eq_getElem _ _ hlt]
  exact List.getElem_indexOf hlt

theorem getD_mem_nat (l : List Nat) (k : Nat) (h : k < l.length) : l.getD k 0 ∈ l := by
  rw [List.getD_eq_getElem _ _ h]
  exact List.getElem_mem h

/-- The block object at the position of basic block `p` was built for `p`. -/
theorem blockOfOrd_bbInfoMap (cf : DfgControlFlowAndUpvalueAnalysisResult) (order : List Nat)
    (p : Nat) (hp : p ∈ order) :
    blockOfOrd cf order (bbInfoMap order p) = cf.m_basicBlocks.getD p default := by
  unfold blockOfOrd bbInfoMap
  rw [getD_indexOf order p hp]

theorem bbInfoMap_lt (order : List Nat) (p : Nat) (hp : p ∈ order) :
    bbInfoMap order p < order.length := List.indexOf_lt_length.mpr hp

/-- Successors and mask formula of a block object, from the basic block it was built for. -/
theorem static_of_initial {codeBlock : CodeBlock} {cf : DfgControlFlowAndUpvalueAnalysisResult}
    {order : List Nat} {heap : List BytecodeLivenessBBInfo}
    (hs : SameStatic (initialHeap codeBlock cf order) heap) (b : Nat) (hb : b < order.length) :
    succs heap b = (blockOfOrd cf order b).m_successors.map (bbInfoMap order) ∧
    ∀ i t, xfer heap b i t =
      ((t && (BytecodeLivenessBBInfo.new codeBlock.decoder (blockOfOrd cf order b)
          codeBlock.m_stackFrameNumSlots).m_andMask.IsSet i) ||
        (BytecodeLivenessBBInfo.new codeBlock.decoder (blockOfOrd cf order b)
          codeBlock.m_stackFrameNumSlots).m_orMask.IsSet i) := by
  have I := initialHeap_facts codeBlock cf order
  constructor
  · rw [hs.succs, I.succ b hb]
  · intro i t
    rw [hs.xfer]
    obtain ⟨_, _, m1, m2, _⟩ := I.block b hb
    unfold xfer
    rw [m1, m2]

/-- The exit state for one order, read through the block positions of another
order, is a pre-solution of the equations of that other order. -/
theorem final_is_presolution_of_other {codeBlock : CodeBlock}
    {cf : DfgControlFlowAndUpvalueAnalysisResult} {o1 o2 : List Nat}
    (h1 : o1.Perm (List.range cf.m_basicBlocks.length))
    (h2 : o2.Perm (List.range cf.m_basicBlocks.length)) {st2 : FixpointState}
    (F2 : Final codeBlock.m_stackFrameNumSlots (initialHeap codeBlock cf o2) st2) :
    PreSolution (initialHeap codeBlock cf o1)
      (fun b1 i => decide (b1 < o1.length) &&
        hd st2.bbLivenessInfo (bbInfoMap o2 (o1.getD b1 0)) i)
      (fun b1 i => decide (b1 < o1.length) &&
        tl st2.bbLivenessInfo (bbInfoMap o2 (o1.getD b1 0)) i) := by
  have I1 := initialHeap_facts codeBlock cf o1
  have hmem : ∀ p, p ∈ o1 → p ∈ o2 := fun p hp => (h2.mem_iff).mpr ((h1.mem_iff).mp hp)
  have key : ∀ b1, b1 < o1.length →
      blockOfOrd cf o2 (bbInfoMap o2 (o1.getD b1 0)) = blockOfOrd cf o1 b1 ∧
      bbInfoMap o2 (o1.getD b1 0) < o2.length := by
    intro b1 hb1
    have hp2 := hmem _ (getD_mem_nat o1 b1 hb1)
    exact ⟨by rw [blockOfOrd_bbInfoMap cf o2 _ hp2]; rfl, bbInfoMap_lt o2 _ hp2⟩
  constructor
  · intro b1 i hany
    by_cases hb1 : b1 < o1.length
    · obtain ⟨kb, klt⟩ := key b1 hb1
      rw [(static_of_initial (SameStatic.refl _) b1 hb1).1, List.any_map, List.any_eq_true] at hany
      obtain ⟨q, hq, hH⟩ := hany
      simp only [Function.comp, Bool.and_eq_true, decide_eq_true_iff] at hH
      obtain ⟨hlt, hhd⟩ := hH
      have hq1 : q ∈ o1 := List.indexOf_lt_length.mp hlt
      have e : o1.getD (bbInfoMap o1 q) 0 = q := getD_indexOf o1 q hq1
      rw [e] at hhd
      simp only [hb1, decide_True, Bool.true_and]
      rw [F2.tailEq]
      unfold unionBit
      rw [(static_of_initial F2.static _ klt).1, kb, List.any_map, List.any_eq_true]
      exact ⟨q, hq, hhd⟩
    · rw [succs_of_le _ _ (by rw [I1.len]; omega)] at hany
      simp at hany
  · intro b1 i hx
    by_cases hb1 : b1 < o1.length
    · obtain ⟨kb, klt⟩ := key b1 hb1
      simp only [hb1, decide_True, Bool.true_and] at hx ⊢
      rw [F2.headEq, (static_of_initial F2.static _ klt).2, kb]
      rw [(static_of_initial (SameStatic.refl _) b1 hb1).2] at hx
      exact hx
    · rw [xfer_of_le _ _ _ _ (by rw [I1.len]; omega)] at hx
      exact Bool.noConfusion hx

/-- The exit state for one order is below the exit state for any other order. -/
theorem final_le_final {codeBlock : CodeBlock}
    {cf : DfgControlFlowAndUpvalueAnalysisResult} {o1 o2 : List Nat}
    (h1 : o1.Perm (List.range cf.m_basicBlocks.length))
    (h2 : o2.Perm (List.range cf.m_basicBlocks.length)) {st1 st2 : FixpointState}
    (F1 : Final codeBlock.m_stackFrameNumSlots (initialHeap codeBlock cf o1) st1)
    (F2 : Final codeBlock.m_stackFrameNumSlots (initialHeap codeBlock cf o2) st2)
    (p : Nat) (hp : p < cf.m_basicBlocks.length) (i : Nat) :
    (hd st1.bbLivenessInfo (bbInfoMap o1 p) i = true →
      hd st2.bbLivenessInfo (bbInfoMap o2 p) i = true) ∧
    (tl st1.bbLivenessInfo (bbInfoMap o1 p) i = true →
      tl st2.bbLivenessInfo (bbInfoMap o2 p) i = true) := by
  have hp1 : p ∈ o1 := (h1.mem_iff).mpr (List.mem_range.mpr hp)
  have hb := F1.below _ _ (final_is_presolution_of_other h1 h2 F2) (bbInfoMap o1 p) i
  have e : o1.getD (bbInfoMap o1 p) 0 = p := getD_indexOf o1 p hp1
  simp only [bbInfoMap_lt o1 p hp1, decide_True, Bool.true_and, e] at hb
  exact hb

theorem PreSolution.of_static {h h' : List BytecodeLivenessBBInfo} (hs : SameStatic h h')
    {H T : Nat → Nat → Bool} (P : PreSolution h' H T) : PreSolution h H T := by
  constructor
  · intro b i hany
    apply P.1 b i
    rw [hs.succs]
    exact hany
  · intro b i hx
    apply P.2 b i
    rw [hs.xfer]
    exact hx

/-- For every processing order the loop exits in the least solution of the
dataflow equations, the same for every order. -/
theorem order_independent_core (codeBlock : CodeBlock)
    (cf : DfgControlFlowAndUpvalueAnalysisResult) (o1 o2 : List Nat)
    (h1 : o1.Perm (List.range cf.m_basicBlocks.length))
    (h2 : o2.Perm (List.range cf.m_basicBlocks.length)) (st1 st2 : FixpointState)
    (F1 : Final codeBlock.m_stackFrameNumSlots (initialHeap codeBlock cf o1) st1)
    (F2 : Final codeBlock.m_stackFrameNumSlots (initialHeap codeBlock cf o2) st2)
    (p : Nat) (hp : p < cf.m_basicBlocks.length) :
    (st1.bbLivenessInfo.getD (bbInfoMap o1 p) default).m_atHead =
      (st2.bbLivenessInfo.getD (bbInfoMap o2 p) default).m_atHead ∧
    (st1.bbLivenessInfo.getD (bbInfoMap o1 p) default).m_atTail =
      (st2.bbLivenessInfo.getD (bbInfoMap o2 p) default).m_atTail := by
  have hp1 : p ∈ o1 := (h1.mem_iff).mpr (List.mem_range.mpr hp)
  have hp2 : p ∈ o2 := (h2.mem_iff).mpr (List.mem_range.mpr hp)
  have I1 := initialHeap_facts codeBlock cf o1
  have I2 := initialHeap_facts codeBlock cf o2
  have w1 := F1.inv.wf (bbInfoMap o1 p) (by rw [F1.static.1, I1.len]; exact bbInfoMap_lt o1 p hp1)
  have w2 := F2.inv.wf (bbInfoMap o2 p) (by rw [F2.static.1, I2.len]; exact bbInfoMap_lt o2 p hp2)
  constructor
  · apply WFbv_ext _ _ _ w1.1 w2.1
    intro i
    apply Bool.eq_iff_iff.mpr
    exact ⟨(final_le_final h1 h2 F1 F2 p hp i).1, (final_le_final h2 h1 F2 F1 p hp i).1⟩
  · apply WFbv_ext _ _ _ w1.2.1 w2.2.1
    intro i
    apply Bool.eq_iff_iff.mpr
    exact ⟨(final_le_final h1 h2 F1 F2 p hp i).2, (final_le_final h2 h1 F2 F1 p hp i).2⟩

theorem sortBasicBlocks_perm (cf : DfgControlFlowAndUpvalueAnalysisResult) :
    (sortBasicBlocks cf).Perm (List.range cf.m_basicBlocks.length) :=
  List.perm_insertionSort _ _

theorem foldl_push_append {α : Type} (g : α → List Nat) (l : List α) :
    ∀ info : List Nat, l.foldl (fun info x => info ++ g x) info =
      info ++ l.foldl (fun info x => info ++ g x) [] := by
  induction l with
  | nil => intro info; simp
  | cons x xs ih =>
    intro info
    rw [List.foldl_cons, ih, List.foldl_cons, ih ([] ++ g x)]
    simp

theorem pushRWCInfo_eq (info : List Nat) (items : List BytecodeRWCDesc) :
    pushRWCInfo info items = info ++ pushRWCInfo [] items := by
  have h : ∀ info, pushRWCInfo info items = items.foldl (fun info item => info ++
      (match item with
       | BytecodeRWCDesc.Local ord => [ord]
       | BytecodeRWCDesc.Range start len => (List.range len).map (fun i => start + i)
       | BytecodeRWCDesc.Other => [])) info := by
    intro info
    unfold pushRWCInfo
    congr 1
    funext info item
    cases item <;> simp
  rw [h info, h [], foldl_push_append]

theorem pushCreateClosureUses_eq (info : List Nat) (decoder : BytecodeDecoder) (off : Nat) :
    pushCreateClosureUses info decoder off = info ++ pushCreateClosureUses [] decoder off := by
  unfold pushCreateClosureUses
  cases hI : decoder.GetBytecodeIntrinsicInfo off with
  | CreateClosure ucb =>
    simp only
    have h : ∀ info d, ucb.m_upvalueInfo.foldl (fun info uvmt =>
        if uvmt.m_isParentLocal = true then
          if uvmt.m_slot = d then info else info ++ [uvmt.m_slot]
        else info) info =
        ucb.m_upvalueInfo.foldl (fun info uvmt => info ++
          (if uvmt.m_isParentLocal = true then
            if uvmt.m_slot = d then [] else [uvmt.m_slot]
          else [])) info := by
      intro info d
      congr 1
      funext info uvmt
      split
      · split <;> simp
      · simp
    rw [h info, h [], foldl_push_append]
  | NoIntrinsic => simp
  | UpvalueClose s => simp
  | OtherIntrinsic => simp

theorem pushUpvalueCloseUses_eq (info : List Nat) (decoder : BytecodeDecoder)
    (bbInfo : BasicBlockUpvalueInfo) (numLocals : Nat) (off : Nat) :
    pushUpvalueCloseUses info decoder bbInfo numLocals off =
      info ++ pushUpvalueCloseUses [] decoder bbInfo numLocals off := by
  unfold pushUpvalueCloseUses
  cases hI : decoder.GetBytecodeIntrinsicInfo off with
  | UpvalueClose s =>
    simp only
    have h : ∀ info, (List.range' s (numLocals - s)).foldl (fun info localOrd =>
        if (bbInfo.m_isLocalCapturedAtHead.IsSet localOrd ||
            bbInfo.m_isLocalCapturedInBB.IsSet localOrd) = true
        then info ++ [localOrd] else info) info =
        (List.range' s (numLocals - s)).foldl (fun info localOrd => info ++
          (if (bbInfo.m_isLocalCapturedAtHead.IsSet localOrd ||
               bbInfo.m_isLocalCapturedInBB.IsSet localOrd) = true
           then [localOrd] else [])) info := by
      intro info
      congr 1
      funext info localOrd
      split <;> simp
    rw [h info, h [], foldl_push_append]
  | NoIntrinsic => simp
  | CreateClosure ucb => simp
  | OtherIntrinsic => simp

theorem genInfoStep_eq (decoder : BytecodeDecoder) (bbInfo : BasicBlockUpvalueInfo)
    (numLocals : Nat) (st : List Nat × List Nat) (off : Nat) :
    genInfoStep decoder bbInfo numLocals st off =
      (st.1 ++ defsOf decoder off ++ usesOf decoder bbInfo numLocals off,
       st.2 ++ [st.1.length + (defsOf decoder off).length,
                st.1.length + (defsOf decoder off).length +
                  (usesOf decoder bbInfo numLocals off).length]) := by
  unfold genInfoStep
  simp only
  rw [pushUpvalueCloseUses_eq, pushCreateClosureUses_eq, pushRWCInfo_eq _ (decoder.GetDataFlowReadInfo off),
    pushRWCInfo_eq st.1]
  have hu : usesOf decoder bbInfo numLocals off =
      pushRWCInfo [] (decoder.GetDataFlowReadInfo off) ++ pushCreateClosureUses [] decoder off ++
        pushUpvalueCloseUses [] decoder bbInfo numLocals off := by
    unfold usesOf
    rw [pushUpvalueCloseUses_eq, pushCreateClosureUses_eq]
  rw [hu]
  unfold defsOf
  simp [List.append_assoc, Nat.add_assoc]

theorem gen_fold_eq (decoder : BytecodeDecoder) (bbInfo : BasicBlockUpvalueInfo)
    (numLocals : Nat) (offs : List Nat) :
    ∀ st : List Nat × List Nat,
      offs.foldl (genInfoStep decoder bbInfo numLocals) st =
        (st.1 ++ flatInfo (offs.map
            (fun off => (defsOf decoder off, usesOf decoder bbInfo numLocals off))),
         st.2 ++ idxList st.1.length (offs.map
            (fun off => (defsOf decoder off, usesOf decoder bbInfo numLocals off)))) := by
  induction offs with
  | nil => intro st; simp [flatInfo, idxList]
  | cons off rest ih =>
    intro st
    rw [List.foldl_cons, ih, genInfoStep_eq]
    simp [flatInfo, idxList, List.append_assoc, Nat.add_assoc]

/-- The flat def and use storage of a block object built by the constructor. -/
theorem new_info (decoder : BytecodeDecoder) (bbInfo : BasicBlockUpvalueInfo) (numLocals : Nat) :
    (BytecodeLivenessBBInfo.new decoder bbInfo numLocals).m_info =
      flatInfo (instrsRev decoder bbInfo numLocals) ∧
    (BytecodeLivenessBBInfo.new decoder bbInfo numLocals).m_infoIndex =
      idxList 0 (instrsRev decoder bbInfo numLocals) := by
  have h := gen_fold_eq decoder bbInfo numLocals
    (bytecodeOffsetsFrom decoder bbInfo.m_numBytecodesInBB bbInfo.m_bytecodeOffset).reverse ([], [])
  have e1 : (BytecodeLivenessBBInfo.new decoder bbInfo numLocals).m_info =
      ((bytecodeOffsetsFrom decoder bbInfo.m_numBytecodesInBB bbInfo.m_bytecodeOffset).reverse.foldl
        (genInfoStep decoder bbInfo numLocals) ([], [])).1 := rfl
  have e2 : (BytecodeLivenessBBInfo.new decoder bbInfo numLocals).m_infoIndex =
      ((bytecodeOffsetsFrom decoder bbInfo.m_numBytecodesInBB bbInfo.m_bytecodeOffset).reverse.foldl
        (genInfoStep decoder bbInfo numLocals) ([], [])).2 := rfl
  rw [e1, e2, h]
  simp [instrsRev]

theorem length_bytecodeOffsetsFrom (decoder : BytecodeDecoder) (n : Nat) :
    ∀ cur, (bytecodeOffsetsFrom decoder n cur).length = n := by
  induction n with
  | zero => intro cur; rfl
  | succ n ih => intro cur; simp [bytecodeOffsetsFrom, ih]

theorem length_instrsRev (decoder : BytecodeDecoder) (bbInfo : BasicBlockUpvalueInfo)
    (numLocals : Nat) :
    (instrsRev decoder bbInfo numLocals).length = bbInfo.m_numBytecodesInBB := by
  simp [instrsRev, length_bytecodeOffsetsFrom]

/-! ## The replay loops on the flat storage -/

theorem slotLoop_flat (op : TempBitVector → Nat → TempBitVector) (d : List Nat) :
    ∀ (P R : List Nat) (bv : TempBitVector),
      slotLoop op (P ++ d ++ R) d.length P.length bv = d.foldl op bv := by
  induction d with
  | nil => intro P R bv; rfl
  | cons x rest ih =>
    intro P R bv
    simp only [List.length_cons, slotLoop, List.foldl_cons]
    have hx : (P ++ x :: rest ++ R).getD P.length 0 = x := by
      rw [List.append_assoc, List.getD_eq_getElem?_getD, List.getElem?_append_right (le_refl _)]
      simp
    rw [hx]
    have := ih (P ++ [x]) R (op bv x)
    simp only [List.length_append, List.length_singleton, List.append_assoc,
      List.singleton_append] at this
    simpa [List.append_assoc] using this

theorem headLoop_flat (instrs : List (List Nat × List Nat)) :
    ∀ (P Q : List Nat) (total : Nat) (bv : TempBitVector),
      total = Q.length + 2 * instrs.length →
      headLoop (P ++ flatInfo instrs) (Q ++ idxList P.length instrs) total instrs.length
        P.length Q.length bv = instrs.foldl replayStep bv := by
  induction instrs with
  | nil => intro P Q total bv _; rfl
  | cons du rest ih =>
    intro P Q total bv htot
    obtain ⟨d, u⟩ := du
    simp only [List.length_cons] at htot
    simp only [List.length_cons, headLoop, List.foldl_cons]
    have hlt : Q.length < total := by omega
    simp only [hlt, if_true]
    have hi1 : (Q ++ idxList P.length ((d, u) :: rest)).getD Q.length 0 = P.length + d.length := by
      rw [List.getD_eq_getElem?_getD, List.getElem?_append_right (le_refl _)]
      simp [idxList]
    have hi2 : (Q ++ idxList P.length ((d, u) :: rest)).getD (Q.length + 1) 0 =
        P.length + d.length + u.length := by
      rw [List.getD_eq_getElem?_getD, List.getElem?_append_right (by omega)]
      simp [idxList]
    rw [hi1, hi2]
    have hs1 : P.length + d.length - P.length = d.length := by omega
    have hs2 : P.length + d.length + u.length - (P.length + (P.length + d.length - P.length)) =
        u.length := by omega
    rw [hs2, hs1]
    have hf1 : P ++ flatInfo ((d, u) :: rest) = P ++ d ++ (u ++ flatInfo rest) := by
      simp [flatInfo, List.append_assoc]
    have hf2 : P ++ flatInfo ((d, u) :: rest) = (P ++ d) ++ u ++ flatInfo rest := by
      simp [flatInfo, List.append_assoc]
    have hc1 := slotLoop_flat ClearBit d P (u ++ flatInfo rest) bv
    rw [← hf1] at hc1
    rw [hc1]
    have hc2 := slotLoop_flat SetBit u (P ++ d) (flatInfo rest) (d.foldl ClearBit bv)
    rw [← hf2, List.length_append] at hc2
    rw [hc2]
    have hq : Q ++ idxList P.length ((d, u) :: rest) =
        (Q ++ [P.length + d.length, P.length + d.length + u.length]) ++
          idxList (P ++ d ++ u).length rest := by
      simp [idxList, List.append_assoc, Nat.add_assoc]
    have hp : P ++ flatInfo ((d, u) :: rest) = (P ++ d ++ u) ++ flatInfo rest := by
      simp [flatInfo, List.append_assoc]
    have := ih (P ++ d ++ u) (Q ++ [P.length + d.length, P.length + d.length + u.length]) total
      (replayStep bv (d, u)) (by simp; omega)
    rw [← hq, ← hp] at this
    simp only [List.length_append, List.length_cons, List.length_nil] at this
    have e1 : P.length + d.length + u.length = P.length + d.length + u.length := rfl
    have e2 : Q.length + 2 = Q.length + (0 + 1 + 1) := by omega
    rw [e2]
    exact this

theorem getD_set_bv (l : List TempBitVector) (i j : Nat) (v : TempBitVector) :
    (l.set i v).getD j default = if i = j ∧ j < l.length then v else l.getD j default := by
  simp only [List.getD_eq_getElem?_getD, List.getElem?_set]
  by_cases h1 : i = j
  · subst h1
    by_cases h2 : i < l.length
    · simp [h2]
    · simp [h2, List.getElem?_eq_none (not_lt.mp h2)]
  · simp [h1]

theorem foldl_ClearBit_length (d : List Nat) :
    ∀ bv : TempBitVector, (d.foldl ClearBit bv).m_length = bv.m_length := by
  induction d with
  | nil => intro bv; rfl
  | cons x rest ih => intro bv; rw [List.foldl_cons, ih]; rfl

theorem foldl_SetBit_length (d : List Nat) :
    ∀ bv : TempBitVector, (d.foldl SetBit bv).m_length = bv.m_length := by
  induction d with
  | nil => intro bv; rfl
  | cons x rest ih => intro bv; rw [List.foldl_cons, ih]; rfl

theorem perBytecodeLoop_post (n : Nat) (bb : BytecodeLivenessBBInfo) (last : Nat)
    (instrs : List (List Nat × List Nat)) :
    ∀ (P Q : List Nat) (index : Nat) (r : BytecodeLiveness),
      bb.m_info = P ++ flatInfo instrs →
      bb.m_infoIndex = Q ++ idxList P.length instrs →
      Q.length = index * 2 →
      index + instrs.length ≤ last + 1 →
      last < r.m_beforeUse.length → last < r.m_afterUse.length →
      (∀ j, j < instrs.length →
        (r.m_beforeUse.getD (last - (index + j)) default).m_length = n ∧
        (r.m_afterUse.getD (last - (index + j)) default).m_length = n) →
      PerBytecodePost n bb.m_atTail last index instrs r
        (perBytecodeLoop bb last instrs.length index P.length r) := by
  induction instrs with
  | nil =>
    intro P Q index r _ _ _ _ _ _ _
    exact { lenB := rfl, lenA := rfl, frame := fun _ _ => ⟨rfl, rfl⟩,
            written := fun j d u h => by simp at h }
  | cons du rest ih =>
    intro P Q index r hinfo hidx hq hrange hlB hlA hlen
    obtain ⟨d, u⟩ := du
    simp only [List.length_cons] at hrange
    have hi1 : bb.m_infoIndex.getD (index * 2) 0 = P.length + d.length := by
      rw [hidx, ← hq, List.getD_eq_getElem?_getD, List.getElem?_append_right (le_refl _)]
      simp [idxList]
    have hi2 : bb.m_infoIndex.getD (index * 2 + 1) 0 = P.length + d.length + u.length := by
      rw [hidx, ← hq, List.getD_eq_getElem?_getD, List.getElem?_append_right (by omega)]
      simp [idxList]
    have hf1 : bb.m_info = P ++ d ++ (u ++ flatInfo rest) := by
      rw [hinfo]; simp [flatInfo, List.append_assoc]
    have hf2 : bb.m_info = (P ++ d) ++ u ++ flatInfo rest := by
      rw [hinfo]; simp [flatInfo, List.append_assoc]
    have hs1 : P.length + d.length - P.length = d.length := by omega
    have hs2 : P.length + d.length + u.length - (P.length + (P.length + d.length - P.length)) =
        u.length := by omega
    obtain ⟨hl0b, hl0a⟩ := hlen 0 (by simp)
    simp only [Nat.add_zero] at hl0b hl0a
    -- the two vectors written by this iteration
    let nd : List Nat := if index > 0 then (r.m_beforeUse.getD (last - index + 1) default).m_data
      else bb.m_atTail.m_data
    let a : TempBitVector := d.foldl ClearBit { m_length := n, m_data := nd }
    let b : TempBitVector := u.foldl SetBit a
    let r1 : BytecodeLiveness :=
      { m_beforeUse := r.m_beforeUse.set (last - index) b
        m_afterUse := r.m_afterUse.set (last - index) a }
    have ha_len : a.m_length = n := foldl_ClearBit_length d _
    have hstep : perBytecodeLoop bb last (rest.length + 1) index P.length r =
        perBytecodeLoop bb last rest.length (index + 1) (P ++ d ++ u).length r1 := by
      simp only [perBytecodeLoop]
      rw [hi1, hi2, hs2, hs1]
      have hc1 := slotLoop_flat ClearBit d P (u ++ flatInfo rest)
      rw [← hf1] at hc1
      have hc2 := slotLoop_flat SetBit u (P ++ d) (flatInfo rest)
      rw [← hf2, List.length_append] at hc2
      rw [hc1, hc2]
      have e1 : (if index > 0 then
            (r.m_afterUse.getD (last - index) default).CopyFromEqualLengthBitVector
              (r.m_beforeUse.getD (last - index + 1) default)
          else (r.m_afterUse.getD (last - index) default).CopyFromEqualLengthBitVector
              bb.m_atTail) = { m_length := n, m_data := nd } := by
        by_cases hix : index > 0
        · simp only [hix, if_true, CopyFromEqualLengthBitVector, hl0a, nd]
        · simp only [hix, if_false, CopyFromEqualLengthBitVector, hl0a, nd]
      rw [e1]
      have e2 : (r.m_beforeUse.getD (last - index) default).CopyFromEqualLengthBitVector
          (d.foldl ClearBit { m_length := n, m_data := nd }) = a := by
        show ({ m_length := _, m_data := a.m_data } : TempBitVector) = a
        rw [hl0b, ← ha_len]
      rw [e2]
      simp only [List.length_append]
    have hin : last - index < r.m_beforeUse.length ∧ last - index < r.m_afterUse.length := by
      constructor <;> omega
    have IH := ih (P ++ d ++ u) (Q ++ [P.length + d.length, P.length + d.length + u.length])
      (index + 1) r1
      (by rw [hinfo]; simp [flatInfo, List.append_assoc])
      (by rw [hidx]; simp [idxList, List.append_assoc, Nat.add_assoc])
      (by simp; omega) (by omega)
      (by simp only [r1, List.length_set]; exact hlB)
      (by simp only [r1, List.length_set]; exact hlA)
      (by
        intro j hj
        have hne : last - index ≠ last - (index + 1 + j) := by omega
        have := hlen (j + 1) (by simp; omega)
        have e : index + (j + 1) = index + 1 + j := by omega
        rw [e] at this
        simp only [r1, getD_set_bv, hne, false_and, if_false]
        exact this)
    simp only [List.length_cons]
    rw [hstep]
    refine { lenB := ?_, lenA := ?_, frame := ?_, written := ?_ }
    · rw [IH.lenB]; simp [r1]
    · rw [IH.lenA]; simp [r1]
    · intro idx hidx'
      have h0 := hidx' 0 (by simp)
      simp only [Nat.add_zero] at h0
      have hfr := IH.frame idx (by
        intro j hj
        have := hidx' (j + 1) (by simp; omega)
        have e : index + (j + 1) = index + 1 + j := by omega
        rw [e] at this
        exact this)
      rw [hfr.1, hfr.2]
      simp only [r1, getD_set_bv, Ne.symm h0, false_and, if_false, and_self]
    · intro j d' u' hj
      cases j with
      | zero =>
        simp only [List.getElem?_cons_zero, Option.some.injEq, Prod.mk.injEq] at hj
        obtain ⟨hd1, hu1⟩ := hj
        subst hd1 hu1
        simp only [Nat.add_zero]
        have hfr := IH.frame (last - index) (by intro j hj; omega)
        have hA : (perBytecodeLoop bb last rest.length (index + 1) (P ++ d ++ u).length
            r1).m_afterUse.getD (last - index) default = a := by
          rw [hfr.2]
          simp only [r1, getD_set_bv, hin.2, and_self, if_true]
        have hB : (perBytecodeLoop bb last rest.length (index + 1) (P ++ d ++ u).length
            r1).m_beforeUse.getD (last - index) default = b := by
          rw [hfr.1]
          simp only [r1, getD_set_bv, hin.1, and_self, if_true]
        rw [hA, hB]
        refine ⟨?_, rfl⟩
        by_cases hix : index = 0
        · simp only [hix, if_true]
          simp only [a, nd, hix, gt_iff_lt, lt_self_iff_false, if_false]
        · have hfr2 := IH.frame (last - index + 1) (by intro j hj; omega)
          rw [hfr2.1]
          have hne : last - index ≠ last - index + 1 := by omega
          simp only [hix, if_false, r1, getD_set_bv, hne, false_and]
          have hpos : index > 0 := Nat.pos_of_ne_zero hix
          simp only [a, nd, hpos, if_true]
      | succ j =>
        simp only [List.getElem?_cons_succ] at hj
        have := IH.written j d' u' hj
        have e : index + (j + 1) = index + 1 + j := by omega
        rw [e]
        have e0 : (index + 1 + j = 0) = False := by simp
        simp only [e0, if_false] at this ⊢
        exact this

theorem resetRange_spec (n : Nat) (cnt : Nat) :
    ∀ (first : Nat) (r : BytecodeLiveness),
      (resetRange n first cnt r).m_beforeUse.length = r.m_beforeUse.length ∧
      (resetRange n first cnt r).m_afterUse.length = r.m_afterUse.length ∧
      ∀ idx,
        (resetRange n first cnt r).m_beforeUse.getD idx default =
          (if first ≤ idx ∧ idx < first + cnt ∧ idx < r.m_beforeUse.length
           then TempBitVector.Reset n else r.m_beforeUse.getD idx default) ∧
        (resetRange n first cnt r).m_afterUse.getD idx default =
          (if first ≤ idx ∧ idx < first + cnt ∧ idx < r.m_afterUse.length
           then TempBitVector.Reset n else r.m_afterUse.getD idx default) := by
  induction cnt with
  | zero =>
    intro first r
    refine ⟨rfl, rfl, fun idx => ?_⟩
    have h : ¬ (first ≤ idx ∧ idx < first + 0 ∧ idx < r.m_beforeUse.length) := by omega
    have h' : ¬ (first ≤ idx ∧ idx < first + 0 ∧ idx < r.m_afterUse.length) := by omega
    simp only [if_neg h, if_neg h']
    exact ⟨rfl, rfl⟩
  | succ cnt ih =>
    intro first r
    have hunf : resetRange n first (cnt + 1) r = resetRange n (first + 1) cnt
        { m_beforeUse := r.m_beforeUse.set first (TempBitVector.Reset n)
          m_afterUse := r.m_afterUse.set first (TempBitVector.Reset n) } := by
      simp [resetRange, List.range'_succ]
    rw [hunf]
    obtain ⟨h1, h2, h3⟩ := ih (first + 1)
      { m_beforeUse := r.m_beforeUse.set first (TempBitVector.Reset n)
        m_afterUse := r.m_afterUse.set first (TempBitVector.Reset n) }
    refine ⟨by rw [h1]; simp, by rw [h2]; simp, fun idx => ?_⟩
    obtain ⟨hb, ha⟩ := h3 idx
    rw [hb, ha]
    simp only [List.length_set, getD_set_bv]
    constructor
    · by_cases c1 : first + 1 ≤ idx ∧ idx < first + 1 + cnt ∧ idx < r.m_beforeUse.length
      · rw [if_pos c1, if_pos (by omega)]
      · rw [if_neg c1]
        by_cases c2 : first = idx ∧ idx < r.m_beforeUse.length
        · rw [if_pos c2, if_pos (by omega)]
        · rw [if_neg c2, if_neg (by omega)]
    · by_cases c1 : first + 1 ≤ idx ∧ idx < first + 1 + cnt ∧ idx < r.m_afterUse.length
      · rw [if_pos c1, if_pos (by omega)]
      · rw [if_neg c1]
        by_cases c2 : first = idx ∧ idx < r.m_afterUse.length
        · rw [if_pos c2, if_pos (by omega)]
        · rw [if_neg c2, if_neg (by omega)]

theorem ComputePerBytecodeLiveness_post (bb : BytecodeLivenessBBInfo)
    (instrs : List (List Nat × List Nat)) (r : BytecodeLiveness)
    (hinfo : bb.m_info = flatInfo instrs) (hidx : bb.m_infoIndex = idxList 0 instrs)
    (hnum : bb.m_numBytecodesInBB = instrs.length) (hpos : 0 < instrs.length)
    (hB : bb.m_firstBytecodeIndex + instrs.length ≤ r.m_beforeUse.length)
    (hA : bb.m_firstBytecodeIndex + instrs.length ≤ r.m_afterUse.length) :
    BlockPost bb.m_atHead.m_length bb.m_atTail bb.m_firstBytecodeIndex instrs r
      (bb.ComputePerBytecodeLiveness r) := by
  have hcnt : bb.m_firstBytecodeIndex + bb.m_numBytecodesInBB - 1 + 1 - bb.m_firstBytecodeIndex =
      instrs.length := by omega
  have hunf : bb.ComputePerBytecodeLiveness r =
      perBytecodeLoop bb (bb.m_firstBytecodeIndex + instrs.length - 1) instrs.length 0
        ([] : List Nat).length
        (resetRange bb.m_atHead.m_length bb.m_firstBytecodeIndex instrs.length r) := by
    unfold BytecodeLivenessBBInfo.ComputePerBytecodeLiveness resetRange
    rw [hnum] at hcnt
    simp only [hcnt, hnum, List.length_nil]
  obtain ⟨r1, r2, r3⟩ := resetRange_spec bb.m_atHead.m_length instrs.length
    bb.m_firstBytecodeIndex r
  have P := perBytecodeLoop_post bb.m_atHead.m_length bb
    (bb.m_firstBytecodeIndex + instrs.length - 1) instrs [] [] 0
    (resetRange bb.m_atHead.m_length bb.m_firstBytecodeIndex instrs.length r)
    (by simpa using hinfo) (by simpa using hidx) rfl (by omega) (by rw [r1]; omega)
    (by rw [r2]; omega)
    (by
      intro j hj
      obtain ⟨e1, e2⟩ := r3 (bb.m_firstBytecodeIndex + instrs.length - 1 - (0 + j))
      rw [e1, e2, if_pos (by omega), if_pos (by omega)]
      exact ⟨rfl, rfl⟩)
  rw [hunf]
  refine { lenB := P.lenB.trans r1, lenA := P.lenA.trans r2, frame := ?_, written := ?_ }
  · intro idx hout
    obtain ⟨f1, f2⟩ := P.frame idx (by intro j hj; omega)
    obtain ⟨e1, e2⟩ := r3 idx
    rw [f1, f2, e1, e2, if_neg (by omega), if_neg (by omega)]
    exact ⟨rfl, rfl⟩
  · intro j d u hj
    have := P.written j d u hj
    simp only [Nat.zero_add] at this
    exact this

theorem Written_of_agree (n : Nat) (bb : BytecodeLivenessBBInfo)
    (instrs : List (List Nat × List Nat)) (r r' : BytecodeLiveness)
    (hnum : bb.m_numBytecodesInBB = instrs.length)
    (hag : ∀ idx, InBlock bb idx →
      r'.m_beforeUse.getD idx default = r.m_beforeUse.getD idx default ∧
      r'.m_afterUse.getD idx default = r.m_afterUse.getD idx default)
    (W : Written n bb instrs r) : Written n bb instrs r' := by
  intro j d u hj
  have hjlt : j < instrs.length := by
    by_contra hc
    rw [List.getElem?_eq_none (not_lt.mp hc)] at hj
    exact Option.noConfusion hj
  obtain ⟨w1, w2⟩ := W j d u hj
  have hin : InBlock bb (bb.m_firstBytecodeIndex + instrs.length - 1 - j) := by
    unfold InBlock; omega
  obtain ⟨a1, a2⟩ := hag _ hin
  rw [a1, a2]
  refine ⟨?_, w2⟩
  rw [w1]
  by_cases hj0 : j = 0
  · simp only [hj0, if_true]
  · have hin2 : InBlock bb (bb.m_firstBytecodeIndex + instrs.length - 1 - j + 1) := by
      unfold InBlock; omega
    simp only [hj0, if_false, (hag _ hin2).1]

theorem BlockPost.sized_in {n : Nat} {tail : TempBitVector} {first : Nat}
    {instrs : List (List Nat × List Nat)} {r r' : BytecodeLiveness}
    (B : BlockPost n tail first instrs r r') (idx : Nat)
    (h : first ≤ idx ∧ idx < first + instrs.length) :
    (r'.m_beforeUse.getD idx default).m_length = n ∧
    (r'.m_afterUse.getD idx default).m_length = n := by
  have hj : first + instrs.length - 1 - idx < instrs.length := by omega
  obtain ⟨w1, w2⟩ := B.written (first + instrs.length - 1 - idx)
    (instrs[first + instrs.length - 1 - idx]).1 (instrs[first + instrs.length - 1 - idx]).2
    (by rw [List.getElem?_eq_getElem hj])
  have e : first + instrs.length - 1 - (first + instrs.length - 1 - idx) = idx := by omega
  rw [e] at w1 w2
  have hA : (r'.m_afterUse.getD idx default).m_length = n := by
    rw [w1, foldl_ClearBit_length]
  exact ⟨by rw [w2, foldl_SetBit_length, hA], hA⟩

theorem fold_blocks_post (L n : Nat) (l : List BytecodeLivenessBBInfo)
    (il : List (List (List Nat × List Nat))) (hok : List.Forall₂ (BlockOK L n) l il) :
    ∀ r : BytecodeLiveness, r.m_beforeUse.length = L → r.m_afterUse.length = L →
      FoldPost n l il r (l.foldl (fun r bb => bb.ComputePerBytecodeLiveness r) r) := by
  induction hok with
  | nil =>
    intro r _ _
    exact { lenB := rfl, lenA := rfl, frame := fun _ _ => ⟨rfl, rfl⟩,
            sized := fun idx h => by
              obtain ⟨bb, hbb, _⟩ := h
              exact absurd hbb (List.not_mem_nil bb) }
  | @cons bb instrs l' il' hb _ ih =>
    intro r hB hA
    obtain ⟨h1, h2, h3, h4, h5, h6⟩ := hb
    have B := ComputePerBytecodeLiveness_post bb instrs r h1 h2 h3 h4 (by rw [hB]; exact h5)
      (by rw [hA]; exact h5)
    rw [h6] at B
    have F := ih (bb.ComputePerBytecodeLiveness r) (by rw [B.lenB]; exact hB)
      (by rw [B.lenA]; exact hA)
    rw [List.foldl_cons]
    refine { lenB := F.lenB.trans B.lenB, lenA := F.lenA.trans B.lenA, frame := ?_, sized := ?_ }
    · intro idx hout
      obtain ⟨f1, f2⟩ := F.frame idx (fun bb' hbb' => hout bb' (List.mem_cons_of_mem _ hbb'))
      have hno := hout bb (List.mem_cons_self _ _)
      unfold InBlock at hno
      rw [h3] at hno
      obtain ⟨g1, g2⟩ := B.frame idx hno
      exact ⟨f1.trans g1, f2.trans g2⟩
    · intro idx hin
      by_cases hrest : ∃ bb' ∈ l', InBlock bb' idx
      · exact F.sized idx hrest
      · have hrest' : ∀ bb' ∈ l', ¬ InBlock bb' idx := by
          intro bb' hbb' hc
          exact hrest ⟨bb', hbb', hc⟩
        obtain ⟨f1, f2⟩ := F.frame idx hrest'
        rw [f1, f2]
        obtain ⟨bb0, hbb0, hin0⟩ := hin
        rcases List.mem_cons.mp hbb0 with e | e
        · subst e
          unfold InBlock at hin0
          rw [h3] at hin0
          exact B.sized_in idx hin0
        · exact absurd hin0 (hrest' bb0 e)

theorem fold_blocks_written (L n : Nat) (l : List BytecodeLivenessBBInfo)
    (il : List (List (List Nat × List Nat))) (hok : List.Forall₂ (BlockOK L n) l il)
    (hdis : l.Pairwise DisjointBlocks) :
    ∀ r : BytecodeLiveness, r.m_beforeUse.length = L → r.m_afterUse.length = L →
      ∀ (k : Nat) (bb : BytecodeLivenessBBInfo) (instrs : List (List Nat × List Nat)),
        l[k]? = some bb → il[k]? = some instrs →
        Written n bb instrs (l.foldl (fun r bb => bb.ComputePerBytecodeLiveness r) r) := by
  induction hok with
  | nil =>
    intro r _ _ k bb instrs hk _
    simp at hk
  | @cons bb0 instrs0 l' il' hb hrest ih =>
    intro r hB hA k bb instrs hk hik
    obtain ⟨h1, h2, h3, h4, h5, h6⟩ := hb
    have B := ComputePerBytecodeLiveness_post bb0 instrs0 r h1 h2 h3 h4 (by rw [hB]; exact h5)
      (by rw [hA]; exact h5)
    rw [h6] at B
    rw [List.pairwise_cons] at hdis
    rw [List.foldl_cons]
    cases k with
    | zero =>
      simp only [List.getElem?_cons_zero, Option.some.injEq] at hk hik
      subst hk hik
      have F := fold_blocks_post L n l' il' hrest (bb0.ComputePerBytecodeLiveness r)
        (by rw [B.lenB]; exact hB) (by rw [B.lenA]; exact hA)
      apply Written_of_agree n bb0 instrs0 (bb0.ComputePerBytecodeLiveness r) _ h3
      · intro idx hin
        apply F.frame idx
        intro bb' hbb' hin'
        have := hdis.1 bb' hbb'
        unfold DisjointBlocks at this
        unfold InBlock at hin hin'
        omega
      · exact B.written
    | succ k =>
      simp only [List.getElem?_cons_succ] at hk hik
      exact ih hdis.2 (bb0.ComputePerBytecodeLiveness r) (by rw [B.lenB]; exact hB)
        (by rw [B.lenA]; exact hA) k bb instrs hk hik

theorem fillUnreachable_spec (n : Nat) (r : BytecodeLiveness)
    (hlen : r.m_afterUse.length = r.m_beforeUse.length) :
    ∀ cnt, cnt ≤ r.m_beforeUse.length →
      (fillUnreachable n cnt r).m_beforeUse.length = r.m_beforeUse.length ∧
      (fillUnreachable n cnt r).m_afterUse.length = r.m_afterUse.length ∧
      ∀ idx,
        (fillUnreachable n cnt r).m_beforeUse.getD idx default =
          (if idx < cnt ∧ (r.m_beforeUse.getD idx default).m_length = 0
           then TempBitVector.Reset n else r.m_beforeUse.getD idx default) ∧
        (fillUnreachable n cnt r).m_afterUse.getD idx default =
          (if idx < cnt ∧ (r.m_beforeUse.getD idx default).m_length = 0
           then TempBitVector.Reset n else r.m_afterUse.getD idx default) := by
  intro cnt
  induction cnt with
  | zero =>
    intro _
    refine ⟨rfl, rfl, fun idx => ?_⟩
    simp [fillUnreachable]
  | succ cnt ih =>
    intro hc
    obtain ⟨l1, l2, g⟩ := ih (by omega)
    have hunf : fillUnreachable n (cnt + 1) r =
        if ((fillUnreachable n cnt r).m_beforeUse.getD cnt default).m_length = 0 then
          { m_beforeUse := (fillUnreachable n cnt r).m_beforeUse.set cnt (TempBitVector.Reset n)
            m_afterUse := (fillUnreachable n cnt r).m_afterUse.set cnt (TempBitVector.Reset n) }
        else fillUnreachable n cnt r := by
      simp [fillUnreachable, List.range_succ, List.foldl_append]
    have hcur : (fillUnreachable n cnt r).m_beforeUse.getD cnt default =
        r.m_beforeUse.getD cnt default := by
      rw [(g cnt).1, if_neg (by omega)]
    rw [hunf, hcur]
    by_cases hz : (r.m_beforeUse.getD cnt default).m_length = 0
    · rw [if_pos hz]
      refine ⟨by simp [l1], by simp [l2], fun idx => ?_⟩
      simp only [getD_set_bv, l1, l2, hlen]
      obtain ⟨g1, g2⟩ := g idx
      by_cases hi : cnt = idx
      · subst hi
        have hlt : cnt < r.m_beforeUse.length := by omega
        simp only [hlt, and_self, if_true, hz, Nat.lt_succ_self]
      · simp only [hi, false_and, if_false, g1, g2]
        by_cases hc2 : idx < cnt ∧ (r.m_beforeUse.getD idx default).m_length = 0
        · rw [if_pos hc2, if_pos ⟨by omega, hc2.2⟩, if_pos hc2, if_pos ⟨by omega, hc2.2⟩]
          exact ⟨rfl, rfl⟩
        · have hc3 : ¬ (idx < cnt + 1 ∧ (r.m_beforeUse.getD idx default).m_length = 0) := by
            intro h
            apply hc2
            exact ⟨by omega, h.2⟩
          rw [if_neg hc2, if_neg hc3, if_neg hc2, if_neg hc3]
          exact ⟨rfl, rfl⟩
    · rw [if_neg hz]
      refine ⟨l1, l2, fun idx => ?_⟩
      obtain ⟨g1, g2⟩ := g idx
      rw [g1, g2]
      by_cases hi : cnt = idx
      · subst hi
        rw [if_neg (by omega), if_neg (fun h => hz h.2), if_neg (by omega), if_neg (fun h => hz h.2)]
        exact ⟨rfl, rfl⟩
      · by_cases hc2 : idx < cnt ∧ (r.m_beforeUse.getD idx default).m_length = 0
        · rw [if_pos hc2, if_pos ⟨by omega, hc2.2⟩, if_pos hc2, if_pos ⟨by omega, hc2.2⟩]
          exact ⟨rfl, rfl⟩
        · have hc3 : ¬ (idx < cnt + 1 ∧ (r.m_beforeUse.getD idx default).m_length = 0) := by
            intro h
            apply hc2
            exact ⟨by omega, h.2⟩
          rw [if_neg hc2, if_neg hc3, if_neg hc2, if_neg hc3]
          exact ⟨rfl, rfl⟩

theorem materialize_eq (numBytecodes numLocals : Nat) (heap : List BytecodeLivenessBBInfo) :
    materialize numBytecodes numLocals heap =
      fillUnreachable numLocals numBytecodes
        (heap.foldl (fun r bb => bb.ComputePerBytecodeLiveness r)
          { m_beforeUse := List.replicate numBytecodes default
            m_afterUse := List.replicate numBytecodes default }) := rfl

theorem getD_replicate_default (L idx : Nat) :
    (List.replicate L (default : TempBitVector)).getD idx default = default := by
  rw [List.getD_eq_getElem?_getD, List.getElem?_replicate]
  split <;> rfl

/-- Lengths of the result and the records of the bytecodes that lie in no block. -/
theorem materialize_sized (L n : Nat) (heap : List BytecodeLivenessBBInfo)
    (il : List (List (List Nat × List Nat))) (hok : List.Forall₂ (BlockOK L n) heap il) :
    (materialize L n heap).m_beforeUse.length = L ∧
    (materialize L n heap).m_afterUse.length = L ∧
    (∀ idx, idx < L →
      ((materialize L n heap).m_beforeUse.getD idx default).m_length = n ∧
      ((materialize L n heap).m_afterUse.getD idx default).m_length = n) ∧
    (∀ idx, idx < L → (∀ bb ∈ heap, ¬ InBlock bb idx) →
      (materialize L n heap).m_beforeUse.getD idx default = TempBitVector.Reset n ∧
      (materialize L n heap).m_afterUse.getD idx default = TempBitVector.Reset n) := by
  have F := fold_blocks_post L n heap il hok
    (BytecodeLiveness.mk (List.replicate L default) (List.replicate L default))
    (by simp) (by simp)
  have hlB : (heap.foldl (fun (r : BytecodeLiveness) (bb : BytecodeLivenessBBInfo) => bb.ComputePerBytecodeLiveness r)
      (BytecodeLiveness.mk (List.replicate L default) (List.replicate L default))).m_beforeUse.length = L := by
    rw [F.lenB]; simp
  have hlA : (heap.foldl (fun (r : BytecodeLiveness) (bb : BytecodeLivenessBBInfo) => bb.ComputePerBytecodeLiveness r)
      (BytecodeLiveness.mk (List.replicate L default) (List.replicate L default))).m_afterUse.length = L := by
    rw [F.lenA]; simp
  obtain ⟨g1, g2, g3⟩ := fillUnreachable_spec n _ (hlA.trans hlB.symm) L (by rw [hlB])
  rw [materialize_eq]
  refine ⟨g1.trans hlB, g2.trans hlA, ?_, ?_⟩
  · intro idx hidx
    obtain ⟨e1, e2⟩ := g3 idx
    rw [e1, e2]
    by_cases hin : ∃ bb ∈ heap, InBlock bb idx
    · obtain ⟨s1, s2⟩ := F.sized idx hin
      by_cases hz : idx < L ∧ ((heap.foldl (fun (r : BytecodeLiveness) (bb : BytecodeLivenessBBInfo) => bb.ComputePerBytecodeLiveness r)
          (BytecodeLiveness.mk (List.replicate L default) (List.replicate L default))).m_beforeUse.getD idx default).m_length = 0
      · rw [if_pos hz, if_pos hz]
        exact ⟨rfl, rfl⟩
      · rw [if_neg hz, if_neg hz]
        exact ⟨s1, s2⟩
    · have hout : ∀ bb ∈ heap, ¬ InBlock bb idx := fun bb hbb hc => hin ⟨bb, hbb, hc⟩
      obtain ⟨f1, _⟩ := F.frame idx hout
      simp only at f1
      rw [getD_replicate_default] at f1
      have hz : idx < L ∧ ((heap.foldl (fun (r : BytecodeLiveness) (bb : BytecodeLivenessBBInfo) => bb.ComputePerBytecodeLiveness r)
          (BytecodeLiveness.mk (List.replicate L default) (List.replicate L default))).m_beforeUse.getD idx default).m_length = 0 := by
        rw [f1]
        exact ⟨hidx, rfl⟩
      rw [if_pos hz, if_pos hz]
      exact ⟨rfl, rfl⟩
  · intro idx hidx hout
    obtain ⟨e1, e2⟩ := g3 idx
    obtain ⟨f1, _⟩ := F.frame idx hout
    simp only at f1
    rw [getD_replicate_default] at f1
    have hz : idx < L ∧ ((heap.foldl (fun (r : BytecodeLiveness) (bb : BytecodeLivenessBBInfo) => bb.ComputePerBytecodeLiveness r)
        (BytecodeLiveness.mk (List.replicate L default) (List.replicate L default))).m_beforeUse.getD idx default).m_length = 0 := by
      rw [f1]
      exact ⟨hidx, rfl⟩
    rw [e1, e2, if_pos hz, if_pos hz]
    exact ⟨rfl, rfl⟩

theorem Written.data_length {n : Nat} {bb : BytecodeLivenessBBInfo}
    {instrs : List (List Nat × List Nat)} {r : BytecodeLiveness} (W : Written n bb instrs r) :
    ∀ j, j < instrs.length →
      (r.m_afterUse.getD (bb.m_firstBytecodeIndex + instrs.length - 1 - j) default).m_length = n ∧
      (r.m_beforeUse.getD (bb.m_firstBytecodeIndex + instrs.length - 1 - j) default).m_length = n := by
  intro j hj
  obtain ⟨w1, w2⟩ := W j (instrs[j]).1 (instrs[j]).2 (by rw [List.getElem?_eq_getElem hj])
  have hA : (r.m_afterUse.getD (bb.m_firstBytecodeIndex + instrs.length - 1 - j) default).m_length
      = n := by
    rw [w1, foldl_ClearBit_length]
  exact ⟨hA, by rw [w2, foldl_SetBit_length, hA]⟩

theorem foldl_ClearBit_empty (d : List Nat) :
    d.foldl ClearBit { m_length := 0, m_data := [] } = { m_length := 0, m_data := [] } := by
  induction d with
  | nil => rfl
  | cons x rest ih =>
    rw [List.foldl_cons]
    have : ClearBit { m_length := 0, m_data := [] } x = { m_length := 0, m_data := [] } := by
      simp [ClearBit]
    rw [this, ih]

theorem foldl_SetBit_empty (d : List Nat) :
    d.foldl SetBit { m_length := 0, m_data := [] } = { m_length := 0, m_data := [] } := by
  induction d with
  | nil => rfl
  | cons x rest ih =>
    rw [List.foldl_cons]
    have : SetBit { m_length := 0, m_data := [] } x = { m_length := 0, m_data := [] } := by
      simp [SetBit]
    rw [this, ih]

/-- The relation between the records of a block holds in the result. -/
theorem materialize_written (L n : Nat) (heap : List BytecodeLivenessBBInfo)
    (il : List (List (List Nat × List Nat))) (hok : List.Forall₂ (BlockOK L n) heap il)
    (hdis : heap.Pairwise DisjointBlocks) (htail : ∀ bb ∈ heap, WFbv n bb.m_atTail)
    (k : Nat) (bb : BytecodeLivenessBBInfo) (instrs : List (List Nat × List Nat))
    (hk : heap[k]? = some bb) (hik : il[k]? = some instrs) :
    Written n bb instrs (materialize L n heap) := by
  have hklt : k < heap.length := by
    by_contra hc
    rw [List.getElem?_eq_none (not_lt.mp hc)] at hk
    exact Option.noConfusion hk
  have hkilt : k < il.length := by rw [← hok.length_eq]; exact hklt
  have hbbmem : bb ∈ heap := by
    rw [List.getElem?_eq_getElem hklt] at hk
    exact Option.some.inj hk ▸ List.getElem_mem hklt
  have hokk : BlockOK L n bb instrs := by
    have := List.forall₂_iff_get.mp hok
    have h := this.2 k hklt hkilt
    rw [List.getElem?_eq_getElem hklt] at hk
    rw [List.getElem?_eq_getElem hkilt] at hik
    simp only [List.get_eq_getElem] at h
    rw [Option.some.inj hk, Option.some.inj hik] at h
    exact h
  obtain ⟨_, _, h3, h4, h5, _⟩ := hokk
  have W := fold_blocks_written L n heap il hok hdis
    (BytecodeLiveness.mk (List.replicate L default) (List.replicate L default))
    (by simp) (by simp) k bb instrs hk hik
  have F := fold_blocks_post L n heap il hok
    (BytecodeLiveness.mk (List.replicate L default) (List.replicate L default))
    (by simp) (by simp)
  have hlB : (heap.foldl (fun (r : BytecodeLiveness) (bb : BytecodeLivenessBBInfo) => bb.ComputePerBytecodeLiveness r)
      (BytecodeLiveness.mk (List.replicate L default) (List.replicate L default))).m_beforeUse.length = L := by
    rw [F.lenB]; simp
  have hlA : (heap.foldl (fun (r : BytecodeLiveness) (bb : BytecodeLivenessBBInfo) => bb.ComputePerBytecodeLiveness r)
      (BytecodeLiveness.mk (List.replicate L default) (List.replicate L default))).m_afterUse.length = L := by
    rw [F.lenA]; simp
  obtain ⟨_, _, g3⟩ := fillUnreachable_spec n _ (hlA.trans hlB.symm) L (by rw [hlB])
  rw [materialize_eq]
  by_cases hn : n = 0
  · -- no locals: every record of the block is the empty vector
    subst hn
    have hall : ∀ idx, InBlock bb idx →
        (fillUnreachable 0 L (heap.foldl (fun (r : BytecodeLiveness) (bb : BytecodeLivenessBBInfo) => bb.ComputePerBytecodeLiveness r)
          (BytecodeLiveness.mk (List.replicate L default) (List.replicate L default)))).m_beforeUse.getD idx default =
          { m_length := 0, m_data := [] } ∧
        (fillUnreachable 0 L (heap.foldl (fun (r : BytecodeLiveness) (bb : BytecodeLivenessBBInfo) => bb.ComputePerBytecodeLiveness r)
          (BytecodeLiveness.mk (List.replicate L default) (List.replicate L default)))).m_afterUse.getD idx default =
          { m_length := 0, m_data := [] } := by
      intro idx hin
      obtain ⟨e1, e2⟩ := g3 idx
      obtain ⟨s1, _⟩ := F.sized idx ⟨bb, hbbmem, hin⟩
      have hidx : idx < L := by unfold InBlock at hin; omega
      rw [e1, e2, if_pos ⟨hidx, s1⟩, if_pos ⟨hidx, s1⟩]
      exact ⟨rfl, rfl⟩
    have htl : bb.m_atTail.m_data = [] := by
      have := (htail bb hbbmem).2.1
      simpa using this
    intro j d u hj
    have hjlt : j < instrs.length := by
      by_contra hc
      rw [List.getElem?_eq_none (not_lt.mp hc)] at hj
      exact Option.noConfusion hj
    have hin : InBlock bb (bb.m_firstBytecodeIndex + instrs.length - 1 - j) := by
      unfold InBlock; omega
    rw [(hall _ hin).1, (hall _ hin).2, foldl_SetBit_empty]
    refine ⟨?_, rfl⟩
    by_cases hj0 : j = 0
    · simp only [hj0, if_true, htl, foldl_ClearBit_empty]
    · have hin2 : InBlock bb (bb.m_firstBytecodeIndex + instrs.length - 1 - j + 1) := by
        unfold InBlock; omega
      simp only [hj0, if_false, (hall _ hin2).1, foldl_ClearBit_empty]
  · apply Written_of_agree n bb instrs _ _ h3 _ W
    intro idx hin
    obtain ⟨e1, e2⟩ := g3 idx
    obtain ⟨s1, _⟩ := F.sized idx ⟨bb, hbbmem, hin⟩
    have hz : ¬ (idx < L ∧ ((heap.foldl (fun (r : BytecodeLiveness) (bb : BytecodeLivenessBBInfo) => bb.ComputePerBytecodeLiveness r)
        (BytecodeLiveness.mk (List.replicate L default) (List.replicate L default))).m_beforeUse.getD idx default).m_length = 0) := by
      rw [s1]
      intro h
      exact hn h.2
    rw [e1, e2, if_neg hz, if_neg hz]
    exact ⟨rfl, rfl⟩

/-! ## Bits of the replayed vectors -/

theorem IsSet_foldl_ClearBit (d : List Nat) (i : Nat) :
    ∀ bv : TempBitVector, (d.foldl ClearBit bv).IsSet i = (bv.IsSet i && !decide (i ∈ d)) := by
  induction d with
  | nil => intro bv; simp
  | cons x rest ih =>
    intro bv
    rw [List.foldl_cons, ih, IsSet_ClearBit]
    by_cases h1 : x = i
    · subst h1; simp
    · have h2 : ¬ i = x := fun h => h1 h.symm
      simp [h1, h2]

theorem foldl_SetBit_data_length (u : List Nat) :
    ∀ bv : TempBitVector, (u.foldl SetBit bv).m_data.length = bv.m_data.length := by
  induction u with
  | nil => intro bv; rfl
  | cons x rest ih => intro bv; rw [List.foldl_cons, ih, length_SetBit]

theorem IsSet_foldl_SetBit (u : List Nat) (i : Nat) :
    ∀ bv : TempBitVector, (u.foldl SetBit bv).IsSet i =
      (bv.IsSet i || (decide (i ∈ u) && decide (i / 64 < bv.m_data.length))) := by
  induction u with
  | nil => intro bv; simp
  | cons x rest ih =>
    intro bv
    rw [List.foldl_cons, ih, IsSet_SetBit, length_SetBit]
    by_cases h1 : x = i
    · subst h1
      cases bv.IsSet x <;> cases decide (x ∈ rest) <;> simp
    · have h2 : ¬ i = x := fun h => h1 h.symm
      simp [h1, h2]

theorem WFbv_foldl_ClearBit (n : Nat) (d : List Nat) :
    ∀ bv : TempBitVector, WFbv n bv → WFbv n (d.foldl ClearBit bv) := by
  induction d with
  | nil => intro bv h; exact h
  | cons x rest ih => intro bv h; rw [List.foldl_cons]; exact ih _ (WFbv_ClearBit n bv x h)

theorem WFbv_foldl_SetBit (n : Nat) (d : List Nat) :
    ∀ bv : TempBitVector, WFbv n bv → WFbv n (d.foldl SetBit bv) := by
  induction d with
  | nil => intro bv h; exact h
  | cons x rest ih => intro bv h; rw [List.foldl_cons]; exact ih _ (WFbv_SetBit n bv x h)

theorem WFbv_replayStep (n : Nat) (bv : TempBitVector) (du : List Nat × List Nat)
    (h : WFbv n bv) : WFbv n (replayStep bv du) :=
  WFbv_foldl_SetBit n _ _ (WFbv_foldl_ClearBit n _ _ h)

theorem WFbv_foldl_replayStep (n : Nat) (l : List (List Nat × List Nat)) :
    ∀ bv : TempBitVector, WFbv n bv → WFbv n (l.foldl replayStep bv) := by
  induction l with
  | nil => intro bv h; exact h
  | cons x rest ih => intro bv h; rw [List.foldl_cons]; exact ih _ (WFbv_replayStep n bv x h)

/-- Bits of one replay step on a canonical vector, for a slot below `n`. -/
theorem IsSet_replayStep (n : Nat) (bv : TempBitVector) (h : WFbv n bv) (d u : List Nat) (i : Nat)
    (hi : i < n) :
    (replayStep bv (d, u)).IsSet i = ((bv.IsSet i && !decide (i ∈ d)) || decide (i ∈ u)) := by
  unfold replayStep
  simp only
  rw [IsSet_foldl_SetBit, IsSet_foldl_ClearBit]
  have hl : (d.foldl ClearBit bv).m_data.length = (n + 63) / 64 :=
    (WFbv_foldl_ClearBit n d bv h).2.1
  have : i / 64 < (d.foldl ClearBit bv).m_data.length := by rw [hl]; omega
  simp [this]

theorem mk_data_eq (n : Nat) (bv : TempBitVector) (h : bv.m_length = n) :
    TempBitVector.mk n bv.m_data = bv := by
  cases bv with
  | mk l dta =>
    simp only at h
    subst h
    rfl

/-- Closed form of the records that `ComputePerBytecodeLiveness` writes for a
block: the before-use set of the bytecode `j` places from the end is the replay
of the last `j + 1` bytecodes from the tail. -/
theorem Written.chain {n : Nat} {bb : BytecodeLivenessBBInfo}
    {instrs : List (List Nat × List Nat)} {r : BytecodeLiveness} (W : Written n bb instrs r)
    (htail : WFbv n bb.m_atTail) :
    ∀ j, j < instrs.length →
      r.m_beforeUse.getD (bb.m_firstBytecodeIndex + instrs.length - 1 - j) default =
        (instrs.take (j + 1)).foldl replayStep bb.m_atTail ∧
      r.m_afterUse.getD (bb.m_firstBytecodeIndex + instrs.length - 1 - j) default =
        (instrs.getD j default).1.foldl ClearBit ((instrs.take j).foldl replayStep bb.m_atTail) := by
  intro j
  induction j with
  | zero =>
    intro hj
    obtain ⟨w1, w2⟩ := W 0 (instrs[0]).1 (instrs[0]).2 (by rw [List.getElem?_eq_getElem hj])
    have e0 := mk_data_eq n bb.m_atTail htail.1
    simp only [if_true] at w1
    rw [e0] at w1
    have eg : instrs.getD 0 default = instrs[0] := List.getD_eq_getElem _ _ hj
    have et : instrs.take (0 + 1) = [instrs[0]] := by
      cases instrs with
      | nil => exact absurd hj (by simp)
      | cons a t => rfl
    refine ⟨?_, ?_⟩
    · rw [w2, w1, et]
      rfl
    · rw [w1, eg]
      rfl
  | succ j ih =>
    intro hj
    obtain ⟨p1, _⟩ := ih (by omega)
    obtain ⟨w1, w2⟩ := W (j + 1) (instrs[j + 1]).1 (instrs[j + 1]).2
      (by rw [List.getElem?_eq_getElem hj])
    have hne : ¬ (j + 1 = 0) := by omega
    simp only [hne, if_false] at w1
    have eidx : bb.m_firstBytecodeIndex + instrs.length - 1 - (j + 1) + 1 =
        bb.m_firstBytecodeIndex + instrs.length - 1 - j := by omega
    rw [eidx, p1] at w1
    have hwf : WFbv n ((instrs.take (j + 1)).foldl replayStep bb.m_atTail) :=
      WFbv_foldl_replayStep n _ _ htail
    have e0 := mk_data_eq n _ hwf.1
    rw [e0] at w1
    have eg : instrs.getD (j + 1) default = instrs[j + 1] := List.getD_eq_getElem _ _ hj
    have et : instrs.take (j + 1 + 1) = instrs.take (j + 1) ++ [instrs[j + 1]] := by
      rw [List.take_succ, List.getElem?_eq_getElem hj]
      rfl
    refine ⟨?_, ?_⟩
    · rw [w2, w1, et, List.foldl_append]
      rfl
    · rw [w1, eg]

theorem blockOfOrd_mem (cf : DfgControlFlowAndUpvalueAnalysisResult) (order : List Nat)
    (hord : ∀ p ∈ order, p < cf.m_basicBlocks.length) (b : Nat) (hb : b < order.length) :
    blockOfOrd cf order b ∈ cf.m_basicBlocks := by
  unfold blockOfOrd
  have hlt := hord _ (getD_mem_nat order b hb)
  rw [List.getD_eq_getElem _ _ hlt]
  exact List.getElem_mem hlt

theorem getD_eq_getElem_bb (l : List BytecodeLivenessBBInfo) (k : Nat) (h : k < l.length) :
    l[k] = l.getD k default := (List.getD_eq_getElem _ _ h).symm

theorem final_BlockOK {codeBlock : CodeBlock} {cf : DfgControlFlowAndUpvalueAnalysisResult}
    {order : List Nat} {st : FixpointState}
    (F : Final codeBlock.m_stackFrameNumSlots (initialHeap codeBlock cf order) st)
    (hord : ∀ p ∈ order, p < cf.m_basicBlocks.length) (hlay : LayoutOK codeBlock cf) :
    List.Forall₂ (BlockOK codeBlock.m_numBytecodes codeBlock.m_stackFrameNumSlots)
      st.bbLivenessInfo (heapInstrs codeBlock cf order) := by
  have I := initialHeap_facts codeBlock cf order
  have hlen : st.bbLivenessInfo.length = order.length := by have e1 := F.static.1; have e2 := I.len; omega
  rw [List.forall₂_iff_get]
  refine ⟨by rw [hlen]; simp [heapInstrs], ?_⟩
  intro b h1 h2
  have hb : b < order.length := by rw [← hlen]; exact h1
  simp only [List.get_eq_getElem]
  rw [getD_eq_getElem_bb _ _ h1]
  have ei : (heapInstrs codeBlock cf order)[b] =
      instrsRev codeBlock.decoder (blockOfOrd cf order b) codeBlock.m_stackFrameNumSlots := by
    simp [heapInstrs]
  rw [ei]
  obtain ⟨s1, s2, s3, s4, _, _⟩ := F.static.static_fields b
  obtain ⟨i1, i2, i3, i4⟩ := I.new_fields b hb
  obtain ⟨n1, n2⟩ := new_info codeBlock.decoder (blockOfOrd cf order b)
    codeBlock.m_stackFrameNumSlots
  obtain ⟨l1, l2⟩ := hlay _ (blockOfOrd_mem cf order hord b hb)
  refine ⟨by rw [s1, i1, n1], by rw [s2, i2, n2], ?_, ?_, ?_, ?_⟩
  · rw [s3, i3, length_instrsRev]
  · rw [length_instrsRev]; exact l1
  · rw [s4, i4, length_instrsRev]; exact l2
  · exact (F.inv.wf b h1).1.1

theorem final_disjoint {codeBlock : CodeBlock} {cf : DfgControlFlowAndUpvalueAnalysisResult}
    {order : List Nat} {st : FixpointState}
    (F : Final codeBlock.m_stackFrameNumSlots (initialHeap codeBlock cf order) st)
    (hperm : order.Perm (List.range cf.m_basicBlocks.length)) (hdis : BlocksDisjoint cf) :
    st.bbLivenessInfo.Pairwise DisjointBlocks := by
  have I := initialHeap_facts codeBlock cf order
  have hlen : st.bbLivenessInfo.length = order.length := by have e1 := F.static.1; have e2 := I.len; omega
  have hnd : order.Nodup := (hperm.nodup_iff).mpr (List.nodup_range _)
  have hord : ∀ p ∈ order, p < cf.m_basicBlocks.length := fun p hp =>
    List.mem_range.mp ((hperm.mem_iff).mp hp)
  have hpq : ∀ p q, p < cf.m_basicBlocks.length → q < cf.m_basicBlocks.length → p ≠ q →
      (cf.m_basicBlocks.getD p default).m_bytecodeIndex +
          (cf.m_basicBlocks.getD p default).m_numBytecodesInBB ≤
        (cf.m_basicBlocks.getD q default).m_bytecodeIndex ∨
      (cf.m_basicBlocks.getD q default).m_bytecodeIndex +
          (cf.m_basicBlocks.getD q default).m_numBytecodesInBB ≤
        (cf.m_basicBlocks.getD p default).m_bytecodeIndex := by
    intro p q hp hq hne
    have P := List.pairwise_iff_getElem.mp hdis
    rw [List.getD_eq_getElem _ _ hp, List.getD_eq_getElem _ _ hq]
    rcases Nat.lt_or_gt_of_ne hne with h | h
    · exact P p q hp hq h
    · exact (P q p hq hp h).symm
  rw [List.pairwise_iff_getElem]
  intro i j hi hj hij
  have hi' : i < order.length := by rw [← hlen]; exact hi
  have hj' : j < order.length := by rw [← hlen]; exact hj
  rw [getD_eq_getElem_bb _ _ hi, getD_eq_getElem_bb _ _ hj]
  unfold DisjointBlocks
  obtain ⟨_, _, a3, a4, _, _⟩ := F.static.static_fields i
  obtain ⟨_, _, b3, b4⟩ := I.new_fields i hi'
  obtain ⟨_, _, c3, c4, _, _⟩ := F.static.static_fields j
  obtain ⟨_, _, d3, d4⟩ := I.new_fields j hj'
  rw [a3, a4, b3, b4, c3, c4, d3, d4]
  unfold blockOfOrd
  apply hpq _ _ (hord _ (getD_mem_nat order i hi')) (hord _ (getD_mem_nat order j hj'))
  rw [List.getD_eq_getElem _ _ hi', List.getD_eq_getElem _ _ hj']
  intro he
  have := (hnd.getElem_inj_iff).mp he
  omega

/-- The relation between the records of each block holds in the result. -/
theorem final_written {codeBlock : CodeBlock} {cf : DfgControlFlowAndUpvalueAnalysisResult}
    {order : List Nat} {st : FixpointState}
    (F : Final codeBlock.m_stackFrameNumSlots (initialHeap codeBlock cf order) st)
    (hperm : order.Perm (List.range cf.m_basicBlocks.length)) (hlay : LayoutOK codeBlock cf)
    (hdis : BlocksDisjoint cf) (b : Nat) (hb : b < order.length) :
    Written codeBlock.m_stackFrameNumSlots (st.bbLivenessInfo.getD b default)
      (instrsRev codeBlock.decoder (blockOfOrd cf order b) codeBlock.m_stackFrameNumSlots)
      (materialize codeBlock.m_numBytecodes codeBlock.m_stackFrameNumSlots st.bbLivenessInfo) := by
  have I := initialHeap_facts codeBlock cf order
  have hlen : st.bbLivenessInfo.length = order.length := by have e1 := F.static.1; have e2 := I.len; omega
  have hord : ∀ p ∈ order, p < cf.m_basicBlocks.length := fun p hp =>
    List.mem_range.mp ((hperm.mem_iff).mp hp)
  have hb1 : b < st.bbLivenessInfo.length := by rw [hlen]; exact hb
  apply materialize_written _ _ _ _ (final_BlockOK F hord hlay) (final_disjoint F hperm hdis)
    _ b
  · rw [List.getElem?_eq_getElem hb1, getD_eq_getElem_bb _ _ hb1]
  · simp [heapInstrs, hb]
  · intro bb hbb
    obtain ⟨k, hk, rfl⟩ := List.getElem_of_mem hbb
    rw [getD_eq_getElem_bb _ _ hk]
    exact (F.inv.wf k hk).2.1

theorem instrsRev_getD (decoder : BytecodeDecoder) (bbInfo : BasicBlockUpvalueInfo)
    (numLocals : Nat) (j : Nat) (hj : j < bbInfo.m_numBytecodesInBB) :
    (instrsRev decoder bbInfo numLocals).getD j default =
      (defsOf decoder (instrOffset decoder bbInfo (bbInfo.m_numBytecodesInBB - 1 - j)),
       usesOf decoder bbInfo numLocals
         (instrOffset decoder bbInfo (bbInfo.m_numBytecodesInBB - 1 - j))) := by
  have hl := length_bytecodeOffsetsFrom decoder bbInfo.m_numBytecodesInBB bbInfo.m_bytecodeOffset
  have hj' : j < (instrsRev decoder bbInfo numLocals).length := by
    rw [length_instrsRev]; exact hj
  rw [List.getD_eq_getElem _ _ hj']
  unfold instrsRev instrOffset
  rw [List.getElem_map, List.getElem_reverse]
  have hk : (bytecodeOffsetsFrom decoder bbInfo.m_numBytecodesInBB
      bbInfo.m_bytecodeOffset).length - 1 - j <
      (bytecodeOffsetsFrom decoder bbInfo.m_numBytecodesInBB bbInfo.m_bytecodeOffset).length := by
    omega
  rw [← List.getD_eq_getElem _ 0 hk, hl]

theorem foldl_take_succ (instrs : List (List Nat × List Nat)) (j : Nat) (hj : j < instrs.length)
    (bv : TempBitVector) :
    (instrs.take (j + 1)).foldl replayStep bv =
      replayStep ((instrs.take j).foldl replayStep bv) (instrs.getD j default) := by
  rw [List.take_succ, List.getElem?_eq_getElem hj, List.foldl_append,
    List.getD_eq_getElem _ _ hj]
  rfl

/-- The records of the bytecode at position `k` of a block, in program order:
the after-use set is the before-use set of the next bytecode of the block (the
tail of the block, for its last bytecode) with the defs cleared; the before-use
set is that with the uses set. -/
theorem result_program_order {codeBlock : CodeBlock}
    {cf : DfgControlFlowAndUpvalueAnalysisResult} {order : List Nat} {st : FixpointState}
    (F : Final codeBlock.m_stackFrameNumSlots (initialHeap codeBlock cf order) st)
    (hperm : order.Perm (List.range cf.m_basicBlocks.length)) (hlay : LayoutOK codeBlock cf)
    (hdis : BlocksDisjoint cf) (b : Nat) (hb : b < order.length) (k : Nat)
    (hk : k < (blockOfOrd cf order b).m_numBytecodesInBB) :
    ∃ X : TempBitVector, WFbv codeBlock.m_stackFrameNumSlots X ∧
      X = (if k + 1 < (blockOfOrd cf order b).m_numBytecodesInBB then
            (materialize codeBlock.m_numBytecodes codeBlock.m_stackFrameNumSlots
              st.bbLivenessInfo).m_beforeUse.getD
                ((blockOfOrd cf order b).m_bytecodeIndex + k + 1) default
          else (st.bbLivenessInfo.getD b default).m_atTail) ∧
      (materialize codeBlock.m_numBytecodes codeBlock.m_stackFrameNumSlots
          st.bbLivenessInfo).m_beforeUse.getD ((blockOfOrd cf order b).m_bytecodeIndex + k) default =
        replayStep X
          (defsOf codeBlock.decoder (instrOffset codeBlock.decoder (blockOfOrd cf order b) k),
           usesOf codeBlock.decoder (blockOfOrd cf order b) codeBlock.m_stackFrameNumSlots
             (instrOffset codeBlock.decoder (blockOfOrd cf order b) k)) ∧
      (materialize codeBlock.m_numBytecodes codeBlock.m_stackFrameNumSlots
          st.bbLivenessInfo).m_afterUse.getD ((blockOfOrd cf order b).m_bytecodeIndex + k) default =
        (defsOf codeBlock.decoder
          (instrOffset codeBlock.decoder (blockOfOrd cf order b) k)).foldl ClearBit X := by
  have I := initialHeap_facts codeBlock cf order
  have hlen : st.bbLivenessInfo.length = order.length := by
    have e1 := F.static.1; have e2 := I.len; omega
  have hb1 : b < st.bbLivenessInfo.length := by rw [hlen]; exact hb
  have htail := (F.inv.wf b hb1).2.1
  have W := final_written F hperm hlay hdis b hb
  have C := W.chain htail
  obtain ⟨_, _, _, s4, _, _⟩ := F.static.static_fields b
  obtain ⟨_, _, _, i4⟩ := I.new_fields b hb
  have hfirst := s4.trans i4
  have hl := length_instrsRev codeBlock.decoder (blockOfOrd cf order b)
    codeBlock.m_stackFrameNumSlots
  rw [hfirst, hl] at C
  have hj : (blockOfOrd cf order b).m_numBytecodesInBB - 1 - k <
      (blockOfOrd cf order b).m_numBytecodesInBB := by omega
  obtain ⟨c1, c2⟩ := C _ hj
  have eidx : (blockOfOrd cf order b).m_bytecodeIndex + (blockOfOrd cf order b).m_numBytecodesInBB
      - 1 - ((blockOfOrd cf order b).m_numBytecodesInBB - 1 - k) =
      (blockOfOrd cf order b).m_bytecodeIndex + k := by omega
  have ek : (blockOfOrd cf order b).m_numBytecodesInBB - 1 -
      ((blockOfOrd cf order b).m_numBytecodesInBB - 1 - k) = k := by omega
  rw [eidx, foldl_take_succ _ _ (by rw [hl]; exact hj), instrsRev_getD _ _ _ _ hj, ek] at c1
  rw [eidx, instrsRev_getD _ _ _ _ hj, ek] at c2
  refine ⟨_, WFbv_foldl_replayStep _ _ _ htail, ?_, c1, c2⟩
  by_cases hlast : k + 1 < (blockOfOrd cf order b).m_numBytecodesInBB
  · rw [if_pos hlast]
    have hj2 : (blockOfOrd cf order b).m_numBytecodesInBB - 1 - (k + 1) <
        (blockOfOrd cf order b).m_numBytecodesInBB := by omega
    obtain ⟨d1, _⟩ := C _ hj2
    have eidx2 : (blockOfOrd cf order b).m_bytecodeIndex +
        (blockOfOrd cf order b).m_numBytecodesInBB
        - 1 - ((blockOfOrd cf order b).m_numBytecodesInBB - 1 - (k + 1)) =
        (blockOfOrd cf order b).m_bytecodeIndex + k + 1 := by omega
    have ej : (blockOfOrd cf order b).m_numBytecodesInBB - 1 - (k + 1) + 1 =
        (blockOfOrd cf order b).m_numBytecodesInBB - 1 - k := by omega
    rw [eidx2, ej] at d1
    exact d1.symm
  · rw [if_neg hlast]
    have ej : (blockOfOrd cf order b).m_numBytecodesInBB - 1 - k = 0 := by omega
    rw [ej]
    rfl

/-- The before-use set of the first bytecode of a block is the head of the block. -/
theorem result_first_eq_head {codeBlock : CodeBlock}
    {cf : DfgControlFlowAndUpvalueAnalysisResult} {order : List Nat} {st : FixpointState}
    (F : Final codeBlock.m_stackFrameNumSlots (initialHeap codeBlock cf order) st)
    (hperm : order.Perm (List.range cf.m_basicBlocks.length)) (hlay : LayoutOK codeBlock cf)
    (hdis : BlocksDisjoint cf) (b : Nat) (hb : b < order.length) :
    (materialize codeBlock.m_numBytecodes codeBlock.m_stackFrameNumSlots
        st.bbLivenessInfo).m_beforeUse.getD (blockOfOrd cf order b).m_bytecodeIndex default =
      (st.bbLivenessInfo.getD b default).m_atHead := by
  have I := initialHeap_facts codeBlock cf order
  have hlen : st.bbLivenessInfo.length = order.length := by
    have e1 := F.static.1; have e2 := I.len; omega
  have hord : ∀ p ∈ order, p < cf.m_basicBlocks.length := fun p hp =>
    List.mem_range.mp ((hperm.mem_iff).mp hp)
  have hb1 : b < st.bbLivenessInfo.length := by rw [hlen]; exact hb
  have htail := (F.inv.wf b hb1).2.1
  have W := final_written F hperm hlay hdis b hb
  have C := W.chain htail
  obtain ⟨s1, s2, s3, s4, _, _⟩ := F.static.static_fields b
  obtain ⟨i1, i2, i3, i4⟩ := I.new_fields b hb
  obtain ⟨n1, n2⟩ := new_info codeBlock.decoder (blockOfOrd cf order b)
    codeBlock.m_stackFrameNumSlots
  have hfirst := s4.trans i4
  have hl := length_instrsRev codeBlock.decoder (blockOfOrd cf order b)
    codeBlock.m_stackFrameNumSlots
  obtain ⟨l1, _⟩ := hlay _ (blockOfOrd_mem cf order hord b hb)
  rw [hfirst, hl] at C
  obtain ⟨c1, _⟩ := C ((blockOfOrd cf order b).m_numBytecodesInBB - 1) (by omega)
  have eidx : (blockOfOrd cf order b).m_bytecodeIndex + (blockOfOrd cf order b).m_numBytecodesInBB
      - 1 - ((blockOfOrd cf order b).m_numBytecodesInBB - 1) =
      (blockOfOrd cf order b).m_bytecodeIndex := by omega
  have ej : (blockOfOrd cf order b).m_numBytecodesInBB - 1 + 1 =
      (blockOfOrd cf order b).m_numBytecodesInBB := by omega
  rw [eidx, ej, ← hl, List.take_length] at c1
  rw [c1, (F.source_form b hb1).2]
  unfold BytecodeLivenessBBInfo.ComputeHeadBasedOnTail
  have hcopy : st.tmpBv.CopyFromEqualLengthBitVector (st.bbLivenessInfo.getD b default).m_atTail =
      (st.bbLivenessInfo.getD b default).m_atTail := by
    unfold CopyFromEqualLengthBitVector
    rw [F.inv.tmp]
    exact mk_data_eq _ _ htail.1
  have H := headLoop_flat
    (instrsRev codeBlock.decoder (blockOfOrd cf order b) codeBlock.m_stackFrameNumSlots) [] []
    (2 * (blockOfOrd cf order b).m_numBytecodesInBB)
    (st.bbLivenessInfo.getD b default).m_atTail (by rw [hl]; simp)
  simp only [List.nil_append, List.length_nil] at H
  rw [hcopy, s1, i1, n1, s2, i2, n2, s3, i3]
  rw [hl] at H
  exact H.symm

theorem sortBasicBlocks_length (cf : DfgControlFlowAndUpvalueAnalysisResult) :
    (sortBasicBlocks cf).length = cf.m_basicBlocks.length := by
  have := (sortBasicBlocks_perm cf).length_eq
  rw [List.length_range] at this
  exact this

/-- The analysis returns the per-bytecode sets of a state that satisfies the
dataflow equations. -/
theorem ComputeBytecodeLiveness_final (fuel : Nat) (codeBlock : CodeBlock)
    (cf : DfgControlFlowAndUpvalueAnalysisResult)
    (hfuel : passBound cf.m_basicBlocks.length codeBlock.m_stackFrameNumSlots ≤ fuel) :
    ∃ st, Final codeBlock.m_stackFrameNumSlots
        (initialHeap codeBlock cf (sortBasicBlocks cf)) st ∧
      ComputeBytecodeLiveness fuel codeBlock cf =
        some (materialize codeBlock.m_numBytecodes codeBlock.m_stackFrameNumSlots
          st.bbLivenessInfo) := by
  obtain ⟨st, h1, h2⟩ := propagateToFixpoint_final fuel codeBlock cf (sortBasicBlocks cf)
    (by rw [sortBasicBlocks_length]; exact hfuel)
  refine ⟨st, h2, ?_⟩
  unfold ComputeBytecodeLiveness ComputeBytecodeLivenessInOrder
  rw [h1]

/-- How the before-use bit of a bytecode follows from its use list, its def
list and the before-use bits of its control-flow successors. -/
theorem node_before_bit {codeBlock : CodeBlock}
    {cf : DfgControlFlowAndUpvalueAnalysisResult} {order : List Nat} {st : FixpointState}
    (F : Final codeBlock.m_stackFrameNumSlots (initialHeap codeBlock cf order) st)
    (hperm : order.Perm (List.range cf.m_basicBlocks.length)) (hlay : LayoutOK codeBlock cf)
    (hdis : BlocksDisjoint cf) (nd : Nat × Nat) (hnd : ValidNode cf nd) (s : Nat) :
    (s < codeBlock.m_stackFrameNumSlots → s ∈ nodeUses codeBlock cf nd →
      ((materialize codeBlock.m_numBytecodes codeBlock.m_stackFrameNumSlots
        st.bbLivenessInfo).m_beforeUse.getD (nodeIndex cf nd) default).IsSet s = true) ∧
    (s ∉ nodeDefs codeBlock cf nd → ∀ nd', ValidNode cf nd' → FlowEdge cf nd nd' →
      ((materialize codeBlock.m_numBytecodes codeBlock.m_stackFrameNumSlots
        st.bbLivenessInfo).m_beforeUse.getD (nodeIndex cf nd') default).IsSet s = true →
      ((materialize codeBlock.m_numBytecodes codeBlock.m_stackFrameNumSlots
        st.bbLivenessInfo).m_beforeUse.getD (nodeIndex cf nd) default).IsSet s = true) ∧
    (s ∈ nodeDefs codeBlock cf nd → s ∉ nodeUses codeBlock cf nd →
      ((materialize codeBlock.m_numBytecodes codeBlock.m_stackFrameNumSlots
        st.bbLivenessInfo).m_beforeUse.getD (nodeIndex cf nd) default).IsSet s = false) := by
  obtain ⟨p, k⟩ := nd
  obtain ⟨hp, hk⟩ := hnd
  simp only at hp hk
  have I := initialHeap_facts codeBlock cf order
  have hmem : ∀ q, q < cf.m_basicBlocks.length → q ∈ order := fun q hq =>
    (hperm.mem_iff).mpr (List.mem_range.mpr hq)
  have hb := bbInfoMap_lt order p (hmem p hp)
  have eb := blockOfOrd_bbInfoMap cf order p (hmem p hp)
  have hk' : k < (blockOfOrd cf order (bbInfoMap order p)).m_numBytecodesInBB := by
    rw [eb]; exact hk
  obtain ⟨X, wX, eX, hB, _⟩ := result_program_order F hperm hlay hdis _ hb k hk'
  rw [eb] at hB eX
  unfold nodeIndex nodeDefs nodeUses
  simp only
  rw [hB]
  unfold replayStep
  simp only
  rw [IsSet_foldl_SetBit, IsSet_foldl_ClearBit]
  have hl : ((defsOf codeBlock.decoder (instrOffset codeBlock.decoder
      (cf.m_basicBlocks.getD p default) k)).foldl ClearBit X).m_data.length =
      (codeBlock.m_stackFrameNumSlots + 63) / 64 := (WFbv_foldl_ClearBit _ _ X wX).2.1
  rw [hl]
  refine ⟨?_, ?_, ?_⟩
  · intro hs hu
    have : s / 64 < (codeBlock.m_stackFrameNumSlots + 63) / 64 := by omega
    rw [decide_eq_true hu, decide_eq_true this]
    simp only [Bool.and_self, Bool.or_true]
  · intro hnd nd' hv' he hbit
    have hX : X.IsSet s = true := by
      rw [eX]
      obtain ⟨p', k'⟩ := nd'
      simp only at hbit
      rcases he with ⟨e1, e2, e3⟩ | ⟨e1, e2, e3⟩
      · simp only at e1 e2 e3
        subst e1; subst e2
        rw [if_pos e3]
        exact hbit
      · simp only at e1 e2 e3
        subst e3
        have hp' : p' < cf.m_basicBlocks.length := hv'.1
        rw [if_neg (by omega)]
        have ht := F.tailEq (bbInfoMap order p) s
        unfold tl at ht
        rw [ht]
        unfold unionBit
        rw [(static_of_initial F.static _ hb).1, eb, List.any_eq_true]
        refine ⟨bbInfoMap order p', List.mem_map_of_mem _ e2, ?_⟩
        have hh := result_first_eq_head F hperm hlay hdis _ (bbInfoMap_lt order p' (hmem p' hp'))
        rw [blockOfOrd_bbInfoMap cf order p' (hmem p' hp')] at hh
        unfold dfg.hd
        rw [← hh]
        exact hbit
    rw [hX, decide_eq_false hnd]
    simp only [Bool.not_false, Bool.and_self, Bool.true_or]
  · intro hd hu
    rw [decide_eq_true hd, decide_eq_false hu]
    simp only [Bool.not_true, Bool.and_false, Bool.false_and, Bool.or_false]

theorem foldl_captured_eq (l : List UpvalueMetadata) (d : Nat) :
    ∀ info : List Nat,
      l.foldl (fun info uvmt =>
        if uvmt.m_isParentLocal then
          if uvmt.m_slot = d then info else info ++ [uvmt.m_slot]
        else info) info =
      info ++ (l.filter (fun uv => uv.m_isParentLocal && !decide (uv.m_slot = d))).map
        (fun uv => uv.m_slot) := by
  induction l with
  | nil => intro info; simp
  | cons uv rest ih =>
    intro info
    rw [List.foldl_cons, ih]
    by_cases h1 : uv.m_isParentLocal = true
    · by_cases h2 : uv.m_slot = d
      · simp [h1, h2, List.filter_cons]
      · simp [h1, h2, List.filter_cons]
    · simp [h1, List.filter_cons]

/-- The slots that the constructor appends for a closure creation with destination `d`. -/
theorem pushCreateClosureUses_of_intrinsic (info : List Nat) (decoder : BytecodeDecoder)
    (off : Nat) (proto : UnlinkedCodeBlock) (d : Nat)
    (hintr : decoder.GetBytecodeIntrinsicInfo off = BytecodeIntrinsicInfo.CreateClosure proto)
    (hout : decoder.GetDataFlowWriteInfo off = [BytecodeRWCDesc.Local d]) :
    pushCreateClosureUses info decoder off =
      info ++ (proto.m_upvalueInfo.filter
        (fun uv => uv.m_isParentLocal && !decide (uv.m_slot = d))).map (fun uv => uv.m_slot) := by
  unfold pushCreateClosureUses
  rw [hintr]
  simp only [hout]
  exact foldl_captured_eq proto.m_upvalueInfo d info

theorem foldl_closed_eq (p : Nat → Bool) (l : List Nat) :
    ∀ info : List Nat,
      l.foldl (fun info localOrd => if p localOrd then info ++ [localOrd] else info) info =
      info ++ l.filter p := by
  induction l with
  | nil => intro info; simp
  | cons x rest ih =>
    intro info
    rw [List.foldl_cons, ih]
    by_cases h1 : p x = true
    · simp [h1, List.filter_cons]
    · simp [h1, List.filter_cons]

/-- The slots that the constructor appends for an upvalue close with threshold `t`. -/
theorem pushUpvalueCloseUses_of_intrinsic (info : List Nat) (decoder : BytecodeDecoder)
    (bbInfo : BasicBlockUpvalueInfo) (numLocals off t : Nat)
    (hintr : decoder.GetBytecodeIntrinsicInfo off = BytecodeIntrinsicInfo.UpvalueClose t) :
    pushUpvalueCloseUses info decoder bbInfo numLocals off =
      info ++ (List.range' t (numLocals - t)).filter
        (fun l => bbInfo.m_isLocalCapturedAtHead.IsSet l || bbInfo.m_isLocalCapturedInBB.IsSet l) := by
  unfold pushUpvalueCloseUses
  rw [hintr]
  exact foldl_closed_eq
    (fun l => bbInfo.m_isLocalCapturedAtHead.IsSet l || bbInfo.m_isLocalCapturedInBB.IsSet l) _ info

/-- The use list of a closure creation: its read operands, then the captured
parent locals other than the destination. -/
theorem usesOf_CreateClosure (decoder : BytecodeDecoder) (bbInfo : BasicBlockUpvalueInfo)
    (numLocals off : Nat) (proto : UnlinkedCodeBlock) (d : Nat)
    (hintr : decoder.GetBytecodeIntrinsicInfo off = BytecodeIntrinsicInfo.CreateClosure proto)
    (hout : decoder.GetDataFlowWriteInfo off = [BytecodeRWCDesc.Local d]) :
    usesOf decoder bbInfo numLocals off =
      pushRWCInfo [] (decoder.GetDataFlowReadInfo off) ++
        (proto.m_upvalueInfo.filter
          (fun uv => uv.m_isParentLocal && !decide (uv.m_slot = d))).map (fun uv => uv.m_slot) := by
  unfold usesOf
  rw [pushCreateClosureUses_of_intrinsic _ decoder off proto d hintr hout]
  unfold pushUpvalueCloseUses
  rw [hintr]

theorem defsOf_Local (decoder : BytecodeDecoder) (off d : Nat)
    (hout : decoder.GetDataFlowWriteInfo off = [BytecodeRWCDesc.Local d]) :
    defsOf decoder off = [d] := by
  unfold defsOf
  rw [hout]
  rfl

/-- A bytecode that lies in no basic block lies in no block object. -/
theorem final_not_InBlock {codeBlock : CodeBlock}
    {cf : DfgControlFlowAndUpvalueAnalysisResult} {order : List Nat} {st : FixpointState}
    (F : Final codeBlock.m_stackFrameNumSlots (initialHeap codeBlock cf order) st)
    (hord : ∀ p ∈ order, p < cf.m_basicBlocks.length) (idx : Nat)
    (hout : ∀ bb ∈ cf.m_basicBlocks,
      ¬ (bb.m_bytecodeIndex ≤ idx ∧ idx < bb.m_bytecodeIndex + bb.m_numBytecodesInBB)) :
    ∀ bb ∈ st.bbLivenessInfo, ¬ InBlock bb idx := by
  have I := initialHeap_facts codeBlock cf order
  have hlen : st.bbLivenessInfo.length = order.length := by
    have e1 := F.static.1; have e2 := I.len; omega
  intro bb hbb
  obtain ⟨k, hk, rfl⟩ := List.getElem_of_mem hbb
  rw [getD_eq_getElem_bb _ _ hk]
  have hk' : k < order.length := by rw [← hlen]; exact hk
  obtain ⟨_, _, s3, s4, _, _⟩ := F.static.static_fields k
  obtain ⟨_, _, i3, i4⟩ := I.new_fields k hk'
  unfold InBlock
  rw [s3, s4, i3, i4]
  exact hout _ (blockOfOrd_mem cf order hord k hk')

/-- Sizes of the result and the records of the bytecodes that lie in no basic block. -/
theorem ComputeBytecodeLiveness_sized (fuel : Nat) (codeBlock : CodeBlock)
    (cf : DfgControlFlowAndUpvalueAnalysisResult)
    (hfuel : passBound cf.m_basicBlocks.length codeBlock.m_stackFrameNumSlots ≤ fuel)
    (hlay : LayoutOK codeBlock cf) :
    ∃ r, ComputeBytecodeLiveness fuel codeBlock cf = some r ∧
      r.m_beforeUse.length = codeBlock.m_numBytecodes ∧
      r.m_afterUse.length = codeBlock.m_numBytecodes ∧
      (∀ idx, idx < codeBlock.m_numBytecodes →
        (r.m_beforeUse.getD idx default).m_length = codeBlock.m_stackFrameNumSlots ∧
        (r.m_afterUse.getD idx default).m_length = codeBlock.m_stackFrameNumSlots) ∧
      (∀ idx, idx < codeBlock.m_numBytecodes →
        (∀ bb ∈ cf.m_basicBlocks,
          ¬ (bb.m_bytecodeIndex ≤ idx ∧ idx < bb.m_bytecodeIndex + bb.m_numBytecodesInBB)) →
        r.m_beforeUse.getD idx default = TempBitVector.Reset codeBlock.m_stackFrameNumSlots ∧
        r.m_afterUse.getD idx default = TempBitVector.Reset codeBlock.m_stackFrameNumSlots) := by
  obtain ⟨st, F, hr⟩ := ComputeBytecodeLiveness_final fuel codeBlock cf hfuel
  have hperm := sortBasicBlocks_perm cf
  have hord : ∀ p ∈ sortBasicBlocks cf, p < cf.m_basicBlocks.length := fun p hp =>
    List.mem_range.mp ((hperm.mem_iff).mp hp)
  obtain ⟨m1, m2, m3, m4⟩ := materialize_sized codeBlock.m_numBytecodes
    codeBlock.m_stackFrameNumSlots st.bbLivenessInfo _ (final_BlockOK F hord hlay)
  exact ⟨_, hr, m1, m2, m3, fun idx hidx hout =>
    m4 idx hidx (final_not_InBlock F hord idx hout)⟩

/-- Soundness along a path, in the result for any state that satisfies the equations. -/
theorem path_sound {codeBlock : CodeBlock}
    {cf : DfgControlFlowAndUpvalueAnalysisResult} {order : List Nat} {st : FixpointState}
    (F : Final codeBlock.m_stackFrameNumSlots (initialHeap codeBlock cf order) st)
    (hperm : order.Perm (List.range cf.m_basicBlocks.length)) (hlay : LayoutOK codeBlock cf)
    (hdis : BlocksDisjoint cf) (s : Nat) (hs : s < codeBlock.m_stackFrameNumSlots)
    (path : List (Nat × Nat)) :
    ∀ i : Nat × Nat, (∀ nd ∈ i :: path, ValidNode cf nd) →
      UsePath codeBlock cf s (i :: path) →
      ((materialize codeBlock.m_numBytecodes codeBlock.m_stackFrameNumSlots
        st.bbLivenessInfo).m_beforeUse.getD (nodeIndex cf i) default).IsSet s = true := by
  induction path with
  | nil =>
    intro i hvalid hpath
    simp only [UsePath] at hpath
    exact (node_before_bit F hperm hlay hdis i (hvalid i (List.mem_cons_self _ _)) s).1 hs hpath
  | cons nd' rest ih =>
    intro i hvalid hpath
    simp only [UsePath] at hpath
    obtain ⟨h1, h2, h3⟩ := hpath
    have hv' : ValidNode cf nd' :=
      hvalid nd' (List.mem_cons_of_mem _ (List.mem_cons_self _ _))
    exact (node_before_bit F hperm hlay hdis i (hvalid i (List.mem_cons_self _ _)) s).2.1 h1
      nd' hv' h2 (ih nd' (fun nd h => hvalid nd (List.mem_cons_of_mem _ h)) h3)

/-- The after-use bit of a bytecode: the before-use bit of the next bytecode of
the block, or for the last bytecode of a block the before-use bit of the first
bytecode of some successor block, provided the slot is not in the def list. -/
theorem node_after_bit {codeBlock : CodeBlock}
    {cf : DfgControlFlowAndUpvalueAnalysisResult} {order : List Nat} {st : FixpointState}
    (F : Final codeBlock.m_stackFrameNumSlots (initialHeap codeBlock cf order) st)
    (hperm : order.Perm (List.range cf.m_basicBlocks.length)) (hlay : LayoutOK codeBlock cf)
    (hdis : BlocksDisjoint cf) (nd : Nat × Nat) (hnd : ValidNode cf nd) (s : Nat) :
    (nd.2 + 1 < (cf.m_basicBlocks.getD nd.1 default).m_numBytecodesInBB →
      ((materialize codeBlock.m_numBytecodes codeBlock.m_stackFrameNumSlots
        st.bbLivenessInfo).m_afterUse.getD (nodeIndex cf nd) default).IsSet s =
      (((materialize codeBlock.m_numBytecodes codeBlock.m_stackFrameNumSlots
        st.bbLivenessInfo).m_beforeUse.getD (nodeIndex cf nd + 1) default).IsSet s &&
        !decide (s ∈ nodeDefs codeBlock cf nd))) ∧
    (nd.2 + 1 = (cf.m_basicBlocks.getD nd.1 default).m_numBytecodesInBB →
      ((materialize codeBlock.m_numBytecodes codeBlock.m_stackFrameNumSlots
        st.bbLivenessInfo).m_afterUse.getD (nodeIndex cf nd) default).IsSet s =
      (((cf.m_basicBlocks.getD nd.1 default).m_successors.any (fun p =>
          decide (p < cf.m_basicBlocks.length) &&
          ((materialize codeBlock.m_numBytecodes codeBlock.m_stackFrameNumSlots
            st.bbLivenessInfo).m_beforeUse.getD
              (cf.m_basicBlocks.getD p default).m_bytecodeIndex default).IsSet s)) &&
        !decide (s ∈ nodeDefs codeBlock cf nd))) := by
  obtain ⟨p, k⟩ := nd
  obtain ⟨hp, hk⟩ := hnd
  simp only at hp hk
  have I := initialHeap_facts codeBlock cf order
  have hlen : st.bbLivenessInfo.length = order.length := by
    have e1 := F.static.1; have e2 := I.len; omega
  have hmem : ∀ q, q < cf.m_basicBlocks.length → q ∈ order := fun q hq =>
    (hperm.mem_iff).mpr (List.mem_range.mpr hq)
  have hb := bbInfoMap_lt order p (hmem p hp)
  have eb := blockOfOrd_bbInfoMap cf order p (hmem p hp)
  have hk' : k < (blockOfOrd cf order (bbInfoMap order p)).m_numBytecodesInBB := by
    rw [eb]; exact hk
  obtain ⟨X, wX, eX, _, hA⟩ := result_program_order F hperm hlay hdis _ hb k hk'
  rw [eb] at hA eX
  unfold nodeIndex nodeDefs
  simp only
  rw [hA, IsSet_foldl_ClearBit]
  refine ⟨?_, ?_⟩
  · intro hlt
    rw [eX, if_pos hlt]
  · intro hlast
    rw [eX, if_neg (by omega)]
    congr 1
    have ht := F.tailEq (bbInfoMap order p) s
    unfold tl at ht
    rw [ht]
    unfold unionBit
    rw [(static_of_initial F.static _ hb).1, eb, List.any_map]
    congr 1
    funext q
    simp only [Function.comp]
    by_cases hq : q < cf.m_basicBlocks.length
    · have hh := result_first_eq_head F hperm hlay hdis _ (bbInfoMap_lt order q (hmem q hq))
      rw [blockOfOrd_bbInfoMap cf order q (hmem q hq)] at hh
      rw [decide_eq_true hq, Bool.true_and, hh]
      rfl
    · have hnot : q ∉ order := fun h => hq (List.mem_range.mp ((hperm.mem_iff).mp h))
      have : bbInfoMap order q = order.length := by
        unfold bbInfoMap
        exact List.indexOf_of_not_mem hnot
      rw [decide_eq_false hq, Bool.false_and, hd_of_le _ _ _ (by rw [this, hlen])]

/-! ## The epoch test and the epochs -/

/-- A visit that passes the epoch test, or that is made in the first pass, has
the effect described by `VisitFacts`. -/
theorem visitBlock_evaluated (n : Nat) (f : Bool) (st : FixpointState) (b : Nat) (hinv : Inv n st)
    (hb : b < st.bbLivenessInfo.length)
    (h : f = true ∨ ∃ s ∈ succs st.bbLivenessInfo b,
      lastChecked st.bbLivenessInfo b < lastChanged st.bbLivenessInfo s) :
    VisitFacts n f st (visitBlock f st b) b := by
  rcases visitBlock_cases n f st b hinv hb with ⟨_, hf, hq⟩ | F
  · rcases h with h | ⟨s, hs, hlt⟩
    · rw [hf] at h
      exact Bool.noConfusion h
    · have := hq s hs
      omega
  · exact F

/-- A visit after the first pass that fails the epoch test changes nothing. -/
theorem visitBlock_skipped (n : Nat) (st : FixpointState) (b : Nat) (hinv : Inv n st)
    (hb : b < st.bbLivenessInfo.length)
    (h : ∀ s ∈ succs st.bbLivenessInfo b,
      lastChanged st.bbLivenessInfo s ≤ lastChecked st.bbLivenessInfo b) :
    visitBlock false st b = st := by
  rw [visitBlock_eq n false st b hinv.wf hinv.tmp hb]
  rw [(shouldCheck_eq_false_iff st.bbLivenessInfo b).mpr h]
  rfl

theorem VisitFacts.keepsEpochsDistinct {n : Nat} {f : Bool} {st st' : FixpointState} {b0 : Nat}
    (F : VisitFacts n f st st' b0) (hinv : Inv n st) (hd : EpochsDistinct st.bbLivenessInfo) :
    EpochsDistinct st'.bbLivenessInfo := by
  have hck : (st'.bbLivenessInfo.getD b0 default).m_lastCheckedEpoch = st.currentEpoch + 1 :=
    F.checked
  have hch : (st'.bbLivenessInfo.getD b0 default).m_lastChangedEpoch = st.currentEpoch + 2 ∨
      (st'.bbLivenessInfo.getD b0 default).m_lastChangedEpoch =
        (st.bbLivenessInfo.getD b0 default).m_lastChangedEpoch := by
    rcases F.epoch_cases with ⟨_, e, _⟩ | ⟨_, e, _⟩
    · exact Or.inl e
    · exact Or.inr e
  have hep : ∀ x, (st.bbLivenessInfo.getD x default).m_lastChangedEpoch ≤ st.currentEpoch ∧
      (st.bbLivenessInfo.getD x default).m_lastCheckedEpoch ≤ st.currentEpoch := hinv.ep
  intro b b'
  have hdb := hd b b'
  have e0 := hep b0
  have e1 := hep b
  have e2 := hep b'
  by_cases h1 : b = b0
  · by_cases h2 : b' = b0
    · subst h1
      subst h2
      refine ⟨fun _ => ?_, fun h => absurd rfl h, fun h => absurd rfl h⟩
      rcases hch with e | e <;> omega
    · subst h1
      rw [F.other b' h2]
      refine ⟨fun _ => by omega, fun _ _ => by omega, fun _ hz => ?_⟩
      rcases hch with e | e
      · omega
      · rw [e] at hz ⊢
        exact hdb.2.2 (fun h => h2 h.symm) hz
  · by_cases h2 : b' = b0
    · subst h2
      rw [F.other b h1]
      refine ⟨fun hz => ?_, fun _ _ => by omega, fun hne hz => ?_⟩
      · rcases hch with e | e
        · omega
        · rw [e]
          exact hdb.1 hz
      · rcases hch with e | e
        · omega
        · rw [e]
          exact hdb.2.2 hne hz
    · rw [F.other b h1, F.other b' h2]
      exact hdb

theorem Reachable.epochsDistinct {codeBlock : CodeBlock}
    {cf : DfgControlFlowAndUpvalueAnalysisResult} {order : List Nat} {st : FixpointState}
    (h : Reachable (initialState codeBlock cf order) st) : EpochsDistinct st.bbLivenessInfo := by
  induction h with
  | start =>
    have I := initialHeap_facts codeBlock cf order
    have hz : ∀ x, ((initialState codeBlock cf order).bbLivenessInfo.getD x default).m_lastChangedEpoch
          = 0 ∧
        ((initialState codeBlock cf order).bbLivenessInfo.getD x default).m_lastCheckedEpoch = 0 := by
      intro x
      exact I.epochs_zero x
    intro b b'
    refine ⟨fun h => absurd (hz b).2 h, fun _ h => absurd (hz b).2 h, fun _ h => absurd (hz b).1 h⟩
  | newPass st _ ih => exact ih
  | visit f b st hr hb ih =>
    rcases visitBlock_cases _ f st b hr.inv.1 hb with ⟨e, _, _⟩ | F
    · rw [e]; exact ih
    · exact F.keepsEpochsDistinct hr.inv.1 ih

/-- The state in which the fixpoint loop exits and the result of the analysis
that is computed from it. -/
theorem ComputeBytecodeLiveness_of_final (fuel : Nat) (codeBlock : CodeBlock)
    (cf : DfgControlFlowAndUpvalueAnalysisResult)
    (hfuel : passBound cf.m_basicBlocks.length codeBlock.m_stackFrameNumSlots ≤ fuel) :
    ∃ st, propagateToFixpoint fuel codeBlock cf (sortBasicBlocks cf) = some st ∧
      Final codeBlock.m_stackFrameNumSlots (initialHeap codeBlock cf (sortBasicBlocks cf)) st ∧
      ComputeBytecodeLiveness fuel codeBlock cf =
        some (materialize codeBlock.m_numBytecodes codeBlock.m_stackFrameNumSlots
          st.bbLivenessInfo) := by
  obtain ⟨st, h1, h2⟩ := propagateToFixpoint_final fuel codeBlock cf (sortBasicBlocks cf)
    (by rw [sortBasicBlocks_length]; exact hfuel)
  refine ⟨st, h1, h2, ?_⟩
  unfold ComputeBytecodeLiveness ComputeBytecodeLivenessInOrder
  rw [h1]

theorem instrsRev_eq_reverse (decoder : BytecodeDecoder) (bbInfo : BasicBlockUpvalueInfo)
    (numLocals : Nat) :
    instrsRev decoder bbInfo numLocals = (blockInstrs decoder bbInfo numLocals).reverse := by
  unfold instrsRev blockInstrs
  rw [List.map_reverse]

/-- The two masks are the replay of the block, last bytecode first, from the
all-ones and from the all-zeros vector. -/
theorem new_masks_replay (decoder : BytecodeDecoder) (bbInfo : BasicBlockUpvalueInfo)
    (numLocals : Nat) :
    (BytecodeLivenessBBInfo.new decoder bbInfo numLocals).m_andMask =
      (instrsRev decoder bbInfo numLocals).foldl replayStep
        ((TempBitVector.Reset numLocals).CopyFromEqualLengthBitVector
          (TempBitVector.Reset numLocals).SetAllOne) ∧
    (BytecodeLivenessBBInfo.new decoder bbInfo numLocals).m_orMask =
      (instrsRev decoder bbInfo numLocals).foldl replayStep
        ((TempBitVector.Reset numLocals).CopyFromEqualLengthBitVector
          (TempBitVector.Reset numLocals).SetAllOne.Clear) := by
  obtain ⟨e1, e2⟩ := new_info decoder bbInfo numLocals
  have hl := length_instrsRev decoder bbInfo numLocals
  have key : ∀ bv, headLoop (BytecodeLivenessBBInfo.new decoder bbInfo numLocals).m_info
      (BytecodeLivenessBBInfo.new decoder bbInfo numLocals).m_infoIndex
      (2 * bbInfo.m_numBytecodesInBB) bbInfo.m_numBytecodesInBB 0 0 bv =
      (instrsRev decoder bbInfo numLocals).foldl replayStep bv := by
    intro bv
    have h := headLoop_flat (instrsRev decoder bbInfo numLocals) [] []
      (2 * bbInfo.m_numBytecodesInBB) bv (by rw [hl]; simp)
    simp only [List.nil_append, List.length_nil] at h
    rw [hl] at h
    rw [e1, e2]
    exact h
  rw [BytecodeLivenessBBInfo.new_m_andMask, BytecodeLivenessBBInfo.new_m_orMask]
  exact ⟨key _, key _⟩

/-- Bit `i` of the replay of a list of def and use lists given in program
order: the first bytecode that mentions `i` decides it. -/
theorem IsSet_replay_firstMention (n : Nat) (bv : TempBitVector) (hbv : WFbv n bv) (i : Nat)
    (hi : i < n) :
    ∀ instrs : List (List Nat × List Nat),
      WFbv n (instrs.reverse.foldl replayStep bv) ∧
      (instrs.reverse.foldl replayStep bv).IsSet i =
        match firstMention instrs i with
        | none => bv.IsSet i
        | some du => decide (i ∈ du.2) := by
  intro instrs
  induction instrs with
  | nil => exact ⟨hbv, rfl⟩
  | cons du rest ih =>
    obtain ⟨d, u⟩ := du
    rw [List.reverse_cons, List.foldl_append]
    simp only [List.foldl_cons, List.foldl_nil]
    refine ⟨WFbv_replayStep n _ _ ih.1, ?_⟩
    rw [IsSet_replayStep n _ ih.1 d u i hi, ih.2]
    unfold firstMention
    rw [List.find?_cons]
    by_cases hu : i ∈ u
    · simp [hu]
    · by_cases hd : i ∈ d
      · simp [hu, hd]
      · simp [hu, hd]

/-! ## The contracts -/

/-- C1: for a block object built by the constructor, with any vector of
`numLocals` bits as its tail, `ComputeHeadBasedOnTailFast` (the mask formula
`(tail & andMask) | orMask`) and `ComputeHeadBasedOnTail` (the replay of the
defs and uses) agree on every bit below `numLocals`. -/
theorem ComputeHeadBasedOnTailFast_eq_ComputeHeadBasedOnTail (decoder : BytecodeDecoder)
    (bbInfo : BasicBlockUpvalueInfo) (numLocals : Nat) (tail tmpBv : TempBitVector)
    (hlen : tail.m_length = numLocals) (hdata : tail.m_data.length = tail.GetAllocLength)
    (htmp : tmpBv.m_length = numLocals) (i : Nat) (hi : i < numLocals) :
    (BytecodeLivenessBBInfo.ComputeHeadBasedOnTailFast
      { BytecodeLivenessBBInfo.new decoder bbInfo numLocals with m_atTail := tail } tmpBv).IsSet i =
    (BytecodeLivenessBBInfo.ComputeHeadBasedOnTail
      { BytecodeLivenessBBInfo.new decoder bbInfo numLocals with m_atTail := tail } tmpBv).IsSet i := by
  have hd' : tail.m_data.length = (numLocals + 63) / 64 := by
    rw [hdata, GetAllocLength, hlen]
  have A := BytecodeLivenessBBInfo.new_AffineRel decoder bbInfo numLocals
    { BytecodeLivenessBBInfo.new decoder bbInfo numLocals with m_atTail := tail } tmpBv
    rfl rfl rfl hd'
  rw [A.2.2.1 i, BytecodeLivenessBBInfo.IsSet_ComputeHeadBasedOnTailFast]
  have hlt : i / 64 < tmpBv.GetAllocLength := by
    rw [GetAllocLength, htmp]
    omega
  simp only [hlt, decide_True, Bool.true_and]

/-- C1 at the loop block of the example function, tail `{0, 2}`, bit 2. -/
theorem ComputeHeadBasedOnTailFast_eq_ComputeHeadBasedOnTail_witness :
    (exampleBits [0, 2]).m_length = 8 ∧
    (exampleBits [0, 2]).m_data.length = (exampleBits [0, 2]).GetAllocLength ∧
    (TempBitVector.Reset 8).m_length = 8 ∧ 2 < 8 ∧
    (BytecodeLivenessBBInfo.ComputeHeadBasedOnTailFast
      { BytecodeLivenessBBInfo.new exampleDecoder exampleBlock1 8 with
        m_atTail := exampleBits [0, 2] } (TempBitVector.Reset 8)).IsSet 2 =
    (BytecodeLivenessBBInfo.ComputeHeadBasedOnTail
      { BytecodeLivenessBBInfo.new exampleDecoder exampleBlock1 8 with
        m_atTail := exampleBits [0, 2] } (TempBitVector.Reset 8)).IsSet 2 :=
  ⟨rfl, by decide, rfl, by decide,
    ComputeHeadBasedOnTailFast_eq_ComputeHeadBasedOnTail exampleDecoder exampleBlock1 8
      (exampleBits [0, 2]) (TempBitVector.Reset 8) rfl (by decide) rfl 2 (by decide)⟩

/-- C2: the fixpoint loop exits, and in the state in which it exits, for every
block: bit `i` of the tail is set exactly when bit `i` of the head of one of its
successors is set (the bitwise union of the heads of the successors, as the
test-build check after the loop states it), the tail and the head have
`numLocals` bits, the tail is the vector that the union loop of the source
computes from the heads, the head is the replay of the defs and uses of the
block from that tail (`ComputeHeadBasedOnTail`), and bit `i` of the head is
`(tail & andMask) | orMask` at `i`. One more pass, whether it applies the epoch
test or visits every block, changes no head and no tail, and one more pass of
the loop changes nothing. This holds for every control-flow graph and every
processing order of the blocks. -/
theorem fixpoint_reached_and_stable (fuel : Nat) (codeBlock : CodeBlock)
    (cfUvInfo : DfgControlFlowAndUpvalueAnalysisResult) (bbInReverseOrder : List Nat)
    (hfuel : passBound bbInReverseOrder.length codeBlock.m_stackFrameNumSlots ≤ fuel) :
    ∃ st, propagateToFixpoint fuel codeBlock cfUvInfo bbInReverseOrder = some st ∧
      (∀ bbOrd i,
        ((st.bbLivenessInfo.getD bbOrd default).m_atTail.IsSet i = true ↔
          ∃ s ∈ (st.bbLivenessInfo.getD bbOrd default).m_successors,
            (st.bbLivenessInfo.getD s default).m_atHead.IsSet i = true) ∧
        (st.bbLivenessInfo.getD bbOrd default).m_atHead.IsSet i =
          (((st.bbLivenessInfo.getD bbOrd default).m_atTail.IsSet i &&
              (st.bbLivenessInfo.getD bbOrd default).m_andMask.IsSet i) ||
            (st.bbLivenessInfo.getD bbOrd default).m_orMask.IsSet i)) ∧
      (∀ bbOrd, bbOrd < st.bbLivenessInfo.length →
        (st.bbLivenessInfo.getD bbOrd default).m_atTail.m_length =
          codeBlock.m_stackFrameNumSlots ∧
        (st.bbLivenessInfo.getD bbOrd default).m_atHead.m_length =
          codeBlock.m_stackFrameNumSlots ∧
        (st.bbLivenessInfo.getD bbOrd default).m_atTail =
          unionOfSuccessorHeads st.bbLivenessInfo (st.bbLivenessInfo.getD bbOrd default)
            st.tmpBv ∧
        (st.bbLivenessInfo.getD bbOrd default).m_atHead =
          (st.bbLivenessInfo.getD bbOrd default).ComputeHeadBasedOnTail st.tmpBv) ∧
      (∀ (isFirstIteration : Bool) bbOrd,
        ((onePass isFirstIteration st).bbLivenessInfo.getD bbOrd default).m_atHead =
          (st.bbLivenessInfo.getD bbOrd default).m_atHead ∧
        ((onePass isFirstIteration st).bbLivenessInfo.getD bbOrd default).m_atTail =
          (st.bbLivenessInfo.getD bbOrd default).m_atTail) ∧
      onePass false st = st := by
  obtain ⟨st, hst, F⟩ := propagateToFixpoint_final fuel codeBlock cfUvInfo bbInReverseOrder hfuel
  refine ⟨st, hst, fun b i => ⟨?_, F.headEq b i⟩, fun b hb => ?_,
    fun f b => onePass_heads_tails _ _ st F f b, onePass_fixed _ _ st F⟩
  · have h := F.tailEq b i
    unfold tl unionBit succs hd at h
    rw [h, List.any_eq_true]
  · obtain ⟨wh, wt, _, _⟩ := F.inv.wf b hb
    exact ⟨wt.1, wh.1, (F.source_form b hb).1, (F.source_form b hb).2⟩

/-- C2 on the example function: the loop exits in a state that a further pass
leaves unchanged; there the block at position 1 has the successors at positions
1 and 0, bit 2 of its tail is set as it is in the head of the block at position
0, and bit 0 of its tail is clear as it is in both heads. -/
theorem fixpoint_reached_and_stable_witness :
    passBound (sortBasicBlocks exampleCfg).length exampleCodeBlock.m_stackFrameNumSlots ≤ 200 ∧
    ∃ st, propagateToFixpoint 200 exampleCodeBlock exampleCfg (sortBasicBlocks exampleCfg) =
      some st ∧ onePass false st = st ∧
      (st.bbLivenessInfo.getD 1 default).m_successors = [1, 0] ∧
      (st.bbLivenessInfo.getD 1 default).m_atTail.IsSet 2 = true ∧
      (st.bbLivenessInfo.getD 0 default).m_atHead.IsSet 2 = true ∧
      (st.bbLivenessInfo.getD 1 default).m_atTail.IsSet 0 = false := by
  refine ⟨by decide, ?_⟩
  obtain ⟨st, hst, hbits, _, _, hfix⟩ := fixpoint_reached_and_stable 200 exampleCodeBlock
    exampleCfg (sortBasicBlocks exampleCfg) (by decide)
  have h : (propagateToFixpoint 200 exampleCodeBlock exampleCfg (sortBasicBlocks exampleCfg)).map
      (fun st => ((st.bbLivenessInfo.getD 1 default).m_successors,
        (st.bbLivenessInfo.getD 0 default).m_atHead.IsSet 2,
        (st.bbLivenessInfo.getD 1 default).m_atHead.IsSet 0,
        (st.bbLivenessInfo.getD 0 default).m_atHead.IsSet 0)) =
      some ([1, 0], true, false, false) := by decide
  rw [hst] at h
  simp only [Option.map_some', Option.some.injEq, Prod.mk.injEq] at h
  obtain ⟨h1, h2, h3, h4⟩ := h
  refine ⟨st, hst, hfix, h1, ?_, h2, ?_⟩
  · exact ((hbits 1 2).1).mpr ⟨0, by rw [h1]; decide, h2⟩
  · cases ht : (st.bbLivenessInfo.getD 1 default).m_atTail.IsSet 0
    · rfl
    · obtain ⟨s, hs, hh⟩ := ((hbits 1 0).1).mp ht
      rw [h1] at hs
      rcases List.mem_cons.mp hs with e | hs
      · rw [e, h3] at hh; exact Bool.noConfusion hh
      · rcases List.mem_cons.mp hs with e | hs
        · rw [e, h4] at hh; exact Bool.noConfusion hh
        · exact absurd hs (List.not_mem_nil _)

/-- C4: in every state the fixpoint loop can reach and for every block it can
visit there, the vector handed to `UpdateBitVectorAfterMonotonicPropagation` for
the tail (`newTailOf`, the union of the successors' heads) and the one for the
head (`newHeadOf`, the mask formula on the new tail) are supersets of the
block's current tail and head, word by word as the assertion states it, and
every head or tail bit of every block that is set before the visit is set
after it. -/
theorem updates_are_monotone (codeBlock : CodeBlock)
    (cfUvInfo : DfgControlFlowAndUpvalueAnalysisResult) (bbInReverseOrder : List Nat)
    (st : FixpointState)
    (hst : Reachable (initialState codeBlock cfUvInfo bbInReverseOrder) st)
    (isFirstIteration : Bool) (bbOrd : Nat) (hb : bbOrd < st.bbLivenessInfo.length) :
    UpdateAssertion (st.bbLivenessInfo.getD bbOrd default).m_atTail (newTailOf st bbOrd) ∧
    UpdateAssertion (st.bbLivenessInfo.getD bbOrd default).m_atHead (newHeadOf st bbOrd) ∧
    ∀ b i,
      ((st.bbLivenessInfo.getD b default).m_atHead.IsSet i = true →
        ((visitBlock isFirstIteration st bbOrd).bbLivenessInfo.getD b default).m_atHead.IsSet i
          = true) ∧
      ((st.bbLivenessInfo.getD b default).m_atTail.IsSet i = true →
        ((visitBlock isFirstIteration st bbOrd).bbLivenessInfo.getD b default).m_atTail.IsSet i
          = true) :=
  visit_monotone codeBlock.m_stackFrameNumSlots st hst.inv.1 isFirstIteration bbOrd hb

/-- C4 on the example function: the first visit of the first pass. -/
theorem updates_are_monotone_witness :
    Reachable (initialState exampleCodeBlock exampleCfg (sortBasicBlocks exampleCfg))
      (initialState exampleCodeBlock exampleCfg (sortBasicBlocks exampleCfg)) ∧
    0 < (initialState exampleCodeBlock exampleCfg
      (sortBasicBlocks exampleCfg)).bbLivenessInfo.length ∧
    UpdateAssertion
      ((initialState exampleCodeBlock exampleCfg
        (sortBasicBlocks exampleCfg)).bbLivenessInfo.getD 0 default).m_atTail
      (newTailOf (initialState exampleCodeBlock exampleCfg (sortBasicBlocks exampleCfg)) 0) :=
  ⟨Reachable.start, by decide,
    (updates_are_monotone exampleCodeBlock exampleCfg (sortBasicBlocks exampleCfg) _
      Reachable.start true 0 (by decide)).1⟩

/-- C5: for every control-flow graph, every processing order and every number
of locals the fixpoint loop exits: it needs at most `passBound` passes, one more
than the number of storage bits of all heads, because a pass that requests
another one has set a head bit that was clear; a larger bound gives the same
state. -/
theorem fixpoint_loop_terminates (fuel : Nat) (codeBlock : CodeBlock)
    (cfUvInfo : DfgControlFlowAndUpvalueAnalysisResult) (bbInReverseOrder : List Nat)
    (hfuel : passBound bbInReverseOrder.length codeBlock.m_stackFrameNumSlots ≤ fuel) :
    ∃ st, propagateToFixpoint fuel codeBlock cfUvInfo bbInReverseOrder = some st ∧
      ∀ fuel', passBound bbInReverseOrder.length codeBlock.m_stackFrameNumSlots ≤ fuel' →
        propagateToFixpoint fuel' codeBlock cfUvInfo bbInReverseOrder = some st := by
  obtain ⟨st, hst, _⟩ := propagateToFixpoint_final fuel codeBlock cfUvInfo bbInReverseOrder hfuel
  refine ⟨st, hst, ?_⟩
  intro fuel' hfuel'
  obtain ⟨st', hst', _⟩ :=
    propagateToFixpoint_final fuel' codeBlock cfUvInfo bbInReverseOrder hfuel'
  rw [hst']
  rw [propagateToFixpoint_eq] at hst hst'
  rw [fixpointLoop_fuel_irrelevant fuel' fuel true _ st' st hst' hst]

/-- C5 on the example function. -/
theorem fixpoint_loop_terminates_witness :
    passBound (sortBasicBlocks exampleCfg).length exampleCodeBlock.m_stackFrameNumSlots ≤ 193 ∧
    ∃ st, propagateToFixpoint 193 exampleCodeBlock exampleCfg (sortBasicBlocks exampleCfg) =
      some st :=
  ⟨by decide,
    (fixpoint_loop_terminates 193 exampleCodeBlock exampleCfg (sortBasicBlocks exampleCfg)
      (by decide)).imp (fun _ h => h.1)⟩

/-- C7: for every block object built by the constructor, every bit that is
set in `m_orMask` is set in `m_andMask` (in particular every bit below
`numLocals`): the assertion at the end of the constructor holds for any def
and use lists. -/
theorem orMask_subset_andMask (decoder : BytecodeDecoder) (bbInfo : BasicBlockUpvalueInfo)
    (numLocals : Nat) (i : Nat)
    (hor : (BytecodeLivenessBBInfo.new decoder bbInfo numLocals).m_orMask.IsSet i = true) :
    (BytecodeLivenessBBInfo.new decoder bbInfo numLocals).m_andMask.IsSet i = true := by
  have A := BytecodeLivenessBBInfo.new_AffineRel decoder bbInfo numLocals
    (BytecodeLivenessBBInfo.new decoder bbInfo numLocals) (TempBitVector.Reset numLocals)
    rfl rfl rfl (by rw [new_m_atTail]; simp [TempBitVector.Reset])
  exact A.2.2.2 i hor

/-- C7 at the loop block of the example function, whose first bytecode reads local 1. -/
theorem orMask_subset_andMask_witness :
    (BytecodeLivenessBBInfo.new exampleDecoder exampleBlock1 8).m_orMask.IsSet 1 = true ∧
    (BytecodeLivenessBBInfo.new exampleDecoder exampleBlock1 8).m_andMask.IsSet 1 = true :=
  ⟨by decide, orMask_subset_andMask exampleDecoder exampleBlock1 8 1 (by decide)⟩

/-- C3: the result never under-approximates. Let every basic block be nonempty
and within the function, and no two blocks share a bytecode. For every bytecode
`i` of a basic block and every slot `s` below `numLocals`, if there is a
control-flow path from `i` (next bytecode inside a block, or last bytecode of a
block to the first bytecode of a successor block) whose last bytecode has `s` in
its use list and none of whose earlier bytecodes has `s` in its def list, then
the analysis returns and bit `s` is set in the before-use set of `i`. -/
theorem liveness_never_underapproximates (fuel : Nat) (codeBlock : CodeBlock)
    (cfUvInfo : DfgControlFlowAndUpvalueAnalysisResult)
    (hfuel : passBound cfUvInfo.m_basicBlocks.length codeBlock.m_stackFrameNumSlots ≤ fuel)
    (hlay : LayoutOK codeBlock cfUvInfo) (hdis : BlocksDisjoint cfUvInfo)
    (s : Nat) (hs : s < codeBlock.m_stackFrameNumSlots)
    (i : Nat × Nat) (path : List (Nat × Nat))
    (hvalid : ∀ nd ∈ i :: path, ValidNode cfUvInfo nd)
    (hpath : UsePath codeBlock cfUvInfo s (i :: path)) :
    ∃ r, ComputeBytecodeLiveness fuel codeBlock cfUvInfo = some r ∧
      (r.m_beforeUse.getD (nodeIndex cfUvInfo i) default).IsSet s = true := by
  obtain ⟨st, F, hr⟩ := ComputeBytecodeLiveness_final fuel codeBlock cfUvInfo hfuel
  exact ⟨_, hr, path_sound F (sortBasicBlocks_perm cfUvInfo) hlay hdis s hs path i hvalid hpath⟩

/-- C3 on the example function: local 2 is read by bytecode 4 and written by
neither bytecode 0 nor bytecode 1, so it is live before bytecode 0. -/
theorem liveness_never_underapproximates_witness :
    UsePath exampleCodeBlock exampleCfg 2 [(0, 0), (0, 1), (2, 0)] ∧
    ∃ r, ComputeBytecodeLiveness 200 exampleCodeBlock exampleCfg = some r ∧
      (r.m_beforeUse.getD 0 default).IsSet 2 = true :=
  ⟨⟨by decide, Or.inl ⟨rfl, rfl, by decide⟩, by decide, Or.inr ⟨rfl, by decide, rfl⟩,
      (by decide : 2 ∈ nodeUses exampleCodeBlock exampleCfg (2, 0))⟩,
    liveness_never_underapproximates 200 exampleCodeBlock exampleCfg (by decide)
      (by unfold LayoutOK; decide) (by unfold BlocksDisjoint; decide) 2 (by decide) (0, 0)
      [(0, 1), (2, 0)] (by unfold ValidNode; decide)
      ⟨by decide, Or.inl ⟨rfl, rfl, by decide⟩, by decide, Or.inr ⟨rfl, by decide, rfl⟩,
        (by decide : 2 ∈ nodeUses exampleCodeBlock exampleCfg (2, 0))⟩⟩

/-- C6: the block heads and tails do not depend on the processing order. For
any two permutations of the block list the fixpoint loop exits, the head and
the tail of every basic block are the same vectors in both runs, and they are
the least solution of `tail(b) = union of head(s) over successors s of b` and
`head(b) = (tail(b) & andMask(b)) | orMask(b)`: they satisfy both equations and
lie below every `H`, `T` that is closed under them. -/
theorem fixpoint_independent_of_order (fuel1 fuel2 : Nat) (codeBlock : CodeBlock)
    (cfUvInfo : DfgControlFlowAndUpvalueAnalysisResult) (order1 order2 : List Nat)
    (h1 : order1.Perm (List.range cfUvInfo.m_basicBlocks.length))
    (h2 : order2.Perm (List.range cfUvInfo.m_basicBlocks.length))
    (hf1 : passBound cfUvInfo.m_basicBlocks.length codeBlock.m_stackFrameNumSlots ≤ fuel1)
    (hf2 : passBound cfUvInfo.m_basicBlocks.length codeBlock.m_stackFrameNumSlots ≤ fuel2) :
    ∃ st1 st2, propagateToFixpoint fuel1 codeBlock cfUvInfo order1 = some st1 ∧
      propagateToFixpoint fuel2 codeBlock cfUvInfo order2 = some st2 ∧
      (∀ bb, bb < cfUvInfo.m_basicBlocks.length →
        (st1.bbLivenessInfo.getD (bbInfoMap order1 bb) default).m_atHead =
          (st2.bbLivenessInfo.getD (bbInfoMap order2 bb) default).m_atHead ∧
        (st1.bbLivenessInfo.getD (bbInfoMap order1 bb) default).m_atTail =
          (st2.bbLivenessInfo.getD (bbInfoMap order2 bb) default).m_atTail) ∧
      (∀ b i, tl st1.bbLivenessInfo b i = unionBit st1.bbLivenessInfo b i ∧
        hd st1.bbLivenessInfo b i =
          xfer st1.bbLivenessInfo b i (tl st1.bbLivenessInfo b i)) ∧
      (∀ H T, PreSolution st1.bbLivenessInfo H T →
        ∀ b i, (hd st1.bbLivenessInfo b i = true → H b i = true) ∧
          (tl st1.bbLivenessInfo b i = true → T b i = true)) := by
  have l1 : order1.length = cfUvInfo.m_basicBlocks.length := by
    have := h1.length_eq; rw [List.length_range] at this; exact this
  have l2 : order2.length = cfUvInfo.m_basicBlocks.length := by
    have := h2.length_eq; rw [List.length_range] at this; exact this
  obtain ⟨st1, e1, F1⟩ := propagateToFixpoint_final fuel1 codeBlock cfUvInfo order1
    (by rw [l1]; exact hf1)
  obtain ⟨st2, e2, F2⟩ := propagateToFixpoint_final fuel2 codeBlock cfUvInfo order2
    (by rw [l2]; exact hf2)
  exact ⟨st1, st2, e1, e2,
    fun p hp => order_independent_core codeBlock cfUvInfo order1 order2 h1 h2 st1 st2 F1 F2 p hp,
    fun b i => ⟨F1.tailEq b i, F1.headEq b i⟩,
    fun H T P => F1.below H T (PreSolution.of_static F1.static P)⟩

/-- C6 on the example function: descending order against ascending order. -/
theorem fixpoint_independent_of_order_witness :
    (sortBasicBlocks exampleCfg).Perm (List.range exampleCfg.m_basicBlocks.length) ∧
    [0, 1, 2].Perm (List.range exampleCfg.m_basicBlocks.length) ∧
    ∃ st1 st2, propagateToFixpoint 200 exampleCodeBlock exampleCfg (sortBasicBlocks exampleCfg) =
        some st1 ∧
      propagateToFixpoint 193 exampleCodeBlock exampleCfg [0, 1, 2] = some st2 ∧
      ∀ bb, bb < exampleCfg.m_basicBlocks.length →
        (st1.bbLivenessInfo.getD (bbInfoMap (sortBasicBlocks exampleCfg) bb) default).m_atHead =
          (st2.bbLivenessInfo.getD (bbInfoMap [0, 1, 2] bb) default).m_atHead ∧
        (st1.bbLivenessInfo.getD (bbInfoMap (sortBasicBlocks exampleCfg) bb) default).m_atTail =
          (st2.bbLivenessInfo.getD (bbInfoMap [0, 1, 2] bb) default).m_atTail :=
  ⟨by decide, by decide,
    (fixpoint_independent_of_order 200 193 exampleCodeBlock exampleCfg (sortBasicBlocks exampleCfg)
      [0, 1, 2] (by decide) (by decide) (by decide) (by decide)).imp
      (fun _ h => h.imp (fun _ g => ⟨g.1, g.2.1, g.2.2.1⟩))⟩

/-- C8: for a closure creation with destination local `d` whose prototype has
the upvalue table `proto.m_upvalueInfo`, the slots the constructor appends to
the use list are exactly, in table order, the slots of the upvalues with
`m_isParentLocal` other than `d`. Consequently, in the result of the analysis
(blocks nonempty, within the function and pairwise disjoint), if `d` is not
among the read operands then bit `d` of the before-use set of the instruction
is clear, and the bit of every other captured parent local below `numLocals`
is set. -/
theorem createClosure_use_list (fuel : Nat) (codeBlock : CodeBlock)
    (cfUvInfo : DfgControlFlowAndUpvalueAnalysisResult)
    (hfuel : passBound cfUvInfo.m_basicBlocks.length codeBlock.m_stackFrameNumSlots ≤ fuel)
    (hlay : LayoutOK codeBlock cfUvInfo) (hdis : BlocksDisjoint cfUvInfo)
    (nd : Nat × Nat) (hnd : ValidNode cfUvInfo nd) (proto : UnlinkedCodeBlock) (d : Nat)
    (hintr : codeBlock.decoder.GetBytecodeIntrinsicInfo (nodeOffset codeBlock cfUvInfo nd) =
      BytecodeIntrinsicInfo.CreateClosure proto)
    (hout : codeBlock.decoder.GetDataFlowWriteInfo (nodeOffset codeBlock cfUvInfo nd) =
      [BytecodeRWCDesc.Local d]) :
    (∀ info, pushCreateClosureUses info codeBlock.decoder (nodeOffset codeBlock cfUvInfo nd) =
      info ++ (proto.m_upvalueInfo.filter
        (fun uv => uv.m_isParentLocal && !decide (uv.m_slot = d))).map (fun uv => uv.m_slot)) ∧
    (∀ x, x ∈ pushCreateClosureUses [] codeBlock.decoder (nodeOffset codeBlock cfUvInfo nd) ↔
      (∃ uv ∈ proto.m_upvalueInfo, uv.m_isParentLocal = true ∧ uv.m_slot = x) ∧ x ≠ d) ∧
    ∃ r, ComputeBytecodeLiveness fuel codeBlock cfUvInfo = some r ∧
      (d ∉ pushRWCInfo [] (codeBlock.decoder.GetDataFlowReadInfo
          (nodeOffset codeBlock cfUvInfo nd)) →
        (r.m_beforeUse.getD (nodeIndex cfUvInfo nd) default).IsSet d = false) ∧
      (∀ uv ∈ proto.m_upvalueInfo, uv.m_isParentLocal = true → uv.m_slot ≠ d →
        uv.m_slot < codeBlock.m_stackFrameNumSlots →
        (r.m_beforeUse.getD (nodeIndex cfUvInfo nd) default).IsSet uv.m_slot = true) := by
  have hpush := fun info => pushCreateClosureUses_of_intrinsic info codeBlock.decoder
    (nodeOffset codeBlock cfUvInfo nd) proto d hintr hout
  have hmem : ∀ x, x ∈ (proto.m_upvalueInfo.filter
      (fun uv => uv.m_isParentLocal && !decide (uv.m_slot = d))).map (fun uv => uv.m_slot) ↔
      (∃ uv ∈ proto.m_upvalueInfo, uv.m_isParentLocal = true ∧ uv.m_slot = x) ∧ x ≠ d := by
    intro x
    simp only [List.mem_map, List.mem_filter, Bool.and_eq_true, Bool.not_eq_true',
      decide_eq_false_iff_not]
    constructor
    · rintro ⟨uv, ⟨hm, hp, hne⟩, rfl⟩
      exact ⟨⟨uv, hm, hp, rfl⟩, hne⟩
    · rintro ⟨⟨uv, hm, hp, rfl⟩, hne⟩
      exact ⟨uv, ⟨hm, hp, hne⟩, rfl⟩
  have huses : nodeUses codeBlock cfUvInfo nd =
      pushRWCInfo [] (codeBlock.decoder.GetDataFlowReadInfo (nodeOffset codeBlock cfUvInfo nd)) ++
        (proto.m_upvalueInfo.filter
          (fun uv => uv.m_isParentLocal && !decide (uv.m_slot = d))).map (fun uv => uv.m_slot) :=
    usesOf_CreateClosure codeBlock.decoder _ _ _ proto d hintr hout
  have hdefs : nodeDefs codeBlock cfUvInfo nd = [d] := defsOf_Local codeBlock.decoder _ d hout
  obtain ⟨st, F, hr⟩ := ComputeBytecodeLiveness_final fuel codeBlock cfUvInfo hfuel
  refine ⟨hpush, ?_, _, hr, ?_, ?_⟩
  · intro x
    rw [hpush, List.nil_append]
    exact hmem x
  · intro hread
    apply (node_before_bit F (sortBasicBlocks_perm cfUvInfo) hlay hdis nd hnd d).2.2
    · rw [hdefs]; exact List.mem_singleton_self d
    · rw [huses, List.mem_append]
      rintro (h | h)
      · exact hread h
      · exact ((hmem d).mp h).2 rfl
  · intro uv hm hp hne hlt
    apply (node_before_bit F (sortBasicBlocks_perm cfUvInfo) hlay hdis nd hnd uv.m_slot).1 hlt
    rw [huses, List.mem_append]
    exact Or.inr ((hmem uv.m_slot).mpr ⟨⟨uv, hm, hp, rfl⟩, hne⟩)

/-- C8 on the example function: bytecode 2 creates a closure into local 2 that
captures the parent locals 2, 1 and 3; the appended uses are 1 and 3, and local
2 is not in the before-use set of the instruction. -/
theorem createClosure_use_list_witness :
    pushCreateClosureUses [] exampleDecoder 20 = [1, 3] ∧
    ∃ r, ComputeBytecodeLiveness 200 exampleCodeBlock exampleCfg = some r ∧
      (r.m_beforeUse.getD 2 default).IsSet 2 = false ∧
      (r.m_beforeUse.getD 2 default).IsSet 1 = true ∧
      (r.m_beforeUse.getD 2 default).IsSet 3 = true :=
  ⟨by decide,
    (createClosure_use_list 200 exampleCodeBlock exampleCfg (by decide)
      (by unfold LayoutOK; decide) (by unfold BlocksDisjoint; decide) (1, 0)
      (by unfold ValidNode; decide) exampleProto 2 (by decide) (by decide)).2.2.imp
      (fun _ h => ⟨h.1, h.2.1 (by decide),
        h.2.2 ⟨true, 1⟩ (by decide) rfl (by decide) (by decide),
        h.2.2 ⟨true, 3⟩ (by decide) rfl (by decide) (by decide)⟩)⟩

/-- C9: for an upvalue close with threshold `t` in a function with `numLocals`
locals, the slots the constructor appends to the use list are exactly, in
ascending order, the locals `l` with `t ≤ l < numLocals` that are captured at
block head or captured within the block. -/
theorem upvalueClose_use_list (decoder : BytecodeDecoder) (bbInfo : BasicBlockUpvalueInfo)
    (numLocals curBytecodeOffset t : Nat)
    (hintr : decoder.GetBytecodeIntrinsicInfo curBytecodeOffset =
      BytecodeIntrinsicInfo.UpvalueClose t) :
    (∀ info, pushUpvalueCloseUses info decoder bbInfo numLocals curBytecodeOffset =
      info ++ (List.range' t (numLocals - t)).filter
        (fun l => bbInfo.m_isLocalCapturedAtHead.IsSet l ||
          bbInfo.m_isLocalCapturedInBB.IsSet l)) ∧
    (∀ l, l ∈ pushUpvalueCloseUses [] decoder bbInfo numLocals curBytecodeOffset ↔
      t ≤ l ∧ l < numLocals ∧
        (bbInfo.m_isLocalCapturedAtHead.IsSet l = true ∨
          bbInfo.m_isLocalCapturedInBB.IsSet l = true)) := by
  have hpush := fun info => pushUpvalueCloseUses_of_intrinsic info decoder bbInfo numLocals
    curBytecodeOffset t hintr
  refine ⟨hpush, ?_⟩
  intro l
  rw [hpush, List.nil_append]
  simp only [List.mem_filter, List.mem_range'_1, Bool.or_eq_true]
  constructor
  · rintro ⟨⟨a, b⟩, c⟩
    exact ⟨a, by omega, c⟩
  · rintro ⟨a, b, c⟩
    exact ⟨⟨a, by omega⟩, c⟩

/-- C9 on the example function: with the captured slots 3, 5 (at head) and 7
(within the block) and threshold 4, exactly 5 and 7 are appended. -/
theorem upvalueClose_use_list_witness :
    pushUpvalueCloseUses [] exampleDecoder exampleBlock2 8 40 = [5, 7] ∧
    ∀ l, l ∈ pushUpvalueCloseUses [] exampleDecoder exampleBlock2 8 40 ↔
      4 ≤ l ∧ l < 8 ∧
        (exampleBlock2.m_isLocalCapturedAtHead.IsSet l = true ∨
          exampleBlock2.m_isLocalCapturedInBB.IsSet l = true) :=
  ⟨by decide, (upvalueClose_use_list exampleDecoder exampleBlock2 8 40 4 (by decide)).2⟩

/-- C10: when every basic block is nonempty and within the function, the
analysis returns a result with one before-use and one after-use vector per
bytecode of the function; both vectors of every bytecode have length
`numLocals`, and both vectors of every bytecode that lies in no basic block are
the all-zero vector of `numLocals` bits. -/
theorem result_lengths_and_unreachable (fuel : Nat) (codeBlock : CodeBlock)
    (cfUvInfo : DfgControlFlowAndUpvalueAnalysisResult)
    (hfuel : passBound cfUvInfo.m_basicBlocks.length codeBlock.m_stackFrameNumSlots ≤ fuel)
    (hlay : LayoutOK codeBlock cfUvInfo) :
    ∃ r, ComputeBytecodeLiveness fuel codeBlock cfUvInfo = some r ∧
      r.m_beforeUse.length = codeBlock.m_numBytecodes ∧
      r.m_afterUse.length = codeBlock.m_numBytecodes ∧
      (∀ bytecodeIndex, bytecodeIndex < codeBlock.m_numBytecodes →
        (r.m_beforeUse.getD bytecodeIndex default).m_length = codeBlock.m_stackFrameNumSlots ∧
        (r.m_afterUse.getD bytecodeIndex default).m_length = codeBlock.m_stackFrameNumSlots) ∧
      (∀ bytecodeIndex, bytecodeIndex < codeBlock.m_numBytecodes →
        (∀ bb ∈ cfUvInfo.m_basicBlocks, ¬ (bb.m_bytecodeIndex ≤ bytecodeIndex ∧
          bytecodeIndex < bb.m_bytecodeIndex + bb.m_numBytecodesInBB)) →
        r.m_beforeUse.getD bytecodeIndex default =
          TempBitVector.Reset codeBlock.m_stackFrameNumSlots ∧
        r.m_afterUse.getD bytecodeIndex default =
          TempBitVector.Reset codeBlock.m_stackFrameNumSlots ∧
        ∀ s, (r.m_beforeUse.getD bytecodeIndex default).IsSet s = false ∧
          (r.m_afterUse.getD bytecodeIndex default).IsSet s = false) := by
  obtain ⟨r, hr, m1, m2, m3, m4⟩ := ComputeBytecodeLiveness_sized fuel codeBlock cfUvInfo hfuel hlay
  refine ⟨r, hr, m1, m2, m3, ?_⟩
  intro idx hidx hout
  obtain ⟨e1, e2⟩ := m4 idx hidx hout
  refine ⟨e1, e2, fun s => ?_⟩
  rw [e1, e2]
  exact ⟨IsSet_Reset _ s, IsSet_Reset _ s⟩

/-- C10 on the example function: bytecode 5 lies in no block, its records are
all-zero vectors of eight bits. -/
theorem result_lengths_and_unreachable_witness :
    LayoutOK exampleCodeBlock exampleCfg ∧
    ∃ r, ComputeBytecodeLiveness 200 exampleCodeBlock exampleCfg = some r ∧
      r.m_beforeUse.length = 6 ∧ r.m_afterUse.length = 6 ∧
      r.m_beforeUse.getD 5 default = TempBitVector.Reset 8 ∧
      r.m_afterUse.getD 5 default = TempBitVector.Reset 8 :=
  ⟨by unfold LayoutOK; decide,
    (result_lengths_and_unreachable 200 exampleCodeBlock exampleCfg (by decide)
      (by unfold LayoutOK; decide)).imp
      (fun _ h => ⟨h.1, h.2.1, h.2.2.1,
        (h.2.2.2.2 5 (by decide) (by decide)).1, (h.2.2.2.2 5 (by decide) (by decide)).2.1⟩)⟩

/-- C11 fails as stated: in the example function bytecode 2 writes local 2 and
bytecode 3, the next bytecode of the same block, has local 2 in its before-use
set, yet the after-use set of bytecode 2 does not contain local 2. -/
theorem afterUse_covers_next_counterexample :
    ∃ r, ComputeBytecodeLiveness 200 exampleCodeBlock exampleCfg = some r ∧
      (r.m_beforeUse.getD 3 default).IsSet 2 = true ∧
      (r.m_afterUse.getD 2 default).IsSet 2 = false ∧
      ¬ AfterUseCoversNext exampleCfg r := by
  obtain ⟨st, F, hr⟩ := ComputeBytecodeLiveness_final 200 exampleCodeBlock exampleCfg (by decide)
  have hlay : LayoutOK exampleCodeBlock exampleCfg := by unfold LayoutOK; decide
  have hdis : BlocksDisjoint exampleCfg := by unfold BlocksDisjoint; decide
  have hperm := sortBasicBlocks_perm exampleCfg
  have h3 := path_sound F hperm hlay hdis 2 (by decide) [(2, 0)] (1, 1)
    (by unfold ValidNode; decide)
    ⟨by decide, Or.inr ⟨rfl, by decide, rfl⟩,
      (by decide : 2 ∈ nodeUses exampleCodeBlock exampleCfg (2, 0))⟩
  have h2 := (node_after_bit F hperm hlay hdis (1, 0) (by unfold ValidNode; decide) 2).1
    (by decide)
  have hdef : decide (2 ∈ nodeDefs exampleCodeBlock exampleCfg (1, 0)) = true := by decide
  rw [hdef] at h2
  simp only [Bool.not_true, Bool.and_false] at h2
  refine ⟨_, hr, h3, h2, ?_⟩
  intro hall
  have := hall (1, 0) (by unfold ValidNode; decide) (by decide) 2 h3
  rw [h2] at this
  exact Bool.false_ne_true this

/-- C11, amended: when every basic block is nonempty and within the function and
no two blocks share a bytecode, a slot is in the after-use set of a bytecode
exactly when it is not in the def list of the bytecode and it is in the
before-use set of the next bytecode of the block or, for the last bytecode of a
block, in the before-use set of the first bytecode of some successor block (the
tail of the block). -/
theorem afterUse_eq_next_beforeUse_minus_defs (fuel : Nat) (codeBlock : CodeBlock)
    (cfUvInfo : DfgControlFlowAndUpvalueAnalysisResult)
    (hfuel : passBound cfUvInfo.m_basicBlocks.length codeBlock.m_stackFrameNumSlots ≤ fuel)
    (hlay : LayoutOK codeBlock cfUvInfo) (hdis : BlocksDisjoint cfUvInfo) :
    ∃ r, ComputeBytecodeLiveness fuel codeBlock cfUvInfo = some r ∧
      ∀ nd : Nat × Nat, ValidNode cfUvInfo nd → ∀ s,
        (nd.2 + 1 < (cfUvInfo.m_basicBlocks.getD nd.1 default).m_numBytecodesInBB →
          (r.m_afterUse.getD (nodeIndex cfUvInfo nd) default).IsSet s =
            ((r.m_beforeUse.getD (nodeIndex cfUvInfo nd + 1) default).IsSet s &&
              !decide (s ∈ nodeDefs codeBlock cfUvInfo nd))) ∧
        (nd.2 + 1 = (cfUvInfo.m_basicBlocks.getD nd.1 default).m_numBytecodesInBB →
          (r.m_afterUse.getD (nodeIndex cfUvInfo nd) default).IsSet s =
            (((cfUvInfo.m_basicBlocks.getD nd.1 default).m_successors.any (fun p =>
                decide (p < cfUvInfo.m_basicBlocks.length) &&
                (r.m_beforeUse.getD
                  (cfUvInfo.m_basicBlocks.getD p default).m_bytecodeIndex default).IsSet s)) &&
              !decide (s ∈ nodeDefs codeBlock cfUvInfo nd))) := by
  obtain ⟨st, F, hr⟩ := ComputeBytecodeLiveness_final fuel codeBlock cfUvInfo hfuel
  exact ⟨_, hr, fun nd hnd s =>
    node_after_bit F (sortBasicBlocks_perm cfUvInfo) hlay hdis nd hnd s⟩

/-- C11, amended, on the example function: the after-use set of bytecode 2 is
the before-use set of bytecode 3 without local 2. -/
theorem afterUse_eq_next_beforeUse_minus_defs_witness :
    LayoutOK exampleCodeBlock exampleCfg ∧ BlocksDisjoint exampleCfg ∧
    ∃ r, ComputeBytecodeLiveness 200 exampleCodeBlock exampleCfg = some r ∧
      ∀ s, (r.m_afterUse.getD 2 default).IsSet s =
        ((r.m_beforeUse.getD 3 default).IsSet s && !decide (s = 2)) :=
  ⟨by unfold LayoutOK; decide, by unfold BlocksDisjoint; decide,
    (afterUse_eq_next_beforeUse_minus_defs 200 exampleCodeBlock exampleCfg (by decide)
      (by unfold LayoutOK; decide) (by unfold BlocksDisjoint; decide)).imp
      (fun _ h => ⟨h.1, fun s => by
        have e := (h.2 (1, 0) (by unfold ValidNode; decide) s).1 (by decide)
        have hd : nodeDefs exampleCodeBlock exampleCfg (1, 0) = [2] := by decide
        rw [hd] at e
        simpa using e⟩)⟩

/-- C24: in every state the fixpoint loop can reach, a visit of a block in a
pass after the first re-evaluates the block exactly when some successor has
`m_lastChangedEpoch` greater than the `m_lastCheckedEpoch` of the block;
otherwise the visit changes nothing, and the tail of the block already is the
union of the heads of its successors. A visit in the first pass re-evaluates
the block in any case. -/
theorem reevaluated_iff_successor_changed (codeBlock : CodeBlock)
    (cfUvInfo : DfgControlFlowAndUpvalueAnalysisResult) (bbInReverseOrder : List Nat)
    (st : FixpointState)
    (hst : Reachable (initialState codeBlock cfUvInfo bbInReverseOrder) st)
    (bbOrd : Nat) (hb : bbOrd < st.bbLivenessInfo.length) :
    (Reevaluated st (visitBlock false st bbOrd) bbOrd ↔
      ∃ s ∈ (st.bbLivenessInfo.getD bbOrd default).m_successors,
        (st.bbLivenessInfo.getD s default).m_lastChangedEpoch >
          (st.bbLivenessInfo.getD bbOrd default).m_lastCheckedEpoch) ∧
    (¬ Reevaluated st (visitBlock false st bbOrd) bbOrd →
      visitBlock false st bbOrd = st ∧
      ∀ i, (st.bbLivenessInfo.getD bbOrd default).m_atTail.IsSet i =
        (st.bbLivenessInfo.getD bbOrd default).m_successors.any
          (fun s => (st.bbLivenessInfo.getD s default).m_atHead.IsSet i)) ∧
    Reevaluated st (visitBlock true st bbOrd) bbOrd := by
  have hinv := hst.inv.1
  have hre : ∀ f, (f = true ∨ ∃ s ∈ succs st.bbLivenessInfo bbOrd,
        lastChecked st.bbLivenessInfo bbOrd < lastChanged st.bbLivenessInfo s) →
      Reevaluated st (visitBlock f st bbOrd) bbOrd := by
    intro f h
    have F := visitBlock_evaluated _ f st bbOrd hinv hb h
    refine ⟨?_, F.checked, fun i => F.tail i⟩
    rcases F.epoch_cases with ⟨_, _, e, _⟩ | ⟨_, _, e, _⟩ <;> omega
  have hskip : (¬ ∃ s ∈ (st.bbLivenessInfo.getD bbOrd default).m_successors,
        (st.bbLivenessInfo.getD s default).m_lastChangedEpoch >
          (st.bbLivenessInfo.getD bbOrd default).m_lastCheckedEpoch) →
      visitBlock false st bbOrd = st ∧
      ∀ i, (st.bbLivenessInfo.getD bbOrd default).m_atTail.IsSet i =
        (st.bbLivenessInfo.getD bbOrd default).m_successors.any
          (fun s => (st.bbLivenessInfo.getD s default).m_atHead.IsSet i) := by
    intro hno
    have hq : ∀ s ∈ succs st.bbLivenessInfo bbOrd,
        lastChanged st.bbLivenessInfo s ≤ lastChecked st.bbLivenessInfo bbOrd := by
      intro s hs
      by_contra hlt
      exact hno ⟨s, hs, by unfold lastChanged lastChecked at hlt; omega⟩
    refine ⟨visitBlock_skipped _ st bbOrd hinv hb hq, fun i => ?_⟩
    have h1 := hinv.tailSub bbOrd i
    have h2 := hinv.upToDate bbOrd hq i
    show tl st.bbLivenessInfo bbOrd i = unionBit st.bbLivenessInfo bbOrd i
    cases ht : tl st.bbLivenessInfo bbOrd i <;> cases hu : unionBit st.bbLivenessInfo bbOrd i
    · rfl
    · rw [h2 hu] at ht; exact Bool.noConfusion ht
    · rw [h1 ht] at hu; exact Bool.noConfusion hu
    · rfl
  have hiff : Reevaluated st (visitBlock false st bbOrd) bbOrd ↔
      ∃ s ∈ (st.bbLivenessInfo.getD bbOrd default).m_successors,
        (st.bbLivenessInfo.getD s default).m_lastChangedEpoch >
          (st.bbLivenessInfo.getD bbOrd default).m_lastCheckedEpoch := by
    constructor
    · intro hR
      by_contra hno
      have e := (hskip hno).1
      have hlt := hR.1
      rw [e] at hlt
      exact Nat.lt_irrefl _ hlt
    · rintro ⟨s, hs, hgt⟩
      exact hre false (Or.inr ⟨s, hs, hgt⟩)
  refine ⟨hiff, fun hnot => hskip (fun h => hnot (hiff.mpr h)), hre true (Or.inl rfl)⟩

/-- C24 on the example function: the first visit of the first pass
re-evaluates the block at position 0. -/
theorem reevaluated_iff_successor_changed_witness :
    Reachable (initialState exampleCodeBlock exampleCfg (sortBasicBlocks exampleCfg))
      (initialState exampleCodeBlock exampleCfg (sortBasicBlocks exampleCfg)) ∧
    Reevaluated (initialState exampleCodeBlock exampleCfg (sortBasicBlocks exampleCfg))
      (visitBlock true (initialState exampleCodeBlock exampleCfg (sortBasicBlocks exampleCfg)) 0)
      0 :=
  ⟨Reachable.start,
    (reevaluated_iff_successor_changed exampleCodeBlock exampleCfg (sortBasicBlocks exampleCfg) _
      Reachable.start 0 (by decide)).2.2⟩

/-- C25: in every state the fixpoint loop can reach, no epoch field exceeds the
epoch counter and no epoch is held by two fields. A visit never lowers the
counter and raises it whenever it changes the state; it lowers no
`m_lastCheckedEpoch` and no `m_lastChangedEpoch`; and every value it assigns to
such a field is greater than the counter at the start of the visit, hence
greater than every epoch assigned before, and at most the counter at its end. -/
theorem epochs_increase_and_are_fresh (codeBlock : CodeBlock)
    (cfUvInfo : DfgControlFlowAndUpvalueAnalysisResult) (bbInReverseOrder : List Nat)
    (st : FixpointState)
    (hst : Reachable (initialState codeBlock cfUvInfo bbInReverseOrder) st) :
    (∀ b, (st.bbLivenessInfo.getD b default).m_lastChangedEpoch ≤ st.currentEpoch ∧
      (st.bbLivenessInfo.getD b default).m_lastCheckedEpoch ≤ st.currentEpoch) ∧
    EpochsDistinct st.bbLivenessInfo ∧
    ∀ (isFirstIteration : Bool) (bbOrd : Nat), bbOrd < st.bbLivenessInfo.length →
      st.currentEpoch ≤ (visitBlock isFirstIteration st bbOrd).currentEpoch ∧
      (visitBlock isFirstIteration st bbOrd ≠ st →
        st.currentEpoch < (visitBlock isFirstIteration st bbOrd).currentEpoch) ∧
      ∀ b,
        (st.bbLivenessInfo.getD b default).m_lastCheckedEpoch ≤
          ((visitBlock isFirstIteration st bbOrd).bbLivenessInfo.getD b default).m_lastCheckedEpoch ∧
        (st.bbLivenessInfo.getD b default).m_lastChangedEpoch ≤
          ((visitBlock isFirstIteration st bbOrd).bbLivenessInfo.getD b default).m_lastChangedEpoch ∧
        (((visitBlock isFirstIteration st bbOrd).bbLivenessInfo.getD b default).m_lastCheckedEpoch ≠
            (st.bbLivenessInfo.getD b default).m_lastCheckedEpoch →
          st.currentEpoch <
            ((visitBlock isFirstIteration st bbOrd).bbLivenessInfo.getD b default).m_lastCheckedEpoch ∧
          ((visitBlock isFirstIteration st bbOrd).bbLivenessInfo.getD b default).m_lastCheckedEpoch ≤
            (visitBlock isFirstIteration st bbOrd).currentEpoch) ∧
        (((visitBlock isFirstIteration st bbOrd).bbLivenessInfo.getD b default).m_lastChangedEpoch ≠
            (st.bbLivenessInfo.getD b default).m_lastChangedEpoch →
          st.currentEpoch <
            ((visitBlock isFirstIteration st bbOrd).bbLivenessInfo.getD b default).m_lastChangedEpoch ∧
          ((visitBlock isFirstIteration st bbOrd).bbLivenessInfo.getD b default).m_lastChangedEpoch ≤
            (visitBlock isFirstIteration st bbOrd).currentEpoch) := by
  have hinv := hst.inv.1
  refine ⟨hinv.ep, hst.epochsDistinct, ?_⟩
  intro f bbOrd hb
  rcases visitBlock_cases _ f st bbOrd hinv hb with ⟨e, _, _⟩ | F
  · rw [e]
    exact ⟨le_refl _, fun h => absurd rfl h, fun b =>
      ⟨le_refl _, le_refl _, fun h => absurd rfl h, fun h => absurd rfl h⟩⟩
  · have hcur : st.currentEpoch < (visitBlock f st bbOrd).currentEpoch := by
      rcases F.epoch_cases with ⟨_, _, e, _⟩ | ⟨_, _, e, _⟩ <;> omega
    refine ⟨Nat.le_of_lt hcur, fun _ => hcur, ?_⟩
    intro b
    have hep := hinv.ep b
    unfold lastChanged lastChecked at hep
    by_cases hbb : b = bbOrd
    · subst hbb
      have hck := F.checked
      have hch : ((visitBlock f st b).bbLivenessInfo.getD b default).m_lastChangedEpoch =
            st.currentEpoch + 2 ∧ (visitBlock f st b).currentEpoch = st.currentEpoch + 2 ∨
          ((visitBlock f st b).bbLivenessInfo.getD b default).m_lastChangedEpoch =
            (st.bbLivenessInfo.getD b default).m_lastChangedEpoch := by
        rcases F.epoch_cases with ⟨_, e, e2, _⟩ | ⟨_, e, _⟩
        · exact Or.inl ⟨e, e2⟩
        · exact Or.inr e
      rw [hck]
      refine ⟨by omega, ?_, fun _ => ⟨by omega, by omega⟩, ?_⟩
      · rcases hch with ⟨e, _⟩ | e <;> omega
      · intro hne
        rcases hch with ⟨e, e2⟩ | e
        · omega
        · exact absurd e hne
    · rw [F.other b hbb]
      exact ⟨le_refl _, le_refl _, fun h => absurd rfl h, fun h => absurd rfl h⟩

/-- C25 on the example function: the first visit of the first pass raises the
epoch counter. -/
theorem epochs_increase_and_are_fresh_witness :
    Reachable (initialState exampleCodeBlock exampleCfg (sortBasicBlocks exampleCfg))
      (initialState exampleCodeBlock exampleCfg (sortBasicBlocks exampleCfg)) ∧
    (initialState exampleCodeBlock exampleCfg (sortBasicBlocks exampleCfg)).currentEpoch ≤
      (visitBlock true (initialState exampleCodeBlock exampleCfg (sortBasicBlocks exampleCfg))
        0).currentEpoch :=
  ⟨Reachable.start,
    ((epochs_increase_and_are_fresh exampleCodeBlock exampleCfg (sortBasicBlocks exampleCfg) _
      Reachable.start).2.2 true 0 (by decide)).1⟩

/-- C27: when every basic block is nonempty and within the function and no two
blocks share a bytecode, then for every block, at its position `b` in the
processing order, the before-use set of the first bytecode of the block is the
head `m_atHead` that the block has when the fixpoint loop exits, and the
after-use set of the last bytecode of the block is the tail `m_atTail` of the
block with the slots of the def list of that bytecode cleared. -/
theorem block_boundary_sets (fuel : Nat) (codeBlock : CodeBlock)
    (cfUvInfo : DfgControlFlowAndUpvalueAnalysisResult)
    (hfuel : passBound cfUvInfo.m_basicBlocks.length codeBlock.m_stackFrameNumSlots ≤ fuel)
    (hlay : LayoutOK codeBlock cfUvInfo) (hdis : BlocksDisjoint cfUvInfo) :
    ∃ st r,
      propagateToFixpoint fuel codeBlock cfUvInfo (sortBasicBlocks cfUvInfo) = some st ∧
      ComputeBytecodeLiveness fuel codeBlock cfUvInfo = some r ∧
      ∀ b, b < (sortBasicBlocks cfUvInfo).length →
        r.m_beforeUse.getD (blockOfOrd cfUvInfo (sortBasicBlocks cfUvInfo) b).m_bytecodeIndex
            default =
          (st.bbLivenessInfo.getD b default).m_atHead ∧
        r.m_afterUse.getD
            ((blockOfOrd cfUvInfo (sortBasicBlocks cfUvInfo) b).m_bytecodeIndex +
              ((blockOfOrd cfUvInfo (sortBasicBlocks cfUvInfo) b).m_numBytecodesInBB - 1))
            default =
          (defsOf codeBlock.decoder
            (instrOffset codeBlock.decoder (blockOfOrd cfUvInfo (sortBasicBlocks cfUvInfo) b)
              ((blockOfOrd cfUvInfo (sortBasicBlocks cfUvInfo) b).m_numBytecodesInBB - 1))).foldl
            ClearBit (st.bbLivenessInfo.getD b default).m_atTail := by
  obtain ⟨st, hp, F, hr⟩ := ComputeBytecodeLiveness_of_final fuel codeBlock cfUvInfo hfuel
  have hperm := sortBasicBlocks_perm cfUvInfo
  refine ⟨st, _, hp, hr, ?_⟩
  intro b hb
  refine ⟨result_first_eq_head F hperm hlay hdis b hb, ?_⟩
  have hmem : blockOfOrd cfUvInfo (sortBasicBlocks cfUvInfo) b ∈ cfUvInfo.m_basicBlocks :=
    blockOfOrd_mem cfUvInfo _ (fun p hp => List.mem_range.mp ((hperm.mem_iff).mp hp)) b hb
  have hpos := (hlay _ hmem).1
  obtain ⟨X, _, eX, _, hA⟩ := result_program_order F hperm hlay hdis b hb
    ((blockOfOrd cfUvInfo (sortBasicBlocks cfUvInfo) b).m_numBytecodesInBB - 1) (by omega)
  rw [if_neg (by omega)] at eX
  rw [hA, eX]

/-- C27 on the example function, for the block at position 1 of the processing
order, the bytecodes 2 and 3. -/
theorem block_boundary_sets_witness :
    LayoutOK exampleCodeBlock exampleCfg ∧ BlocksDisjoint exampleCfg ∧
    ∃ st r,
      propagateToFixpoint 200 exampleCodeBlock exampleCfg (sortBasicBlocks exampleCfg) =
        some st ∧
      ComputeBytecodeLiveness 200 exampleCodeBlock exampleCfg = some r ∧
      r.m_beforeUse.getD 2 default = (st.bbLivenessInfo.getD 1 default).m_atHead :=
  ⟨by unfold LayoutOK; decide, by unfold BlocksDisjoint; decide,
    (block_boundary_sets 200 exampleCodeBlock exampleCfg (by decide)
      (by unfold LayoutOK; decide) (by unfold BlocksDisjoint; decide)).imp
      (fun _ h => h.imp (fun _ g => ⟨g.1, g.2.1, (g.2.2 1 (by decide)).1⟩))⟩

/-- C28: when every basic block is nonempty and within the function and no two
blocks share a bytecode, then for the bytecode at position `k` of the block at
position `b` of the processing order: its after-use set is the before-use set
of the next bytecode of the block (the tail of the block, for the last
bytecode) with every slot of its def list cleared, and its before-use set is
its after-use set with every slot of its use list set. Hence the after-use set
is a subset of the before-use set, every slot below `numLocals` of the use
list is in the before-use set, and a slot of the def list that is not in the
use list is not in the before-use set. -/
theorem per_bytecode_sets (fuel : Nat) (codeBlock : CodeBlock)
    (cfUvInfo : DfgControlFlowAndUpvalueAnalysisResult)
    (hfuel : passBound cfUvInfo.m_basicBlocks.length codeBlock.m_stackFrameNumSlots ≤ fuel)
    (hlay : LayoutOK codeBlock cfUvInfo) (hdis : BlocksDisjoint cfUvInfo) :
    ∃ st r,
      propagateToFixpoint fuel codeBlock cfUvInfo (sortBasicBlocks cfUvInfo) = some st ∧
      ComputeBytecodeLiveness fuel codeBlock cfUvInfo = some r ∧
      ∀ b, b < (sortBasicBlocks cfUvInfo).length →
        ∀ k, k < (blockOfOrd cfUvInfo (sortBasicBlocks cfUvInfo) b).m_numBytecodesInBB →
          r.m_afterUse.getD
              ((blockOfOrd cfUvInfo (sortBasicBlocks cfUvInfo) b).m_bytecodeIndex + k) default =
            (defsOf codeBlock.decoder
              (instrOffset codeBlock.decoder (blockOfOrd cfUvInfo (sortBasicBlocks cfUvInfo) b)
                k)).foldl ClearBit
              (if k + 1 < (blockOfOrd cfUvInfo (sortBasicBlocks cfUvInfo) b).m_numBytecodesInBB
                then r.m_beforeUse.getD
                  ((blockOfOrd cfUvInfo (sortBasicBlocks cfUvInfo) b).m_bytecodeIndex + k + 1)
                  default
                else (st.bbLivenessInfo.getD b default).m_atTail) ∧
          r.m_beforeUse.getD
              ((blockOfOrd cfUvInfo (sortBasicBlocks cfUvInfo) b).m_bytecodeIndex + k) default =
            (usesOf codeBlock.decoder (blockOfOrd cfUvInfo (sortBasicBlocks cfUvInfo) b)
              codeBlock.m_stackFrameNumSlots
              (instrOffset codeBlock.decoder (blockOfOrd cfUvInfo (sortBasicBlocks cfUvInfo) b)
                k)).foldl SetBit
              (r.m_afterUse.getD
                ((blockOfOrd cfUvInfo (sortBasicBlocks cfUvInfo) b).m_bytecodeIndex + k)
                default) ∧
          ∀ s,
            ((r.m_afterUse.getD
                ((blockOfOrd cfUvInfo (sortBasicBlocks cfUvInfo) b).m_bytecodeIndex + k)
                default).IsSet s = true →
              (r.m_beforeUse.getD
                ((blockOfOrd cfUvInfo (sortBasicBlocks cfUvInfo) b).m_bytecodeIndex + k)
                default).IsSet s = true) ∧
            (s < codeBlock.m_stackFrameNumSlots →
              s ∈ usesOf codeBlock.decoder (blockOfOrd cfUvInfo (sortBasicBlocks cfUvInfo) b)
                codeBlock.m_stackFrameNumSlots
                (instrOffset codeBlock.decoder
                  (blockOfOrd cfUvInfo (sortBasicBlocks cfUvInfo) b) k) →
              (r.m_beforeUse.getD
                ((blockOfOrd cfUvInfo (sortBasicBlocks cfUvInfo) b).m_bytecodeIndex + k)
                default).IsSet s = true) ∧
            (s ∈ defsOf codeBlock.decoder
                (instrOffset codeBlock.decoder
                  (blockOfOrd cfUvInfo (sortBasicBlocks cfUvInfo) b) k) →
              s ∉ usesOf codeBlock.decoder (blockOfOrd cfUvInfo (sortBasicBlocks cfUvInfo) b)
                codeBlock.m_stackFrameNumSlots
                (instrOffset codeBlock.decoder
                  (blockOfOrd cfUvInfo (sortBasicBlocks cfUvInfo) b) k) →
              (r.m_beforeUse.getD
                ((blockOfOrd cfUvInfo (sortBasicBlocks cfUvInfo) b).m_bytecodeIndex + k)
                default).IsSet s = false) := by
  obtain ⟨st, hp, F, hr⟩ := ComputeBytecodeLiveness_of_final fuel codeBlock cfUvInfo hfuel
  have hperm := sortBasicBlocks_perm cfUvInfo
  refine ⟨st, _, hp, hr, ?_⟩
  intro b hb k hk
  obtain ⟨X, wX, eX, hB, hA⟩ := result_program_order F hperm hlay hdis b hb k hk
  have hBA : (materialize codeBlock.m_numBytecodes codeBlock.m_stackFrameNumSlots
        st.bbLivenessInfo).m_beforeUse.getD
        ((blockOfOrd cfUvInfo (sortBasicBlocks cfUvInfo) b).m_bytecodeIndex + k) default =
      (usesOf codeBlock.decoder (blockOfOrd cfUvInfo (sortBasicBlocks cfUvInfo) b)
        codeBlock.m_stackFrameNumSlots
        (instrOffset codeBlock.decoder (blockOfOrd cfUvInfo (sortBasicBlocks cfUvInfo) b)
          k)).foldl SetBit
        ((materialize codeBlock.m_numBytecodes codeBlock.m_stackFrameNumSlots
          st.bbLivenessInfo).m_afterUse.getD
          ((blockOfOrd cfUvInfo (sortBasicBlocks cfUvInfo) b).m_bytecodeIndex + k) default) := by
    rw [hB, hA]
    rfl
  refine ⟨by rw [hA, eX], hBA, ?_⟩
  intro s
  have wA := WFbv_foldl_ClearBit codeBlock.m_stackFrameNumSlots
    (defsOf codeBlock.decoder
      (instrOffset codeBlock.decoder (blockOfOrd cfUvInfo (sortBasicBlocks cfUvInfo) b) k)) X wX
  rw [hBA, IsSet_foldl_SetBit, hA]
  refine ⟨fun h => by rw [h]; rfl, fun hs hu => ?_, fun hd hu => ?_⟩
  · have hl : s / 64 < ((defsOf codeBlock.decoder
        (instrOffset codeBlock.decoder (blockOfOrd cfUvInfo (sortBasicBlocks cfUvInfo) b)
          k)).foldl ClearBit X).m_data.length := by
      rw [wA.2.1]; omega
    simp [hu, hl]
  · rw [IsSet_foldl_ClearBit]
    simp [hd, hu]

/-- C28 on the example function, for bytecode 2 (at offset 20), the first
bytecode of the block at position 1 of the processing order: its after-use set
is the before-use set of bytecode 3 with its def list cleared. -/
theorem per_bytecode_sets_witness :
    LayoutOK exampleCodeBlock exampleCfg ∧ BlocksDisjoint exampleCfg ∧
    ∃ st r,
      propagateToFixpoint 200 exampleCodeBlock exampleCfg (sortBasicBlocks exampleCfg) =
        some st ∧
      ComputeBytecodeLiveness 200 exampleCodeBlock exampleCfg = some r ∧
      r.m_afterUse.getD 2 default =
        (defsOf exampleCodeBlock.decoder 20).foldl ClearBit (r.m_beforeUse.getD 3 default) :=
  ⟨by unfold LayoutOK; decide, by unfold BlocksDisjoint; decide,
    (per_bytecode_sets 200 exampleCodeBlock exampleCfg (by decide)
      (by unfold LayoutOK; decide) (by unfold BlocksDisjoint; decide)).imp
      (fun _ h => h.imp (fun _ g => ⟨g.1, g.2.1, (g.2.2 1 (by decide) 0 (by decide)).1⟩))⟩

/-- C30: for every block without successors, at its position `b` in the
processing order, in the state in which the fixpoint loop exits the tail of
the block is the all-zero vector and the head of the block is its `m_orMask`,
the mask that the constructor computed. -/
theorem exit_block_tail_zero_head_orMask (fuel : Nat) (codeBlock : CodeBlock)
    (cfUvInfo : DfgControlFlowAndUpvalueAnalysisResult)
    (hfuel : passBound cfUvInfo.m_basicBlocks.length codeBlock.m_stackFrameNumSlots ≤ fuel) :
    ∃ st, propagateToFixpoint fuel codeBlock cfUvInfo (sortBasicBlocks cfUvInfo) = some st ∧
      ∀ b, b < (sortBasicBlocks cfUvInfo).length →
        (blockOfOrd cfUvInfo (sortBasicBlocks cfUvInfo) b).m_successors = [] →
        (st.bbLivenessInfo.getD b default).m_successors = [] ∧
        (st.bbLivenessInfo.getD b default).m_atTail =
          TempBitVector.Reset codeBlock.m_stackFrameNumSlots ∧
        (∀ i, (st.bbLivenessInfo.getD b default).m_atTail.IsSet i = false) ∧
        (st.bbLivenessInfo.getD b default).m_atHead =
          (st.bbLivenessInfo.getD b default).m_orMask ∧
        (st.bbLivenessInfo.getD b default).m_orMask =
          (BytecodeLivenessBBInfo.new codeBlock.decoder
            (blockOfOrd cfUvInfo (sortBasicBlocks cfUvInfo) b)
            codeBlock.m_stackFrameNumSlots).m_orMask := by
  obtain ⟨st, hp, F, _⟩ := ComputeBytecodeLiveness_of_final fuel codeBlock cfUvInfo hfuel
  refine ⟨st, hp, ?_⟩
  intro b hb hnil
  have I := initialHeap_facts codeBlock cfUvInfo (sortBasicBlocks cfUvInfo)
  have hlen : st.bbLivenessInfo.length = (sortBasicBlocks cfUvInfo).length := by
    have e1 := F.static.1; have e2 := I.len; omega
  have hb1 : b < st.bbLivenessInfo.length := by rw [hlen]; exact hb
  obtain ⟨wh, wt, _, wo⟩ := F.inv.wf b hb1
  have hsucc : succs st.bbLivenessInfo b = [] := by
    rw [(static_of_initial F.static b hb).1, hnil]
    rfl
  have htl : ∀ i, tl st.bbLivenessInfo b i = false := by
    intro i
    rw [F.tailEq b i]
    unfold unionBit
    rw [hsucc]
    rfl
  have hor : (st.bbLivenessInfo.getD b default).m_orMask =
      (BytecodeLivenessBBInfo.new codeBlock.decoder
        (blockOfOrd cfUvInfo (sortBasicBlocks cfUvInfo) b)
        codeBlock.m_stackFrameNumSlots).m_orMask := by
    obtain ⟨_, _, _, m2, _⟩ := I.block b hb
    have e := congrArg BytecodeLivenessBBInfo.m_orMask (F.static.2 b)
    simp only [BytecodeLivenessBBInfo.static] at e
    rw [e]
    exact m2
  refine ⟨hsucc, ?_, htl, ?_, hor⟩
  · apply WFbv_ext _ _ _ wt (WFbv_Reset _)
    intro i
    rw [IsSet_Reset]
    exact htl i
  · apply WFbv_ext _ _ _ wh wo
    intro i
    have h := F.headEq b i
    rw [htl i] at h
    unfold xfer hd at h
    rw [h]
    simp only [Bool.false_and, Bool.false_or]

/-- C30 on the example function: the block at position 0 of the processing
order, the block of bytecode 4, has no successors. -/
theorem exit_block_tail_zero_head_orMask_witness :
    ∃ st, propagateToFixpoint 200 exampleCodeBlock exampleCfg (sortBasicBlocks exampleCfg) =
        some st ∧
      (st.bbLivenessInfo.getD 0 default).m_atTail =
        TempBitVector.Reset exampleCodeBlock.m_stackFrameNumSlots ∧
      (st.bbLivenessInfo.getD 0 default).m_atHead = (st.bbLivenessInfo.getD 0 default).m_orMask :=
  (exit_block_tail_zero_head_orMask 200 exampleCodeBlock exampleCfg (by decide)).imp
    (fun _ h => ⟨h.1, (h.2 0 (by decide) (by decide)).2.1, (h.2 0 (by decide) (by decide)).2.2.2.1⟩)

/-- C29: for the block object that the constructor builds for a basic block
and for every slot `i < numLocals`: bit `i` of `m_orMask` is set exactly when
the first bytecode of the block, in program order, that mentions `i` (in
its def list or in its use list) has `i` in its use list; bit `i` of `m_andMask`
is clear exactly when that bytecode has `i` in its def list and not in its
use list; and when no bytecode of the block mentions `i`, bit `i` is set in
`m_andMask` and clear in `m_orMask`, so that the mask formula and
`ComputeHeadBasedOnTailFast` give the tail bit as the head bit. -/
theorem masks_by_first_mention (decoder : BytecodeDecoder) (bbInfo : BasicBlockUpvalueInfo)
    (numLocals : Nat) (i : Nat) (hi : i < numLocals) :
    ((BytecodeLivenessBBInfo.new decoder bbInfo numLocals).m_orMask.IsSet i = true ↔
      ∃ du, firstMention (blockInstrs decoder bbInfo numLocals) i = some du ∧ i ∈ du.2) ∧
    ((BytecodeLivenessBBInfo.new decoder bbInfo numLocals).m_andMask.IsSet i = false ↔
      ∃ du, firstMention (blockInstrs decoder bbInfo numLocals) i = some du ∧
        i ∈ du.1 ∧ i ∉ du.2) ∧
    (firstMention (blockInstrs decoder bbInfo numLocals) i = none →
      (BytecodeLivenessBBInfo.new decoder bbInfo numLocals).m_andMask.IsSet i = true ∧
      (BytecodeLivenessBBInfo.new decoder bbInfo numLocals).m_orMask.IsSet i = false ∧
      ∀ (bb : BytecodeLivenessBBInfo) (tmpBv : TempBitVector),
        bb.m_andMask = (BytecodeLivenessBBInfo.new decoder bbInfo numLocals).m_andMask →
        bb.m_orMask = (BytecodeLivenessBBInfo.new decoder bbInfo numLocals).m_orMask →
        tmpBv.m_length = numLocals →
        (bb.ComputeHeadBasedOnTailFast tmpBv).IsSet i = bb.m_atTail.IsSet i) := by
  obtain ⟨ea, eo⟩ := new_masks_replay decoder bbInfo numLocals
  rw [instrsRev_eq_reverse] at ea eo
  have wOne : WFbv numLocals ((TempBitVector.Reset numLocals).CopyFromEqualLengthBitVector
      (TempBitVector.Reset numLocals).SetAllOne) :=
    WFbv_CopyFromEqualLengthBitVector _ _ _ rfl (WFbv_SetAllOne _ _ rfl)
  have wZero : WFbv numLocals ((TempBitVector.Reset numLocals).CopyFromEqualLengthBitVector
      (TempBitVector.Reset numLocals).SetAllOne.Clear) :=
    WFbv_CopyFromEqualLengthBitVector _ _ _ rfl (WFbv_Clear _ _ rfl)
  have bOne : ((TempBitVector.Reset numLocals).CopyFromEqualLengthBitVector
      (TempBitVector.Reset numLocals).SetAllOne).IsSet i = true := by
    rw [IsSet_CopyFromEqualLengthBitVector, IsSet_SetAllOne]
    simp only [GetAllocLength, TempBitVector.Reset, decide_eq_true_eq]
    omega
  have bZero : ((TempBitVector.Reset numLocals).CopyFromEqualLengthBitVector
      (TempBitVector.Reset numLocals).SetAllOne.Clear).IsSet i = false := by
    rw [IsSet_CopyFromEqualLengthBitVector, IsSet_Clear]
  have hA := (IsSet_replay_firstMention numLocals _ wOne i hi
    (blockInstrs decoder bbInfo numLocals)).2
  have hO := (IsSet_replay_firstMention numLocals _ wZero i hi
    (blockInstrs decoder bbInfo numLocals)).2
  rw [← ea, bOne] at hA
  rw [← eo, bZero] at hO
  have hmem : ∀ du, firstMention (blockInstrs decoder bbInfo numLocals) i = some du →
      i ∈ du.1 ∨ i ∈ du.2 := by
    intro du h
    have := List.find?_some h
    simpa using this
  cases hf : firstMention (blockInstrs decoder bbInfo numLocals) i with
  | none =>
    rw [hf] at hA hO
    simp only at hA hO
    refine ⟨?_, ?_, ?_⟩
    · rw [hO]
      constructor
      · intro h; exact Bool.noConfusion h
      · rintro ⟨du, h, _⟩; exact Option.noConfusion h
    · rw [hA]
      constructor
      · intro h; exact Bool.noConfusion h
      · rintro ⟨du, h, _⟩; exact Option.noConfusion h
    · intro _
      refine ⟨hA, hO, ?_⟩
      intro bb tmpBv h1 h2 h3
      rw [BytecodeLivenessBBInfo.IsSet_ComputeHeadBasedOnTailFast, h1, h2, hA, hO]
      have : i / 64 < tmpBv.GetAllocLength := by
        simp only [GetAllocLength, h3]
        omega
      simp [this]
  | some du =>
    rw [hf] at hA hO
    simp only at hA hO
    have hm := hmem du hf
    refine ⟨?_, ?_, fun h => Option.noConfusion h⟩
    · rw [hO]
      constructor
      · intro h
        exact ⟨du, rfl, of_decide_eq_true h⟩
      · rintro ⟨du', h, hu⟩
        rw [← Option.some.inj h] at hu
        exact decide_eq_true hu
    · rw [hA]
      constructor
      · intro h
        have hu : i ∉ du.2 := of_decide_eq_false h
        exact ⟨du, rfl, hm.resolve_right hu, hu⟩
      · rintro ⟨du', h, _, hu⟩
        rw [← Option.some.inj h] at hu
        exact decide_eq_false hu

/-- C29 on the example function, for the basic block of the bytecodes 2 and 3
and the local 2: bytecode 2 mentions local 2 first, in its def list only, so
the bit is clear in both masks. -/
theorem masks_by_first_mention_witness :
    firstMention (blockInstrs exampleCodeBlock.decoder
      (exampleCfg.m_basicBlocks.getD 1 default) exampleCodeBlock.m_stackFrameNumSlots) 2 =
      some ([2], [1, 3]) ∧
    (BytecodeLivenessBBInfo.new exampleCodeBlock.decoder
      (exampleCfg.m_basicBlocks.getD 1 default)
      exampleCodeBlock.m_stackFrameNumSlots).m_andMask.IsSet 2 = false ∧
    ¬ (BytecodeLivenessBBInfo.new exampleCodeBlock.decoder
      (exampleCfg.m_basicBlocks.getD 1 default)
      exampleCodeBlock.m_stackFrameNumSlots).m_orMask.IsSet 2 = true :=
  have h := masks_by_first_mention exampleCodeBlock.decoder
    (exampleCfg.m_basicBlocks.getD 1 default) exampleCodeBlock.m_stackFrameNumSlots 2
    (by decide)
  ⟨by decide, h.2.1.mpr ⟨([2], [1, 3]), by decide, by decide, by decide⟩,
    fun hs => (h.1.mp hs).elim (fun du g => by
      have e : du = ([2], [1, 3]) := by
        have := g.1
        rw [(by decide : firstMention (blockInstrs exampleCodeBlock.decoder
          (exampleCfg.m_basicBlocks.getD 1 default) exampleCodeBlock.m_stackFrameNumSlots) 2 =
          some ([2], [1, 3]))] at this
        exact (Option.some.inj this).symm
      have := g.2
      rw [e] at this
      exact absurd this (by decide))⟩

theorem updateLoop_spec (pb pc len : Nat) (mem : Nat → Nat)
    (hdis : pb + len ≤ pc ∨ pc + len ≤ pb) : ∀ k, k ≤ len →
    (updateLoop pb pc k mem).1
        = (List.range k).any (fun i => decide (mem (pb + i) ≠ mem (pc + i))) ∧
      ∀ a, (updateLoop pb pc k mem).2 a
        = if pb ≤ a ∧ a < pb + k then mem (pc + (a - pb)) else mem a := by
  intro k
  induction k with
  | zero =>
    intro _
    refine ⟨rfl, fun a => ?_⟩
    rw [if_neg (by omega)]
    rfl
  | succ k ih =>
    intro hk
    obtain ⟨h1, h2⟩ := ih (by omega)
    have eb : (updateLoop pb pc k mem).2 (pb + k) = mem (pb + k) := by
      rw [h2, if_neg (by omega)]
    have ec : (updateLoop pb pc k mem).2 (pc + k) = mem (pc + k) := by
      rw [h2, if_neg (by omega)]
    constructor
    · show ((updateLoop pb pc k mem).1 ||
        decide ((updateLoop pb pc k mem).2 (pb + k) ≠ (updateLoop pb pc k mem).2 (pc + k))) = _
      rw [h1, eb, ec, List.range_succ, List.any_append]
      simp
    · intro a
      show Function.update (updateLoop pb pc k mem).2 (pb + k)
        ((updateLoop pb pc k mem).2 (pc + k)) a = _
      by_cases ha : a = pb + k
      · subst ha
        rw [Function.update_same, ec, if_pos (by omega)]
        congr 1
        omega
      · rw [Function.update_noteq ha, h2]
        by_cases hr : pb ≤ a ∧ a < pb + k
        · rw [if_pos hr, if_pos (by omega)]
        · rw [if_neg hr, if_neg (by omega)]

/-- C31: for two vectors of `n` bits in canonical storage, `copyFrom` a
superset of `bv`: the superset assertion of the function holds on every word,
the new value of `bv` is `copyFrom`, and the function returns true exactly when
`bv` and `copyFrom` were different, that is when some bit of the storage
differed (when the two storages agree on the padding bits from `n` on: when
some bit below `n` differed). Executed on a memory that holds the two storages
at disjoint places, the loop returns the same flag, leaves the words of
`copyFrom` and every word outside the storage of `bv` unchanged, and leaves the
storage of `bv` equal to the one of `copyFrom`. -/
theorem update_copies_and_reports_change (n : Nat) (bv copyFrom : TempBitVector)
    (hb : WFbv n bv) (hc : WFbv n copyFrom)
    (hsup : ∀ i, bv.IsSet i = true → copyFrom.IsSet i = true)
    (mem : Nat → Nat) (bvData copyFromData : Nat)
    (hdis : bvData + bv.GetAllocLength ≤ copyFromData ∨
      copyFromData + copyFrom.GetAllocLength ≤ bvData)
    (sb : StoredAt mem bvData bv) (sc : StoredAt mem copyFromData copyFrom) :
    UpdateAssertion bv copyFrom ∧
    (UpdateBitVectorAfterMonotonicPropagation bv copyFrom).2 = copyFrom ∧
    ((UpdateBitVectorAfterMonotonicPropagation bv copyFrom).1 = true ↔ bv ≠ copyFrom) ∧
    ((UpdateBitVectorAfterMonotonicPropagation bv copyFrom).1 = true ↔
      ∃ i, bv.IsSet i ≠ copyFrom.IsSet i) ∧
    ((∀ i, n ≤ i → bv.IsSet i = copyFrom.IsSet i) →
      ((UpdateBitVectorAfterMonotonicPropagation bv copyFrom).1 = true ↔
        ∃ i, i < n ∧ bv.IsSet i ≠ copyFrom.IsSet i)) ∧
    (updateLoop bvData copyFromData bv.GetAllocLength mem).1
      = (UpdateBitVectorAfterMonotonicPropagation bv copyFrom).1 ∧
    StoredAt (updateLoop bvData copyFromData bv.GetAllocLength mem).2 bvData copyFrom ∧
    StoredAt (updateLoop bvData copyFromData bv.GetAllocLength mem).2 copyFromData copyFrom ∧
    (∀ a, (a < bvData ∨ bvData + bv.GetAllocLength ≤ a) →
      (updateLoop bvData copyFromData bv.GetAllocLength mem).2 a = mem a) := by
  have hlen : copyFrom.GetAllocLength = bv.GetAllocLength := by
    unfold GetAllocLength
    rw [hb.1, hc.1]
  have hfst : (UpdateBitVectorAfterMonotonicPropagation bv copyFrom).1 = true ↔ bv ≠ copyFrom := by
    rw [Update_fst n bv copyFrom hb hc]
    exact decide_eq_true_iff
  have hbit := ne_iff_exists_bit n bv copyFrom hb hc
  rw [hlen] at hdis
  obtain ⟨m1, m2⟩ := updateLoop_spec bvData copyFromData bv.GetAllocLength mem hdis
    bv.GetAllocLength (le_refl _)
  refine ⟨UpdateAssertion_of_subset bv copyFrom hb.2.2 hsup, Update_snd n bv copyFrom hb hc,
    hfst, hfst.trans hbit, ?_, ?_, ?_, ?_, ?_⟩
  · intro hpad
    rw [hfst, hbit]
    constructor
    · rintro ⟨i, hi⟩
      refine ⟨i, ?_, hi⟩
      by_contra hge
      exact hi (hpad i (by omega))
    · rintro ⟨i, _, hi⟩
      exact ⟨i, hi⟩
  · rw [m1]
    unfold UpdateBitVectorAfterMonotonicPropagation
    simp only [foldl_or_eq_any, Bool.false_or]
    apply Bool.eq_iff_iff.mpr
    rw [List.any_eq_true, List.any_eq_true]
    constructor
    · rintro ⟨i, hi, h⟩
      have hi2 : i < bv.GetAllocLength := List.mem_range.mp hi
      rw [sb i hi2, sc i (by omega)] at h
      exact ⟨i, hi, h⟩
    · rintro ⟨i, hi, h⟩
      have hi2 : i < bv.GetAllocLength := List.mem_range.mp hi
      rw [← sb i hi2, ← sc i (by omega)] at h
      exact ⟨i, hi, h⟩
  · intro i hi
    rw [m2, if_pos (by omega)]
    have e : copyFromData + (bvData + i - bvData) = copyFromData + i := by omega
    rw [e]
    exact sc i hi
  · intro i hi
    rw [m2, if_neg (by omega)]
    exact sc i hi
  · intro a ha
    rw [m2, if_neg (by omega)]

/-- Witness for C31: the empty vector of 3 bits stored at word 0 is updated
from the vector with bit 0 set stored at word 8. -/
theorem update_copies_and_reports_change_witness :
    UpdateAssertion (TempBitVector.Reset 3) ((TempBitVector.Reset 3).SetBit 0) ∧
    (UpdateBitVectorAfterMonotonicPropagation (TempBitVector.Reset 3)
      ((TempBitVector.Reset 3).SetBit 0)).2 = (TempBitVector.Reset 3).SetBit 0 ∧
    (UpdateBitVectorAfterMonotonicPropagation (TempBitVector.Reset 3)
      ((TempBitVector.Reset 3).SetBit 0)).1 = true ∧
    (updateLoop 0 8 1 exampleUpdateMemory).1 = true ∧
    (updateLoop 0 8 1 exampleUpdateMemory).2 0 = 1 ∧
    (updateLoop 0 8 1 exampleUpdateMemory).2 8 = 1 := by
  have h := update_copies_and_reports_change 3 (TempBitVector.Reset 3)
    ((TempBitVector.Reset 3).SetBit 0) (WFbv_Reset 3) (WFbv_SetBit 3 _ 0 (WFbv_Reset 3))
    (fun i hi => by rw [IsSet_Reset] at hi; cases hi)
    exampleUpdateMemory 0 8 (Or.inl (by decide))
    (fun i hi => by
      have h0 : i = 0 := by
        have : (TempBitVector.Reset 3).GetAllocLength = 1 := by decide
        omega
      subst h0
      decide)
    (fun i hi => by
      have h0 : i = 0 := by
        have : ((TempBitVector.Reset 3).SetBit 0).GetAllocLength = 1 := by decide
        omega
      subst h0
      decide)
  refine ⟨h.1, h.2.1, h.2.2.1.mpr (by decide), ?_, ?_, ?_⟩
  · rw [show (1 : Nat) = (TempBitVector.Reset 3).GetAllocLength from by decide]
    rw [h.2.2.2.2.2.1]
    exact h.2.2.1.mpr (by decide)
  · have := h.2.2.2.2.2.2.1 0 (by decide)
    exact this
  · have := h.2.2.2.2.2.2.2.1 0 (by decide)
    exact this

end dfg

/-! # Theorems on the bytecode handlers -/

namespace ToyLang

theorem store_apply (stack : Nat → Nat) (addr value a : Nat) :
    store stack addr value a = if a = addr then value else stack a := rfl

theorem SafeMemcpy_apply (stack : Nat → Nat) (dst src n a : Nat) :
    SafeMemcpy stack dst src n a =
      if dst ≤ a ∧ a < dst + n then stack (src + (a - dst)) else stack a := rfl

theorem nilFillLoop_apply (nil pbegin : Nat) :
    ∀ (fuel idx : Nat) (stack : Nat → Nat), x_minNilFillReturnValues - idx ≤ fuel → ∀ a,
      nilFillLoop nil pbegin fuel idx stack a =
        if pbegin + idx ≤ a ∧ a < pbegin + x_minNilFillReturnValues then nil else stack a := by
  intro fuel
  induction fuel with
  | zero =>
    intro idx stack h a
    have : ¬ (pbegin + idx ≤ a ∧ a < pbegin + x_minNilFillReturnValues) := by omega
    simp only [nilFillLoop, if_neg this]
  | succ fuel ih =>
    intro idx stack h a
    unfold nilFillLoop
    by_cases hlt : idx < x_minNilFillReturnValues
    · rw [if_pos hlt, ih (idx + 1) _ (by omega) a, store_apply]
      by_cases h1 : pbegin + (idx + 1) ≤ a ∧ a < pbegin + x_minNilFillReturnValues
      · rw [if_pos h1, if_pos (by omega)]
      · rw [if_neg h1]
        by_cases h2 : a = pbegin + idx
        · rw [if_pos h2, if_pos (by omega)]
        · rw [if_neg h2, if_neg (by omega)]
    · rw [if_neg hlt, if_neg (by omega)]

theorem nilPadLoop_apply (nil : Nat) :
    ∀ (fuel p e : Nat) (stack : Nat → Nat), e - p ≤ fuel → ∀ a,
      nilPadLoop nil fuel p e stack a = if p ≤ a ∧ a < e then nil else stack a := by
  intro fuel
  induction fuel with
  | zero =>
    intro p e stack h a
    have : ¬ (p ≤ a ∧ a < e) := by omega
    simp only [nilPadLoop, if_neg this]
  | succ fuel ih =>
    intro p e stack h a
    unfold nilPadLoop
    by_cases hlt : p < e
    · rw [if_pos hlt, ih (p + 1) e _ (by omega) a, store_apply]
      by_cases h1 : p + 1 ≤ a ∧ a < e
      · rw [if_pos h1, if_pos (by omega)]
      · rw [if_neg h1]
        by_cases h2 : a = p
        · rw [if_pos h2, if_pos (by omega)]
        · rw [if_neg h2, if_neg (by omega)]
    · rw [if_neg hlt, if_neg (by omega)]

theorem retNilLoop_apply (nil dst numFixedRets : Nat) :
    ∀ (fuel n : Nat) (stack : Nat → Nat), numFixedRets - n ≤ fuel → ∀ a,
      retNilLoop nil dst numFixedRets fuel n stack a =
        if dst + n ≤ a ∧ a < dst + numFixedRets then nil else stack a := by
  intro fuel
  induction fuel with
  | zero =>
    intro n stack h a
    have : ¬ (dst + n ≤ a ∧ a < dst + numFixedRets) := by omega
    simp only [retNilLoop, if_neg this]
  | succ fuel ih =>
    intro n stack h a
    unfold retNilLoop
    by_cases hlt : n < numFixedRets
    · rw [if_pos hlt, ih (n + 1) _ (by omega) a, store_apply]
      by_cases h1 : dst + (n + 1) ≤ a ∧ a < dst + numFixedRets
      · rw [if_pos h1, if_pos (by omega)]
      · rw [if_neg h1]
        by_cases h2 : a = dst + n
        · rw [if_pos h2, if_pos (by omega)]
        · rw [if_neg h2, if_neg (by omega)]
    · rw [if_neg hlt, if_neg (by omega)]

theorem GetLocalAddr_of_LocalOrd (sfp : Nat) (slot : BytecodeSlot) (ord : Nat)
    (h : slot.LocalOrd = some ord) : StackFrameHeader.GetLocalAddr sfp slot = some (sfp + ord) := by
  unfold StackFrameHeader.GetLocalAddr
  rw [h]

/-- A non-variadic `BcReturn`: the state it leaves and the call it makes. -/
theorem BcReturn_Execute_fixed (env : Env) (st : State) (sfp bcu n b : Nat)
    (slot : BytecodeSlot) (hcode : env.code bcu = some (Bytecode.BcReturn false n slot))
    (hslot : slot.LocalOrd = some b) :
    BcReturn.Execute env st sfp bcu =
      some (State.mk (nilFillLoop env.ops.Nil (sfp + b) x_minNilFillReturnValues n st.stack)
          (invalidateVariadicRets env st.rc) st.heap,
        Next.call
          (StackFrameHeader.m_retAddr
            (nilFillLoop env.ops.Nil (sfp + b) x_minNilFillReturnValues n st.stack)
            (StackFrameHeader.GetStackFrameHeader sfp))
          (StackFrameHeader.m_caller
            (nilFillLoop env.ops.Nil (sfp + b) x_minNilFillReturnValues n st.stack)
            (StackFrameHeader.GetStackFrameHeader sfp))
          (sfp + b) n) := by
  unfold BcReturn.Execute
  simp only [hcode, GetLocalAddr_of_LocalOrd sfp slot b hslot]
  rfl

theorem Dispatch_BcConstant (env : Env) (st : State) (stackframe bcu k value : Nat)
    (dst : BytecodeSlot) (hcode : env.code bcu = some (Bytecode.BcConstant dst value))
    (hdst : dst.LocalOrd = some k) :
    Dispatch env st stackframe bcu =
      some (State.mk (store st.stack (stackframe + k) value) st.rc st.heap,
        Next.dispatch stackframe (bcu + sizeofBcConstant)) := by
  simp only [Dispatch, hcode, BcConstant.Execute, GetLocalAddr_of_LocalOrd _ _ _ hdst]

theorem Dispatch_BcAddVV (env : Env) (st : State) (stackframe bcu i j k : Nat)
    (lhs rhs result : BytecodeSlot) (hcode : env.code bcu = some (Bytecode.BcAddVV lhs rhs result))
    (hl : lhs.LocalOrd = some i) (hr : rhs.LocalOrd = some j) (hres : result.LocalOrd = some k)
    (hdl : env.ops.IsDouble (st.stack (stackframe + i)) = true)
    (hdr : env.ops.IsDouble (st.stack (stackframe + j)) = true) :
    Dispatch env st stackframe bcu =
      some (State.mk (store st.stack (stackframe + k)
          (env.ops.CreateDouble (env.ops.fadd (env.ops.AsDouble (st.stack (stackframe + i)))
            (env.ops.AsDouble (st.stack (stackframe + j)))))) st.rc st.heap,
        Next.dispatch stackframe (bcu + sizeofBcAddVV)) := by
  simp only [Dispatch, hcode, BcAddVV.Execute, StackFrameHeader.GetLocal,
    GetLocalAddr_of_LocalOrd _ _ _ hl, GetLocalAddr_of_LocalOrd _ _ _ hr,
    GetLocalAddr_of_LocalOrd _ _ _ hres, hdl, hdr, Bool.and_self, if_true]

theorem Dispatch_BcReturn_fixed (env : Env) (st : State) (sfp bcu n b : Nat)
    (slot : BytecodeSlot) (hcode : env.code bcu = some (Bytecode.BcReturn false n slot))
    (hslot : slot.LocalOrd = some b) :
    Dispatch env st sfp bcu =
      some (State.mk (nilFillLoop env.ops.Nil (sfp + b) x_minNilFillReturnValues n st.stack)
          (invalidateVariadicRets env st.rc) st.heap,
        Next.call
          (StackFrameHeader.m_retAddr
            (nilFillLoop env.ops.Nil (sfp + b) x_minNilFillReturnValues n st.stack)
            (StackFrameHeader.GetStackFrameHeader sfp))
          (StackFrameHeader.m_caller
            (nilFillLoop env.ops.Nil (sfp + b) x_minNilFillReturnValues n st.stack)
            (StackFrameHeader.GetStackFrameHeader sfp))
          (sfp + b) n) := by
  have h := BcReturn_Execute_fixed env st sfp bcu n b slot hcode hslot
  simp only [Dispatch, hcode]
  exact h

/-- `BcCall::OnReturn` for a call that keeps a fixed number of results: the
words it writes and the dispatch it makes. -/
theorem OnReturn_fixedRets (env : Env) (st : State) (stackframe retValues numRetValues : Nat)
    (pass : Bool) (F R k : Nat) (funcSlot : BytecodeSlot)
    (hEc : (env.executableOf (StackFrameHeader.m_func st.stack
      (StackFrameHeader.GetStackFrameHeader stackframe))).IsBytecodeFunction = true)
    (hcode : env.code ((env.executableOf (StackFrameHeader.m_func st.stack
        (StackFrameHeader.GetStackFrameHeader stackframe))).m_bytecode +
        StackFrameHeader.m_callerBytecodeOffset st.stack
          (StackFrameHeader.GetStackFrameHeader stackframe)) =
      some (Bytecode.BcCall false pass F R funcSlot))
    (hslot : funcSlot.LocalOrd = some k) :
    ∃ st', BcCall.OnReturn env st stackframe retValues numRetValues =
        some (st', Next.dispatch stackframe
          ((env.executableOf (StackFrameHeader.m_func st.stack
            (StackFrameHeader.GetStackFrameHeader stackframe))).m_bytecode +
            StackFrameHeader.m_callerBytecodeOffset st.stack
              (StackFrameHeader.GetStackFrameHeader stackframe) + sizeofBcCall)) ∧
      st'.rc = st.rc ∧
      ∀ a, st'.stack a =
        if stackframe + k ≤ a ∧ a < stackframe + k + R then
          if R ≤ x_minNilFillReturnValues ∨ a - (stackframe + k) < numRetValues then
            st.stack (retValues + (a - (stackframe + k)))
          else env.ops.Nil
        else st.stack a := by
  unfold BcCall.OnReturn
  simp only [hEc, not_true_eq_false, if_false, hcode, Bool.false_eq_true,
    GetLocalAddr_of_LocalOrd _ _ _ hslot]
  refine ⟨_, rfl, rfl, ?_⟩
  intro a
  simp only
  by_cases h3 : R ≤ x_minNilFillReturnValues
  · rw [if_pos h3, SafeMemcpy_apply]
    by_cases hin : stackframe + k ≤ a ∧ a < stackframe + k + R
    · rw [if_pos hin, if_pos hin, if_pos (Or.inl h3)]
    · rw [if_neg hin, if_neg hin]
  · rw [if_neg h3]
    by_cases hn : numRetValues < R
    · rw [if_pos hn, retNilLoop_apply _ _ _ _ _ _ (by omega), SafeMemcpy_apply]
      by_cases hin : stackframe + k ≤ a ∧ a < stackframe + k + R
      · rw [if_pos hin]
        by_cases hlt : a - (stackframe + k) < numRetValues
        · rw [if_neg (by omega), if_pos (by omega), if_pos (Or.inr hlt)]
        · rw [if_pos (by omega), if_neg (by omega)]
      · rw [if_neg hin, if_neg (by omega), if_neg (by omega)]
    · rw [if_neg hn, SafeMemcpy_apply]
      by_cases hin : stackframe + k ≤ a ∧ a < stackframe + k + R
      · rw [if_pos hin, if_pos hin, if_pos (Or.inr (by omega))]
      · rw [if_neg hin, if_neg hin]

theorem set_m_callerBytecodeOffset_apply (stack : Nat → Nat) (hdr value a : Nat) :
    StackFrameHeader.set_m_callerBytecodeOffset stack hdr value a =
      if a = hdr + 3 then stack (hdr + 3) / 2 ^ 32 * 2 ^ 32 + value % 2 ^ 32 else stack a := rfl

theorem set_m_numVariadicArguments_apply (stack : Nat → Nat) (hdr value a : Nat) :
    StackFrameHeader.set_m_numVariadicArguments stack hdr value a =
      if a = hdr + 3 then value % 2 ^ 32 * 2 ^ 32 + stack (hdr + 3) % 2 ^ 32 else stack a := rfl

theorem nilPadLoop_offset (nil base t e : Nat) (stack : Nat → Nat) (a : Nat) :
    nilPadLoop nil (e - t) (base + t) (base + e) stack a =
      if base + t ≤ a ∧ a < base + e then nil else stack a :=
  nilPadLoop_apply nil (e - t) (base + t) (base + e) stack (by omega) a

theorem setUpVarArgs_base (stack : Nat → Nat) (sfEnd begin varRetbegin V : Nat) (pass : Bool)
    (F T E : Nat) :
    (BcCall.setUpVarArgs stack sfEnd begin varRetbegin V pass F T E).2 =
      sfEnd + x_sizeOfStackFrameHeaderInTermsOfTValue + (T - E) := by
  unfold BcCall.setUpVarArgs
  simp only
  by_cases h : T > E
  · rw [if_pos h, if_pos h]
  · rw [if_neg h]
    omega

/-- The stack after the branch for a callee that takes variadic arguments, word
by word. -/
theorem setUpVarArgs_stack (stack : Nat → Nat) (sfEnd begin varRetbegin V : Nat) (pass : Bool)
    (F T E : Nat) (hT : T = if pass then F + V else F)
    (hsrc : begin ≤ sfEnd + x_sizeOfStackFrameHeaderInTermsOfTValue) :
    (∀ i, i < T →
      (BcCall.setUpVarArgs stack sfEnd begin varRetbegin V pass F T E).1
        (sfEnd + x_sizeOfStackFrameHeaderInTermsOfTValue + (T - E) + i) =
      if i < F then stack (begin + i) else stack (varRetbegin + (i - F))) ∧
    (∀ j, j < T - E →
      (BcCall.setUpVarArgs stack sfEnd begin varRetbegin V pass F T E).1 (sfEnd + j) =
      if E + j < F then stack (begin + (E + j)) else stack (varRetbegin + (E + j - F))) ∧
    (BcCall.setUpVarArgs stack sfEnd begin varRetbegin V pass F T E).1
        (sfEnd + x_sizeOfStackFrameHeaderInTermsOfTValue + (T - E) - 1) / 2 ^ 32 % 2 ^ 32 =
      (T - E) % 2 ^ 32 ∧
    (∀ a, a < sfEnd →
      (BcCall.setUpVarArgs stack sfEnd begin varRetbegin V pass F T E).1 a = stack a) ∧
    (∀ a, sfEnd + x_sizeOfStackFrameHeaderInTermsOfTValue + (T - E) + T ≤ a →
      (BcCall.setUpVarArgs stack sfEnd begin varRetbegin V pass F T E).1 a = stack a) := by
  unfold x_sizeOfStackFrameHeaderInTermsOfTValue at hsrc ⊢
  have hbase : (if T > E then sfEnd + 4 + (T - E) else sfEnd + 4) = sfEnd + 4 + (T - E) := by
    by_cases h : T > E
    · rw [if_pos h]
    · rw [if_neg h]; omega
  have hnv : (if T > E then T - E else 0) = T - E := by
    by_cases h : T > E
    · rw [if_pos h]
    · rw [if_neg h]; omega
  -- the stack after the two copies to the frame base
  have key : ∀ i, i < T →
      SafeMemcpy (if pass = true then
          SafeMemcpy stack (sfEnd + 4 + (T - E) + F) varRetbegin V else stack)
        (sfEnd + 4 + (T - E)) begin F (sfEnd + 4 + (T - E) + i) =
      if i < F then stack (begin + i) else stack (varRetbegin + (i - F)) := by
    intro i hi
    rw [SafeMemcpy_apply]
    by_cases hiF : i < F
    · rw [if_pos (by omega), if_pos hiF]
      have e : begin + (sfEnd + 4 + (T - E) + i - (sfEnd + 4 + (T - E))) = begin + i := by omega
      rw [e]
      cases pass
      · simp only [Bool.false_eq_true, if_false]
      · simp only [if_true]
        rw [SafeMemcpy_apply, if_neg (by omega)]
    · rw [if_neg (by omega), if_neg hiF]
      cases pass
      · simp only [Bool.false_eq_true, if_false] at hT
        omega
      · simp only [if_true] at hT ⊢
        rw [SafeMemcpy_apply, if_pos (by omega)]
        congr 1
        omega
  have low : ∀ a, a < sfEnd + 4 + (T - E) →
      SafeMemcpy (if pass = true then
          SafeMemcpy stack (sfEnd + 4 + (T - E) + F) varRetbegin V else stack)
        (sfEnd + 4 + (T - E)) begin F a = stack a := by
    intro a ha
    rw [SafeMemcpy_apply, if_neg (by omega)]
    cases pass
    · simp only [Bool.false_eq_true, if_false]
    · simp only [if_true]
      rw [SafeMemcpy_apply, if_neg (by omega)]
  have high : ∀ a, sfEnd + 4 + (T - E) + T ≤ a →
      SafeMemcpy (if pass = true then
          SafeMemcpy stack (sfEnd + 4 + (T - E) + F) varRetbegin V else stack)
        (sfEnd + 4 + (T - E)) begin F a = stack a := by
    intro a ha
    cases pass
    · simp only [Bool.false_eq_true, if_false] at hT ⊢
      rw [SafeMemcpy_apply, if_neg (by omega)]
    · simp only [if_true] at hT ⊢
      rw [SafeMemcpy_apply, if_neg (by omega), SafeMemcpy_apply, if_neg (by omega)]
  unfold BcCall.setUpVarArgs
  simp only [x_sizeOfStackFrameHeaderInTermsOfTValue, hnv, hbase]
  refine ⟨?_, ?_, ?_, ?_, ?_⟩
  · intro i hi
    rw [set_m_numVariadicArguments_apply, if_neg (by omega)]
    by_cases h : T > E
    · rw [if_pos h, SafeMemcpy_apply, if_neg (by omega)]
      exact key i hi
    · rw [if_neg h]
      exact key i hi
  · intro j hj
    rw [set_m_numVariadicArguments_apply, if_neg (by omega), if_pos (by omega), SafeMemcpy_apply,
      if_pos (by omega)]
    have e : sfEnd + 4 + (T - E) + E + (sfEnd + j - sfEnd) = sfEnd + 4 + (T - E) + (E + j) := by
      omega
    rw [e]
    exact key (E + j) (by omega)
  · rw [set_m_numVariadicArguments_apply, if_pos (by omega)]
    omega
  · intro a ha
    rw [set_m_numVariadicArguments_apply, if_neg (by omega)]
    by_cases h : T > E
    · rw [if_pos h, SafeMemcpy_apply, if_neg (by omega)]
      exact low a (by omega)
    · rw [if_neg h]
      exact low a (by omega)
  · intro a ha
    rw [set_m_numVariadicArguments_apply, if_neg (by omega)]
    by_cases h : T > E
    · rw [if_pos h, SafeMemcpy_apply, if_neg (by omega)]
      exact high a ha
    · rw [if_neg h]
      exact high a ha

theorem setUpVarArgs_low (stack : Nat → Nat) (sfEnd begin varRetbegin V : Nat) (pass : Bool)
    (F T E : Nat) :
    sfEnd + x_sizeOfStackFrameHeaderInTermsOfTValue ≤
      (BcCall.setUpVarArgs stack sfEnd begin varRetbegin V pass F T E).2 ∧
    ∀ a, a < sfEnd →
      (BcCall.setUpVarArgs stack sfEnd begin varRetbegin V pass F T E).1 a = stack a := by
  refine ⟨by rw [setUpVarArgs_base]; omega, ?_⟩
  intro a ha
  unfold BcCall.setUpVarArgs
  unfold x_sizeOfStackFrameHeaderInTermsOfTValue
  simp only
  rw [set_m_numVariadicArguments_apply, if_neg (by split <;> omega)]
  have low : ∀ b, sfEnd + 4 ≤ b →
      SafeMemcpy (if pass = true then SafeMemcpy stack (b + F) varRetbegin V else stack)
        b begin F a = stack a := by
    intro b hb
    rw [SafeMemcpy_apply, if_neg (by omega)]
    cases pass
    · simp only [Bool.false_eq_true, if_false]
    · simp only [if_true]
      rw [SafeMemcpy_apply, if_neg (by omega)]
  by_cases h : T > E
  · simp only [if_pos h]
    rw [SafeMemcpy_apply, if_neg (by omega)]
    exact low _ (by omega)
  · simp only [if_neg h]
    exact low _ (by omega)

theorem copyFixedArgs_low (stack : Nat → Nat) (base begin varRetbegin V : Nat) (pass : Bool)
    (F E : Nat) :
    (BcCall.copyFixedArgs stack base begin varRetbegin V pass F E).2 = base ∧
    ∀ a, a < base →
      (BcCall.copyFixedArgs stack base begin varRetbegin V pass F E).1 a = stack a := by
  refine ⟨rfl, ?_⟩
  intro a ha
  unfold BcCall.copyFixedArgs
  simp only
  rw [SafeMemcpy_apply, if_neg (by omega)]
  cases pass
  · simp only [Bool.false_eq_true, if_false]
  · simp only [if_true]
    by_cases h : E > F
    · rw [if_pos h, SafeMemcpy_apply, if_neg (by omega)]
    · rw [if_neg h]

/-- Every `BcCall::Execute` that finds a function in its function slot: the call
it makes, the two headers after it, and the caller frame. -/
theorem BcCall_Execute_headers (env : Env) (st : State) (sfp bcu : Nat)
    (keep pass : Bool) (F R k : Nat) (funcSlot : BytecodeSlot)
    (hsfp : x_sizeOfStackFrameHeaderInTermsOfTValue ≤ sfp)
    (hcode : env.code bcu = some (Bytecode.BcCall keep pass F R funcSlot))
    (hslot : funcSlot.LocalOrd = some k)
    (hEc : (env.executableOf (StackFrameHeader.m_func st.stack
      (StackFrameHeader.GetStackFrameHeader sfp))).IsBytecodeFunction = true)
    (hstart : (env.executableOf (StackFrameHeader.m_func st.stack
      (StackFrameHeader.GetStackFrameHeader sfp))).m_bytecode ≤ bcu)
    (hoff : bcu - (env.executableOf (StackFrameHeader.m_func st.stack
      (StackFrameHeader.GetStackFrameHeader sfp))).m_bytecode < 2 ^ 32)
    (hptr : env.ops.IsPointer (st.stack (sfp + k)) = true)
    (hfn : env.isFunctionObject (env.ops.AsPointer (st.stack (sfp + k))) = true) :
    ∃ st' base, BcCall.Execute env st sfp bcu =
        some (st', Next.call
          (env.executableOf (env.ops.AsPointer (st.stack (sfp + k)))).m_bestEntryPoint base
          (env.executableOf (env.ops.AsPointer (st.stack (sfp + k)))).m_bytecode 0) ∧
      st'.rc = st.rc ∧
      sfp + (env.executableOf (StackFrameHeader.m_func st.stack
        (StackFrameHeader.GetStackFrameHeader sfp))).m_stackFrameNumSlots +
        x_sizeOfStackFrameHeaderInTermsOfTValue ≤ base ∧
      StackFrameHeader.m_caller st'.stack (StackFrameHeader.GetStackFrameHeader base) = sfp ∧
      StackFrameHeader.m_retAddr st'.stack (StackFrameHeader.GetStackFrameHeader base) =
        env.x_OnReturn ∧
      StackFrameHeader.m_func st'.stack (StackFrameHeader.GetStackFrameHeader base) =
        env.ops.AsPointer (st.stack (sfp + k)) ∧
      StackFrameHeader.m_callerBytecodeOffset st'.stack (StackFrameHeader.GetStackFrameHeader sfp) =
        bcu - (env.executableOf (StackFrameHeader.m_func st.stack
          (StackFrameHeader.GetStackFrameHeader sfp))).m_bytecode ∧
      StackFrameHeader.m_func st'.stack (StackFrameHeader.GetStackFrameHeader sfp) =
        StackFrameHeader.m_func st.stack (StackFrameHeader.GetStackFrameHeader sfp) ∧
      ∀ a, sfp ≤ a → a < sfp + (env.executableOf (StackFrameHeader.m_func st.stack
        (StackFrameHeader.GetStackFrameHeader sfp))).m_stackFrameNumSlots →
        st'.stack a = st.stack a := by
  unfold x_sizeOfStackFrameHeaderInTermsOfTValue at hsfp
  generalize hmf : StackFrameHeader.m_func st.stack (StackFrameHeader.GetStackFrameHeader sfp) = mf
    at hEc hstart hoff ⊢
  generalize hcallerEc : env.executableOf mf = callerEc at hEc hstart hoff ⊢
  have hs0 : ∀ a, a ≠ sfp - 1 → StackFrameHeader.set_m_callerBytecodeOffset st.stack
      (StackFrameHeader.GetStackFrameHeader sfp) (bcu - callerEc.m_bytecode) a = st.stack a := by
    intro a ha
    rw [set_m_callerBytecodeOffset_apply, if_neg]
    unfold StackFrameHeader.GetStackFrameHeader x_sizeOfStackFrameHeaderInTermsOfTValue
    omega
  have hs1 : StackFrameHeader.set_m_callerBytecodeOffset st.stack
      (StackFrameHeader.GetStackFrameHeader sfp) (bcu - callerEc.m_bytecode) (sfp - 1) % 2 ^ 32 =
      bcu - callerEc.m_bytecode := by
    rw [set_m_callerBytecodeOffset_apply, if_pos]
    · omega
    · unfold StackFrameHeader.GetStackFrameHeader x_sizeOfStackFrameHeaderInTermsOfTValue
      omega
  generalize hs0def : StackFrameHeader.set_m_callerBytecodeOffset st.stack
      (StackFrameHeader.GetStackFrameHeader sfp) (bcu - callerEc.m_bytecode) = s0 at hs0 hs1
  generalize hcalleeEc : env.executableOf (env.ops.AsPointer (st.stack (sfp + k))) = calleeEc
  generalize hN : callerEc.m_stackFrameNumSlots = N
  generalize hTdef : (if pass = true then (F + st.rc.m_numVariadicRets) % 2 ^ 32 else F) = T
  -- the stack and the frame base after the arguments are placed
  have hplaced : ∃ placed : (Nat → Nat) × Nat,
      (if calleeEc.m_hasVariadicArguments = true then
        BcCall.setUpVarArgs s0 (sfp + N) (sfp + k + 1) (sfp + st.rc.m_variadicRetSlotBegin)
          st.rc.m_numVariadicRets pass F T calleeEc.m_numFixedArguments
      else
        BcCall.copyFixedArgs s0 (sfp + N + x_sizeOfStackFrameHeaderInTermsOfTValue) (sfp + k + 1)
          (sfp + st.rc.m_variadicRetSlotBegin) st.rc.m_numVariadicRets pass F
          calleeEc.m_numFixedArguments) = placed ∧
      sfp + N + 4 ≤ placed.2 ∧ ∀ a, a < sfp + N → placed.1 a = s0 a := by
    refine ⟨_, rfl, ?_⟩
    by_cases hv : calleeEc.m_hasVariadicArguments = true
    · rw [if_pos hv]
      have := setUpVarArgs_low s0 (sfp + N) (sfp + k + 1) (sfp + st.rc.m_variadicRetSlotBegin)
        st.rc.m_numVariadicRets pass F T calleeEc.m_numFixedArguments
      unfold x_sizeOfStackFrameHeaderInTermsOfTValue at this
      exact this
    · rw [if_neg hv]
      have := copyFixedArgs_low s0 (sfp + N + x_sizeOfStackFrameHeaderInTermsOfTValue)
        (sfp + k + 1) (sfp + st.rc.m_variadicRetSlotBegin) st.rc.m_numVariadicRets pass F
        calleeEc.m_numFixedArguments
      unfold x_sizeOfStackFrameHeaderInTermsOfTValue at this ⊢
      refine ⟨by rw [this.1], fun a ha => this.2 a (by omega)⟩
  obtain ⟨placed, hpl, hb, hlow⟩ := hplaced
  unfold BcCall.Execute
  simp only [hcode, hmf, hcallerEc, hEc, not_true_eq_false, if_false,
    GetLocalAddr_of_LocalOrd _ _ _ hslot, hs0def, hs0 (sfp + k) (by omega), hptr, hfn, if_true,
    hcalleeEc, hN, hTdef, hpl]
  rw [if_neg (by omega)]
  have hfin : ∀ a, a < sfp + N →
      store (store (store (if T < calleeEc.m_numFixedArguments then
        nilPadLoop env.ops.Nil (calleeEc.m_numFixedArguments - T) (placed.2 + T)
          (placed.2 + calleeEc.m_numFixedArguments) placed.1 else placed.1)
        (placed.2 - x_sizeOfStackFrameHeaderInTermsOfTValue) sfp)
        (placed.2 - x_sizeOfStackFrameHeaderInTermsOfTValue + 1) env.x_OnReturn)
        (placed.2 - x_sizeOfStackFrameHeaderInTermsOfTValue + 2)
        (env.ops.AsPointer (st.stack (sfp + k))) a = s0 a := by
    intro a ha
    unfold x_sizeOfStackFrameHeaderInTermsOfTValue
    rw [store_apply, if_neg (by omega), store_apply, if_neg (by omega), store_apply,
      if_neg (by omega)]
    by_cases hpad : T < calleeEc.m_numFixedArguments
    · rw [if_pos hpad, nilPadLoop_offset, if_neg (by omega)]
      exact hlow a ha
    · rw [if_neg hpad]
      exact hlow a ha
  refine ⟨_, _, rfl, rfl, ?_, ?_, ?_, ?_, ?_, ?_, ?_⟩
  · unfold x_sizeOfStackFrameHeaderInTermsOfTValue
    exact hb
  · unfold StackFrameHeader.m_caller StackFrameHeader.GetStackFrameHeader
    unfold x_sizeOfStackFrameHeaderInTermsOfTValue
    simp only
    rw [store_apply, if_neg (by omega), store_apply, if_neg (by omega), store_apply, if_pos rfl]
  · unfold StackFrameHeader.m_retAddr StackFrameHeader.GetStackFrameHeader
    unfold x_sizeOfStackFrameHeaderInTermsOfTValue
    simp only
    rw [store_apply, if_neg (by omega), store_apply, if_pos rfl]
  · unfold StackFrameHeader.m_func StackFrameHeader.GetStackFrameHeader
    unfold x_sizeOfStackFrameHeaderInTermsOfTValue
    simp only
    rw [store_apply, if_pos rfl]
  · unfold StackFrameHeader.m_callerBytecodeOffset StackFrameHeader.GetStackFrameHeader
    simp only
    have e : sfp - x_sizeOfStackFrameHeaderInTermsOfTValue + 3 = sfp - 1 := by
      unfold x_sizeOfStackFrameHeaderInTermsOfTValue; omega
    rw [e, hfin _ (by omega), hs1]
  · rw [← hmf]
    unfold StackFrameHeader.m_func StackFrameHeader.GetStackFrameHeader
    simp only
    have e : sfp - x_sizeOfStackFrameHeaderInTermsOfTValue + 2 = sfp - 2 := by
      unfold x_sizeOfStackFrameHeaderInTermsOfTValue; omega
    rw [e, hfin _ (by omega), hs0 _ (by omega)]
  · intro a h1 h2
    simp only
    rw [hfin a h2, hs0 a (by omega)]

/-- Every `BcReturn::Execute`: it calls the return address of the frame header
with the caller frame of the header, and writes nothing below the frame. -/
theorem BcReturn_Execute_any (env : Env) (st : State) (sfp bcu : Nat) (isVar : Bool)
    (n b : Nat) (slot : BytecodeSlot)
    (hsfp : x_sizeOfStackFrameHeaderInTermsOfTValue ≤ sfp)
    (hcode : env.code bcu = some (Bytecode.BcReturn isVar n slot))
    (hslot : slot.LocalOrd = some b)
    (hv : isVar = true → st.rc.m_numVariadicRets ≠ 2 ^ 32 - 1) :
    ∃ st', BcReturn.Execute env st sfp bcu =
        some (st', Next.call
          (StackFrameHeader.m_retAddr st.stack (StackFrameHeader.GetStackFrameHeader sfp))
          (StackFrameHeader.m_caller st.stack (StackFrameHeader.GetStackFrameHeader sfp))
          (sfp + b) (if isVar then (n + st.rc.m_numVariadicRets) % 2 ^ 32 else n)) ∧
      ∀ a, a < sfp → st'.stack a = st.stack a := by
  unfold x_sizeOfStackFrameHeaderInTermsOfTValue at hsfp
  unfold BcReturn.Execute
  simp only [hcode, GetLocalAddr_of_LocalOrd _ _ _ hslot]
  cases isVar
  · simp only [Bool.false_eq_true, if_false]
    have hkeep : ∀ a, a < sfp →
        nilFillLoop env.ops.Nil (sfp + b) x_minNilFillReturnValues n st.stack a = st.stack a := by
      intro a ha
      rw [nilFillLoop_apply _ _ _ _ _ (by omega), if_neg (by omega)]
    refine ⟨State.mk (nilFillLoop env.ops.Nil (sfp + b) x_minNilFillReturnValues n st.stack)
      (invalidateVariadicRets env st.rc) st.heap, ?_, hkeep⟩
    unfold StackFrameHeader.m_retAddr StackFrameHeader.m_caller
      StackFrameHeader.GetStackFrameHeader x_sizeOfStackFrameHeaderInTermsOfTValue
    rw [hkeep _ (by omega), hkeep _ (by omega)]
  · simp only [if_true, if_neg (hv rfl)]
    have hkeep : ∀ a, a < sfp →
        nilFillLoop env.ops.Nil (sfp + b) x_minNilFillReturnValues
          ((n + st.rc.m_numVariadicRets) % 2 ^ 32)
          (SafeMemcpy st.stack (sfp + b + n) (sfp + st.rc.m_variadicRetSlotBegin)
            st.rc.m_numVariadicRets) a = st.stack a := by
      intro a ha
      rw [nilFillLoop_apply _ _ _ _ _ (by omega), if_neg (by omega), SafeMemcpy_apply,
        if_neg (by omega)]
    refine ⟨State.mk (nilFillLoop env.ops.Nil (sfp + b) x_minNilFillReturnValues
        ((n + st.rc.m_numVariadicRets) % 2 ^ 32)
        (SafeMemcpy st.stack (sfp + b + n) (sfp + st.rc.m_variadicRetSlotBegin)
          st.rc.m_numVariadicRets))
      (invalidateVariadicRets env st.rc) st.heap, ?_, hkeep⟩
    unfold StackFrameHeader.m_retAddr StackFrameHeader.m_caller
      StackFrameHeader.GetStackFrameHeader x_sizeOfStackFrameHeaderInTermsOfTValue
    rw [hkeep _ (by omega), hkeep _ (by omega)]

/-- Every `BcCall::OnReturn` dispatches to the instruction after the `BcCall`
whose offset is stored in the header of the frame. -/
theorem OnReturn_dispatch (env : Env) (st : State) (stackframe retValues numRetValues : Nat)
    (keep pass : Bool) (F R k : Nat) (funcSlot : BytecodeSlot)
    (hEc : (env.executableOf (StackFrameHeader.m_func st.stack
      (StackFrameHeader.GetStackFrameHeader stackframe))).IsBytecodeFunction = true)
    (hcode : env.code ((env.executableOf (StackFrameHeader.m_func st.stack
        (StackFrameHeader.GetStackFrameHeader stackframe))).m_bytecode +
        StackFrameHeader.m_callerBytecodeOffset st.stack
          (StackFrameHeader.GetStackFrameHeader stackframe)) =
      some (Bytecode.BcCall keep pass F R funcSlot))
    (hslot : funcSlot.LocalOrd = some k)
    (hkeep : keep = true → numRetValues < 2 ^ 32 ∧ stackframe ≤ retValues ∧
      retValues - stackframe < 2 ^ 32) :
    ∃ st', BcCall.OnReturn env st stackframe retValues numRetValues =
        some (st', Next.dispatch stackframe
          ((env.executableOf (StackFrameHeader.m_func st.stack
            (StackFrameHeader.GetStackFrameHeader stackframe))).m_bytecode +
            StackFrameHeader.m_callerBytecodeOffset st.stack
              (StackFrameHeader.GetStackFrameHeader stackframe) + sizeofBcCall)) := by
  cases keep
  · obtain ⟨st', h, _⟩ := OnReturn_fixedRets env st stackframe retValues numRetValues pass F R k
      funcSlot hEc hcode hslot
    exact ⟨st', h⟩
  · obtain ⟨h1, h2, h3⟩ := hkeep rfl
    unfold BcCall.OnReturn
    simp only [hEc, not_true_eq_false, if_false, hcode, if_true]
    rw [if_neg (by omega), if_neg (by omega)]
    exact ⟨_, rfl⟩

/-! ## The handlers at operands they do not handle -/

theorem BcTableGetById_not_table (env : Env) (st : State) (sfp bcu k : Nat)
    (m_base m_dst : BytecodeSlot) (m_index : Nat)
    (hcode : env.code bcu = some (Bytecode.BcTableGetById m_base m_dst m_index))
    (hbase : m_base.LocalOrd = some k)
    (hnot : ¬ (env.ops.IsPointer (st.stack (sfp + k)) = true ∧
      env.isTableObject (env.ops.AsPointer (st.stack (sfp + k))) = true)) :
    BcTableGetById.Execute env st sfp bcu = none := by
  unfold BcTableGetById.Execute
  simp only [hcode, GetLocalAddr_of_LocalOrd _ _ _ hbase]
  by_cases hc : env.ops.IsPointer (env.m_constants m_index) = true
  · by_cases hp : env.ops.IsPointer (st.stack (sfp + k)) = true
    · have ht : ¬ env.isTableObject (env.ops.AsPointer (st.stack (sfp + k))) = true :=
        fun h => hnot ⟨hp, h⟩
      simp [hc, hp, ht]
    · simp [hc, hp]
  · simp [hc]

theorem BcTablePutById_not_table (env : Env) (st : State) (sfp bcu k : Nat)
    (m_base m_src : BytecodeSlot) (m_index : Nat)
    (hcode : env.code bcu = some (Bytecode.BcTablePutById m_base m_src m_index))
    (hbase : m_base.LocalOrd = some k)
    (hnot : ¬ (env.ops.IsPointer (st.stack (sfp + k)) = true ∧
      env.isTableObject (env.ops.AsPointer (st.stack (sfp + k))) = true)) :
    BcTablePutById.Execute env st sfp bcu = none := by
  unfold BcTablePutById.Execute
  simp only [hcode, GetLocalAddr_of_LocalOrd _ _ _ hbase]
  by_cases hc : env.ops.IsPointer (env.m_constants m_index) = true
  · by_cases hp : env.ops.IsPointer (st.stack (sfp + k)) = true
    · have ht : ¬ env.isTableObject (env.ops.AsPointer (st.stack (sfp + k))) = true :=
        fun h => hnot ⟨hp, h⟩
      simp [hc, hp, ht]
    · simp [hc, hp]
  · simp [hc]

theorem BcTableGetByVal_not_table (env : Env) (st : State) (sfp bcu k : Nat)
    (m_base m_index m_dst : BytecodeSlot)
    (hcode : env.code bcu = some (Bytecode.BcTableGetByVal m_base m_index m_dst))
    (hbase : m_base.LocalOrd = some k)
    (hnot : ¬ (env.ops.IsPointer (st.stack (sfp + k)) = true ∧
      env.isTableObject (env.ops.AsPointer (st.stack (sfp + k))) = true)) :
    BcTableGetByVal.Execute env st sfp bcu = none := by
  unfold BcTableGetByVal.Execute
  simp only [hcode, GetLocalAddr_of_LocalOrd _ _ _ hbase]
  by_cases hp : env.ops.IsPointer (st.stack (sfp + k)) = true
  · have ht : ¬ env.isTableObject (env.ops.AsPointer (st.stack (sfp + k))) = true :=
      fun h => hnot ⟨hp, h⟩
    simp [hp, ht]
  · simp [hp]

theorem BcTablePutByVal_not_table (env : Env) (st : State) (sfp bcu k : Nat)
    (m_base m_index m_src : BytecodeSlot)
    (hcode : env.code bcu = some (Bytecode.BcTablePutByVal m_base m_index m_src))
    (hbase : m_base.LocalOrd = some k)
    (hnot : ¬ (env.ops.IsPointer (st.stack (sfp + k)) = true ∧
      env.isTableObject (env.ops.AsPointer (st.stack (sfp + k))) = true)) :
    BcTablePutByVal.Execute env st sfp bcu = none := by
  unfold BcTablePutByVal.Execute
  simp only [hcode, GetLocalAddr_of_LocalOrd _ _ _ hbase]
  by_cases hp : env.ops.IsPointer (st.stack (sfp + k)) = true
  · have ht : ¬ env.isTableObject (env.ops.AsPointer (st.stack (sfp + k))) = true :=
      fun h => hnot ⟨hp, h⟩
    simp [hp, ht]
  · simp [hp]

theorem BcTableGetByVal_bad_index (env : Env) (st : State) (sfp bcu k i : Nat)
    (m_base m_index m_dst : BytecodeSlot)
    (hcode : env.code bcu = some (Bytecode.BcTableGetByVal m_base m_index m_dst))
    (hbase : m_base.LocalOrd = some k) (hindex : m_index.LocalOrd = some i)
    (h32 : env.ops.IsInt32 (st.stack (sfp + i)) = false)
    (hdbl : env.ops.IsDouble (st.stack (sfp + i)) = false)
    (hptr : env.ops.IsPointer (st.stack (sfp + i)) = false) :
    BcTableGetByVal.Execute env st sfp bcu = none := by
  unfold BcTableGetByVal.Execute
  simp only [hcode, GetLocalAddr_of_LocalOrd _ _ _ hbase, GetLocalAddr_of_LocalOrd _ _ _ hindex,
    h32, hdbl, hptr]
  by_cases hp : env.ops.IsPointer (st.stack (sfp + k)) = true
  · by_cases ht : env.isTableObject (env.ops.AsPointer (st.stack (sfp + k))) = true
    · simp [hp, ht]
    · simp [hp, ht]
  · simp [hp]

theorem BcTablePutByVal_bad_index (env : Env) (st : State) (sfp bcu k i : Nat)
    (m_base m_index m_src : BytecodeSlot)
    (hcode : env.code bcu = some (Bytecode.BcTablePutByVal m_base m_index m_src))
    (hbase : m_base.LocalOrd = some k) (hindex : m_index.LocalOrd = some i)
    (h32 : env.ops.IsInt32 (st.stack (sfp + i)) = false)
    (hdbl : env.ops.IsDouble (st.stack (sfp + i)) = false)
    (hptr : env.ops.IsPointer (st.stack (sfp + i)) = false) :
    BcTablePutByVal.Execute env st sfp bcu = none := by
  unfold BcTablePutByVal.Execute
  simp only [hcode, GetLocalAddr_of_LocalOrd _ _ _ hbase, GetLocalAddr_of_LocalOrd _ _ _ hindex]
  by_cases hp : env.ops.IsPointer (st.stack (sfp + k)) = true
  · by_cases ht : env.isTableObject (env.ops.AsPointer (st.stack (sfp + k))) = true
    · cases hs : StackFrameHeader.GetLocalAddr sfp m_src with
      | none => simp [hp, ht]
      | some src => simp [hp, ht, h32, hdbl, hptr]
    · simp [hp, ht]
  · simp [hp]

theorem BcAddVV_not_double (env : Env) (st : State) (sfp bcu i j : Nat)
    (m_lhs m_rhs m_result : BytecodeSlot)
    (hcode : env.code bcu = some (Bytecode.BcAddVV m_lhs m_rhs m_result))
    (hl : m_lhs.LocalOrd = some i) (hr : m_rhs.LocalOrd = some j)
    (hnot : ¬ (env.ops.IsDouble (st.stack (sfp + i)) = true ∧
      env.ops.IsDouble (st.stack (sfp + j)) = true)) :
    BcAddVV.Execute env st sfp bcu = unimplemented env st := by
  unfold BcAddVV.Execute
  simp only [hcode, StackFrameHeader.GetLocal, GetLocalAddr_of_LocalOrd _ _ _ hl,
    GetLocalAddr_of_LocalOrd _ _ _ hr]
  rw [if_neg]
  simpa using hnot

theorem BcSubVV_not_double (env : Env) (st : State) (sfp bcu i j : Nat)
    (m_lhs m_rhs m_result : BytecodeSlot)
    (hcode : env.code bcu = some (Bytecode.BcSubVV m_lhs m_rhs m_result))
    (hl : m_lhs.LocalOrd = some i) (hr : m_rhs.LocalOrd = some j)
    (hnot : ¬ (env.ops.IsDouble (st.stack (sfp + i)) = true ∧
      env.ops.IsDouble (st.stack (sfp + j)) = true)) :
    BcSubVV.Execute env st sfp bcu = unimplemented env st := by
  unfold BcSubVV.Execute
  simp only [hcode, StackFrameHeader.GetLocal, GetLocalAddr_of_LocalOrd _ _ _ hl,
    GetLocalAddr_of_LocalOrd _ _ _ hr]
  rw [if_neg]
  simpa using hnot

theorem BcIsLTVV_not_double (env : Env) (st : State) (sfp bcu i j : Nat)
    (m_lhs m_rhs : BytecodeSlot) (m_offset : Int)
    (hcode : env.code bcu = some (Bytecode.BcIsLTVV m_lhs m_rhs m_offset))
    (hl : m_lhs.LocalOrd = some i) (hr : m_rhs.LocalOrd = some j)
    (hnot : ¬ (env.ops.IsDouble (st.stack (sfp + i)) = true ∧
      env.ops.IsDouble (st.stack (sfp + j)) = true)) :
    BcIsLTVV.Execute env st sfp bcu = unimplemented env st := by
  unfold BcIsLTVV.Execute
  simp only [hcode, StackFrameHeader.GetLocal, GetLocalAddr_of_LocalOrd _ _ _ hl,
    GetLocalAddr_of_LocalOrd _ _ _ hr]
  rw [if_neg]
  simpa using hnot

theorem BcCall_not_function (env : Env) (st : State) (sfp bcu k : Nat)
    (keep pass : Bool) (F R : Nat) (funcSlot : BytecodeSlot)
    (hsfp : x_sizeOfStackFrameHeaderInTermsOfTValue ≤ sfp)
    (hcode : env.code bcu = some (Bytecode.BcCall keep pass F R funcSlot))
    (hslot : funcSlot.LocalOrd = some k)
    (hEc : (env.executableOf (StackFrameHeader.m_func st.stack
      (StackFrameHeader.GetStackFrameHeader sfp))).IsBytecodeFunction = true)
    (hstart : (env.executableOf (StackFrameHeader.m_func st.stack
      (StackFrameHeader.GetStackFrameHeader sfp))).m_bytecode ≤ bcu)
    (hoff : bcu - (env.executableOf (StackFrameHeader.m_func st.stack
      (StackFrameHeader.GetStackFrameHeader sfp))).m_bytecode < 2 ^ 32)
    (hnot : ¬ (env.ops.IsPointer (st.stack (sfp + k)) = true ∧
      env.isFunctionObject (env.ops.AsPointer (st.stack (sfp + k))) = true)) :
    BcCall.Execute env st sfp bcu =
      unimplemented env
        (State.mk
          (StackFrameHeader.set_m_callerBytecodeOffset st.stack
            (StackFrameHeader.GetStackFrameHeader sfp)
            (bcu - (env.executableOf (StackFrameHeader.m_func st.stack
              (StackFrameHeader.GetStackFrameHeader sfp))).m_bytecode))
          st.rc st.heap) := by
  have hfunc : StackFrameHeader.set_m_callerBytecodeOffset st.stack
      (StackFrameHeader.GetStackFrameHeader sfp)
      (bcu - (env.executableOf (StackFrameHeader.m_func st.stack
        (StackFrameHeader.GetStackFrameHeader sfp))).m_bytecode) (sfp + k) = st.stack (sfp + k) := by
    unfold StackFrameHeader.set_m_callerBytecodeOffset StackFrameHeader.GetStackFrameHeader
    unfold x_sizeOfStackFrameHeaderInTermsOfTValue at hsfp ⊢
    rw [store_apply, if_neg (by omega)]
  unfold BcCall.Execute
  simp only [hcode, hEc, not_true_eq_false, if_false, GetLocalAddr_of_LocalOrd _ _ _ hslot]
  rw [if_neg (by omega)]
  simp only [hfunc]
  by_cases hp : env.ops.IsPointer (st.stack (sfp + k)) = true
  · have hf : ¬ env.isFunctionObject (env.ops.AsPointer (st.stack (sfp + k))) = true :=
      fun h => hnot ⟨hp, h⟩
    rw [if_pos hp, if_neg hf]
  · rw [if_neg hp]

/-- C12: a `BcReturn` without variadic part that returns `n` values starting at
slot `b` runs to its tail call; afterwards every slot `b + idx` with
`n ≤ idx < 3` holds the nil immediate, the slots `b .. b + n - 1` and every
other word of the stack are unchanged, and nothing is written when `n ≥ 3`. -/
theorem BcReturn_fills_nil_up_to_three (env : Env) (st : State) (sfp bcu n b : Nat)
    (slot : BytecodeSlot) (hcode : env.code bcu = some (Bytecode.BcReturn false n slot))
    (hslot : slot.LocalOrd = some b) :
    ∃ st' nxt, BcReturn.Execute env st sfp bcu = some (st', nxt) ∧
      (∀ idx, n ≤ idx → idx < x_minNilFillReturnValues →
        st'.stack (sfp + b + idx) = env.ops.Nil) ∧
      (∀ i, i < n → st'.stack (sfp + b + i) = st.stack (sfp + b + i)) ∧
      (∀ a, ¬ (sfp + b + n ≤ a ∧ a < sfp + b + x_minNilFillReturnValues) →
        st'.stack a = st.stack a) ∧
      (x_minNilFillReturnValues ≤ n → st'.stack = st.stack) := by
  refine ⟨_, _, BcReturn_Execute_fixed env st sfp bcu n b slot hcode hslot, ?_, ?_, ?_, ?_⟩
  · intro idx h1 h2
    show nilFillLoop env.ops.Nil (sfp + b) x_minNilFillReturnValues n st.stack (sfp + b + idx) = _
    rw [nilFillLoop_apply _ _ _ _ _ (by omega), if_pos (by omega)]
  · intro i hi
    show nilFillLoop env.ops.Nil (sfp + b) x_minNilFillReturnValues n st.stack (sfp + b + i) = _
    rw [nilFillLoop_apply _ _ _ _ _ (by omega), if_neg (by omega)]
  · intro a ha
    show nilFillLoop env.ops.Nil (sfp + b) x_minNilFillReturnValues n st.stack a = _
    rw [nilFillLoop_apply _ _ _ _ _ (by omega), if_neg ha]
  · intro hn
    funext a
    show nilFillLoop env.ops.Nil (sfp + b) x_minNilFillReturnValues n st.stack a = _
    rw [nilFillLoop_apply _ _ _ _ _ (by omega), if_neg (by omega)]

/-- C12 on the example machine: the `BcReturn` at 3000 returns one value from
slot 0 of the frame at 20; slots 1 and 2 receive nil, slots 0 and 3 keep their
content. -/
theorem BcReturn_fills_nil_up_to_three_witness :
    ∃ st' nxt, BcReturn.Execute exampleEnv ⟨exampleStack [], ⟨0, 0⟩, exampleHeap⟩ 20 3000 = some (st', nxt) ∧
      st'.stack 20 = 120 ∧ st'.stack 21 = exampleOps.Nil ∧ st'.stack 22 = exampleOps.Nil ∧
      st'.stack 23 = 123 :=
  (BcReturn_fills_nil_up_to_three exampleEnv ⟨exampleStack [], ⟨0, 0⟩, exampleHeap⟩ 20 3000 1 0
    (BytecodeSlot.Local 0) (by decide) (by decide)).imp
    (fun _ h => h.imp (fun _ g => ⟨g.1,
      (g.2.2.1 0 (by decide)).trans (by decide),
      g.2.1 1 (by decide) (by decide),
      g.2.1 2 (by decide) (by decide),
      (g.2.2.2.1 23 (by decide)).trans (by decide)⟩))

/-- C13: from `EnterInterpreter` on a frame at `sfp`, the sequence
`BcConstant(dst=0, 5.0); BcConstant(dst=1, 3.0); BcAddVV(lhs=0, rhs=1, result=2);
BcReturn(slotBegin=2, numReturnValues=1)` ends in the call of the return handler
stored in the frame header, with the caller frame pointer of the header, a
result pointer at slot 2 and count 1; slot 2 holds the double 8.0 and slots 3
and 4 hold nil. The `TValue` operations are parameters: boxing a double and
unboxing it gives the double back, and the sum of the doubles 5.0 and 3.0 is
8.0. -/
theorem constant_add_return_scenario (fuel : Nat) (env : Env) (st : State) (sfp bcu : Nat)
    (hfuel : 4 ≤ fuel) (hsfp : x_sizeOfStackFrameHeaderInTermsOfTValue ≤ sfp)
    (h0 : env.code bcu =
      some (Bytecode.BcConstant (BytecodeSlot.Local 0) (env.ops.CreateDouble double5)))
    (h1 : env.code (bcu + sizeofBcConstant) =
      some (Bytecode.BcConstant (BytecodeSlot.Local 1) (env.ops.CreateDouble double3)))
    (h2 : env.code (bcu + sizeofBcConstant + sizeofBcConstant) =
      some (Bytecode.BcAddVV (BytecodeSlot.Local 0) (BytecodeSlot.Local 1) (BytecodeSlot.Local 2)))
    (h3 : env.code (bcu + sizeofBcConstant + sizeofBcConstant + sizeofBcAddVV) =
      some (Bytecode.BcReturn false 1 (BytecodeSlot.Local 2)))
    (hIs : ∀ d, env.ops.IsDouble (env.ops.CreateDouble d) = true)
    (hAs : ∀ d, env.ops.AsDouble (env.ops.CreateDouble d) = d)
    (hadd : env.ops.fadd double5 double3 = double8) :
    ∃ st', EnterInterpreter fuel env st sfp bcu =
        some (st', Next.call
          (StackFrameHeader.m_retAddr st.stack (StackFrameHeader.GetStackFrameHeader sfp))
          (StackFrameHeader.m_caller st.stack (StackFrameHeader.GetStackFrameHeader sfp))
          (sfp + 2) 1) ∧
      st'.stack (sfp + 2) = env.ops.CreateDouble double8 ∧
      st'.stack (sfp + 3) = env.ops.Nil ∧ st'.stack (sfp + 4) = env.ops.Nil := by
  obtain ⟨f, rfl⟩ : ∃ f, fuel = f + 4 := ⟨fuel - 4, by omega⟩
  have l0 : (BytecodeSlot.Local 0).LocalOrd = some 0 := by decide
  have l1 : (BytecodeSlot.Local 1).LocalOrd = some 1 := by decide
  have l2 : (BytecodeSlot.Local 2).LocalOrd = some 2 := by decide
  unfold x_sizeOfStackFrameHeaderInTermsOfTValue at hsfp
  have d0 := Dispatch_BcConstant env st sfp bcu 0 _ _ h0 l0
  have d1 := Dispatch_BcConstant env
    (State.mk (store st.stack (sfp + 0) (env.ops.CreateDouble double5)) st.rc st.heap) sfp _ 1 _ _
    h1 l1
  have d2 := Dispatch_BcAddVV env
    (State.mk (store (store st.stack (sfp + 0) (env.ops.CreateDouble double5)) (sfp + 1)
      (env.ops.CreateDouble double3)) st.rc st.heap) sfp _ 0 1 2 _ _ _ h2 l0 l1 l2
    (by simp [store_apply, hIs])
    (by simp [store_apply, hIs])
  have e2 : env.ops.fadd
      (env.ops.AsDouble (store (store st.stack (sfp + 0) (env.ops.CreateDouble double5)) (sfp + 1)
        (env.ops.CreateDouble double3) (sfp + 0)))
      (env.ops.AsDouble (store (store st.stack (sfp + 0) (env.ops.CreateDouble double5)) (sfp + 1)
        (env.ops.CreateDouble double3) (sfp + 1))) = double8 := by
    simp [store_apply, hAs, hadd]
  simp only [e2] at d2
  have d3 := Dispatch_BcReturn_fixed env
    (State.mk (store (store (store st.stack (sfp + 0) (env.ops.CreateDouble double5)) (sfp + 1)
      (env.ops.CreateDouble double3)) (sfp + 2) (env.ops.CreateDouble double8)) st.rc st.heap)
    sfp _ 1 2 _ h3 l2
  have hkeep : ∀ a, a < sfp →
      nilFillLoop env.ops.Nil (sfp + 2) x_minNilFillReturnValues 1
        (store (store (store st.stack (sfp + 0) (env.ops.CreateDouble double5)) (sfp + 1)
          (env.ops.CreateDouble double3)) (sfp + 2) (env.ops.CreateDouble double8)) a =
      st.stack a := by
    intro a ha
    rw [nilFillLoop_apply _ _ _ _ _ (by decide), if_neg (by omega)]
    simp only [store_apply]
    rw [if_neg (by omega), if_neg (by omega), if_neg (by omega)]
  refine ⟨State.mk (nilFillLoop env.ops.Nil (sfp + 2) x_minNilFillReturnValues 1
      (store (store (store st.stack (sfp + 0) (env.ops.CreateDouble double5)) (sfp + 1)
        (env.ops.CreateDouble double3)) (sfp + 2) (env.ops.CreateDouble double8)))
      (invalidateVariadicRets env st.rc) st.heap, ?_, ?_, ?_, ?_⟩
  · unfold EnterInterpreter
    simp only [dispatchChain, d0, d1, d2, d3]
    simp only [StackFrameHeader.m_retAddr, StackFrameHeader.m_caller,
      StackFrameHeader.GetStackFrameHeader, x_sizeOfStackFrameHeaderInTermsOfTValue]
    rw [hkeep _ (by omega), hkeep _ (by omega)]
  · show nilFillLoop env.ops.Nil (sfp + 2) x_minNilFillReturnValues 1 _ (sfp + 2) = _
    rw [nilFillLoop_apply _ _ _ _ _ (by decide), if_neg (by omega), store_apply, if_pos rfl]
  · show nilFillLoop env.ops.Nil (sfp + 2) x_minNilFillReturnValues 1 _ (sfp + 3) = _
    rw [nilFillLoop_apply _ _ _ _ _ (by decide),
      if_pos (by unfold x_minNilFillReturnValues; omega)]
  · show nilFillLoop env.ops.Nil (sfp + 2) x_minNilFillReturnValues 1 _ (sfp + 4) = _
    rw [nilFillLoop_apply _ _ _ _ _ (by decide),
      if_pos (by unfold x_minNilFillReturnValues; omega)]

/-- C13 on the example machine, frame at 20 with caller 40 and return handler 77
in its header. -/
theorem constant_add_return_scenario_witness :
    exampleOps.fadd double5 double3 = double8 ∧
    ∃ st', EnterInterpreter 4 exampleEnv ⟨exampleStack [(16, 40), (17, 77)], ⟨0, 0⟩, exampleHeap⟩ 20 1000 =
        some (st', Next.call 77 40 22 1) ∧
      st'.stack 22 = exampleOps.CreateDouble double8 ∧
      st'.stack 23 = exampleOps.Nil ∧ st'.stack 24 = exampleOps.Nil :=
  ⟨by decide,
    constant_add_return_scenario 4 exampleEnv ⟨exampleStack [(16, 40), (17, 77)], ⟨0, 0⟩, exampleHeap⟩ 20 1000
      (by decide) (by decide) (by decide) (by decide) (by decide) (by decide)
      (fun d => by simp [exampleEnv, exampleOps]) (fun d => by simp [exampleEnv, exampleOps])
      (by decide)⟩

/-- C14: a `BcReturn` without variadic part returns `n` values from slot `b` of
the callee frame `calleeSfp` to the `BcCall` at which the caller frame `sfp` is
calling, a call with `m_keepVariadicRet` false and `m_numFixedRets = R`. The
`BcReturn` calls `BcCall::OnReturn`, and after `OnReturn` the caller slot
`funcSlot + i` holds return value `i` for `i < n` and nil for `n ≤ i`, for
every `i < R`, on the path `R ≤ 3` and on the path `R > 3`. -/
theorem return_values_reach_caller (env : Env) (st : State) (sfp calleeSfp bcu n b : Nat)
    (slot : BytecodeSlot) (pass : Bool) (F R k : Nat) (funcSlot : BytecodeSlot)
    (hsfp : x_sizeOfStackFrameHeaderInTermsOfTValue ≤ sfp) (hcallee : sfp ≤ calleeSfp)
    (hret : env.code bcu = some (Bytecode.BcReturn false n slot))
    (hslot : slot.LocalOrd = some b)
    (hcaller : StackFrameHeader.m_caller st.stack
      (StackFrameHeader.GetStackFrameHeader calleeSfp) = sfp)
    (hretAddr : StackFrameHeader.m_retAddr st.stack
      (StackFrameHeader.GetStackFrameHeader calleeSfp) = env.x_OnReturn)
    (hEc : (env.executableOf (StackFrameHeader.m_func st.stack
      (StackFrameHeader.GetStackFrameHeader sfp))).IsBytecodeFunction = true)
    (hcall : env.code ((env.executableOf (StackFrameHeader.m_func st.stack
        (StackFrameHeader.GetStackFrameHeader sfp))).m_bytecode +
        StackFrameHeader.m_callerBytecodeOffset st.stack
          (StackFrameHeader.GetStackFrameHeader sfp)) =
      some (Bytecode.BcCall false pass F R funcSlot))
    (hfunc : funcSlot.LocalOrd = some k) :
    ∃ st1 st2 nxt,
      BcReturn.Execute env st calleeSfp bcu =
        some (st1, Next.call env.x_OnReturn sfp (calleeSfp + b) n) ∧
      BcCall.OnReturn env st1 sfp (calleeSfp + b) n = some (st2, nxt) ∧
      ∀ i, i < R →
        st2.stack (sfp + k + i) = if i < n then st.stack (calleeSfp + b + i) else env.ops.Nil := by
  unfold x_sizeOfStackFrameHeaderInTermsOfTValue at hsfp
  have e1 := BcReturn_Execute_fixed env st calleeSfp bcu n b slot hret hslot
  have hkeep : ∀ a, a < calleeSfp →
      nilFillLoop env.ops.Nil (calleeSfp + b) x_minNilFillReturnValues n st.stack a =
        st.stack a := by
    intro a ha
    rw [nilFillLoop_apply _ _ _ _ _ (by omega), if_neg (by omega)]
  have hm1 : StackFrameHeader.m_retAddr
      (nilFillLoop env.ops.Nil (calleeSfp + b) x_minNilFillReturnValues n st.stack)
      (StackFrameHeader.GetStackFrameHeader calleeSfp) = env.x_OnReturn := by
    rw [← hretAddr]
    unfold StackFrameHeader.m_retAddr StackFrameHeader.GetStackFrameHeader
      x_sizeOfStackFrameHeaderInTermsOfTValue
    exact hkeep _ (by omega)
  have hm2 : StackFrameHeader.m_caller
      (nilFillLoop env.ops.Nil (calleeSfp + b) x_minNilFillReturnValues n st.stack)
      (StackFrameHeader.GetStackFrameHeader calleeSfp) = sfp := by
    rw [← hcaller]
    unfold StackFrameHeader.m_caller StackFrameHeader.GetStackFrameHeader
      x_sizeOfStackFrameHeaderInTermsOfTValue
    exact hkeep _ (by omega)
  rw [hm1, hm2] at e1
  have hf : StackFrameHeader.m_func
      (nilFillLoop env.ops.Nil (calleeSfp + b) x_minNilFillReturnValues n st.stack)
      (StackFrameHeader.GetStackFrameHeader sfp) =
      StackFrameHeader.m_func st.stack (StackFrameHeader.GetStackFrameHeader sfp) := by
    unfold StackFrameHeader.m_func StackFrameHeader.GetStackFrameHeader
      x_sizeOfStackFrameHeaderInTermsOfTValue
    exact hkeep _ (by omega)
  have ho : StackFrameHeader.m_callerBytecodeOffset
      (nilFillLoop env.ops.Nil (calleeSfp + b) x_minNilFillReturnValues n st.stack)
      (StackFrameHeader.GetStackFrameHeader sfp) =
      StackFrameHeader.m_callerBytecodeOffset st.stack
        (StackFrameHeader.GetStackFrameHeader sfp) := by
    unfold StackFrameHeader.m_callerBytecodeOffset StackFrameHeader.GetStackFrameHeader
      x_sizeOfStackFrameHeaderInTermsOfTValue
    rw [hkeep _ (by omega)]
  obtain ⟨st2, e2, _, hst2⟩ := OnReturn_fixedRets env
    (State.mk (nilFillLoop env.ops.Nil (calleeSfp + b) x_minNilFillReturnValues n st.stack)
      (invalidateVariadicRets env st.rc) st.heap)
    sfp (calleeSfp + b) n pass F R k funcSlot
    (by simp only [hf]; exact hEc) (by simp only [hf, ho]; exact hcall) hfunc
  refine ⟨_, st2, _, e1, e2, ?_⟩
  intro i hi
  rw [hst2, if_pos (by omega)]
  have ei : sfp + k + i - (sfp + k) = i := by omega
  rw [ei]
  simp only
  by_cases hin : i < n
  · rw [if_pos (Or.inr hin), if_pos hin, nilFillLoop_apply _ _ _ _ _ (by omega),
      if_neg (by omega)]
  · rw [if_neg hin]
    by_cases h3 : R ≤ x_minNilFillReturnValues
    · rw [if_pos (Or.inl h3), nilFillLoop_apply _ _ _ _ _ (by omega), if_pos (by omega)]
    · rw [if_neg (by omega)]

/-- C14 on the example machine: the caller frame at 20 is calling at offset 10
(`R = 2`, function slot 1) and, in a second run, at offset 25 (`R = 5`); the
callee frame at 30 returns the one value in its slot 0. -/
theorem return_values_reach_caller_witness :
    (∃ st1 st2 nxt,
      BcReturn.Execute exampleEnv
        ⟨exampleStack [(18, 64), (19, 10), (26, 20), (27, 9)], ⟨0, 0⟩, exampleHeap⟩ 30 3000 =
        some (st1, Next.call 9 20 30 1) ∧
      BcCall.OnReturn exampleEnv st1 20 30 1 = some (st2, nxt) ∧
      st2.stack 21 = 130 ∧ st2.stack 22 = exampleOps.Nil) ∧
    (∃ st1 st2 nxt,
      BcReturn.Execute exampleEnv
        ⟨exampleStack [(18, 64), (19, 25), (26, 20), (27, 9)], ⟨0, 0⟩, exampleHeap⟩ 30 3000 =
        some (st1, Next.call 9 20 30 1) ∧
      BcCall.OnReturn exampleEnv st1 20 30 1 = some (st2, nxt) ∧
      st2.stack 21 = 130 ∧ st2.stack 22 = exampleOps.Nil ∧ st2.stack 25 = exampleOps.Nil) :=
  ⟨(return_values_reach_caller exampleEnv
      ⟨exampleStack [(18, 64), (19, 10), (26, 20), (27, 9)], ⟨0, 0⟩, exampleHeap⟩ 20 30 3000 1 0
      (BytecodeSlot.Local 0) false 2 2 1 (BytecodeSlot.Local 1) (by decide) (by decide)
      (by decide) (by decide) (by decide) (by decide) (by decide) (by decide) (by decide)).imp
      (fun _ h => h.imp (fun _ g => g.imp (fun _ w => ⟨w.1, w.2.1,
        (w.2.2 0 (by decide)).trans (by decide), w.2.2 1 (by decide)⟩))),
    (return_values_reach_caller exampleEnv
      ⟨exampleStack [(18, 64), (19, 25), (26, 20), (27, 9)], ⟨0, 0⟩, exampleHeap⟩ 20 30 3000 1 0
      (BytecodeSlot.Local 0) false 2 5 1 (BytecodeSlot.Local 1) (by decide) (by decide)
      (by decide) (by decide) (by decide) (by decide) (by decide) (by decide) (by decide)).imp
      (fun _ h => h.imp (fun _ g => g.imp (fun _ w => ⟨w.1, w.2.1,
        (w.2.2 0 (by decide)).trans (by decide), w.2.2 1 (by decide),
        w.2.2 4 (by decide)⟩)))⟩

/-- C18: a `BcCall` with `F` fixed parameters and `m_passVariadicRetAsParam`
false, whose callee expects `E` fixed arguments and takes no variadic arguments.
The call is made with the callee frame right after the caller frame and a
header; callee local `i` equals the caller slot `funcSlot + 1 + i` for every
`i < min F E` and is nil for every `F ≤ i < E`; the caller frame is unchanged and
nothing is written from callee local `E` on, so the arguments beyond `E` are
dropped. -/
theorem BcCall_fixed_arguments (env : Env) (st : State) (sfp bcu : Nat)
    (keep : Bool) (F R k : Nat) (funcSlot : BytecodeSlot)
    (hsfp : x_sizeOfStackFrameHeaderInTermsOfTValue ≤ sfp)
    (hcode : env.code bcu = some (Bytecode.BcCall keep false F R funcSlot))
    (hslot : funcSlot.LocalOrd = some k)
    (hEc : (env.executableOf (StackFrameHeader.m_func st.stack
      (StackFrameHeader.GetStackFrameHeader sfp))).IsBytecodeFunction = true)
    (hstart : (env.executableOf (StackFrameHeader.m_func st.stack
      (StackFrameHeader.GetStackFrameHeader sfp))).m_bytecode ≤ bcu)
    (hoff : bcu - (env.executableOf (StackFrameHeader.m_func st.stack
      (StackFrameHeader.GetStackFrameHeader sfp))).m_bytecode < 2 ^ 32)
    (hptr : env.ops.IsPointer (st.stack (sfp + k)) = true)
    (hfn : env.isFunctionObject (env.ops.AsPointer (st.stack (sfp + k))) = true)
    (hvar : (env.executableOf (env.ops.AsPointer (st.stack (sfp + k)))).m_hasVariadicArguments =
      false) :
    ∃ st', BcCall.Execute env st sfp bcu =
        some (st', Next.call
          (env.executableOf (env.ops.AsPointer (st.stack (sfp + k)))).m_bestEntryPoint
          (sfp + (env.executableOf (StackFrameHeader.m_func st.stack
            (StackFrameHeader.GetStackFrameHeader sfp))).m_stackFrameNumSlots +
            x_sizeOfStackFrameHeaderInTermsOfTValue)
          (env.executableOf (env.ops.AsPointer (st.stack (sfp + k)))).m_bytecode 0) ∧
      st'.rc = st.rc ∧
      (∀ i, i < min F (env.executableOf (env.ops.AsPointer (st.stack (sfp + k)))).m_numFixedArguments →
        st'.stack (sfp + (env.executableOf (StackFrameHeader.m_func st.stack
            (StackFrameHeader.GetStackFrameHeader sfp))).m_stackFrameNumSlots +
            x_sizeOfStackFrameHeaderInTermsOfTValue + i) = st.stack (sfp + k + 1 + i)) ∧
      (∀ i, F ≤ i →
        i < (env.executableOf (env.ops.AsPointer (st.stack (sfp + k)))).m_numFixedArguments →
        st'.stack (sfp + (env.executableOf (StackFrameHeader.m_func st.stack
            (StackFrameHeader.GetStackFrameHeader sfp))).m_stackFrameNumSlots +
            x_sizeOfStackFrameHeaderInTermsOfTValue + i) = env.ops.Nil) ∧
      (∀ a, sfp ≤ a → a < sfp + (env.executableOf (StackFrameHeader.m_func st.stack
            (StackFrameHeader.GetStackFrameHeader sfp))).m_stackFrameNumSlots →
        st'.stack a = st.stack a) ∧
      (∀ a, sfp + (env.executableOf (StackFrameHeader.m_func st.stack
            (StackFrameHeader.GetStackFrameHeader sfp))).m_stackFrameNumSlots +
            x_sizeOfStackFrameHeaderInTermsOfTValue +
            (env.executableOf (env.ops.AsPointer (st.stack (sfp + k)))).m_numFixedArguments ≤ a →
        st'.stack a = st.stack a) := by
  unfold x_sizeOfStackFrameHeaderInTermsOfTValue at hsfp
  generalize hcallerEc : env.executableOf (StackFrameHeader.m_func st.stack
      (StackFrameHeader.GetStackFrameHeader sfp)) = callerEc at hEc hstart hoff ⊢
  have hfunc : StackFrameHeader.set_m_callerBytecodeOffset st.stack
      (StackFrameHeader.GetStackFrameHeader sfp) (bcu - callerEc.m_bytecode) (sfp + k) =
      st.stack (sfp + k) := by
    rw [set_m_callerBytecodeOffset_apply, if_neg]
    unfold StackFrameHeader.GetStackFrameHeader x_sizeOfStackFrameHeaderInTermsOfTValue
    omega
  generalize hcalleeEc : env.executableOf (env.ops.AsPointer (st.stack (sfp + k))) = calleeEc
    at hvar ⊢
  unfold BcCall.Execute
  simp only [hcode, hcallerEc, hEc, not_true_eq_false, if_false,
    GetLocalAddr_of_LocalOrd _ _ _ hslot, hfunc, hptr, hfn, if_true, hcalleeEc, hvar,
    Bool.false_eq_true, BcCall.copyFixedArgs]
  rw [if_neg (by omega)]
  refine ⟨_, rfl, rfl, ?_, ?_, ?_, ?_⟩
  · intro i hi
    simp only [store_apply, x_sizeOfStackFrameHeaderInTermsOfTValue]
    rw [if_neg (by omega), if_neg (by omega), if_neg (by omega)]
    have hcopy : SafeMemcpy (StackFrameHeader.set_m_callerBytecodeOffset st.stack
        (StackFrameHeader.GetStackFrameHeader sfp) (bcu - callerEc.m_bytecode))
        (sfp + callerEc.m_stackFrameNumSlots + 4) (sfp + k + 1)
        (min F calleeEc.m_numFixedArguments) (sfp + callerEc.m_stackFrameNumSlots + 4 + i) =
        st.stack (sfp + k + 1 + i) := by
      rw [SafeMemcpy_apply, if_pos (by omega), set_m_callerBytecodeOffset_apply, if_neg]
      · congr 1; omega
      · unfold StackFrameHeader.GetStackFrameHeader x_sizeOfStackFrameHeaderInTermsOfTValue
        omega
    by_cases hpad : F < calleeEc.m_numFixedArguments
    · rw [if_pos hpad, nilPadLoop_apply _ _ _ _ _ (by omega), if_neg (by omega)]
      exact hcopy
    · rw [if_neg hpad]
      exact hcopy
  · intro i h1 h2
    simp only [store_apply, x_sizeOfStackFrameHeaderInTermsOfTValue]
    rw [if_neg (by omega), if_neg (by omega), if_neg (by omega), if_pos (by omega),
      nilPadLoop_apply _ _ _ _ _ (by omega), if_pos (by omega)]
  · intro a h1 h2
    simp only [store_apply, x_sizeOfStackFrameHeaderInTermsOfTValue]
    rw [if_neg (by omega), if_neg (by omega), if_neg (by omega)]
    have hcopy : SafeMemcpy (StackFrameHeader.set_m_callerBytecodeOffset st.stack
        (StackFrameHeader.GetStackFrameHeader sfp) (bcu - callerEc.m_bytecode))
        (sfp + callerEc.m_stackFrameNumSlots + 4) (sfp + k + 1)
        (min F calleeEc.m_numFixedArguments) a = st.stack a := by
      rw [SafeMemcpy_apply, if_neg (by omega), set_m_callerBytecodeOffset_apply, if_neg]
      unfold StackFrameHeader.GetStackFrameHeader x_sizeOfStackFrameHeaderInTermsOfTValue
      omega
    by_cases hpad : F < calleeEc.m_numFixedArguments
    · rw [if_pos hpad, nilPadLoop_apply _ _ _ _ _ (by omega), if_neg (by omega)]
      exact hcopy
    · rw [if_neg hpad]
      exact hcopy
  · intro a h1
    simp only [store_apply, x_sizeOfStackFrameHeaderInTermsOfTValue] at h1 ⊢
    rw [if_neg (by omega), if_neg (by omega), if_neg (by omega)]
    have hcopy : SafeMemcpy (StackFrameHeader.set_m_callerBytecodeOffset st.stack
        (StackFrameHeader.GetStackFrameHeader sfp) (bcu - callerEc.m_bytecode))
        (sfp + callerEc.m_stackFrameNumSlots + 4) (sfp + k + 1)
        (min F calleeEc.m_numFixedArguments) a = st.stack a := by
      rw [SafeMemcpy_apply, if_neg (by omega), set_m_callerBytecodeOffset_apply, if_neg]
      unfold StackFrameHeader.GetStackFrameHeader x_sizeOfStackFrameHeaderInTermsOfTValue
      omega
    by_cases hpad : F < calleeEc.m_numFixedArguments
    · rw [if_pos hpad, nilPadLoop_apply _ _ _ _ _ (by omega), if_neg (by omega)]
      exact hcopy
    · rw [if_neg hpad]
      exact hcopy

/-- C18 on the example machine: the `BcCall` at 2000 passes 2 parameters to the
function at 128, which expects 4; the callee frame is at 30. -/
theorem BcCall_fixed_arguments_witness :
    ∃ st', BcCall.Execute exampleEnv ⟨exampleStack [(18, 64), (21, 128)], ⟨0, 0⟩, exampleHeap⟩ 20 2000 =
        some (st', Next.call 7 30 3000 0) ∧
      st'.stack 30 = 122 ∧ st'.stack 31 = 123 ∧
      st'.stack 32 = exampleOps.Nil ∧ st'.stack 33 = exampleOps.Nil :=
  (BcCall_fixed_arguments exampleEnv ⟨exampleStack [(18, 64), (21, 128)], ⟨0, 0⟩, exampleHeap⟩ 20 2000
    false 2 2 1 (BytecodeSlot.Local 1) (by decide) (by decide) (by decide) (by decide)
    (by decide) (by decide) (by decide) (by decide) (by decide)).imp
    (fun _ g => ⟨g.1,
      (g.2.2.1 0 (by decide)).trans (by decide),
      (g.2.2.1 1 (by decide)).trans (by decide),
      g.2.2.2.1 2 (by decide) (by decide),
      g.2.2.2.1 3 (by decide) (by decide)⟩)

/-- C19: a `BcCall` whose callee takes variadic arguments and expects `E` fixed
arguments, with `T` arguments passed in total (the `F` fixed parameters and, when
`m_passVariadicRetAsParam` is set, the variadic results). The call is made with
the callee frame at `base`; the header before `base` has
`m_numVariadicArguments = T - E` (0 when `T ≤ E`); the excess arguments
`E .. T - 1` are, in order, the `T - E` words immediately before the header; the
callee locals `0 .. E - 1` hold the first `E` arguments, nil from `T` on. -/
theorem BcCall_variadic_frame_layout (env : Env) (st : State) (sfp bcu : Nat)
    (keep pass : Bool) (F R k T : Nat) (funcSlot : BytecodeSlot)
    (hsfp : x_sizeOfStackFrameHeaderInTermsOfTValue ≤ sfp)
    (hcode : env.code bcu = some (Bytecode.BcCall keep pass F R funcSlot))
    (hslot : funcSlot.LocalOrd = some k)
    (hEc : (env.executableOf (StackFrameHeader.m_func st.stack
      (StackFrameHeader.GetStackFrameHeader sfp))).IsBytecodeFunction = true)
    (hstart : (env.executableOf (StackFrameHeader.m_func st.stack
      (StackFrameHeader.GetStackFrameHeader sfp))).m_bytecode ≤ bcu)
    (hoff : bcu - (env.executableOf (StackFrameHeader.m_func st.stack
      (StackFrameHeader.GetStackFrameHeader sfp))).m_bytecode < 2 ^ 32)
    (hk : k < (env.executableOf (StackFrameHeader.m_func st.stack
      (StackFrameHeader.GetStackFrameHeader sfp))).m_stackFrameNumSlots)
    (hptr : env.ops.IsPointer (st.stack (sfp + k)) = true)
    (hfn : env.isFunctionObject (env.ops.AsPointer (st.stack (sfp + k))) = true)
    (hvar : (env.executableOf (env.ops.AsPointer (st.stack (sfp + k)))).m_hasVariadicArguments =
      true)
    (hT : T = if pass then F + st.rc.m_numVariadicRets else F) (hT32 : T < 2 ^ 32) :
    ∃ st' base, BcCall.Execute env st sfp bcu =
        some (st', Next.call
          (env.executableOf (env.ops.AsPointer (st.stack (sfp + k)))).m_bestEntryPoint base
          (env.executableOf (env.ops.AsPointer (st.stack (sfp + k)))).m_bytecode 0) ∧
      base = sfp + (env.executableOf (StackFrameHeader.m_func st.stack
            (StackFrameHeader.GetStackFrameHeader sfp))).m_stackFrameNumSlots +
          x_sizeOfStackFrameHeaderInTermsOfTValue +
          (T - (env.executableOf (env.ops.AsPointer (st.stack (sfp + k)))).m_numFixedArguments) ∧
      StackFrameHeader.m_numVariadicArguments st'.stack
          (StackFrameHeader.GetStackFrameHeader base) =
        T - (env.executableOf (env.ops.AsPointer (st.stack (sfp + k)))).m_numFixedArguments ∧
      (∀ j, j < T - (env.executableOf (env.ops.AsPointer (st.stack (sfp + k)))).m_numFixedArguments →
        st'.stack (StackFrameHeader.GetStackFrameHeader base -
            (T - (env.executableOf (env.ops.AsPointer (st.stack (sfp + k)))).m_numFixedArguments)
            + j) =
          callArgument st sfp k F
            ((env.executableOf (env.ops.AsPointer (st.stack (sfp + k)))).m_numFixedArguments + j)) ∧
      (∀ i, i < (env.executableOf (env.ops.AsPointer (st.stack (sfp + k)))).m_numFixedArguments →
        st'.stack (base + i) = if i < T then callArgument st sfp k F i else env.ops.Nil) ∧
      StackFrameHeader.m_caller st'.stack (StackFrameHeader.GetStackFrameHeader base) = sfp ∧
      StackFrameHeader.m_retAddr st'.stack (StackFrameHeader.GetStackFrameHeader base) =
        env.x_OnReturn ∧
      StackFrameHeader.m_func st'.stack (StackFrameHeader.GetStackFrameHeader base) =
        env.ops.AsPointer (st.stack (sfp + k)) := by
  unfold x_sizeOfStackFrameHeaderInTermsOfTValue at hsfp
  generalize hcallerEc : env.executableOf (StackFrameHeader.m_func st.stack
      (StackFrameHeader.GetStackFrameHeader sfp)) = callerEc at hEc hstart hoff hk ⊢
  have hs0 : ∀ a, sfp ≤ a → StackFrameHeader.set_m_callerBytecodeOffset st.stack
      (StackFrameHeader.GetStackFrameHeader sfp) (bcu - callerEc.m_bytecode) a = st.stack a := by
    intro a ha
    rw [set_m_callerBytecodeOffset_apply, if_neg]
    unfold StackFrameHeader.GetStackFrameHeader x_sizeOfStackFrameHeaderInTermsOfTValue
    omega
  generalize hcalleeEc : env.executableOf (env.ops.AsPointer (st.stack (sfp + k))) = calleeEc
    at hvar ⊢
  generalize hE : calleeEc.m_numFixedArguments = E
  generalize hN : callerEc.m_stackFrameNumSlots = N at hk
  have hTeq : (if pass = true then (F + st.rc.m_numVariadicRets) % 2 ^ 32 else F) = T := by
    cases pass
    · simp only [Bool.false_eq_true, if_false] at hT ⊢
      exact hT.symm
    · simp only [if_true] at hT ⊢
      rw [← hT]
      exact Nat.mod_eq_of_lt hT32
  generalize hs0def : StackFrameHeader.set_m_callerBytecodeOffset st.stack
      (StackFrameHeader.GetStackFrameHeader sfp) (bcu - callerEc.m_bytecode) = s0 at hs0
  obtain ⟨p1, p2, p3, p4, p5⟩ := setUpVarArgs_stack s0
    (sfp + N) (sfp + k + 1) (sfp + st.rc.m_variadicRetSlotBegin) st.rc.m_numVariadicRets pass
    F T E hT (by unfold x_sizeOfStackFrameHeaderInTermsOfTValue; omega)
  unfold x_sizeOfStackFrameHeaderInTermsOfTValue at p1 p3 p5
  have harg : ∀ i, (if i < F then s0 (sfp + k + 1 + i)
      else s0 (sfp + st.rc.m_variadicRetSlotBegin + (i - F))) = callArgument st sfp k F i := by
    intro i
    unfold callArgument
    rw [hs0 _ (by omega), hs0 _ (by omega)]
  unfold BcCall.Execute
  simp only [hcode, hcallerEc, hEc, not_true_eq_false, if_false,
    GetLocalAddr_of_LocalOrd _ _ _ hslot, hs0def, hs0 (sfp + k) (by omega), hptr, hfn, if_true,
    hcalleeEc, hvar, hE, hN, hTeq, setUpVarArgs_base]
  rw [if_neg (by omega)]
  refine ⟨_, _, rfl, rfl, ?_, ?_, ?_, ?_, ?_, ?_⟩
  · unfold StackFrameHeader.m_numVariadicArguments StackFrameHeader.GetStackFrameHeader
    unfold x_sizeOfStackFrameHeaderInTermsOfTValue
    simp only
    rw [store_apply, if_neg (by omega), store_apply, if_neg (by omega), store_apply,
      if_neg (by omega)]
    have e : sfp + N + 4 + (T - E) - 4 + 3 = sfp + N + 4 + (T - E) - 1 := by omega
    rw [e]
    by_cases hpad : T < E
    · rw [if_pos hpad, nilPadLoop_offset, if_neg (by omega), p3]
      omega
    · rw [if_neg hpad, p3]
      omega
  · intro j hj
    unfold StackFrameHeader.GetStackFrameHeader
    unfold x_sizeOfStackFrameHeaderInTermsOfTValue
    simp only
    rw [store_apply, if_neg (by omega), store_apply, if_neg (by omega), store_apply,
      if_neg (by omega), if_neg (by omega)]
    have e : sfp + N + 4 + (T - E) - 4 - (T - E) + j = sfp + N + j := by omega
    rw [e, p2 j hj]
    exact harg (E + j)
  · intro i hi
    unfold x_sizeOfStackFrameHeaderInTermsOfTValue
    simp only
    rw [store_apply, if_neg (by omega), store_apply, if_neg (by omega), store_apply,
      if_neg (by omega)]
    by_cases hpad : T < E
    · rw [if_pos hpad, nilPadLoop_offset]
      by_cases hiT : i < T
      · rw [if_neg (by omega), if_pos hiT, p1 i hiT]
        exact harg i
      · rw [if_pos (by omega), if_neg hiT]
    · rw [if_neg hpad, if_pos (by omega), p1 i (by omega)]
      exact harg i
  · unfold StackFrameHeader.m_caller StackFrameHeader.GetStackFrameHeader
    unfold x_sizeOfStackFrameHeaderInTermsOfTValue
    simp only
    rw [store_apply, if_neg (by omega), store_apply, if_neg (by omega), store_apply, if_pos rfl]
  · unfold StackFrameHeader.m_retAddr StackFrameHeader.GetStackFrameHeader
    unfold x_sizeOfStackFrameHeaderInTermsOfTValue
    simp only
    rw [store_apply, if_neg (by omega), store_apply, if_pos rfl]
  · unfold StackFrameHeader.m_func StackFrameHeader.GetStackFrameHeader
    unfold x_sizeOfStackFrameHeaderInTermsOfTValue
    simp only
    rw [store_apply, if_pos rfl]

/-- C19 on the example machine: the `BcCall` at 2030 passes 1 parameter and the
2 variadic results (slots 3 and 4) to the function at 192, which expects 1 fixed
argument; the 2 excess arguments are at 26 and 27, the header at 28, the callee
frame at 32. -/
theorem BcCall_variadic_frame_layout_witness :
    ∃ st' base, BcCall.Execute exampleEnv ⟨exampleStack [(18, 64), (21, 192)], ⟨2, 3⟩, exampleHeap⟩ 20 2030 =
        some (st', Next.call 7 base 3000 0) ∧
      base = 32 ∧
      StackFrameHeader.m_numVariadicArguments st'.stack
        (StackFrameHeader.GetStackFrameHeader base) = 2 ∧
      st'.stack (StackFrameHeader.GetStackFrameHeader base - 2 + 0) = 123 ∧
      st'.stack (StackFrameHeader.GetStackFrameHeader base - 2 + 1) = 124 ∧
      st'.stack (base + 0) = 122 :=
  (BcCall_variadic_frame_layout exampleEnv ⟨exampleStack [(18, 64), (21, 192)], ⟨2, 3⟩, exampleHeap⟩ 20 2030
    false true 1 1 1 3 (BytecodeSlot.Local 1) (by decide) (by decide) (by decide) (by decide)
    (by decide) (by decide) (by decide) (by decide) (by decide) (by decide) (by decide)
    (by decide)).imp
    (fun _ h => h.imp (fun _ g => ⟨g.1, g.2.1, g.2.2.1,
      (g.2.2.2.1 0 (by decide)).trans (by decide),
      (g.2.2.2.1 1 (by decide)).trans (by decide),
      (g.2.2.2.2.1 0 (by decide)).trans (by decide)⟩))

/-- C20: call and return round trip. A `BcCall` at address `p`, run in the
caller frame `sfp`, stores the offset of `p` in the caller header and, in the
header of the callee frame `base`, the caller `sfp` and the return address
`BcCall::OnReturn`. In every later state that still holds these header words, a
`BcReturn` run in the callee frame calls `OnReturn` with frame pointer `sfp`,
and `OnReturn` dispatches at `p + sizeof(BcCall)`. -/
theorem call_return_round_trip (env : Env) (st : State) (sfp p : Nat)
    (keep pass : Bool) (F R k : Nat) (funcSlot : BytecodeSlot)
    (hsfp : x_sizeOfStackFrameHeaderInTermsOfTValue ≤ sfp)
    (hcode : env.code p = some (Bytecode.BcCall keep pass F R funcSlot))
    (hslot : funcSlot.LocalOrd = some k)
    (hEc : (env.executableOf (StackFrameHeader.m_func st.stack
      (StackFrameHeader.GetStackFrameHeader sfp))).IsBytecodeFunction = true)
    (hstart : (env.executableOf (StackFrameHeader.m_func st.stack
      (StackFrameHeader.GetStackFrameHeader sfp))).m_bytecode ≤ p)
    (hoff : p - (env.executableOf (StackFrameHeader.m_func st.stack
      (StackFrameHeader.GetStackFrameHeader sfp))).m_bytecode < 2 ^ 32)
    (hptr : env.ops.IsPointer (st.stack (sfp + k)) = true)
    (hfn : env.isFunctionObject (env.ops.AsPointer (st.stack (sfp + k))) = true) :
    ∃ st1 base, BcCall.Execute env st sfp p =
        some (st1, Next.call
          (env.executableOf (env.ops.AsPointer (st.stack (sfp + k)))).m_bestEntryPoint base
          (env.executableOf (env.ops.AsPointer (st.stack (sfp + k)))).m_bytecode 0) ∧
      StackFrameHeader.m_callerBytecodeOffset st1.stack (StackFrameHeader.GetStackFrameHeader sfp) =
        p - (env.executableOf (StackFrameHeader.m_func st.stack
          (StackFrameHeader.GetStackFrameHeader sfp))).m_bytecode ∧
      StackFrameHeader.m_caller st1.stack (StackFrameHeader.GetStackFrameHeader base) = sfp ∧
      StackFrameHeader.m_retAddr st1.stack (StackFrameHeader.GetStackFrameHeader base) =
        env.x_OnReturn ∧
      ∀ (st2 : State) (q : Nat) (isVar : Bool) (n b : Nat) (slot : BytecodeSlot),
        st2.stack (StackFrameHeader.GetStackFrameHeader base) =
          st1.stack (StackFrameHeader.GetStackFrameHeader base) →
        st2.stack (StackFrameHeader.GetStackFrameHeader base + 1) =
          st1.stack (StackFrameHeader.GetStackFrameHeader base + 1) →
        st2.stack (StackFrameHeader.GetStackFrameHeader sfp + 2) =
          st1.stack (StackFrameHeader.GetStackFrameHeader sfp + 2) →
        st2.stack (StackFrameHeader.GetStackFrameHeader sfp + 3) =
          st1.stack (StackFrameHeader.GetStackFrameHeader sfp + 3) →
        env.code q = some (Bytecode.BcReturn isVar n slot) → slot.LocalOrd = some b →
        (isVar = true → st2.rc.m_numVariadicRets ≠ 2 ^ 32 - 1) → n < 2 ^ 16 →
        (keep = true → base + b - sfp < 2 ^ 32) →
        ∃ st3 st4 numRetValues,
          BcReturn.Execute env st2 base q =
            some (st3, Next.call env.x_OnReturn sfp (base + b) numRetValues) ∧
          BcCall.OnReturn env st3 sfp (base + b) numRetValues =
            some (st4, Next.dispatch sfp (p + sizeofBcCall)) := by
  obtain ⟨st1, base, e1, _, hbase, c1, c2, _, c4, c5, _⟩ :=
    BcCall_Execute_headers env st sfp p keep pass F R k funcSlot hsfp hcode hslot hEc hstart
      hoff hptr hfn
  refine ⟨st1, base, e1, c4, c1, c2, ?_⟩
  intro st2 q isVar n b slot a1 a2 a3 a4 hq hb hv hn hfit
  unfold x_sizeOfStackFrameHeaderInTermsOfTValue at hsfp hbase
  obtain ⟨st3, e3, hlow⟩ := BcReturn_Execute_any env st2 base q isVar n b slot
    (by unfold x_sizeOfStackFrameHeaderInTermsOfTValue; omega) hq hb hv
  have r1 : StackFrameHeader.m_retAddr st2.stack (StackFrameHeader.GetStackFrameHeader base) =
      env.x_OnReturn := by
    rw [← c2]; exact a2
  have r2 : StackFrameHeader.m_caller st2.stack (StackFrameHeader.GetStackFrameHeader base) =
      sfp := by
    rw [← c1]; exact a1
  rw [r1, r2] at e3
  have hlt2 : StackFrameHeader.GetStackFrameHeader sfp + 2 < base := by
    unfold StackFrameHeader.GetStackFrameHeader x_sizeOfStackFrameHeaderInTermsOfTValue; omega
  have hlt3 : StackFrameHeader.GetStackFrameHeader sfp + 3 < base := by
    unfold StackFrameHeader.GetStackFrameHeader x_sizeOfStackFrameHeaderInTermsOfTValue; omega
  have f3 : StackFrameHeader.m_func st3.stack (StackFrameHeader.GetStackFrameHeader sfp) =
      StackFrameHeader.m_func st.stack (StackFrameHeader.GetStackFrameHeader sfp) := by
    rw [← c5]
    unfold StackFrameHeader.m_func
    rw [hlow _ hlt2, a3]
  have o3 : StackFrameHeader.m_callerBytecodeOffset st3.stack
      (StackFrameHeader.GetStackFrameHeader sfp) =
      p - (env.executableOf (StackFrameHeader.m_func st.stack
        (StackFrameHeader.GetStackFrameHeader sfp))).m_bytecode := by
    rw [← c4]
    unfold StackFrameHeader.m_callerBytecodeOffset
    rw [hlow _ hlt3, a4]
  have hp : (env.executableOf (StackFrameHeader.m_func st.stack
      (StackFrameHeader.GetStackFrameHeader sfp))).m_bytecode +
      (p - (env.executableOf (StackFrameHeader.m_func st.stack
        (StackFrameHeader.GetStackFrameHeader sfp))).m_bytecode) = p := by omega
  obtain ⟨st4, e4⟩ := OnReturn_dispatch env st3 sfp (base + b)
    (if isVar then (n + st2.rc.m_numVariadicRets) % 2 ^ 32 else n) keep pass F R k funcSlot
    (by rw [f3]; exact hEc) (by rw [f3, o3, hp]; exact hcode) hslot
    (by
      intro hk
      refine ⟨?_, by omega, hfit hk⟩
      cases isVar
      · simp only [Bool.false_eq_true, if_false]; omega
      · simp only [if_true]; omega)
  rw [f3, o3, hp] at e4
  exact ⟨st3, st4, _, e3, e4⟩

/-- C20 on the example machine: the `BcCall` at 2000 in the frame at 20 calls the
function at 128; the `BcReturn` at 3000, run in the callee frame, returns through
`OnReturn` (address 9) to 2015. -/
theorem call_return_round_trip_witness :
    ∃ st1 base st3 st4 numRetValues,
      BcCall.Execute exampleEnv ⟨exampleStack [(18, 64), (21, 128)], ⟨0, 0⟩, exampleHeap⟩ 20 2000 =
        some (st1, Next.call 7 base 3000 0) ∧
      StackFrameHeader.m_callerBytecodeOffset st1.stack 16 = 10 ∧
      BcReturn.Execute exampleEnv st1 base 3000 =
        some (st3, Next.call 9 20 (base + 0) numRetValues) ∧
      BcCall.OnReturn exampleEnv st3 20 (base + 0) numRetValues =
        some (st4, Next.dispatch 20 2015) :=
  (call_return_round_trip exampleEnv
    ⟨exampleStack [(18, 64), (21, 128)], ⟨0, 0⟩, exampleHeap⟩ 20 2000 false false 2 2 1 (BytecodeSlot.Local 1)
    (by decide) (by decide) (by decide) (by decide) (by decide) (by decide) (by decide)
    (by decide)).elim (fun st1 h => h.elim (fun base g =>
      (g.2.2.2.2 st1 3000 false 1 0 (BytecodeSlot.Local 0) rfl rfl rfl rfl
        (by decide) (by decide) (fun h => absurd h (by decide)) (by decide)
        (fun h => absurd h (by decide))).elim (fun st3 w => w.elim (fun st4 v =>
          v.elim (fun m u => ⟨st1, base, st3, st4, m, g.1, g.2.1, u.1, u.2⟩)))))

/-- C21 as stated fails for the local ordinal `0x7fffffff`: `Local(0x7fffffff)`
is the invalid slot, so `IsInvalid` is true and the asserts of `IsLocal` and
`LocalOrd` fail. -/
theorem Local_max_is_invalid_counterexample :
    (BytecodeSlot.Local 0x7fffffff).IsInvalid = true ∧
    (BytecodeSlot.Local 0x7fffffff).IsLocal = none ∧
    (BytecodeSlot.Local 0x7fffffff).LocalOrd = none ∧
    BytecodeSlot.Local 0x7fffffff = BytecodeSlot.new := by
  decide

/-- C21, amended: for every `ord ≥ 0` other than `0x7fffffff`, `Local(ord)` is a
valid slot with `IsLocal` true, `IsConstant` false and `LocalOrd() = ord`; for
every `ord < 0`, `Constant(ord)` is a valid slot with `IsConstant` true,
`IsLocal` false and `ConstantOrd() = ord`; the default-constructed slot is
invalid. -/
theorem BytecodeSlot_constructors :
    (∀ ord : Nat, ord ≠ 0x7fffffff →
      (BytecodeSlot.Local ord).IsInvalid = false ∧
      (BytecodeSlot.Local ord).IsLocal = some true ∧
      (BytecodeSlot.Local ord).IsConstant = some false ∧
      (BytecodeSlot.Local ord).LocalOrd = some ord) ∧
    (∀ ord : Int, ord < 0 →
      ∃ slot, BytecodeSlot.Constant ord = some slot ∧
        slot.IsInvalid = false ∧ slot.IsConstant = some true ∧ slot.IsLocal = some false ∧
        slot.ConstantOrd = some ord) ∧
    BytecodeSlot.new.IsInvalid = true := by
  refine ⟨?_, ?_, by decide⟩
  · intro ord hord
    have h1 : (BytecodeSlot.Local ord).IsInvalid = false := by
      unfold BytecodeSlot.IsInvalid BytecodeSlot.Local BytecodeSlot.x_invalidValue
      simp only [decide_eq_false_iff_not]
      intro h
      exact hord (by exact_mod_cast h)
    have h2 : (BytecodeSlot.Local ord).IsLocal = some true := by
      unfold BytecodeSlot.IsLocal
      rw [h1]
      simp [BytecodeSlot.Local]
    have h3 : (BytecodeSlot.Local ord).IsConstant = some false := by
      unfold BytecodeSlot.IsConstant
      rw [h1]
      simp [BytecodeSlot.Local]
    refine ⟨h1, h2, h3, ?_⟩
    unfold BytecodeSlot.LocalOrd
    rw [h2]
    simp [BytecodeSlot.Local]
  · intro ord hord
    refine ⟨BytecodeSlot.mk ord, ?_, ?_⟩
    · unfold BytecodeSlot.Constant
      rw [if_pos hord]
    · have h1 : (BytecodeSlot.mk ord).IsInvalid = false := by
        unfold BytecodeSlot.IsInvalid BytecodeSlot.x_invalidValue
        simp only [decide_eq_false_iff_not]
        intro h
        omega
      have h2 : (BytecodeSlot.mk ord).IsConstant = some true := by
        unfold BytecodeSlot.IsConstant
        rw [h1]
        simp [hord]
      have h3 : (BytecodeSlot.mk ord).IsLocal = some false := by
        unfold BytecodeSlot.IsLocal
        rw [h1]
        simp [hord]
      refine ⟨h1, h2, h3, ?_⟩
      unfold BytecodeSlot.ConstantOrd
      rw [h2]

/-- The amended C21 at the local 5 and at the constant -3. -/
theorem BytecodeSlot_constructors_witness :
    ((BytecodeSlot.Local 5).IsInvalid = false ∧
      (BytecodeSlot.Local 5).IsLocal = some true ∧
      (BytecodeSlot.Local 5).IsConstant = some false ∧
      (BytecodeSlot.Local 5).LocalOrd = some 5) ∧
    ∃ slot, BytecodeSlot.Constant (-3) = some slot ∧
        slot.IsInvalid = false ∧ slot.IsConstant = some true ∧ slot.IsLocal = some false ∧
        slot.ConstantOrd = some (-3) :=
  ⟨BytecodeSlot_constructors.1 5 (by decide), BytecodeSlot_constructors.2.1 (-3) (by decide)⟩

/-- C22 as stated fails in a build without assertions, where the assignment
under `DEBUG_ONLY` is not made: the `BcReturn` at 3000 of the example machine,
run with `m_numVariadicRets = 5`, calls the return handler with
`m_numVariadicRets` still 5. -/
theorem BcReturn_keeps_count_counterexample :
    exampleReleaseEnv.x_isDebugBuild = false ∧
    ∃ st' fn a1 a2 a3,
      BcReturn.Execute exampleReleaseEnv ⟨exampleStack [], ⟨5, 0⟩, exampleHeap⟩ 20 3000 =
        some (st', Next.call fn a1 a2 a3) ∧
      st'.rc.m_numVariadicRets = 5 ∧ st'.rc.m_numVariadicRets ≠ 0xFFFFFFFF := by
  refine ⟨rfl, ?_⟩
  have h := BcReturn_Execute_fixed exampleReleaseEnv ⟨exampleStack [], ⟨5, 0⟩, exampleHeap⟩
    20 3000 1 0 (BytecodeSlot.Local 0) (by decide) (by decide)
  exact ⟨_, _, _, _, _, h, by decide, by decide⟩

/-- C22, amended: every `BcReturn::Execute`, whether or not it consumes variadic
return values, reaches the call of the return handler; at that call
`m_numVariadicRets` holds `0xFFFFFFFF` in a build with assertions (where the
code under `DEBUG_ONLY` runs) and its previous value in a build without, and
`m_variadicRetSlotBegin` is unchanged. -/
theorem BcReturn_invalidates_variadic_rets (env : Env) (st : State) (sfp bcu : Nat)
    (isVar : Bool) (n b : Nat) (slot : BytecodeSlot)
    (hcode : env.code bcu = some (Bytecode.BcReturn isVar n slot))
    (hslot : slot.LocalOrd = some b)
    (hv : isVar = true → st.rc.m_numVariadicRets ≠ 2 ^ 32 - 1) :
    ∃ st' fn callerSf numRetValues,
      BcReturn.Execute env st sfp bcu = some (st', Next.call fn callerSf (sfp + b) numRetValues) ∧
      st'.rc.m_numVariadicRets =
        (if env.x_isDebugBuild then 0xFFFFFFFF else st.rc.m_numVariadicRets) ∧
      st'.rc.m_variadicRetSlotBegin = st.rc.m_variadicRetSlotBegin := by
  have hrc : (invalidateVariadicRets env st.rc).m_numVariadicRets =
        (if env.x_isDebugBuild then 0xFFFFFFFF else st.rc.m_numVariadicRets) ∧
      (invalidateVariadicRets env st.rc).m_variadicRetSlotBegin =
        st.rc.m_variadicRetSlotBegin := by
    unfold invalidateVariadicRets
    cases env.x_isDebugBuild
    · exact ⟨rfl, rfl⟩
    · exact ⟨rfl, rfl⟩
  unfold BcReturn.Execute
  simp only [hcode, GetLocalAddr_of_LocalOrd _ _ _ hslot]
  cases isVar
  · exact ⟨_, _, _, _, rfl, hrc⟩
  · simp only [if_true, if_neg (hv rfl)]
    exact ⟨_, _, _, _, rfl, hrc⟩

/-- The amended C22 on the example machine, a build with assertions: the
`BcReturn` at 3000, run with `m_numVariadicRets = 5`, leaves `0xFFFFFFFF`. -/
theorem BcReturn_invalidates_variadic_rets_witness :
    ∃ st' fn callerSf numRetValues,
      BcReturn.Execute exampleEnv ⟨exampleStack [], ⟨5, 0⟩, exampleHeap⟩ 20 3000 =
        some (st', Next.call fn callerSf (20 + 0) numRetValues) ∧
      st'.rc.m_numVariadicRets = (if exampleEnv.x_isDebugBuild then 0xFFFFFFFF else 5) ∧
      st'.rc.m_variadicRetSlotBegin = 0 :=
  BcReturn_invalidates_variadic_rets exampleEnv ⟨exampleStack [], ⟨5, 0⟩, exampleHeap⟩ 20 3000
    false 1 0 (BytecodeSlot.Local 0) (by decide) (by decide) (by decide)

/-- C23 fails on the code in a build without assertions: the `BcAddVV` at 1026 of
the example machine, run on operands that are not doubles, does not abort; the
handler returns without a tail call, in the state it was entered with. -/
theorem BcAddVV_returns_counterexample :
    exampleReleaseEnv.x_isDebugBuild = false ∧
    exampleReleaseEnv.ops.IsDouble (exampleStack [] 20) = false ∧
    BcAddVV.Execute exampleReleaseEnv ⟨exampleStack [], ⟨0, 0⟩, exampleHeap⟩ 20 1026 =
      some (⟨exampleStack [], ⟨0, 0⟩, exampleHeap⟩, Next.returns) ∧
    BcAddVV.Execute exampleReleaseEnv ⟨exampleStack [], ⟨0, 0⟩, exampleHeap⟩ 20 1026 ≠ none := by
  have h := BcAddVV_not_double exampleReleaseEnv ⟨exampleStack [], ⟨0, 0⟩, exampleHeap⟩ 20 1026
    0 1 (BytecodeSlot.Local 0) (BytecodeSlot.Local 1) (BytecodeSlot.Local 2) (by decide)
    (by decide) (by decide) (by decide)
  refine ⟨rfl, by decide, h, ?_⟩
  rw [h]
  exact fun h => Option.noConfusion h

/-- C23, the handlers in both builds. The four table handlers abort (`ReleaseAssert`) when the base
is not a heap pointer to a table, and the two by-val handlers abort when the
index is neither int32, double nor pointer, in every build. `BcAddVV`,
`BcSubVV` and `BcIsLTVV` with an operand that is not a double, and `BcCall`
with a callee that is not a function object, end at
`assert(false && "unimplemented")`: in a build with assertions they abort, in
a build without they return from the handler. In every case no next
instruction is dispatched and no stack slot is written; the only word `BcCall`
has written is the one of `m_callerBytecodeOffset` in the header of the frame. -/
theorem unimplemented_operands_stop (env : Env) (st : State) (sfp bcu : Nat) :
    (∀ (m_base m_other : BytecodeSlot) (m_index k : Nat), m_base.LocalOrd = some k →
      ¬ (env.ops.IsPointer (st.stack (sfp + k)) = true ∧
        env.isTableObject (env.ops.AsPointer (st.stack (sfp + k))) = true) →
      (env.code bcu = some (Bytecode.BcTableGetById m_base m_other m_index) →
        BcTableGetById.Execute env st sfp bcu = none) ∧
      (env.code bcu = some (Bytecode.BcTablePutById m_base m_other m_index) →
        BcTablePutById.Execute env st sfp bcu = none)) ∧
    (∀ (m_base m_index m_other : BytecodeSlot) (k : Nat), m_base.LocalOrd = some k →
      ¬ (env.ops.IsPointer (st.stack (sfp + k)) = true ∧
        env.isTableObject (env.ops.AsPointer (st.stack (sfp + k))) = true) →
      (env.code bcu = some (Bytecode.BcTableGetByVal m_base m_index m_other) →
        BcTableGetByVal.Execute env st sfp bcu = none) ∧
      (env.code bcu = some (Bytecode.BcTablePutByVal m_base m_index m_other) →
        BcTablePutByVal.Execute env st sfp bcu = none)) ∧
    (∀ (m_base m_index m_other : BytecodeSlot) (k i : Nat), m_base.LocalOrd = some k →
      m_index.LocalOrd = some i →
      env.ops.IsInt32 (st.stack (sfp + i)) = false →
      env.ops.IsDouble (st.stack (sfp + i)) = false →
      env.ops.IsPointer (st.stack (sfp + i)) = false →
      (env.code bcu = some (Bytecode.BcTableGetByVal m_base m_index m_other) →
        BcTableGetByVal.Execute env st sfp bcu = none) ∧
      (env.code bcu = some (Bytecode.BcTablePutByVal m_base m_index m_other) →
        BcTablePutByVal.Execute env st sfp bcu = none)) ∧
    (∀ (m_lhs m_rhs m_result : BytecodeSlot) (m_offset : Int) (i j : Nat),
      m_lhs.LocalOrd = some i → m_rhs.LocalOrd = some j →
      ¬ (env.ops.IsDouble (st.stack (sfp + i)) = true ∧
        env.ops.IsDouble (st.stack (sfp + j)) = true) →
      (env.code bcu = some (Bytecode.BcAddVV m_lhs m_rhs m_result) →
        BcAddVV.Execute env st sfp bcu =
          if env.x_isDebugBuild then none else some (st, Next.returns)) ∧
      (env.code bcu = some (Bytecode.BcSubVV m_lhs m_rhs m_result) →
        BcSubVV.Execute env st sfp bcu =
          if env.x_isDebugBuild then none else some (st, Next.returns)) ∧
      (env.code bcu = some (Bytecode.BcIsLTVV m_lhs m_rhs m_offset) →
        BcIsLTVV.Execute env st sfp bcu =
          if env.x_isDebugBuild then none else some (st, Next.returns))) ∧
    (∀ (keep pass : Bool) (F R k : Nat) (funcSlot : BytecodeSlot),
      x_sizeOfStackFrameHeaderInTermsOfTValue ≤ sfp →
      env.code bcu = some (Bytecode.BcCall keep pass F R funcSlot) →
      funcSlot.LocalOrd = some k →
      (env.executableOf (StackFrameHeader.m_func st.stack
        (StackFrameHeader.GetStackFrameHeader sfp))).IsBytecodeFunction = true →
      (env.executableOf (StackFrameHeader.m_func st.stack
        (StackFrameHeader.GetStackFrameHeader sfp))).m_bytecode ≤ bcu →
      bcu - (env.executableOf (StackFrameHeader.m_func st.stack
        (StackFrameHeader.GetStackFrameHeader sfp))).m_bytecode < 2 ^ 32 →
      ¬ (env.ops.IsPointer (st.stack (sfp + k)) = true ∧
        env.isFunctionObject (env.ops.AsPointer (st.stack (sfp + k))) = true) →
      ∃ stack : Nat → Nat,
        BcCall.Execute env st sfp bcu =
          (if env.x_isDebugBuild then none else some (State.mk stack st.rc st.heap, Next.returns)) ∧
        ∀ a, a ≠ StackFrameHeader.GetStackFrameHeader sfp + 3 → stack a = st.stack a) := by
  refine ⟨?_, ?_, ?_, ?_, ?_⟩
  · intro m_base m_other m_index k hbase hnot
    exact ⟨fun hcode => BcTableGetById_not_table env st sfp bcu k _ _ _ hcode hbase hnot,
      fun hcode => BcTablePutById_not_table env st sfp bcu k _ _ _ hcode hbase hnot⟩
  · intro m_base m_index m_other k hbase hnot
    exact ⟨fun hcode => BcTableGetByVal_not_table env st sfp bcu k _ _ _ hcode hbase hnot,
      fun hcode => BcTablePutByVal_not_table env st sfp bcu k _ _ _ hcode hbase hnot⟩
  · intro m_base m_index m_other k i hbase hindex h32 hdbl hptr
    exact ⟨fun hcode =>
        BcTableGetByVal_bad_index env st sfp bcu k i _ _ _ hcode hbase hindex h32 hdbl hptr,
      fun hcode =>
        BcTablePutByVal_bad_index env st sfp bcu k i _ _ _ hcode hbase hindex h32 hdbl hptr⟩
  · intro m_lhs m_rhs m_result m_offset i j hl hr hnot
    exact ⟨fun hcode => BcAddVV_not_double env st sfp bcu i j _ _ _ hcode hl hr hnot,
      fun hcode => BcSubVV_not_double env st sfp bcu i j _ _ _ hcode hl hr hnot,
      fun hcode => BcIsLTVV_not_double env st sfp bcu i j _ _ _ hcode hl hr hnot⟩
  · intro keep pass F R k funcSlot hsfp hcode hslot hEc hstart hoff hnot
    refine ⟨_, BcCall_not_function env st sfp bcu k keep pass F R funcSlot hsfp hcode hslot hEc
      hstart hoff hnot, ?_⟩
    intro a ha
    unfold StackFrameHeader.set_m_callerBytecodeOffset
    rw [store_apply, if_neg ha]

/-- C23 on the example machine (a build with assertions), frame at
20: the `BcTableGetById` at 4000 on the base 120, a pointer that is not a
table, the `BcTableGetByVal` at 4026 on the index 121, the `BcAddVV` at 1026
on the operands 120 and 121, and the `BcCall` at 2000 on the callee 121 all
abort. -/
theorem unimplemented_operands_stop_witness :
    BcTableGetById.Execute exampleEnv ⟨exampleStack [(18, 64)], ⟨0, 0⟩, exampleHeap⟩ 20 4000 =
      none ∧
    BcTableGetByVal.Execute exampleEnv ⟨exampleStack [(18, 64)], ⟨0, 0⟩, exampleHeap⟩ 20 4026 =
      none ∧
    BcAddVV.Execute exampleEnv ⟨exampleStack [(18, 64)], ⟨0, 0⟩, exampleHeap⟩ 20 1026 = none ∧
    BcCall.Execute exampleEnv ⟨exampleStack [(18, 64)], ⟨0, 0⟩, exampleHeap⟩ 20 2000 = none :=
  ⟨((unimplemented_operands_stop exampleEnv ⟨exampleStack [(18, 64)], ⟨0, 0⟩, exampleHeap⟩
      20 4000).1 (BytecodeSlot.Local 0) (BytecodeSlot.Local 1) 0 0 (by decide) (by decide)).1
      (by decide),
    ((unimplemented_operands_stop exampleEnv ⟨exampleStack [(18, 64)], ⟨0, 0⟩, exampleHeap⟩
      20 4026).2.2.1 (BytecodeSlot.Local 0) (BytecodeSlot.Local 1) (BytecodeSlot.Local 2) 0 1
      (by decide) (by decide) (by decide) (by decide) (by decide)).1 (by decide),
    ((unimplemented_operands_stop exampleEnv ⟨exampleStack [(18, 64)], ⟨0, 0⟩, exampleHeap⟩
      20 1026).2.2.2.1 (BytecodeSlot.Local 0) (BytecodeSlot.Local 1) (BytecodeSlot.Local 2) 0 0 1
      (by decide) (by decide) (by decide)).1 (by decide),
    ((unimplemented_operands_stop exampleEnv ⟨exampleStack [(18, 64)], ⟨0, 0⟩, exampleHeap⟩
      20 2000).2.2.2.2 false false 2 2 1 (BytecodeSlot.Local 1) (by decide) (by decide)
      (by decide) (by decide) (by decide) (by decide) (by decide)).elim
      (fun _ h => h.1)⟩

/-- Every `BcCall::Execute` that finds a function in its function slot: below
the end of the caller frame the stack is the one left by the store of the
bytecode offset. -/
theorem BcCall_Execute_low (env : Env) (st : State) (sfp bcu : Nat)
    (keep pass : Bool) (F R k : Nat) (funcSlot : BytecodeSlot)
    (hsfp : x_sizeOfStackFrameHeaderInTermsOfTValue ≤ sfp)
    (hcode : env.code bcu = some (Bytecode.BcCall keep pass F R funcSlot))
    (hslot : funcSlot.LocalOrd = some k)
    (hEc : (env.executableOf (StackFrameHeader.m_func st.stack
      (StackFrameHeader.GetStackFrameHeader sfp))).IsBytecodeFunction = true)
    (hstart : (env.executableOf (StackFrameHeader.m_func st.stack
      (StackFrameHeader.GetStackFrameHeader sfp))).m_bytecode ≤ bcu)
    (hoff : bcu - (env.executableOf (StackFrameHeader.m_func st.stack
      (StackFrameHeader.GetStackFrameHeader sfp))).m_bytecode < 2 ^ 32)
    (hptr : env.ops.IsPointer (st.stack (sfp + k)) = true)
    (hfn : env.isFunctionObject (env.ops.AsPointer (st.stack (sfp + k))) = true) :
    ∃ st' base, BcCall.Execute env st sfp bcu =
        some (st', Next.call
          (env.executableOf (env.ops.AsPointer (st.stack (sfp + k)))).m_bestEntryPoint base
          (env.executableOf (env.ops.AsPointer (st.stack (sfp + k)))).m_bytecode 0) ∧
      st'.rc = st.rc ∧ st'.heap = st.heap ∧
      sfp + (env.executableOf (StackFrameHeader.m_func st.stack
        (StackFrameHeader.GetStackFrameHeader sfp))).m_stackFrameNumSlots +
        x_sizeOfStackFrameHeaderInTermsOfTValue ≤ base ∧
      ∀ a, a < sfp + (env.executableOf (StackFrameHeader.m_func st.stack
        (StackFrameHeader.GetStackFrameHeader sfp))).m_stackFrameNumSlots →
        st'.stack a = StackFrameHeader.set_m_callerBytecodeOffset st.stack
          (StackFrameHeader.GetStackFrameHeader sfp)
          (bcu - (env.executableOf (StackFrameHeader.m_func st.stack
            (StackFrameHeader.GetStackFrameHeader sfp))).m_bytecode) a := by
  unfold x_sizeOfStackFrameHeaderInTermsOfTValue at hsfp
  generalize hmf : StackFrameHeader.m_func st.stack (StackFrameHeader.GetStackFrameHeader sfp) = mf
    at hEc hstart hoff ⊢
  generalize hcallerEc : env.executableOf mf = callerEc at hEc hstart hoff ⊢
  have hs0 : ∀ a, a ≠ sfp - 1 → StackFrameHeader.set_m_callerBytecodeOffset st.stack
      (StackFrameHeader.GetStackFrameHeader sfp) (bcu - callerEc.m_bytecode) a = st.stack a := by
    intro a ha
    rw [set_m_callerBytecodeOffset_apply, if_neg]
    unfold StackFrameHeader.GetStackFrameHeader x_sizeOfStackFrameHeaderInTermsOfTValue
    omega
  have hs1 : StackFrameHeader.set_m_callerBytecodeOffset st.stack
      (StackFrameHeader.GetStackFrameHeader sfp) (bcu - callerEc.m_bytecode) (sfp - 1) % 2 ^ 32 =
      bcu - callerEc.m_bytecode := by
    rw [set_m_callerBytecodeOffset_apply, if_pos]
    · omega
    · unfold StackFrameHeader.GetStackFrameHeader x_sizeOfStackFrameHeaderInTermsOfTValue
      omega
  generalize hs0def : StackFrameHeader.set_m_callerBytecodeOffset st.stack
      (StackFrameHeader.GetStackFrameHeader sfp) (bcu - callerEc.m_bytecode) = s0 at hs0 hs1
  generalize hcalleeEc : env.executableOf (env.ops.AsPointer (st.stack (sfp + k))) = calleeEc
  generalize hN : callerEc.m_stackFrameNumSlots = N
  generalize hTdef : (if pass = true then (F + st.rc.m_numVariadicRets) % 2 ^ 32 else F) = T
  -- the stack and the frame base after the arguments are placed
  have hplaced : ∃ placed : (Nat → Nat) × Nat,
      (if calleeEc.m_hasVariadicArguments = true then
        BcCall.setUpVarArgs s0 (sfp + N) (sfp + k + 1) (sfp + st.rc.m_variadicRetSlotBegin)
          st.rc.m_numVariadicRets pass F T calleeEc.m_numFixedArguments
      else
        BcCall.copyFixedArgs s0 (sfp + N + x_sizeOfStackFrameHeaderInTermsOfTValue) (sfp + k + 1)
          (sfp + st.rc.m_variadicRetSlotBegin) st.rc.m_numVariadicRets pass F
          calleeEc.m_numFixedArguments) = placed ∧
      sfp + N + 4 ≤ placed.2 ∧ ∀ a, a < sfp + N → placed.1 a = s0 a := by
    refine ⟨_, rfl, ?_⟩
    by_cases hv : calleeEc.m_hasVariadicArguments = true
    · rw [if_pos hv]
      have := setUpVarArgs_low s0 (sfp + N) (sfp + k + 1) (sfp + st.rc.m_variadicRetSlotBegin)
        st.rc.m_numVariadicRets pass F T calleeEc.m_numFixedArguments
      unfold x_sizeOfStackFrameHeaderInTermsOfTValue at this
      exact this
    · rw [if_neg hv]
      have := copyFixedArgs_low s0 (sfp + N + x_sizeOfStackFrameHeaderInTermsOfTValue)
        (sfp + k + 1) (sfp + st.rc.m_variadicRetSlotBegin) st.rc.m_numVariadicRets pass F
        calleeEc.m_numFixedArguments
      unfold x_sizeOfStackFrameHeaderInTermsOfTValue at this ⊢
      refine ⟨by rw [this.1], fun a ha => this.2 a (by omega)⟩
  obtain ⟨placed, hpl, hb, hlow⟩ := hplaced
  unfold BcCall.Execute
  simp only [hcode, hmf, hcallerEc, hEc, not_true_eq_false, if_false,
    GetLocalAddr_of_LocalOrd _ _ _ hslot, hs0def, hs0 (sfp + k) (by omega), hptr, hfn, if_true,
    hcalleeEc, hN, hTdef, hpl]
  rw [if_neg (by omega)]
  have hfin : ∀ a, a < sfp + N →
      store (store (store (if T < calleeEc.m_numFixedArguments then
        nilPadLoop env.ops.Nil (calleeEc.m_numFixedArguments - T) (placed.2 + T)
          (placed.2 + calleeEc.m_numFixedArguments) placed.1 else placed.1)
        (placed.2 - x_sizeOfStackFrameHeaderInTermsOfTValue) sfp)
        (placed.2 - x_sizeOfStackFrameHeaderInTermsOfTValue + 1) env.x_OnReturn)
        (placed.2 - x_sizeOfStackFrameHeaderInTermsOfTValue + 2)
        (env.ops.AsPointer (st.stack (sfp + k))) a = s0 a := by
    intro a ha
    unfold x_sizeOfStackFrameHeaderInTermsOfTValue
    rw [store_apply, if_neg (by omega), store_apply, if_neg (by omega), store_apply,
      if_neg (by omega)]
    by_cases hpad : T < calleeEc.m_numFixedArguments
    · rw [if_pos hpad, nilPadLoop_offset, if_neg (by omega)]
      exact hlow a ha
    · rw [if_neg hpad]
      exact hlow a ha
  refine ⟨_, _, rfl, rfl, rfl, ?_, ?_⟩
  · unfold x_sizeOfStackFrameHeaderInTermsOfTValue
    exact hb
  · intro a ha
    exact hfin a ha

/-- C35: a `BcReturn` with `m_isVariadicRet` set, `n` fixed values from the local
`b` and `v = rc.m_numVariadicRets` variadic values stored from the slot
`rc.m_variadicRetSlotBegin`, with `v` not the invalid marker, `n + v` below
`2 ^ 32` and the source and the destination of the copy not overlapping: the
handler of the return address in the frame header is called with the caller
frame of the header, the address of slot `b` and the count `n + v`; the `n`
fixed values are unchanged in the slots `b .. b + n - 1`, and slot `b + n + j`
holds variadic value `j` for every `j < v`. (`SafeMemcpy` is embedded as the
copy that gives every destination word the former source word, which is what
it does on ranges that do not overlap.) -/
theorem variadic_return_layout (env : Env) (st : State) (sfp bcu n b : Nat)
    (slot : BytecodeSlot)
    (hsfp : x_sizeOfStackFrameHeaderInTermsOfTValue ≤ sfp)
    (hcode : env.code bcu = some (Bytecode.BcReturn true n slot))
    (hslot : slot.LocalOrd = some b)
    (hv : st.rc.m_numVariadicRets ≠ 2 ^ 32 - 1)
    (hfit : n + st.rc.m_numVariadicRets < 2 ^ 32)
    (_hdisj : sfp + b + n + st.rc.m_numVariadicRets ≤ sfp + st.rc.m_variadicRetSlotBegin ∨
      sfp + st.rc.m_variadicRetSlotBegin + st.rc.m_numVariadicRets ≤ sfp + b + n) :
    ∃ st', BcReturn.Execute env st sfp bcu =
        some (st', Next.call
          (StackFrameHeader.m_retAddr st.stack (StackFrameHeader.GetStackFrameHeader sfp))
          (StackFrameHeader.m_caller st.stack (StackFrameHeader.GetStackFrameHeader sfp))
          (sfp + b) (n + st.rc.m_numVariadicRets)) ∧
      (∀ i, i < n → st'.stack (sfp + b + i) = st.stack (sfp + b + i)) ∧
      (∀ j, j < st.rc.m_numVariadicRets →
        st'.stack (sfp + b + n + j) = st.stack (sfp + st.rc.m_variadicRetSlotBegin + j)) := by
  unfold x_sizeOfStackFrameHeaderInTermsOfTValue at hsfp
  unfold BcReturn.Execute
  simp only [hcode, GetLocalAddr_of_LocalOrd _ _ _ hslot, if_true, if_neg hv,
    Nat.mod_eq_of_lt hfit]
  have hfill : ∀ a,
      nilFillLoop env.ops.Nil (sfp + b) x_minNilFillReturnValues (n + st.rc.m_numVariadicRets)
        (SafeMemcpy st.stack (sfp + b + n) (sfp + st.rc.m_variadicRetSlotBegin)
          st.rc.m_numVariadicRets) a =
      if sfp + b + (n + st.rc.m_numVariadicRets) ≤ a ∧ a < sfp + b + x_minNilFillReturnValues
      then env.ops.Nil
      else if sfp + b + n ≤ a ∧ a < sfp + b + n + st.rc.m_numVariadicRets
      then st.stack (sfp + st.rc.m_variadicRetSlotBegin + (a - (sfp + b + n)))
      else st.stack a := by
    intro a
    rw [nilFillLoop_apply _ _ _ _ _ (by omega), SafeMemcpy_apply]
  refine ⟨State.mk (nilFillLoop env.ops.Nil (sfp + b) x_minNilFillReturnValues
      (n + st.rc.m_numVariadicRets)
      (SafeMemcpy st.stack (sfp + b + n) (sfp + st.rc.m_variadicRetSlotBegin)
        st.rc.m_numVariadicRets))
    (invalidateVariadicRets env st.rc) st.heap, ?_, ?_, ?_⟩
  · unfold StackFrameHeader.m_retAddr StackFrameHeader.m_caller
      StackFrameHeader.GetStackFrameHeader x_sizeOfStackFrameHeaderInTermsOfTValue
    rw [hfill, if_neg (by omega), if_neg (by omega), hfill, if_neg (by omega),
      if_neg (by omega)]
  · intro i hi
    show nilFillLoop _ _ _ _ _ _ = _
    rw [hfill, if_neg (by omega), if_neg (by omega)]
  · intro j hj
    show nilFillLoop _ _ _ _ _ _ = _
    rw [hfill, if_neg (by omega), if_pos (by omega)]
    congr 1
    omega

/-- Witness for C35: the frame at 20 returns one fixed value from slot 0 and
the two variadic values of the slots 5 and 6. -/
theorem variadic_return_layout_witness :
    ∃ st', BcReturn.Execute exampleFrameEnv
        ⟨exampleStack [(16, 40), (17, 77)], ⟨2, 5⟩, exampleHeap⟩ 20 5000 =
        some (st', Next.call 77 40 20 3) ∧
      st'.stack 20 = 120 ∧ st'.stack 21 = 125 ∧ st'.stack 22 = 126 :=
  (variadic_return_layout exampleFrameEnv
    ⟨exampleStack [(16, 40), (17, 77)], ⟨2, 5⟩, exampleHeap⟩ 20 5000 1 0 (BytecodeSlot.Local 0)
    (by decide) (by decide) (by decide) (by decide) (by decide) (by decide)).imp
    (fun _ h => ⟨h.1, (h.2.1 0 (by decide)).trans (by decide),
      (h.2.2 0 (by decide)).trans (by decide), (h.2.2 1 (by decide)).trans (by decide)⟩)

/-- C36: `BcAddVV` and `BcSubVV` on local operands that hold doubles write the
boxed sum (difference) of the two doubles to the result slot, `BcConstant` writes
its constant to the destination slot; each of them leaves every other word of
the stack (the other slots of the frame and the frame header among them), the
runtime context and the heap unchanged, and dispatches in the same frame at
the address right after the instruction. -/
theorem arith_and_constant_frame_effect (env : Env) (st : State) (stackframe bcu : Nat) :
    (∀ (lhs rhs result : BytecodeSlot) (i j k : Nat),
      env.code bcu = some (Bytecode.BcAddVV lhs rhs result) →
      lhs.LocalOrd = some i → rhs.LocalOrd = some j → result.LocalOrd = some k →
      env.ops.IsDouble (st.stack (stackframe + i)) = true →
      env.ops.IsDouble (st.stack (stackframe + j)) = true →
      ∃ st', BcAddVV.Execute env st stackframe bcu =
          some (st', Next.dispatch stackframe (bcu + sizeofBcAddVV)) ∧
        st'.stack (stackframe + k) =
          env.ops.CreateDouble (env.ops.fadd (env.ops.AsDouble (st.stack (stackframe + i)))
            (env.ops.AsDouble (st.stack (stackframe + j)))) ∧
        (∀ a, a ≠ stackframe + k → st'.stack a = st.stack a) ∧
        st'.rc = st.rc ∧ st'.heap = st.heap) ∧
    (∀ (lhs rhs result : BytecodeSlot) (i j k : Nat),
      env.code bcu = some (Bytecode.BcSubVV lhs rhs result) →
      lhs.LocalOrd = some i → rhs.LocalOrd = some j → result.LocalOrd = some k →
      env.ops.IsDouble (st.stack (stackframe + i)) = true →
      env.ops.IsDouble (st.stack (stackframe + j)) = true →
      ∃ st', BcSubVV.Execute env st stackframe bcu =
          some (st', Next.dispatch stackframe (bcu + sizeofBcSubVV)) ∧
        st'.stack (stackframe + k) =
          env.ops.CreateDouble (env.ops.fsub (env.ops.AsDouble (st.stack (stackframe + i)))
            (env.ops.AsDouble (st.stack (stackframe + j)))) ∧
        (∀ a, a ≠ stackframe + k → st'.stack a = st.stack a) ∧
        st'.rc = st.rc ∧ st'.heap = st.heap) ∧
    (∀ (dst : BytecodeSlot) (value k : Nat),
      env.code bcu = some (Bytecode.BcConstant dst value) → dst.LocalOrd = some k →
      ∃ st', BcConstant.Execute env st stackframe bcu =
          some (st', Next.dispatch stackframe (bcu + sizeofBcConstant)) ∧
        st'.stack (stackframe + k) = value ∧
        (∀ a, a ≠ stackframe + k → st'.stack a = st.stack a) ∧
        st'.rc = st.rc ∧ st'.heap = st.heap) := by
  refine ⟨?_, ?_, ?_⟩
  · intro lhs rhs result i j k hcode hl hr hres hdl hdr
    refine ⟨State.mk (store st.stack (stackframe + k)
      (env.ops.CreateDouble (env.ops.fadd (env.ops.AsDouble (st.stack (stackframe + i)))
        (env.ops.AsDouble (st.stack (stackframe + j)))))) st.rc st.heap, ?_, ?_, ?_, rfl, rfl⟩
    · simp only [hcode, BcAddVV.Execute, StackFrameHeader.GetLocal,
        GetLocalAddr_of_LocalOrd _ _ _ hl, GetLocalAddr_of_LocalOrd _ _ _ hr,
        GetLocalAddr_of_LocalOrd _ _ _ hres, hdl, hdr, Bool.and_self, if_true]
    · show store _ _ _ _ = _
      rw [store_apply, if_pos rfl]
    · intro a ha
      show store _ _ _ _ = _
      rw [store_apply, if_neg ha]
  · intro lhs rhs result i j k hcode hl hr hres hdl hdr
    refine ⟨State.mk (store st.stack (stackframe + k)
      (env.ops.CreateDouble (env.ops.fsub (env.ops.AsDouble (st.stack (stackframe + i)))
        (env.ops.AsDouble (st.stack (stackframe + j)))))) st.rc st.heap, ?_, ?_, ?_, rfl, rfl⟩
    · simp only [hcode, BcSubVV.Execute, StackFrameHeader.GetLocal,
        GetLocalAddr_of_LocalOrd _ _ _ hl, GetLocalAddr_of_LocalOrd _ _ _ hr,
        GetLocalAddr_of_LocalOrd _ _ _ hres, hdl, hdr, Bool.and_self, if_true]
    · show store _ _ _ _ = _
      rw [store_apply, if_pos rfl]
    · intro a ha
      show store _ _ _ _ = _
      rw [store_apply, if_neg ha]
  · intro dst value k hcode hdst
    refine ⟨State.mk (store st.stack (stackframe + k) value) st.rc st.heap, ?_, ?_, ?_, rfl, rfl⟩
    · simp only [hcode, BcConstant.Execute, GetLocalAddr_of_LocalOrd _ _ _ hdst]
    · show store _ _ _ _ = _
      rw [store_apply, if_pos rfl]
    · intro a ha
      show store _ _ _ _ = _
      rw [store_apply, if_neg ha]

/-- Witness for C36: on the frame at 20 whose slots 0 and 1 hold the doubles 5.0
and 3.0, `BcAddVV 0 1 2` at 1026 writes 8.0 to slot 2 and goes on at 1039,
`BcSubVV 0 1 2` at 5008 goes on at 5021, and `BcConstant 0 5.0` at 1000 goes on
at 1013; slot 3 and the header word 16 keep their content. -/
theorem arith_and_constant_frame_effect_witness :
    (∃ st', BcAddVV.Execute exampleEnv
        ⟨exampleStack [(20, exampleOps.CreateDouble double5),
          (21, exampleOps.CreateDouble double3)], ⟨0, 0⟩, exampleHeap⟩ 20 1026 =
        some (st', Next.dispatch 20 1039) ∧
      st'.stack 22 = exampleOps.CreateDouble double8 ∧ st'.stack 23 = 123 ∧
      st'.stack 16 = 116) ∧
    (∃ st', BcSubVV.Execute exampleFrameEnv
        ⟨exampleStack [(20, exampleOps.CreateDouble double5),
          (21, exampleOps.CreateDouble double3)], ⟨0, 0⟩, exampleHeap⟩ 20 5008 =
        some (st', Next.dispatch 20 5021) ∧ st'.stack 23 = 123 ∧ st'.stack 16 = 116) ∧
    (∃ st', BcConstant.Execute exampleEnv ⟨exampleStack [], ⟨0, 0⟩, exampleHeap⟩ 20 1000 =
        some (st', Next.dispatch 20 1013) ∧
      st'.stack 20 = exampleOps.CreateDouble double5 ∧ st'.stack 21 = 121 ∧
      st'.stack 16 = 116) :=
  ⟨((arith_and_constant_frame_effect exampleEnv
      ⟨exampleStack [(20, exampleOps.CreateDouble double5),
        (21, exampleOps.CreateDouble double3)], ⟨0, 0⟩, exampleHeap⟩ 20 1026).1
      (BytecodeSlot.Local 0) (BytecodeSlot.Local 1) (BytecodeSlot.Local 2) 0 1 2
      (by decide) (by decide) (by decide) (by decide) (by decide) (by decide)).imp
      (fun _ h => ⟨h.1, h.2.1.trans (by decide), (h.2.2.1 23 (by decide)).trans (by decide),
        (h.2.2.1 16 (by decide)).trans (by decide)⟩),
   ((arith_and_constant_frame_effect exampleFrameEnv
      ⟨exampleStack [(20, exampleOps.CreateDouble double5),
        (21, exampleOps.CreateDouble double3)], ⟨0, 0⟩, exampleHeap⟩ 20 5008).2.1
      (BytecodeSlot.Local 0) (BytecodeSlot.Local 1) (BytecodeSlot.Local 2) 0 1 2
      (by decide) (by decide) (by decide) (by decide) (by decide) (by decide)).imp
      (fun _ h => ⟨h.1, (h.2.2.1 23 (by decide)).trans (by decide),
        (h.2.2.1 16 (by decide)).trans (by decide)⟩),
   ((arith_and_constant_frame_effect exampleEnv ⟨exampleStack [], ⟨0, 0⟩, exampleHeap⟩ 20
      1000).2.2 (BytecodeSlot.Local 0) (exampleOps.CreateDouble double5) 0
      (by decide) (by decide)).imp
      (fun _ h => ⟨h.1, h.2.1, (h.2.2.1 21 (by decide)).trans (by decide),
        (h.2.2.1 16 (by decide)).trans (by decide)⟩)⟩

/-- C37: for a `BcCall` in a frame of a bytecode function (the offset of the
instruction fits 32 bits, the function slot is a local), whatever
`BcCall::Execute` returns: every word below `sfp + m_stackFrameNumSlots` other
than the header word of `m_callerBytecodeOffset` is unchanged, so every other
word written lies at or above the end of the caller frame; in the caller header
`m_caller`, `m_retAddr`, `m_func` and `m_numVariadicArguments` are unchanged and
`m_callerBytecodeOffset` is the offset of the instruction; the runtime context
and the heap are unchanged; and a frame pointer handed to a callee is at least
`sfp + m_stackFrameNumSlots` plus the header size. When the function slot holds
a function object the call is made. -/
theorem BcCall_writes_above_caller_frame (env : Env) (st : State) (sfp bcu : Nat)
    (keep pass : Bool) (F R k : Nat) (funcSlot : BytecodeSlot)
    (hsfp : x_sizeOfStackFrameHeaderInTermsOfTValue ≤ sfp)
    (hcode : env.code bcu = some (Bytecode.BcCall keep pass F R funcSlot))
    (hslot : funcSlot.LocalOrd = some k)
    (hEc : (env.executableOf (StackFrameHeader.m_func st.stack
      (StackFrameHeader.GetStackFrameHeader sfp))).IsBytecodeFunction = true)
    (hstart : (env.executableOf (StackFrameHeader.m_func st.stack
      (StackFrameHeader.GetStackFrameHeader sfp))).m_bytecode ≤ bcu)
    (hoff : bcu - (env.executableOf (StackFrameHeader.m_func st.stack
      (StackFrameHeader.GetStackFrameHeader sfp))).m_bytecode < 2 ^ 32) :
    (∀ st' nxt, BcCall.Execute env st sfp bcu = some (st', nxt) →
      (∀ a, a < sfp + (env.executableOf (StackFrameHeader.m_func st.stack
          (StackFrameHeader.GetStackFrameHeader sfp))).m_stackFrameNumSlots →
        a ≠ StackFrameHeader.GetStackFrameHeader sfp + 3 → st'.stack a = st.stack a) ∧
      StackFrameHeader.m_caller st'.stack (StackFrameHeader.GetStackFrameHeader sfp) =
        StackFrameHeader.m_caller st.stack (StackFrameHeader.GetStackFrameHeader sfp) ∧
      StackFrameHeader.m_retAddr st'.stack (StackFrameHeader.GetStackFrameHeader sfp) =
        StackFrameHeader.m_retAddr st.stack (StackFrameHeader.GetStackFrameHeader sfp) ∧
      StackFrameHeader.m_func st'.stack (StackFrameHeader.GetStackFrameHeader sfp) =
        StackFrameHeader.m_func st.stack (StackFrameHeader.GetStackFrameHeader sfp) ∧
      StackFrameHeader.m_numVariadicArguments st'.stack (StackFrameHeader.GetStackFrameHeader sfp) =
        StackFrameHeader.m_numVariadicArguments st.stack
          (StackFrameHeader.GetStackFrameHeader sfp) ∧
      StackFrameHeader.m_callerBytecodeOffset st'.stack (StackFrameHeader.GetStackFrameHeader sfp) =
        bcu - (env.executableOf (StackFrameHeader.m_func st.stack
          (StackFrameHeader.GetStackFrameHeader sfp))).m_bytecode ∧
      st'.rc = st.rc ∧ st'.heap = st.heap ∧
      ∀ fn base bytecode unused, nxt = Next.call fn base bytecode unused →
        sfp + (env.executableOf (StackFrameHeader.m_func st.stack
          (StackFrameHeader.GetStackFrameHeader sfp))).m_stackFrameNumSlots +
          x_sizeOfStackFrameHeaderInTermsOfTValue ≤ base) ∧
    (env.ops.IsPointer (st.stack (sfp + k)) = true →
      env.isFunctionObject (env.ops.AsPointer (st.stack (sfp + k))) = true →
      ∃ st' base, BcCall.Execute env st sfp bcu =
        some (st', Next.call
          (env.executableOf (env.ops.AsPointer (st.stack (sfp + k)))).m_bestEntryPoint base
          (env.executableOf (env.ops.AsPointer (st.stack (sfp + k)))).m_bytecode 0)) := by
  generalize hN : (env.executableOf (StackFrameHeader.m_func st.stack
    (StackFrameHeader.GetStackFrameHeader sfp))).m_stackFrameNumSlots = N
  generalize hoffv : bcu - (env.executableOf (StackFrameHeader.m_func st.stack
    (StackFrameHeader.GetStackFrameHeader sfp))).m_bytecode = off at hoff
  -- the stack right after the store of the offset
  have key : ∀ s1 : Nat → Nat,
      (∀ a, a < sfp + N → s1 a = StackFrameHeader.set_m_callerBytecodeOffset st.stack
        (StackFrameHeader.GetStackFrameHeader sfp) off a) →
      (∀ a, a < sfp + N → a ≠ StackFrameHeader.GetStackFrameHeader sfp + 3 →
        s1 a = st.stack a) ∧
      StackFrameHeader.m_caller s1 (StackFrameHeader.GetStackFrameHeader sfp) =
        StackFrameHeader.m_caller st.stack (StackFrameHeader.GetStackFrameHeader sfp) ∧
      StackFrameHeader.m_retAddr s1 (StackFrameHeader.GetStackFrameHeader sfp) =
        StackFrameHeader.m_retAddr st.stack (StackFrameHeader.GetStackFrameHeader sfp) ∧
      StackFrameHeader.m_func s1 (StackFrameHeader.GetStackFrameHeader sfp) =
        StackFrameHeader.m_func st.stack (StackFrameHeader.GetStackFrameHeader sfp) ∧
      StackFrameHeader.m_numVariadicArguments s1 (StackFrameHeader.GetStackFrameHeader sfp) =
        StackFrameHeader.m_numVariadicArguments st.stack
          (StackFrameHeader.GetStackFrameHeader sfp) ∧
      StackFrameHeader.m_callerBytecodeOffset s1 (StackFrameHeader.GetStackFrameHeader sfp) =
        off := by
    intro s1 h1
    unfold StackFrameHeader.m_caller StackFrameHeader.m_retAddr StackFrameHeader.m_func
      StackFrameHeader.m_numVariadicArguments StackFrameHeader.m_callerBytecodeOffset
    unfold StackFrameHeader.GetStackFrameHeader x_sizeOfStackFrameHeaderInTermsOfTValue at *
    refine ⟨?_, ?_, ?_, ?_, ?_, ?_⟩
    · intro a ha hne
      rw [h1 a ha, set_m_callerBytecodeOffset_apply, if_neg hne]
    · rw [h1 _ (by omega), set_m_callerBytecodeOffset_apply, if_neg (by omega)]
    · rw [h1 _ (by omega), set_m_callerBytecodeOffset_apply, if_neg (by omega)]
    · rw [h1 _ (by omega), set_m_callerBytecodeOffset_apply, if_neg (by omega)]
    · rw [h1 _ (by omega), set_m_callerBytecodeOffset_apply, if_pos rfl]
      omega
    · rw [h1 _ (by omega), set_m_callerBytecodeOffset_apply, if_pos rfl]
      omega
  constructor
  · intro st' nxt hex
    by_cases hcall : env.ops.IsPointer (st.stack (sfp + k)) = true ∧
        env.isFunctionObject (env.ops.AsPointer (st.stack (sfp + k))) = true
    · obtain ⟨st0, base, h0, hrc, hheap, hbase, hlow⟩ := BcCall_Execute_low env st sfp bcu keep
        pass F R k funcSlot hsfp hcode hslot hEc hstart (by rw [hoffv]; exact hoff)
        hcall.1 hcall.2
      rw [hN] at hbase hlow
      rw [hoffv] at hlow
      rw [h0] at hex
      injection hex with hex
      injection hex with e1 e2
      subst e1 e2
      obtain ⟨k1, k2, k3, k4, k5, k6⟩ := key st0.stack hlow
      refine ⟨k1, k2, k3, k4, k5, k6, hrc, hheap, ?_⟩
      intro fn b bc u hn
      injection hn with _ hb _ _
      rw [← hb]
      exact hbase
    · rw [BcCall_not_function env st sfp bcu k keep pass F R funcSlot hsfp hcode hslot hEc
        hstart (by rw [hoffv]; exact hoff) hcall, hoffv] at hex
      unfold unimplemented at hex
      split at hex
      · cases hex
      · injection hex with hex
        injection hex with e1 e2
        subst e1 e2
        obtain ⟨k1, k2, k3, k4, k5, k6⟩ := key _ (fun a _ => rfl)
        refine ⟨k1, k2, k3, k4, k5, k6, rfl, rfl, ?_⟩
        intro fn b bc u hn
        cases hn
  · intro hptr hfn
    obtain ⟨st0, base, h0, _⟩ := BcCall_Execute_low env st sfp bcu keep
      pass F R k funcSlot hsfp hcode hslot hEc hstart (by rw [hoffv]; exact hoff) hptr hfn
    exact ⟨st0, base, h0⟩

/-- Witness for C37: the `BcCall` at 2000 in the frame at 20 of the function 64
(6 slots, bytecode from 1990): the callee frame starts at 30 or above, the
slots 20 to 25 and the header words 16 to 18 keep their content, and the stored
offset is 10. -/
theorem BcCall_writes_above_caller_frame_witness :
    ∃ st' base, BcCall.Execute exampleEnv
        ⟨exampleStack [(18, 64), (21, 128)], ⟨0, 0⟩, exampleHeap⟩ 20 2000 =
        some (st', Next.call 7 base 3000 0) ∧
      30 ≤ base ∧ st'.stack 20 = 120 ∧ st'.stack 21 = 128 ∧ st'.stack 25 = 125 ∧
      st'.stack 16 = 116 ∧ st'.stack 17 = 117 ∧ st'.stack 18 = 64 ∧
      StackFrameHeader.m_callerBytecodeOffset st'.stack 16 = 10 := by
  have T := BcCall_writes_above_caller_frame exampleEnv
    ⟨exampleStack [(18, 64), (21, 128)], ⟨0, 0⟩, exampleHeap⟩ 20 2000 false false 2 2 1
    (BytecodeSlot.Local 1) (by decide) (by decide) (by decide) (by decide) (by decide)
    (by decide)
  obtain ⟨st', base, h0⟩ := T.2 (by decide) (by decide)
  obtain ⟨k1, _, _, _, _, k6, _, _, k9⟩ := T.1 st' _ h0
  exact ⟨st', base, h0, k9 _ _ _ _ rfl,
    (k1 20 (by decide) (by decide)).trans (by decide),
    (k1 21 (by decide) (by decide)).trans (by decide),
    (k1 25 (by decide) (by decide)).trans (by decide),
    (k1 16 (by decide) (by decide)).trans (by decide),
    (k1 17 (by decide) (by decide)).trans (by decide),
    (k1 18 (by decide) (by decide)).trans (by decide),
    k6.trans (by decide)⟩

end ToyLang

/-! # Theorems on the interpreter call inline cache -/

namespace dast

theorem ReleaseAssert_bind_ok {α : Type} (c : Bool) (text : String)
    (f : Unit → Except String α) (r : α)
    (h : (ReleaseAssert c text).bind f = Except.ok r) : c = true ∧ f () = Except.ok r := by
  cases c
  · simp [ReleaseAssert, Except.bind] at h
  · simpa [ReleaseAssert, Except.bind] using h

theorem Except_bind_ok {α β : Type} (x : Except String α) (f : α → Except String β) (r : β)
    (h : x.bind f = Except.ok r) : ∃ a, x = Except.ok a ∧ f a = Except.ok r := by
  cases x with
  | error e => simp [Except.bind] at h
  | ok a => exact ⟨a, rfl, by simpa [Except.bind] using h⟩

theorem EmitInterpreterCallIcWithHoistedCheck_shape (masks : TypeMasks) (site : CallSite)
    (tv : Nat) (term : BranchInst) (form : HoistedForm)
    (h : EmitInterpreterCallIcWithHoistedCheck masks site tv term = Except.ok form) :
    ∃ typechk succs, term.getCondition = some typechk ∧
      form = hoistedFormOf tv typechk succs ∧
      ((term.getSuccessor 0 = some site.bb ∧ term.getSuccessor 1 ≠ some site.bb ∧
          succs = (term.successors.map Block.existing).set 0 Block.updateIc) ∨
        (term.getSuccessor 0 ≠ some site.bb ∧ term.getSuccessor 1 = some site.bb ∧
          succs = (term.successors.map Block.existing).set 1 Block.updateIc)) := by
  unfold EmitInterpreterCallIcWithHoistedCheck at h
  obtain ⟨-, h⟩ := ReleaseAssert_bind_ok _ _ _ _ h
  obtain ⟨-, h⟩ := ReleaseAssert_bind_ok _ _ _ _ h
  obtain ⟨succs, hs, h⟩ := Except_bind_ok _ _ _ h
  have hsucc : (term.getSuccessor 0 = some site.bb ∧ term.getSuccessor 1 ≠ some site.bb ∧
          succs = (term.successors.map Block.existing).set 0 Block.updateIc) ∨
        (term.getSuccessor 0 ≠ some site.bb ∧ term.getSuccessor 1 = some site.bb ∧
          succs = (term.successors.map Block.existing).set 1 Block.updateIc) := by
    by_cases h0 : term.getSuccessor 0 = some site.bb
    · rw [if_pos h0] at hs
      obtain ⟨h1, hs⟩ := ReleaseAssert_bind_ok _ _ _ _ hs
      exact Or.inl ⟨h0, of_decide_eq_true h1, (Except.ok.inj hs).symm⟩
    · rw [if_neg h0] at hs
      obtain ⟨h1, hs⟩ := ReleaseAssert_bind_ok _ _ _ _ hs
      exact Or.inr ⟨h0, of_decide_eq_true h1, (Except.ok.inj hs).symm⟩
  cases hc : term.getCondition with
  | none => simp [hc] at h
  | some typechk =>
    simp only [hc] at h
    refine ⟨typechk, succs, rfl, ?_, hsucc⟩
    cases hd : site.definition typechk with
    | CallInst calledFunction args =>
      simp only [hd] at h
      obtain ⟨-, h⟩ := ReleaseAssert_bind_ok _ _ _ _ h
      cases calledFunction with
      | none => simp at h
      | some callee =>
        simp only at h
        obtain ⟨-, h⟩ := ReleaseAssert_bind_ok _ _ _ _ h
        obtain ⟨-, h⟩ := ReleaseAssert_bind_ok _ _ _ _ h
        obtain ⟨-, h⟩ := ReleaseAssert_bind_ok _ _ _ _ h
        exact (Except.ok.inj h).symm
    | _ => simp [hd] at h

/-! ### Runs of the hoisted form -/

theorem runHoisted_hit (S : CommonSnippets) (tv typechk : Nat) (succs : List Block)
    (m : Machine) (hhit : m.ic.cachedTValue = (m.regs (Value.existing tv)).1) :
    (runHoisted S (hoistedFormOf tv typechk succs) m).path = Path.icHit ∧
    (runHoisted S (hoistedFormOf tv typechk succs) m).target =
      some (S.GetCbHeapPtrFromTValueFuncObj (m.regs (Value.existing tv)).1,
        m.ic.cachedCodePointer) ∧
    (runHoisted S (hoistedFormOf tv typechk succs) m).machine.ic = m.ic ∧
    (runHoisted S (hoistedFormOf tv typechk succs) m).machine.called =
      m.called ++ [CommonSnippet.GetCbHeapPtrFromTValueFuncObj] := by
  simp [runHoisted, hoistedFormOf, exec, execInst, Machine.define, CommonSnippets.call, hhit]

theorem runHoisted_miss (S : CommonSnippets) (tv typechk : Nat) (succs : List Block)
    (m : Machine) (hmiss : m.ic.cachedTValue ≠ (m.regs (Value.existing tv)).1)
    (hbr : (if (m.regs (Value.existing typechk)).1 ≠ 0 then succs.get? 0 else succs.get? 1) =
      some Block.updateIc) :
    (runHoisted S (hoistedFormOf tv typechk succs) m).path = Path.icMiss ∧
    (runHoisted S (hoistedFormOf tv typechk succs) m).target =
      some (S.GetCalleeEntryPoint (S.GetFuncObjAsU64FromTValue (m.regs (Value.existing tv)).1)) ∧
    (runHoisted S (hoistedFormOf tv typechk succs) m).machine.ic =
      CallIcSlot.mk
        (S.BoxFunctionObjectToTValue (S.GetFuncObjAsU64FromTValue (m.regs (Value.existing tv)).1))
        (S.GetCalleeEntryPoint (S.GetFuncObjAsU64FromTValue (m.regs (Value.existing tv)).1)).2 ∧
    (runHoisted S (hoistedFormOf tv typechk succs) m).machine.called =
      m.called ++ [CommonSnippet.GetFuncObjAsU64FromTValue, CommonSnippet.GetCalleeEntryPoint,
        CommonSnippet.BoxFunctionObjectToTValue] := by
  simp [runHoisted, hoistedFormOf, exec, execInst, Machine.define, CommonSnippets.call, hmiss,
    EmitInterpreterCallIcCacheMissPopulateIcSlowPath, EmitGenericGetCallTargetLogic] at hbr ⊢
  simp [hbr]

theorem runHoisted_notTaken (S : CommonSnippets) (tv typechk : Nat) (succs : List Block)
    (m : Machine) (hmiss : m.ic.cachedTValue ≠ (m.regs (Value.existing tv)).1)
    (hbr : (if (m.regs (Value.existing typechk)).1 ≠ 0 then succs.get? 0 else succs.get? 1) ≠
      some Block.updateIc) :
    (runHoisted S (hoistedFormOf tv typechk succs) m).path = Path.notTaken ∧
    (runHoisted S (hoistedFormOf tv typechk succs) m).target = none ∧
    (runHoisted S (hoistedFormOf tv typechk succs) m).machine.ic = m.ic ∧
    (runHoisted S (hoistedFormOf tv typechk succs) m).machine.called = m.called := by
  simp [runHoisted, hoistedFormOf, exec, execInst, Machine.define, CommonSnippets.call, hmiss]
    at hbr ⊢
  simp [hbr]

theorem taken_updateIc (bb : Nat) (term : BranchInst) (typechk : Nat) (succs : List Block)
    (regs : Value → Nat × Nat) (hc : term.getCondition = some typechk)
    (hsucc : (term.getSuccessor 0 = some bb ∧ term.getSuccessor 1 ≠ some bb ∧
          succs = (term.successors.map Block.existing).set 0 Block.updateIc) ∨
        (term.getSuccessor 0 ≠ some bb ∧ term.getSuccessor 1 = some bb ∧
          succs = (term.successors.map Block.existing).set 1 Block.updateIc))
    (ht : term.taken regs = some bb) :
    (if (regs (Value.existing typechk)).1 ≠ 0 then succs.get? 0 else succs.get? 1) =
      some Block.updateIc := by
  unfold BranchInst.taken at ht
  rw [hc] at ht
  simp only at ht
  unfold BranchInst.getSuccessor at ht hsucc
  by_cases hz : (regs (Value.existing typechk)).1 ≠ 0
  · rw [if_pos hz] at ht ⊢
    rcases hsucc with ⟨h0, -, hs⟩ | ⟨h0, -, -⟩
    · subst hs
      rcases hl : term.successors with _ | ⟨a, t⟩
      · rw [hl] at h0; simp at h0
      · simp
    · exact absurd ht h0
  · rw [if_neg hz] at ht ⊢
    rcases hsucc with ⟨-, h1, -⟩ | ⟨-, h1, hs⟩
    · exact absurd ht h1
    · subst hs
      rcases hl : term.successors with _ | ⟨a, _ | ⟨b, t⟩⟩
      · rw [hl] at h1; simp at h1
      · rw [hl] at h1; simp at h1
      · simp

theorem Reachable_invariant (S : CommonSnippets) (isFunction : Nat → Bool)
    (laws : SnippetLaws S isFunction) (tv typechk : Nat) (succs : List Block)
    (empty : CallIcSlot) (ic : CallIcSlot)
    (h : Reachable S isFunction (hoistedFormOf tv typechk succs) tv empty ic) :
    ic = empty ∨ (isFunction ic.cachedTValue = true ∧
      ic.cachedCodePointer =
        (S.GetCalleeEntryPoint (S.GetFuncObjAsU64FromTValue ic.cachedTValue)).2) := by
  induction h with
  | empty => exact Or.inl rfl
  | call m _ hfn ih =>
    by_cases hhit : m.ic.cachedTValue = (m.regs (Value.existing tv)).1
    · rw [(runHoisted_hit S tv typechk succs m hhit).2.2.1]
      exact ih
    · by_cases hbr : (if (m.regs (Value.existing typechk)).1 ≠ 0 then succs.get? 0
          else succs.get? 1) = some Block.updateIc
      · rw [(runHoisted_miss S tv typechk succs m hhit hbr).2.2.1]
        refine Or.inr ⟨?_, ?_⟩
        · simp only
          rw [laws.box_unbox _ hfn]
          exact hfn
        · simp only
          rw [laws.box_unbox _ hfn]
      · rw [(runHoisted_notTaken S tv typechk succs m hhit hbr).2.2.1]
        exact ih

theorem runStraightLine_populate (S : CommonSnippets) (next : Nat) (fo : Nat) (m : Machine) :
    (runStraightLine S
        (EmitInterpreterCallIcCacheMissPopulateIcSlowPath next (Value.existing fo)).1
        (EmitInterpreterCallIcCacheMissPopulateIcSlowPath next (Value.existing fo)).2.1
        (EmitInterpreterCallIcCacheMissPopulateIcSlowPath next (Value.existing fo)).2.2
        m).target = some (S.GetCalleeEntryPoint (m.regs (Value.existing fo)).1) ∧
    (runStraightLine S
        (EmitInterpreterCallIcCacheMissPopulateIcSlowPath next (Value.existing fo)).1
        (EmitInterpreterCallIcCacheMissPopulateIcSlowPath next (Value.existing fo)).2.1
        (EmitInterpreterCallIcCacheMissPopulateIcSlowPath next (Value.existing fo)).2.2
        m).machine.ic =
      CallIcSlot.mk (S.BoxFunctionObjectToTValue (m.regs (Value.existing fo)).1)
        (S.GetCalleeEntryPoint (m.regs (Value.existing fo)).1).2 := by
  simp [runStraightLine, exec, execInst, Machine.define, CommonSnippets.call,
    EmitInterpreterCallIcCacheMissPopulateIcSlowPath, EmitGenericGetCallTargetLogic]

theorem findFrom_eq_none_iff (pat : List Char) :
    ∀ (s : List Char) (pos : Nat), findFrom pat s pos = none ↔ ¬ pat <:+: s := by
  intro s
  induction s with
  | nil =>
    intro pos
    unfold findFrom
    rw [List.infix_nil]
    by_cases h : pat = [] <;> simp [h]
  | cons c cs ih =>
    intro pos
    unfold findFrom
    rw [List.infix_cons_iff]
    by_cases h : pat.isPrefixOf (c :: cs) = true
    · rw [if_pos h]
      simp [List.isPrefixOf_iff_prefix.mp h]
    · rw [if_neg h, ih]
      have h2 : ¬ pat <+: c :: cs := fun hp => h (List.isPrefixOf_iff_prefix.mpr hp)
      simp [h2]

theorem find_eq_none_iff (s pat : String) : find s pat = none ↔ ¬ pat.data <:+: s.data :=
  findFrom_eq_none_iff pat.data s.data 0

/-- The text that `EmitComputeLabelOffsetAsm` returns on accepted names. -/
theorem EmitComputeLabelOffsetAsm_ok (fnName labelName r : String)
    (h : EmitComputeLabelOffsetAsm fnName labelName = Except.ok r) :
    LabelOffsetAccepted fnName labelName ∧
    r = "" ++
      ("\n\n\t.type\t" ++ EmitComputeLabelOffsetAsm.varName fnName labelName ++ ",@object\n") ++
      ("\t.section\t.rodata." ++ EmitComputeLabelOffsetAsm.varName fnName labelName ++
        ",\x22a\x22,@progbits\n") ++
      ("\t.globl\t" ++ EmitComputeLabelOffsetAsm.varName fnName labelName ++ "\n") ++
      "\t.p2align\t3\n" ++
      (EmitComputeLabelOffsetAsm.varName fnName labelName ++ ":\n") ++
      ("\t.quad\t." ++ labelName ++ "-" ++ fnName ++ "\n") ++
      (".size\t" ++ EmitComputeLabelOffsetAsm.varName fnName labelName ++ ", 8\n\n") := by
  unfold EmitComputeLabelOffsetAsm at h
  obtain ⟨c1, h⟩ := ReleaseAssert_bind_ok _ _ _ _ h
  obtain ⟨c2, h⟩ := ReleaseAssert_bind_ok _ _ _ _ h
  obtain ⟨c3, h⟩ := ReleaseAssert_bind_ok _ _ _ _ h
  obtain ⟨c4, h⟩ := ReleaseAssert_bind_ok _ _ _ _ h
  obtain ⟨c5, h⟩ := ReleaseAssert_bind_ok _ _ _ _ h
  rw [Bool.and_eq_true, decide_eq_true_iff, decide_eq_true_iff] at c1
  rw [decide_eq_true_iff] at c2 c3 c4 c5
  rw [find_eq_none_iff] at c3 c4 c5
  refine ⟨⟨c1.1, c1.2, c2, c3, c4, c5⟩, ?_⟩
  injection h with h
  exact h.symm

/-- The accepted names are exactly those on which the function returns. -/
theorem EmitComputeLabelOffsetAsm_accepts (fnName labelName : String)
    (h : LabelOffsetAccepted fnName labelName) :
    ∃ r, EmitComputeLabelOffsetAsm fnName labelName = Except.ok r := by
  obtain ⟨c1, c2, c3, c4, c5, c6⟩ := h
  unfold EmitComputeLabelOffsetAsm ReleaseAssert
  rw [← find_eq_none_iff] at c4 c5 c6
  simp only [c1, c2, c3, c4, c5, c6, decide_True, Bool.and_self, if_true, ne_eq,
    not_false_eq_true]
  exact ⟨_, rfl⟩

theorem separator_data : "_XYZyZYX_in_function_".data =
    '_' :: ("XYZyZYX".data ++ "_in_function_".data) := by decide

theorem pattern_data : "XYZyZYX".data = ['X', 'Y', 'Z', 'y', 'Z', 'Y', 'X'] := by decide

/-- A label without the pattern cannot reach into the separator. -/
theorem separator_overlap (l a f1 f2 : List Char)
    (hl : ¬ "XYZyZYX".data <:+: l ++ a)
    (h : "_XYZyZYX_in_function_".data ++ f1 = a ++ ("_XYZyZYX_in_function_".data ++ f2)) :
    a = [] := by
  rw [separator_data, pattern_data] at h
  rw [pattern_data] at hl
  rcases a with _ | ⟨c0, _ | ⟨c1, _ | ⟨c2, _ | ⟨c3, _ | ⟨c4, _ | ⟨c5, _ | ⟨c6, _ | ⟨c7, r⟩⟩⟩⟩⟩⟩⟩⟩
  · rfl
  · simp at h
  · simp at h
  · simp at h
  · simp at h
  · simp at h
  · simp at h
  · simp at h
  · exfalso
    simp only [List.cons_append, List.nil_append, List.cons.injEq] at h
    obtain ⟨e0, e1, e2, e3, e4, e5, e6, e7, _⟩ := h
    subst e0 e1 e2 e3 e4 e5 e6 e7
    apply hl
    refine ⟨l ++ ['_'], r, ?_⟩
    simp

theorem separator_unique (l1 l2 f1 f2 : List Char)
    (h1 : ¬ "XYZyZYX".data <:+: l1) (h2 : ¬ "XYZyZYX".data <:+: l2)
    (h : l1 ++ ("_XYZyZYX_in_function_".data ++ f1) = l2 ++ ("_XYZyZYX_in_function_".data ++ f2)) :
    l1 = l2 ∧ f1 = f2 := by
  rcases List.append_eq_append_iff.mp h with ⟨a, e1, e2⟩ | ⟨a, e1, e2⟩
  · rw [e1] at h2
    have ha := separator_overlap l1 a f1 f2 h2 e2
    subst ha
    rw [List.append_nil] at e1
    rw [List.nil_append] at e2
    exact ⟨e1.symm, List.append_cancel_left e2⟩
  · rw [e1] at h1
    have ha := separator_overlap l2 a f2 f1 h1 e2
    subst ha
    rw [List.append_nil] at e1
    rw [List.nil_append] at e2
    exact ⟨e1, (List.append_cancel_left e2).symm⟩

theorem varName_injective (fn1 l1 fn2 l2 : String)
    (h1 : ¬ "XYZyZYX".data <:+: l1.data) (h2 : ¬ "XYZyZYX".data <:+: l2.data)
    (h : EmitComputeLabelOffsetAsm.varName fn1 l1 = EmitComputeLabelOffsetAsm.varName fn2 l2) :
    fn1 = fn2 ∧ l1 = l2 := by
  have hd := congrArg String.data h
  unfold EmitComputeLabelOffsetAsm.varName at hd
  simp only [String.data_append, List.append_assoc] at hd
  have hd2 := List.append_cancel_left hd
  obtain ⟨e1, e2⟩ := separator_unique l1.data l2.data fn1.data fn2.data h1 h2 hd2
  exact ⟨String.ext e2, String.ext e1⟩

/-- What `EmitInterpreterCallIcWithHoistedCheck` asserts on the condition of
the branch: it is a call, in the block of the branch, of a type check function
on the single argument `tv`, with a checked mask that contains the function
mask. -/
theorem EmitInterpreterCallIcWithHoistedCheck_typechk (masks : TypeMasks) (site : CallSite)
    (tv : Nat) (term : BranchInst) (form : HoistedForm)
    (h : EmitInterpreterCallIcWithHoistedCheck masks site tv term = Except.ok form) :
    ∃ typechk callee, term.getCondition = some typechk ∧
      site.definition typechk = Instruction.CallInst (some callee) [tv] ∧
      site.getParent typechk = term.getParent ∧
      (callee.IsTValueTypeCheckAPIFunction ||
        callee.IsTValueTypeCheckStrengthReductionFunction) = true ∧
      callee.GetCheckedMaskOfTValueTypecheckFunction &&& masks.tFunction = masks.tFunction := by
  unfold EmitInterpreterCallIcWithHoistedCheck at h
  obtain ⟨-, h⟩ := ReleaseAssert_bind_ok _ _ _ _ h
  obtain ⟨-, h⟩ := ReleaseAssert_bind_ok _ _ _ _ h
  obtain ⟨succs, -, h⟩ := Except_bind_ok _ _ _ h
  cases hc : term.getCondition with
  | none => simp [hc] at h
  | some typechk =>
    simp only [hc] at h
    cases hd : site.definition typechk with
    | CallInst calledFunction args =>
      simp only [hd] at h
      obtain ⟨hpar, h⟩ := ReleaseAssert_bind_ok _ _ _ _ h
      cases calledFunction with
      | none => simp at h
      | some callee =>
        simp only at h
        obtain ⟨hkind, h⟩ := ReleaseAssert_bind_ok _ _ _ _ h
        obtain ⟨hargs, h⟩ := ReleaseAssert_bind_ok _ _ _ _ h
        obtain ⟨hmask, h⟩ := ReleaseAssert_bind_ok _ _ _ _ h
        have ha : args = [tv] := of_decide_eq_true hargs
        subst ha
        exact ⟨typechk, callee, rfl, hd, of_decide_eq_true hpar, hkind,
          of_decide_eq_true hmask⟩
    | _ => simp [hd] at h

/-- What `CheckCanHoistInterpreterCallIcCheck` has tested when it returns
true. -/
theorem CheckCanHoistInterpreterCallIcCheck_true (masks : TypeMasks) (site : CallSite)
    (functionObject tv : Nat) (condBrInst : BranchInst)
    (h : CheckCanHoistInterpreterCallIcCheck masks site functionObject =
      Except.ok (some (tv, condBrInst))) :
    ∃ ptrOperand decode pred cond typeCheck condArgs,
      site.definition functionObject = Instruction.PtrToIntInst ptrOperand ∧
      site.definition ptrOperand = Instruction.CallInst (some decode) [tv] ∧
      decode.IsTValueDecodeAPIFunction = true ∧
      site.getSinglePredecessor = some pred ∧
      site.getTerminator pred = Terminator.BranchInst condBrInst ∧
      condBrInst.getCondition = some cond ∧
      site.definition cond = Instruction.CallInst (some typeCheck) condArgs ∧
      (typeCheck.IsTValueTypeCheckAPIFunction = true ∨
        typeCheck.IsTValueTypeCheckStrengthReductionFunction = true) ∧
      typeCheck.GetCheckedMaskOfTValueTypecheckFunction &&& masks.tFunction =
        masks.tFunction := by
  unfold CheckCanHoistInterpreterCallIcCheck at h
  obtain ⟨-, h⟩ := ReleaseAssert_bind_ok _ _ _ _ h
  cases hd : site.definition functionObject with
  | PtrToIntInst ptrOperand =>
    simp only [hd] at h
    cases hp : site.definition ptrOperand with
    | CallInst calledFunction args =>
      simp only [hp] at h
      cases calledFunction with
      | none => simp at h
      | some decode =>
        simp only at h
        cases hdec : decode.IsTValueDecodeAPIFunction with
        | false => simp [hdec] at h
        | true =>
          simp only [hdec, Bool.not_true, Bool.false_eq_true, if_false] at h
          obtain ⟨hlen, h⟩ := ReleaseAssert_bind_ok _ _ _ _ h
          obtain ⟨-, h⟩ := ReleaseAssert_bind_ok _ _ _ _ h
          cases hpred : site.getSinglePredecessor with
          | none => simp [hpred] at h
          | some pred =>
            simp only [hpred] at h
            cases hterm : site.getTerminator pred with
            | OtherTerminator => simp [hterm] at h
            | BranchInst br =>
              simp only [hterm] at h
              cases hcond : br.getCondition with
              | none => simp [hcond] at h
              | some cond =>
                simp only [hcond] at h
                cases hcd : site.definition cond with
                | CallInst calledFunction2 condArgs =>
                  simp only [hcd] at h
                  cases calledFunction2 with
                  | none => simp at h
                  | some typeCheck =>
                    simp only at h
                    by_cases hk : (!typeCheck.IsTValueTypeCheckAPIFunction &&
                        !typeCheck.IsTValueTypeCheckStrengthReductionFunction) = true
                    · simp [hk] at h
                    · rw [if_neg hk] at h
                      by_cases hm : typeCheck.GetCheckedMaskOfTValueTypecheckFunction &&&
                          masks.tFunction ≠ masks.tFunction
                      · simp [hm] at h
                      · rw [if_neg hm] at h
                        have e := Except.ok.inj h
                        simp only [Option.some.injEq, Prod.mk.injEq] at e
                        obtain ⟨e1, e2⟩ := e
                        subst e2
                        have hargs : args = [tv] := by
                          have hl : args.length = 1 := of_decide_eq_true hlen
                          rcases args with _ | ⟨a, _ | ⟨b, t⟩⟩
                          · simp at hl
                          · simp at e1
                            rw [e1]
                          · simp at hl
                        refine ⟨ptrOperand, decode, pred, cond, typeCheck, condArgs, rfl, ?_,
                          hdec, rfl, hterm, hcond, hcd, ?_, not_not.mp hm⟩
                        · rw [hp, hargs]
                        · cases ha : typeCheck.IsTValueTypeCheckAPIFunction
                          · cases hb : typeCheck.IsTValueTypeCheckStrengthReductionFunction
                            · simp [ha, hb] at hk
                            · exact Or.inr rfl
                          · exact Or.inl rfl
                | _ => simp [hcd] at h
    | _ => simp [hp] at h
  | _ => simp [hd] at h

theorem updateIc_taken (bb : Nat) (term : BranchInst) (typechk : Nat) (succs : List Block)
    (regs : Value → Nat × Nat) (hc : term.getCondition = some typechk)
    (hsucc : (term.getSuccessor 0 = some bb ∧ term.getSuccessor 1 ≠ some bb ∧
          succs = (term.successors.map Block.existing).set 0 Block.updateIc) ∨
        (term.getSuccessor 0 ≠ some bb ∧ term.getSuccessor 1 = some bb ∧
          succs = (term.successors.map Block.existing).set 1 Block.updateIc))
    (h : (if (regs (Value.existing typechk)).1 ≠ 0 then succs.get? 0 else succs.get? 1) =
      some Block.updateIc) :
    term.taken regs = some bb := by
  unfold BranchInst.taken
  rw [hc]
  simp only
  unfold BranchInst.getSuccessor at hsucc ⊢
  by_cases hz : (regs (Value.existing typechk)).1 ≠ 0
  · rw [if_pos hz] at h ⊢
    rcases hsucc with ⟨h0, -, -⟩ | ⟨-, -, hs⟩
    · exact h0
    · subst hs
      rcases hl : term.successors with _ | ⟨a, _ | ⟨b, t⟩⟩
      · rw [hl] at h; simp at h
      · rw [hl] at h; simp at h
      · rw [hl] at h; simp at h
  · rw [if_neg hz] at h ⊢
    rcases hsucc with ⟨-, -, hs⟩ | ⟨-, h1, -⟩
    · subst hs
      rcases hl : term.successors with _ | ⟨a, _ | ⟨b, t⟩⟩
      · rw [hl] at h; simp at h
      · rw [hl] at h; simp at h
      · rw [hl] at h; simp at h
    · exact h1

/-- The way of a run of the hoisted form is the hit way exactly when the cached
key equals the value in `tv`. -/
theorem runHoisted_path_hit_iff (S : CommonSnippets) (tv typechk : Nat) (succs : List Block)
    (m : Machine) :
    (runHoisted S (hoistedFormOf tv typechk succs) m).path = Path.icHit ↔
      m.ic.cachedTValue = (m.regs (Value.existing tv)).1 := by
  constructor
  · intro h
    by_contra hne
    by_cases hbr : (if (m.regs (Value.existing typechk)).1 ≠ 0 then succs.get? 0
        else succs.get? 1) = some Block.updateIc
    · rw [(runHoisted_miss S tv typechk succs m hne hbr).1] at h
      cases h
    · rw [(runHoisted_notTaken S tv typechk succs m hne hbr).1] at h
      cases h
  · intro h
    exact (runHoisted_hit S tv typechk succs m h).1

/-- In every cache state reachable by checked runs the key is the one of the
empty cache or a function value that is the boxed function object of a
function value. -/
theorem ReachableChecked_invariant (S : CommonSnippets) (isFunction : Nat → Bool)
    (laws : SnippetLaws S isFunction) (tv typechk : Nat) (succs : List Block)
    (term : BranchInst) (bb : Nat) (hc : term.getCondition = some typechk)
    (hsucc : (term.getSuccessor 0 = some bb ∧ term.getSuccessor 1 ≠ some bb ∧
          succs = (term.successors.map Block.existing).set 0 Block.updateIc) ∨
        (term.getSuccessor 0 ≠ some bb ∧ term.getSuccessor 1 = some bb ∧
          succs = (term.successors.map Block.existing).set 1 Block.updateIc))
    (empty : CallIcSlot) (ic : CallIcSlot)
    (h : ReachableChecked S isFunction (hoistedFormOf tv typechk succs) tv term bb empty ic) :
    ic = empty ∨ (isFunction ic.cachedTValue = true ∧
      ∃ v, isFunction v = true ∧
        ic.cachedTValue = S.BoxFunctionObjectToTValue (S.GetFuncObjAsU64FromTValue v)) := by
  induction h with
  | empty => exact Or.inl rfl
  | call m _ hfn ih =>
    by_cases hhit : m.ic.cachedTValue = (m.regs (Value.existing tv)).1
    · rw [(runHoisted_hit S tv typechk succs m hhit).2.2.1]
      exact ih
    · by_cases hbr : (if (m.regs (Value.existing typechk)).1 ≠ 0 then succs.get? 0
          else succs.get? 1) = some Block.updateIc
      · rw [(runHoisted_miss S tv typechk succs m hhit hbr).2.2.1]
        have hf := hfn (updateIc_taken bb term typechk succs m.regs hc hsucc hbr)
        refine Or.inr ⟨?_, (m.regs (Value.existing tv)).1, hf, rfl⟩
        simp only
        rw [laws.box_unbox _ hf]
        exact hf
      · rw [(runHoisted_notTaken S tv typechk succs m hhit hbr).2.2.1]
        exact ih

/-- C15: for the hoisted form that `EmitInterpreterCallIcWithHoistedCheck`
emits, with the cache as the one-entry state of cached key and cached code
pointer: a run on the function value `K1` that misses leaves the cache holding
`K1` and the code pointer `T1` resolved for `K1`; a following run with a value
equal to `K1` takes the hit path, hands `T1` to the call and calls no snippet
but `GetCbHeapPtrFromTValueFuncObj`, so target resolution is not invoked; a
following run with a function value `K2` different from `K1` takes the miss
path, invokes target resolution and leaves the cache holding `K2` and its
resolved code pointer `T2`. -/
theorem call_ic_hit_miss_protocol (masks : TypeMasks) (site : CallSite) (tv : Nat)
    (term : BranchInst) (form : HoistedForm)
    (hemit : EmitInterpreterCallIcWithHoistedCheck masks site tv term = Except.ok form)
    (S : CommonSnippets) (K1 K2 : Nat)
    (hK1 : S.BoxFunctionObjectToTValue (S.GetFuncObjAsU64FromTValue K1) = K1)
    (hK2 : S.BoxFunctionObjectToTValue (S.GetFuncObjAsU64FromTValue K2) = K2)
    (hne : K2 ≠ K1) (m0 m1 m2 : Machine)
    (h0 : (m0.regs (Value.existing tv)).1 = K1) (hmiss : m0.ic.cachedTValue ≠ K1)
    (hbr0 : term.taken m0.regs = some site.bb)
    (hic1 : m1.ic = (runHoisted S form m0).machine.ic)
    (h1 : (m1.regs (Value.existing tv)).1 = K1)
    (hic2 : m2.ic = (runHoisted S form m0).machine.ic)
    (h2 : (m2.regs (Value.existing tv)).1 = K2)
    (hbr2 : term.taken m2.regs = some site.bb) :
    ((runHoisted S form m0).path = Path.icMiss ∧
      (runHoisted S form m0).machine.ic =
        CallIcSlot.mk K1 (S.GetCalleeEntryPoint (S.GetFuncObjAsU64FromTValue K1)).2) ∧
    ((runHoisted S form m1).path = Path.icHit ∧
      (runHoisted S form m1).target.map Prod.snd =
        some (S.GetCalleeEntryPoint (S.GetFuncObjAsU64FromTValue K1)).2 ∧
      (runHoisted S form m1).machine.called =
        m1.called ++ [CommonSnippet.GetCbHeapPtrFromTValueFuncObj] ∧
      (runHoisted S form m1).machine.ic =
        CallIcSlot.mk K1 (S.GetCalleeEntryPoint (S.GetFuncObjAsU64FromTValue K1)).2) ∧
    ((runHoisted S form m2).path = Path.icMiss ∧
      (runHoisted S form m2).target =
        some (S.GetCalleeEntryPoint (S.GetFuncObjAsU64FromTValue K2)) ∧
      (runHoisted S form m2).machine.called =
        m2.called ++ [CommonSnippet.GetFuncObjAsU64FromTValue,
          CommonSnippet.GetCalleeEntryPoint, CommonSnippet.BoxFunctionObjectToTValue] ∧
      (runHoisted S form m2).machine.ic =
        CallIcSlot.mk K2 (S.GetCalleeEntryPoint (S.GetFuncObjAsU64FromTValue K2)).2) := by
  obtain ⟨typechk, succs, hc, hform, hsucc⟩ :=
    EmitInterpreterCallIcWithHoistedCheck_shape masks site tv term form hemit
  subst hform
  have r0 := runHoisted_miss S tv typechk succs m0 (by rw [h0]; exact hmiss)
    (taken_updateIc site.bb term typechk succs m0.regs hc hsucc hbr0)
  rw [h0, hK1] at r0
  have e1 : m1.ic = CallIcSlot.mk K1 (S.GetCalleeEntryPoint (S.GetFuncObjAsU64FromTValue K1)).2 :=
    hic1.trans r0.2.2.1
  have e2 : m2.ic = CallIcSlot.mk K1 (S.GetCalleeEntryPoint (S.GetFuncObjAsU64FromTValue K1)).2 :=
    hic2.trans r0.2.2.1
  have r1 := runHoisted_hit S tv typechk succs m1 (by rw [h1, e1])
  have r2 := runHoisted_miss S tv typechk succs m2 (by rw [h2, e2]; exact fun h => hne h.symm)
    (taken_updateIc site.bb term typechk succs m2.regs hc hsucc hbr2)
  rw [h2, hK2] at r2
  refine ⟨⟨r0.1, r0.2.2.1⟩, ⟨r1.1, ?_, r1.2.2.2, r1.2.2.1.trans e1⟩,
    ⟨r2.1, r2.2.1, r2.2.2.2, r2.2.2.1⟩⟩
  rw [r1.2.1, e1]
  rfl

/-- The protocol of C15 on the example call site: the empty cache, then the
function value `2 ^ 48 + 7` twice, then `2 ^ 48 + 9`. -/
theorem call_ic_hit_miss_protocol_witness :
    (runHoisted exampleSnippets exampleForm
        (exampleMachine (2 ^ 48 + 7) 1 (CallIcSlot.mk 0 0))).machine.ic =
      CallIcSlot.mk (2 ^ 48 + 7) 14 ∧
    (runHoisted exampleSnippets exampleForm
        (exampleMachine (2 ^ 48 + 7) 1 (CallIcSlot.mk (2 ^ 48 + 7) 14))).path = Path.icHit ∧
    (runHoisted exampleSnippets exampleForm
        (exampleMachine (2 ^ 48 + 9) 1 (CallIcSlot.mk (2 ^ 48 + 7) 14))).machine.ic =
      CallIcSlot.mk (2 ^ 48 + 9) 18 :=
  have h := call_ic_hit_miss_protocol exampleMasks (exampleSite 4) 0
    (BranchInst.mk 10 (some 1) [11, 12]) exampleForm rfl exampleSnippets
    (2 ^ 48 + 7) (2 ^ 48 + 9) (by decide) (by decide) (by decide)
    (exampleMachine (2 ^ 48 + 7) 1 (CallIcSlot.mk 0 0))
    (exampleMachine (2 ^ 48 + 7) 1 (CallIcSlot.mk (2 ^ 48 + 7) 14))
    (exampleMachine (2 ^ 48 + 9) 1 (CallIcSlot.mk (2 ^ 48 + 7) 14))
    (by decide) (by decide) (by decide) (by decide) (by decide) (by decide) (by decide)
    (by decide)
  ⟨h.1.2, h.2.1.1, h.2.2.2.2.2⟩

/-- C16: for every function value in `tv` and every cache state reachable
from the empty cache by runs of the hoisted form, when the original branch
leads to the call, the callee code block and the code pointer that the hoisted
form of `EmitInterpreterCallIcWithHoistedCheck` hands to the call are those
that the unhoisted form hands to it on the function object of the same value,
namely the result of `GetCalleeEntryPoint` on that function object. The common
snippets obey `SnippetLaws`, and the key of the empty cache is not a function
value. -/
theorem hoisted_target_eq_unhoisted_target (masks : TypeMasks) (site : CallSite) (tv : Nat)
    (term : BranchInst) (form : HoistedForm)
    (hemit : EmitInterpreterCallIcWithHoistedCheck masks site tv term = Except.ok form)
    (S : CommonSnippets) (isFunction : Nat → Bool) (laws : SnippetLaws S isFunction)
    (empty : CallIcSlot) (hempty : isFunction empty.cachedTValue = false)
    (m : Machine) (hreach : Reachable S isFunction form tv empty m.ic)
    (hfn : isFunction (m.regs (Value.existing tv)).1 = true)
    (hbr : term.taken m.regs = some site.bb)
    (functionObject : Nat)
    (hfo : (m.regs (Value.existing functionObject)).1 =
      S.GetFuncObjAsU64FromTValue (m.regs (Value.existing tv)).1) :
    (runHoisted S form m).target =
      (runStraightLine S
        (EmitInterpreterCallIcCacheMissPopulateIcSlowPath 0 (Value.existing functionObject)).1
        (EmitInterpreterCallIcCacheMissPopulateIcSlowPath 0 (Value.existing functionObject)).2.1
        (EmitInterpreterCallIcCacheMissPopulateIcSlowPath 0 (Value.existing functionObject)).2.2
        m).target ∧
    (runHoisted S form m).target =
      some (S.GetCalleeEntryPoint (S.GetFuncObjAsU64FromTValue (m.regs (Value.existing tv)).1)) := by
  obtain ⟨typechk, succs, hc, hform, hsucc⟩ :=
    EmitInterpreterCallIcWithHoistedCheck_shape masks site tv term form hemit
  subst hform
  have key : (runHoisted S (hoistedFormOf tv typechk succs) m).target =
      some (S.GetCalleeEntryPoint
        (S.GetFuncObjAsU64FromTValue (m.regs (Value.existing tv)).1)) := by
    by_cases hhit : m.ic.cachedTValue = (m.regs (Value.existing tv)).1
    · rw [(runHoisted_hit S tv typechk succs m hhit).2.1]
      rcases Reachable_invariant S isFunction laws tv typechk succs empty m.ic hreach with
        he | ⟨-, hcp⟩
      · rw [he] at hhit
        rw [← hhit, hempty] at hfn
        exact absurd hfn (by decide)
      · rw [hcp, hhit, laws.codeBlock _ hfn]
    · exact (runHoisted_miss S tv typechk succs m hhit
        (taken_updateIc site.bb term typechk succs m.regs hc hsucc hbr)).2.1
  refine ⟨?_, key⟩
  rw [key, (runStraightLine_populate S 0 functionObject m).1, hfo]

/-- C16 on the example call site, from the cache left by a call of the
function value `2 ^ 48 + 7`: the hit on that value and the unhoisted form both
hand the code block `8` and the code pointer `14` to the call. -/
theorem hoisted_target_eq_unhoisted_target_witness :
    (runHoisted exampleSnippets exampleForm
        (exampleMachine (2 ^ 48 + 7) 1 (CallIcSlot.mk (2 ^ 48 + 7) 14))).target =
      some (8, 14) ∧
    (runStraightLine exampleSnippets
        (EmitInterpreterCallIcCacheMissPopulateIcSlowPath 0 (Value.existing 3)).1
        (EmitInterpreterCallIcCacheMissPopulateIcSlowPath 0 (Value.existing 3)).2.1
        (EmitInterpreterCallIcCacheMissPopulateIcSlowPath 0 (Value.existing 3)).2.2
        (exampleMachine (2 ^ 48 + 7) 1 (CallIcSlot.mk (2 ^ 48 + 7) 14))).target =
      some (8, 14) :=
  have h := hoisted_target_eq_unhoisted_target exampleMasks (exampleSite 4) 0
    (BranchInst.mk 10 (some 1) [11, 12]) exampleForm rfl exampleSnippets exampleIsFunction
    (SnippetLaws.mk
      (fun v hv => by
        have h : 2 ^ 48 ≤ v := of_decide_eq_true hv
        show v - 2 ^ 48 + 2 ^ 48 = v
        omega)
      (fun _ _ => rfl))
    (CallIcSlot.mk 0 0) (by decide)
    (exampleMachine (2 ^ 48 + 7) 1 (CallIcSlot.mk (2 ^ 48 + 7) 14))
    (Eq.mp
      (congrArg (Reachable exampleSnippets exampleIsFunction exampleForm 0 (CallIcSlot.mk 0 0))
        (by decide : (runHoisted exampleSnippets exampleForm
          (exampleMachine (2 ^ 48 + 7) 1 (CallIcSlot.mk 0 0))).machine.ic =
            CallIcSlot.mk (2 ^ 48 + 7) 14))
      (Reachable.call (exampleMachine (2 ^ 48 + 7) 1 (CallIcSlot.mk 0 0)) Reachable.empty
        (by decide)))
    (by decide) (by decide) 3 (by decide)
  ⟨h.2, h.1.symm.trans h.2⟩

/-- C17 as stated fails: the example call site has an interpreter call IC, and
the conditional branch of the predecessor is on a type check whose checked mask
`3` is not a superset of the function mask `4`; `EmitForInterpreter` aborts at
`ReleaseAssert(false && "unexpected")` of
`CheckCanHoistInterpreterCallIcCheck`, it does not fall back to the unhoisted
form. -/
theorem fallback_on_mask_failure_counterexample :
    (exampleSite 3).HasInterpreterCallIC = true ∧
    (3 &&& exampleMasks.tFunction) ≠ exampleMasks.tFunction ∧
    CheckCanHoistInterpreterCallIcCheck exampleMasks (exampleSite 3) 3 =
      Except.error "unexpected" ∧
    EmitForInterpreter exampleMasks (exampleSite 3) false 3 = Except.error "unexpected" ∧
    ¬ ∃ r, EmitForInterpreter exampleMasks (exampleSite 3) false 3 = Except.ok r := by
  refine ⟨rfl, by decide, rfl, rfl, ?_⟩
  rintro ⟨r, hr⟩
  have h : EmitForInterpreter exampleMasks (exampleSite 3) false 3 = Except.error "unexpected" :=
    rfl
  rw [h] at hr
  exact Except.noConfusion hr

/-- C17, amended: for a call site that has an interpreter call IC, whenever
`CheckCanHoistInterpreterCallIcCheck` returns false, `EmitForInterpreter`
completes without aborting and emits the unhoisted form, the logic of
`EmitInterpreterCallIcCacheMissPopulateIcSlowPath` on the function object;
whenever the function object is the conversion of a call of a `TValue` decode
function on one `uint64_t` value, the block has a single predecessor and its
terminator is a conditional branch on a call of a type check function whose
checked mask is not a superset of the function mask, `EmitForInterpreter`
aborts. -/
theorem fallback_when_hoisting_check_returns_false (masks : TypeMasks) (site : CallSite)
    (used : Bool) (functionObject : Nat) (hic : site.HasInterpreterCallIC = true) :
    (CheckCanHoistInterpreterCallIcCheck masks site functionObject = Except.ok none →
      EmitForInterpreter masks site used functionObject =
        Except.ok (EmitResult.mk true (CallIcLogic.straightLine
          (EmitInterpreterCallIcCacheMissPopulateIcSlowPath 0 (Value.existing functionObject)).1
          (EmitInterpreterCallIcCacheMissPopulateIcSlowPath 0 (Value.existing functionObject)).2.1
          (EmitInterpreterCallIcCacheMissPopulateIcSlowPath 0
            (Value.existing functionObject)).2.2))) ∧
    (∀ (ptrOperand : Nat) (decode : Callee) (args : List Nat) (pred : Nat) (br : BranchInst)
        (cond : Nat) (typeCheck : Callee) (condArgs : List Nat),
      site.isU64 functionObject = true →
      site.definition functionObject = Instruction.PtrToIntInst ptrOperand →
      site.definition ptrOperand = Instruction.CallInst (some decode) args →
      decode.IsTValueDecodeAPIFunction = true →
      args.length = 1 → site.isU64 (args.getD 0 0) = true →
      site.getSinglePredecessor = some pred →
      site.getTerminator pred = Terminator.BranchInst br →
      br.getCondition = some cond →
      site.definition cond = Instruction.CallInst (some typeCheck) condArgs →
      (typeCheck.IsTValueTypeCheckAPIFunction = true ∨
        typeCheck.IsTValueTypeCheckStrengthReductionFunction = true) →
      typeCheck.GetCheckedMaskOfTValueTypecheckFunction &&& masks.tFunction ≠ masks.tFunction →
      EmitForInterpreter masks site used functionObject = Except.error "unexpected") := by
  constructor
  · intro h
    unfold EmitForInterpreter
    rw [hic, h]
    rfl
  · intro ptrOperand decode args pred br cond typeCheck condArgs hU hfo hp hdec hlen hU2 hpred
      hterm hcond hdef hchk hmask
    have hcheck : CheckCanHoistInterpreterCallIcCheck masks site functionObject =
        Except.error "unexpected" := by
      unfold CheckCanHoistInterpreterCallIcCheck
      simp only [hU, hfo, hp, hdec, hlen, hU2, hpred, hterm, hcond, hdef, ReleaseAssert,
        Except.bind, decide_True, if_true, Bool.not_true, Bool.false_eq_true, if_false]
      rcases hchk with h | h
      · simp [h, hmask]
      · simp [h, hmask]
    unfold EmitForInterpreter
    rw [hic, hcheck]
    rfl

/-- The amended C17 on the example call site without a single predecessor of
the block of the call: the unhoisted form is emitted. -/
theorem fallback_when_hoisting_check_returns_false_witness :
    exampleSiteNoPred.HasInterpreterCallIC = true ∧
    CheckCanHoistInterpreterCallIcCheck exampleMasks exampleSiteNoPred 3 = Except.ok none ∧
    EmitForInterpreter exampleMasks exampleSiteNoPred false 3 =
      Except.ok (EmitResult.mk true (CallIcLogic.straightLine
        (EmitInterpreterCallIcCacheMissPopulateIcSlowPath 0 (Value.existing 3)).1
        (EmitInterpreterCallIcCacheMissPopulateIcSlowPath 0 (Value.existing 3)).2.1
        (EmitInterpreterCallIcCacheMissPopulateIcSlowPath 0 (Value.existing 3)).2.2)) :=
  ⟨rfl, rfl,
    (fallback_when_hoisting_check_returns_false exampleMasks exampleSiteNoPred false 3 rfl).1 rfl⟩

/-- C32: for the hoisted form that `EmitInterpreterCallIcWithHoistedCheck`
emits, in every cache state reachable from the initial cache by runs in which
the original branch leads to the call only with a function value in `tv`, the
cached key is the initial key or a function value, the boxed function object
of a function value. The common snippets obey `SnippetLaws`; the initial key
equals no tagged value that is not a function value; the type check accepts
every function value. Then on every run with a tagged value in `tv` whose
cache comparison succeeds, the value in `tv` is a function value, the type
check is true on it, and the constant `tcIcHit` that the sinking of the type
check gives to the hit path is the result of the type check; on every way the
PHI node `tcJoin` has the result of the type check. -/
theorem cache_hit_implies_function_type (masks : TypeMasks) (site : CallSite) (tv : Nat)
    (term : BranchInst) (form : HoistedForm)
    (hemit : EmitInterpreterCallIcWithHoistedCheck masks site tv term = Except.ok form)
    (S : CommonSnippets) (isFunction : Nat → Bool) (laws : SnippetLaws S isFunction)
    (typeCheck tagged : Nat → Bool)
    (hsup : ∀ v, isFunction v = true → typeCheck v = true)
    (empty : CallIcSlot)
    (hempty : ∀ v, tagged v = true → isFunction v = false → v ≠ empty.cachedTValue)
    (m : Machine)
    (hreach : ReachableChecked S isFunction form tv term site.bb empty m.ic)
    (htag : tagged (m.regs (Value.existing tv)).1 = true)
    (hres : decide ((m.regs form.icMissCondition).1 ≠ 0) =
      typeCheck (m.regs (Value.existing tv)).1) :
    (m.ic = empty ∨ (isFunction m.ic.cachedTValue = true ∧
      ∃ v, isFunction v = true ∧
        m.ic.cachedTValue = S.BoxFunctionObjectToTValue (S.GetFuncObjAsU64FromTValue v))) ∧
    ((runHoisted S form m).path = Path.icHit →
      m.ic.cachedTValue = (m.regs (Value.existing tv)).1 ∧
      isFunction (m.regs (Value.existing tv)).1 = true ∧
      typeCheck (m.regs (Value.existing tv)).1 = true ∧
      ∀ sunk, sinkTypeCheck false form = some sunk →
        sunk.tcIcHit = typeCheck (m.regs (Value.existing tv)).1) ∧
    (∀ sunk, sinkTypeCheck false form = some sunk →
      sunk.tcJoin (runHoisted S form m).path m.regs =
        typeCheck (m.regs (Value.existing tv)).1) := by
  obtain ⟨typechk, succs, hc, hform, hsucc⟩ :=
    EmitInterpreterCallIcWithHoistedCheck_shape masks site tv term form hemit
  subst hform
  have hinv := ReachableChecked_invariant S isFunction laws tv typechk succs term site.bb hc
    hsucc empty m.ic hreach
  have hhit : (runHoisted S (hoistedFormOf tv typechk succs) m).path = Path.icHit →
      m.ic.cachedTValue = (m.regs (Value.existing tv)).1 ∧
      isFunction (m.regs (Value.existing tv)).1 = true ∧
      typeCheck (m.regs (Value.existing tv)).1 = true := by
    intro hp
    have heq := (runHoisted_path_hit_iff S tv typechk succs m).mp hp
    have hfn : isFunction (m.regs (Value.existing tv)).1 = true := by
      rcases hinv with he | ⟨hf, -⟩
      · by_contra hnf
        have hnf2 : isFunction (m.regs (Value.existing tv)).1 = false := by
          simpa using hnf
        apply hempty _ htag hnf2
        rw [← heq, he]
      · rw [← heq]
        exact hf
    exact ⟨heq, hfn, hsup _ hfn⟩
  refine ⟨hinv, ?_, ?_⟩
  · intro hp
    obtain ⟨h1, h2, h3⟩ := hhit hp
    refine ⟨h1, h2, h3, ?_⟩
    intro sunk hs
    unfold sinkTypeCheck at hs
    simp only [Bool.not_false, if_true, Option.some.injEq] at hs
    rw [← hs, h3]
  · intro sunk hs
    unfold sinkTypeCheck at hs
    simp only [Bool.not_false, if_true, Option.some.injEq] at hs
    subst hs
    unfold SunkTypeCheck.tcJoin
    cases hp : (runHoisted S (hoistedFormOf tv typechk succs) m).path with
    | icHit =>
      simp only
      rw [(hhit hp).2.2]
    | straightLine => exact hres
    | icMiss => exact hres
    | notTaken => exact hres

/-- Witness for C32: the example call site, from the cache left by a call of
the function value `2 ^ 48 + 7`, on a run that tests the same value: the
comparison succeeds, the value is a function value and `tcIcHit` is true. -/
theorem cache_hit_implies_function_type_witness :
    (runHoisted exampleSnippets exampleForm
      (exampleMachine (2 ^ 48 + 7) 1 (CallIcSlot.mk (2 ^ 48 + 7) 14))).path = Path.icHit ∧
    exampleIsFunction (2 ^ 48 + 7) = true ∧
    sinkTypeCheck false exampleForm = some (SunkTypeCheck.mk true (Value.existing 1)) ∧
    (SunkTypeCheck.mk true (Value.existing 1)).tcIcHit = exampleIsFunction (2 ^ 48 + 7) := by
  have h := cache_hit_implies_function_type exampleMasks (exampleSite 4) 0
    (BranchInst.mk 10 (some 1) [11, 12]) exampleForm rfl exampleSnippets exampleIsFunction
    (SnippetLaws.mk
      (fun v hv => by
        have h : 2 ^ 48 ≤ v := of_decide_eq_true hv
        show v - 2 ^ 48 + 2 ^ 48 = v
        omega)
      (fun _ _ => rfl))
    exampleIsFunction exampleTagged (fun _ hv => hv) (CallIcSlot.mk 0 0)
    (fun v hv _ => of_decide_eq_true hv)
    (exampleMachine (2 ^ 48 + 7) 1 (CallIcSlot.mk (2 ^ 48 + 7) 14))
    (Eq.mp
      (congrArg (ReachableChecked exampleSnippets exampleIsFunction exampleForm 0
          (BranchInst.mk 10 (some 1) [11, 12]) 11 (CallIcSlot.mk 0 0))
        (by decide : (runHoisted exampleSnippets exampleForm
          (exampleMachine (2 ^ 48 + 7) 1 (CallIcSlot.mk 0 0))).machine.ic =
            CallIcSlot.mk (2 ^ 48 + 7) 14))
      (ReachableChecked.call (exampleMachine (2 ^ 48 + 7) 1 (CallIcSlot.mk 0 0))
        ReachableChecked.empty (fun _ => by decide)))
    (by decide) (by decide)
  have hp : (runHoisted exampleSnippets exampleForm
      (exampleMachine (2 ^ 48 + 7) 1 (CallIcSlot.mk (2 ^ 48 + 7) 14))).path = Path.icHit := by
    decide
  exact ⟨hp, (h.2.1 hp).2.1, rfl, (h.2.1 hp).2.2.2 _ rfl⟩

/-- C33 fails on the code: on the example call site whose type check is applied
to the value `%5`, `CheckCanHoistInterpreterCallIcCheck` returns true with
`tv = %0` (the function object `%3` is the conversion of `decode(%0)`, the block
has the single predecessor 10, whose terminator is a conditional branch on the
type check `%1` of a mask that contains the function mask), although the type
check is not applied to `%0`. `EmitForInterpreter` then aborts at the assertion
of `EmitInterpreterCallIcWithHoistedCheck` on the argument of the type check. -/
theorem hoist_check_same_value_counterexample :
    CheckCanHoistInterpreterCallIcCheck exampleMasks exampleSiteOtherValue 3 =
      Except.ok (some (0, BranchInst.mk 10 (some 1) [11, 12])) ∧
    exampleSiteOtherValue.definition 3 = Instruction.PtrToIntInst 2 ∧
    exampleSiteOtherValue.definition 2 = Instruction.CallInst (some exampleDecode) [0] ∧
    exampleSiteOtherValue.getTerminator 10 =
      Terminator.BranchInst (BranchInst.mk 10 (some 1) [11, 12]) ∧
    exampleSiteOtherValue.definition 1 =
      Instruction.CallInst (some (exampleTypeCheck 4)) [5] ∧
    (¬ ∃ callee, exampleSiteOtherValue.definition 1 = Instruction.CallInst (some callee) [0]) ∧
    EmitForInterpreter exampleMasks exampleSiteOtherValue false 3 =
      Except.error "typechk->arg_size() == 1 && typechk->getArgOperand(0) == tv" := by
  refine ⟨rfl, rfl, rfl, rfl, rfl, ?_, rfl⟩
  rintro ⟨callee, hc⟩
  have h : exampleSiteOtherValue.definition 1 =
      Instruction.CallInst (some (exampleTypeCheck 4)) [5] := rfl
  rw [h] at hc
  injection hc with _ h2
  exact absurd h2 (by decide)

/-- C33, what the check tests: when `CheckCanHoistInterpreterCallIcCheck`
returns true with `tv` and `condBrInst`, the function object is the conversion
of a call of a `TValue` decode function on the single argument `tv`, the block
has a single predecessor, the terminator of the predecessor is the conditional
branch `condBrInst`, and its condition is a call of a type check function whose
checked mask contains the function mask. That the type check is applied to `tv`
is not tested by the check; it is asserted by
`EmitInterpreterCallIcWithHoistedCheck`, so it holds whenever that function, or
`EmitForInterpreter` on a bytecode with an interpreter call IC, returns, and
then the hoisted form is emitted. -/
theorem hoisting_check_true_only_on_pattern (masks : TypeMasks) (site : CallSite)
    (used : Bool) (functionObject tv : Nat) (condBrInst : BranchInst)
    (h : CheckCanHoistInterpreterCallIcCheck masks site functionObject =
      Except.ok (some (tv, condBrInst))) :
    ∃ ptrOperand decode pred cond typeCheck condArgs,
      site.definition functionObject = Instruction.PtrToIntInst ptrOperand ∧
      site.definition ptrOperand = Instruction.CallInst (some decode) [tv] ∧
      decode.IsTValueDecodeAPIFunction = true ∧
      site.getSinglePredecessor = some pred ∧
      site.getTerminator pred = Terminator.BranchInst condBrInst ∧
      condBrInst.isConditional = true ∧
      condBrInst.getCondition = some cond ∧
      site.definition cond = Instruction.CallInst (some typeCheck) condArgs ∧
      (typeCheck.IsTValueTypeCheckAPIFunction = true ∨
        typeCheck.IsTValueTypeCheckStrengthReductionFunction = true) ∧
      typeCheck.GetCheckedMaskOfTValueTypecheckFunction &&& masks.tFunction =
        masks.tFunction ∧
      (∀ form, EmitInterpreterCallIcWithHoistedCheck masks site tv condBrInst =
        Except.ok form → condArgs = [tv]) ∧
      (∀ r, site.HasInterpreterCallIC = true →
        EmitForInterpreter masks site used functionObject = Except.ok r →
        condArgs = [tv] ∧ ∃ form, r = EmitResult.mk true (CallIcLogic.hoisted form)) := by
  obtain ⟨ptrOperand, decode, pred, cond, typeCheck, condArgs, h1, h2, h3, h4, h5, h6, h7, h8,
    h9⟩ := CheckCanHoistInterpreterCallIcCheck_true masks site functionObject tv condBrInst h
  have hemit : ∀ form, EmitInterpreterCallIcWithHoistedCheck masks site tv condBrInst =
      Except.ok form → condArgs = [tv] := by
    intro form hf
    obtain ⟨typechk, callee, e1, e2, -⟩ :=
      EmitInterpreterCallIcWithHoistedCheck_typechk masks site tv condBrInst form hf
    rw [h6] at e1
    injection e1 with e1
    subst e1
    rw [h7] at e2
    injection e2 with _ e3
  refine ⟨ptrOperand, decode, pred, cond, typeCheck, condArgs, h1, h2, h3, h4, h5, ?_, h6, h7,
    h8, h9, hemit, ?_⟩
  · unfold BranchInst.isConditional
    rw [h6]
    rfl
  · intro r hic hr
    unfold EmitForInterpreter at hr
    rw [hic, h] at hr
    obtain ⟨form, hf, hr⟩ := Except_bind_ok _ _ _ hr
    exact ⟨hemit form hf, form, (Except.ok.inj hr).symm⟩

/-- C33 on the example call site: the check returns true with
`tv = %0`, the type check `%1` is applied to `%0`, and the hoisted form is
emitted. -/
theorem hoisting_check_true_only_on_pattern_witness :
    CheckCanHoistInterpreterCallIcCheck exampleMasks (exampleSite 4) 3 =
      Except.ok (some (0, BranchInst.mk 10 (some 1) [11, 12])) ∧
    EmitForInterpreter exampleMasks (exampleSite 4) false 3 =
      Except.ok (EmitResult.mk true (CallIcLogic.hoisted exampleForm)) ∧
    ∃ ptrOperand decode cond typeCheck,
      (exampleSite 4).definition 3 = Instruction.PtrToIntInst ptrOperand ∧
      (exampleSite 4).definition ptrOperand = Instruction.CallInst (some decode) [0] ∧
      (exampleSite 4).definition cond = Instruction.CallInst (some typeCheck) [0] ∧
      typeCheck.GetCheckedMaskOfTValueTypecheckFunction &&& exampleMasks.tFunction =
        exampleMasks.tFunction := by
  obtain ⟨ptrOperand, decode, pred, cond, typeCheck, condArgs, h1, h2, _, _, _, _, _, h7, _,
    h9, _, h11⟩ := hoisting_check_true_only_on_pattern exampleMasks (exampleSite 4) false 3 0
      (BranchInst.mk 10 (some 1) [11, 12]) rfl
  have ha := (h11 _ rfl rfl).1
  rw [ha] at h7
  exact ⟨rfl, rfl, ptrOperand, decode, cond, typeCheck, h1, h2, h7, h9⟩

/-- C34: when the bytecode has an interpreter call IC and
`CheckCanHoistInterpreterCallIcCheck` returns false, `EmitForInterpreter` emits
straight-line logic without a load of the cache and without a comparison; on
every machine its run calls `GetCalleeEntryPoint` on the function object, then
`BoxFunctionObjectToTValue`, hands the resolved target to the call, and leaves
the boxed function object and the resolved code pointer in the two cache
fields, whatever they held. When the bytecode has no interpreter call IC the
emitted logic has no load, no comparison and no store of the cache; its run
calls `GetCalleeEntryPoint` only, hands the resolved target to the call and
leaves the cache as it was. -/
theorem unhoisted_logic_populates_without_compare (masks : TypeMasks) (site : CallSite)
    (used : Bool) (functionObject : Nat) :
    (site.HasInterpreterCallIC = true →
      CheckCanHoistInterpreterCallIcCheck masks site functionObject = Except.ok none →
      ∃ insts calleeCbHeapPtr codePointer,
        EmitForInterpreter masks site used functionObject =
          Except.ok (EmitResult.mk true
            (CallIcLogic.straightLine insts calleeCbHeapPtr codePointer)) ∧
        (∀ i ∈ insts, isCacheRead i.2 = false) ∧
        ∀ (S : CommonSnippets) (m : Machine),
          (run S (CallIcLogic.straightLine insts calleeCbHeapPtr codePointer) m).path =
            Path.straightLine ∧
          (run S (CallIcLogic.straightLine insts calleeCbHeapPtr codePointer) m).target =
            some (S.GetCalleeEntryPoint (m.regs (Value.existing functionObject)).1) ∧
          (run S (CallIcLogic.straightLine insts calleeCbHeapPtr codePointer) m).machine.ic =
            CallIcSlot.mk
              (S.BoxFunctionObjectToTValue (m.regs (Value.existing functionObject)).1)
              (S.GetCalleeEntryPoint (m.regs (Value.existing functionObject)).1).2 ∧
          (run S (CallIcLogic.straightLine insts calleeCbHeapPtr codePointer) m).machine.called =
            m.called ++ [CommonSnippet.GetCalleeEntryPoint,
              CommonSnippet.BoxFunctionObjectToTValue]) ∧
    (site.HasInterpreterCallIC = false →
      ∃ insts calleeCbHeapPtr codePointer,
        EmitForInterpreter masks site used functionObject =
          Except.ok (EmitResult.mk used
            (CallIcLogic.straightLine insts calleeCbHeapPtr codePointer)) ∧
        (∀ i ∈ insts, isCacheRead i.2 = false ∧ isCacheWrite i.2 = false) ∧
        ∀ (S : CommonSnippets) (m : Machine),
          (run S (CallIcLogic.straightLine insts calleeCbHeapPtr codePointer) m).path =
            Path.straightLine ∧
          (run S (CallIcLogic.straightLine insts calleeCbHeapPtr codePointer) m).target =
            some (S.GetCalleeEntryPoint (m.regs (Value.existing functionObject)).1) ∧
          (run S (CallIcLogic.straightLine insts calleeCbHeapPtr codePointer) m).machine.ic =
            m.ic ∧
          (run S (CallIcLogic.straightLine insts calleeCbHeapPtr codePointer) m).machine.called =
            m.called ++ [CommonSnippet.GetCalleeEntryPoint]) := by
  constructor
  · intro hic hcheck
    refine ⟨(EmitInterpreterCallIcCacheMissPopulateIcSlowPath 0 (Value.existing functionObject)).1,
      (EmitInterpreterCallIcCacheMissPopulateIcSlowPath 0 (Value.existing functionObject)).2.1,
      (EmitInterpreterCallIcCacheMissPopulateIcSlowPath 0 (Value.existing functionObject)).2.2,
      ?_, ?_, ?_⟩
    · unfold EmitForInterpreter
      rw [hic, hcheck]
      rfl
    · intro i hi
      have hall : (EmitInterpreterCallIcCacheMissPopulateIcSlowPath 0
          (Value.existing functionObject)).1.all (fun i => !isCacheRead i.2) = true := rfl
      simpa using List.all_eq_true.mp hall i hi
    · intro S m
      simp [run, runStraightLine, exec, execInst, Machine.define, CommonSnippets.call,
        EmitInterpreterCallIcCacheMissPopulateIcSlowPath, EmitGenericGetCallTargetLogic]
  · intro hic
    refine ⟨(EmitGenericGetCallTargetLogic 0 (Value.existing functionObject)).1,
      (EmitGenericGetCallTargetLogic 0 (Value.existing functionObject)).2.1,
      (EmitGenericGetCallTargetLogic 0 (Value.existing functionObject)).2.2, ?_, ?_, ?_⟩
    · unfold EmitForInterpreter
      rw [hic]
      rfl
    · intro i hi
      have hall : (EmitGenericGetCallTargetLogic 0 (Value.existing functionObject)).1.all
          (fun i => !isCacheRead i.2 && !isCacheWrite i.2) = true := rfl
      simpa using List.all_eq_true.mp hall i hi
    · intro S m
      simp [run, runStraightLine, exec, execInst, Machine.define, CommonSnippets.call,
        EmitGenericGetCallTargetLogic]

/-- Witness for C34: on the example call site without a single predecessor the
emitted logic, run with the function object 7 on a cache that holds `(99, 99)`,
hands the target `(8, 14)` to the call and leaves `(2 ^ 48 + 7, 14)` in the
cache; on the example call site without an interpreter call IC the emitted
logic hands the same target to the call and leaves `(99, 99)` in the cache. -/
theorem unhoisted_logic_populates_without_compare_witness :
    (∃ insts calleeCbHeapPtr codePointer,
      EmitForInterpreter exampleMasks exampleSiteNoPred false 3 =
        Except.ok (EmitResult.mk true
          (CallIcLogic.straightLine insts calleeCbHeapPtr codePointer)) ∧
      (run exampleSnippets (CallIcLogic.straightLine insts calleeCbHeapPtr codePointer)
        (exampleMachine (2 ^ 48 + 7) 1 (CallIcSlot.mk 99 99))).target = some (8, 14) ∧
      (run exampleSnippets (CallIcLogic.straightLine insts calleeCbHeapPtr codePointer)
        (exampleMachine (2 ^ 48 + 7) 1 (CallIcSlot.mk 99 99))).machine.ic =
          CallIcSlot.mk (2 ^ 48 + 7) 14) ∧
    (∃ insts calleeCbHeapPtr codePointer,
      EmitForInterpreter exampleMasks exampleSiteNoIc false 3 =
        Except.ok (EmitResult.mk false
          (CallIcLogic.straightLine insts calleeCbHeapPtr codePointer)) ∧
      (run exampleSnippets (CallIcLogic.straightLine insts calleeCbHeapPtr codePointer)
        (exampleMachine (2 ^ 48 + 7) 1 (CallIcSlot.mk 99 99))).target = some (8, 14) ∧
      (run exampleSnippets (CallIcLogic.straightLine insts calleeCbHeapPtr codePointer)
        (exampleMachine (2 ^ 48 + 7) 1 (CallIcSlot.mk 99 99))).machine.ic =
          CallIcSlot.mk 99 99) := by
  obtain ⟨i1, a1, b1, e1, _, r1⟩ :=
    (unhoisted_logic_populates_without_compare exampleMasks exampleSiteNoPred false 3).1 rfl rfl
  obtain ⟨i2, a2, b2, e2, _, r2⟩ :=
    (unhoisted_logic_populates_without_compare exampleMasks exampleSiteNoIc false 3).2 rfl
  exact ⟨⟨i1, a1, b1, e1,
      (r1 exampleSnippets (exampleMachine (2 ^ 48 + 7) 1 (CallIcSlot.mk 99 99))).2.1.trans
        (by decide),
      (r1 exampleSnippets (exampleMachine (2 ^ 48 + 7) 1 (CallIcSlot.mk 99 99))).2.2.1.trans
        (by decide)⟩,
    ⟨i2, a2, b2, e2,
      (r2 exampleSnippets (exampleMachine (2 ^ 48 + 7) 1 (CallIcSlot.mk 99 99))).2.1.trans
        (by decide),
      (r2 exampleSnippets (exampleMachine (2 ^ 48 + 7) 1 (CallIcSlot.mk 99 99))).2.2.1⟩⟩

/-- C39: when `EmitComputeLabelOffsetAsm` returns on `(fnName1, labelName1)` and
on `(fnName2, labelName2)`, both pairs pass the checks (names not empty, label
not starting with a dot, label without `XYZyZYX`, no space in either name); if
the pairs differ then the two symbol names
`offset_of_label_XYZyZYX_<label>_XYZyZYX_in_function_<fn>` differ; and the
returned text ends with the line `.quad .<label>-<fn>` followed by the `.size`
line of the symbol. -/
theorem label_offset_symbol_injective (fnName1 labelName1 fnName2 labelName2 r1 r2 : String)
    (h1 : EmitComputeLabelOffsetAsm fnName1 labelName1 = Except.ok r1)
    (h2 : EmitComputeLabelOffsetAsm fnName2 labelName2 = Except.ok r2) :
    LabelOffsetAccepted fnName1 labelName1 ∧ LabelOffsetAccepted fnName2 labelName2 ∧
    ((fnName1, labelName1) ≠ (fnName2, labelName2) →
      EmitComputeLabelOffsetAsm.varName fnName1 labelName1
        ≠ EmitComputeLabelOffsetAsm.varName fnName2 labelName2) ∧
    EmitComputeLabelOffsetAsm.varName fnName1 labelName1
      = "offset_of_label_XYZyZYX_" ++ labelName1 ++ "_XYZyZYX_in_function_" ++ fnName1 ∧
    (∃ before1, r1 = before1 ++ ("\t.quad\t." ++ labelName1 ++ "-" ++ fnName1 ++ "\n") ++
      (".size\t" ++ EmitComputeLabelOffsetAsm.varName fnName1 labelName1 ++ ", 8\n\n")) ∧
    (∃ before2, r2 = before2 ++ ("\t.quad\t." ++ labelName2 ++ "-" ++ fnName2 ++ "\n") ++
      (".size\t" ++ EmitComputeLabelOffsetAsm.varName fnName2 labelName2 ++ ", 8\n\n")) := by
  obtain ⟨a1, t1⟩ := EmitComputeLabelOffsetAsm_ok fnName1 labelName1 r1 h1
  obtain ⟨a2, t2⟩ := EmitComputeLabelOffsetAsm_ok fnName2 labelName2 r2 h2
  refine ⟨a1, a2, ?_, rfl, ⟨_, t1⟩, ⟨_, t2⟩⟩
  intro hne heq
  obtain ⟨e1, e2⟩ := varName_injective fnName1 labelName1 fnName2 labelName2
    a1.2.2.2.1 a2.2.2.2.1 heq
  exact hne (by rw [e1, e2])

/-- Witness for C39: the labels `L1` and `L2` of the function `f`. -/
theorem label_offset_symbol_injective_witness :
    EmitComputeLabelOffsetAsm.varName "f" "L1" ≠ EmitComputeLabelOffsetAsm.varName "f" "L2" ∧
    EmitComputeLabelOffsetAsm.varName "f" "L1" = "offset_of_label_XYZyZYX_L1_XYZyZYX_in_function_f" ∧
    EmitComputeLabelOffsetAsm "f" "L1" = Except.ok
      ("\n\n\t.type\toffset_of_label_XYZyZYX_L1_XYZyZYX_in_function_f,@object\n" ++
       "\t.section\t.rodata.offset_of_label_XYZyZYX_L1_XYZyZYX_in_function_f,\x22a\x22,@progbits\n" ++
       "\t.globl\toffset_of_label_XYZyZYX_L1_XYZyZYX_in_function_f\n" ++
       "\t.p2align\t3\n" ++
       "offset_of_label_XYZyZYX_L1_XYZyZYX_in_function_f:\n" ++
       "\t.quad\t.L1-f\n" ++
       ".size\toffset_of_label_XYZyZYX_L1_XYZyZYX_in_function_f, 8\n\n") :=
  ⟨(label_offset_symbol_injective "f" "L1" "f" "L2" _ _ rfl rfl).2.2.1 (by decide),
   by decide, rfl⟩

end dast

/-! # Theorems on the common snippets -/

namespace snippets

/-- C38: for a base address `bcb` and an address `p` below `2 ^ 64` with
`bcb ≤ p < bcb + 2 ^ 32` (so `bcb` is a 64-bit address too), when the frame
header stores `p mod 2 ^ 32` the snippet returns `p`, which is
`bcb + ((value - bcb mod 2 ^ 32) mod 2 ^ 32)` computed on integers, whether or
not the 32-bit subtraction wraps. -/
theorem slowpath_data_address_recovered (rt : Runtime) (calleeStackBase bcb p : Nat)
    (hlo : bcb ≤ p) (hhi : p < bcb + 2 ^ 32) (hp : p < 2 ^ 64)
    (hv : rt.callerBytecodePtrValue calleeStackBase = p % 2 ^ 32) :
    DeegenSnippet_GetBaselineJitSlowpathDataAfterSlowCall rt calleeStackBase bcb = p ∧
    (DeegenSnippet_GetBaselineJitSlowpathDataAfterSlowCall rt calleeStackBase bcb : Int)
      = (bcb : Int) +
        (((rt.callerBytecodePtrValue calleeStackBase : Int) - ((bcb : Int) % 2 ^ 32)) % 2 ^ 32) := by
  have h1 : DeegenSnippet_GetBaselineJitSlowpathDataAfterSlowCall rt calleeStackBase bcb = p := by
    unfold DeegenSnippet_GetBaselineJitSlowpathDataAfterSlowCall sub32 add64
    simp only [hv]
    norm_num at *
    omega
  refine ⟨h1, ?_⟩
  rw [h1, hv]
  norm_num at *
  omega

/-- Witness for C38: base `2 ^ 32 - 2`, address `2 ^ 32 + 3`; the stored value is
3 and the 32-bit subtraction `3 - (2 ^ 32 - 2)` wraps to 5. -/
theorem slowpath_data_address_recovered_witness :
    DeegenSnippet_GetBaselineJitSlowpathDataAfterSlowCall exampleRuntime 0 (2 ^ 32 - 2)
      = 2 ^ 32 + 3 ∧
    sub32 3 (2 ^ 32 - 2) = 5 :=
  ⟨(slowpath_data_address_recovered exampleRuntime 0 (2 ^ 32 - 2)
      (2 ^ 32 + 3) (by decide) (by decide) (by decide) (by decide)).1, by decide⟩

end snippets
